import Mathlib

/-!
# Space partitioning: BVH builder and linear octree

Shallow embedding of `bvh_tree.cpp`, `octree.cpp`, `octree.inl` and of the predicates of
`geometry.cpp` / `math.cpp`.

Modelling conventions
* A `float` is a value of the type `float` of the section "IEEE-754 binary32": a finite
  rational, an infinity or a NaN; every arithmetic operation rounds to nearest, ties to
  even, with subnormals, overflow and NaN.
* The types `vec3`, `aabb`, `plane`, `ray`, `triangle` and `segment` with rational
  components hold finite `float` values; `to_fp` reads them as the types of the
  namespace `fp`, on which the arithmetic of the source is done.
* Comparisons, `min`, `max`, `floor` and `ceil` of finite values do not round and are
  taken on the rationals; so are the sums of at most ten powers of two of `compute_bv` of
  octree.cpp.
* `unsigned` / `uint32_t` / `size_t` values are `Nat`, `int` values are `Int`.
* An owning `bvh_node *` is the value `bvh_ptr`: `null` or the node it points to.
* `assert` failures and undefined behaviour make a function return `none`.
* An occupant pointer `T *` is an address (`Nat`) into a memory `Nat → physics_object`,
  `nullptr` is `none`.
-/

namespace cs350

/-! ## Instance shortcuts

The ring structures of the rationals and of the integers, found directly from their
commutative ring structures. -/

instance (priority := 2000) ratRing : Ring ℚ := Rat.commRing.toRing

instance (priority := 2000) ratNonUnitalCommRing : NonUnitalCommRing ℚ :=
  Rat.commRing.toNonUnitalCommRing

instance (priority := 2000) intRing : Ring ℤ := Int.instCommRing.toRing

instance (priority := 2000) intNonUnitalCommRing : NonUnitalCommRing ℤ :=
  Int.instCommRing.toNonUnitalCommRing

/-! ## math.hpp / geometry.hpp -/

/-- Decimal value 1e-6 of the literal of the module-wide tolerance `cEpsilon`; the `float`
constant itself is `fp.cEpsilon`, which is below this value. -/
def cEpsilon : ℚ := 1 / 1000000

/-- Largest finite `float`, `std::numeric_limits<float>::max()` = (2 - 2^-23) * 2^127. -/
def FLT_MAX : ℚ := 340282346638528859811704183484516925440

/-- Value of `std::numeric_limits<float>::lowest()`. -/
def FLT_LOWEST : ℚ := -FLT_MAX

/-- The type `glm::vec3`. -/
structure vec3 where
  x : ℚ
  y : ℚ
  z : ℚ
deriving DecidableEq

/-- Component read `v[axis]`. -/
def vec3.get (v : vec3) (axis : Nat) : ℚ :=
  match axis with
  | 0 => v.x
  | 1 => v.y
  | _ => v.z

/-- Component write `v[axis] = a`. -/
def vec3.set (v : vec3) (axis : Nat) (a : ℚ) : vec3 :=
  match axis with
  | 0 => { v with x := a }
  | 1 => { v with y := a }
  | _ => { v with z := a }

/-- Constructor `glm::vec3(a)`: all three components equal to `a`. -/
def vec3.splat (a : ℚ) : vec3 := ⟨a, a, a⟩

instance : Add vec3 := ⟨fun a b => ⟨a.x + b.x, a.y + b.y, a.z + b.z⟩⟩
instance : Sub vec3 := ⟨fun a b => ⟨a.x - b.x, a.y - b.y, a.z - b.z⟩⟩

/-- Scalar product `s * v`. -/
def vec3.smul (s : ℚ) (v : vec3) : vec3 := ⟨s * v.x, s * v.y, s * v.z⟩

/-- Division by a scalar `v / s`. -/
def vec3.sdiv (v : vec3) (s : ℚ) : vec3 := ⟨v.x / s, v.y / s, v.z / s⟩

/-- Function `glm::dot`. -/
def dot (a b : vec3) : ℚ := a.x * b.x + a.y * b.y + a.z * b.z

/-- Function `glm::length2`. -/
def length2 (a : vec3) : ℚ := dot a a

/-- Componentwise `glm::min`. -/
def vec3.min (a b : vec3) : vec3 := ⟨Min.min a.x b.x, Min.min a.y b.y, Min.min a.z b.z⟩

/-- Componentwise `glm::max`. -/
def vec3.max (a b : vec3) : vec3 := ⟨Max.max a.x b.x, Max.max a.y b.y, Max.max a.z b.z⟩

/-- The struct `aabb`; the default constructor gives the box [-0.5, 0.5]^3. -/
structure aabb where
  mMinPos : vec3 := vec3.splat (-1 / 2)
  mMaxPos : vec3 := vec3.splat (1 / 2)
deriving DecidableEq

/-- The struct `plane`. -/
structure plane where
  mPoint : vec3
  mNormal : vec3
deriving DecidableEq

/-- The enum `classification_t`. -/
inductive classification_t where
  | inside
  | outside
  | overlapping
deriving DecidableEq

/-! ## IEEE-754 binary32

The type `float` of the sources. A finite value is written as the rational it denotes, the
two zeros are one value (no function of the model divides by a zero whose sign matters).
Every arithmetic operation rounds the exact result to the nearest binary32 value, ties to
even, with gradual underflow and overflow to infinity, one rounding per operation. -/

/-- A `float`: a finite value, an infinity with its sign, or a NaN. The operations below
only produce finite values that binary32 can represent. -/
inductive float where
  | fin (q : ℚ)
  | inf (negative : Bool)
  | nan
deriving DecidableEq

/-- Search for the binade of `q >= 0`: the exponent `e` is raised while `2^(e+1) <= q`;
`p` is `2^e`, the first argument bounds the number of steps. -/
def exponent_search : Nat → Int → ℚ → ℚ → Int
  | 0, e, _, _ => e
  | n + 1, e, p, q => if 2 * p ≤ q then exponent_search n (e + 1) (2 * p) q else e

/-- The binary32 exponent of `q`: the `e` in -126 .. 127 with `2^e <= |q| < 2^(e+1)`,
-126 for the subnormal range and 127 from `2^127` on. -/
def exponent (q : ℚ) : Int := exponent_search 253 (-126) ((2 : ℚ) ^ (-126 : Int)) |q|

/-- Rounding to the nearest integer, ties to the even one. -/
def round_even (m : ℚ) : Int :=
  let f := Int.floor m
  if m - f < 1 / 2 then f
  else if m - f > 1 / 2 then f + 1
  else if f % 2 = 0 then f else f + 1

namespace float

/-- The binary32 value nearest to the rational `q`: `q` is rounded to a multiple of the unit
in the last place `2^(e-23)` of its binade; a result of magnitude `2^128` is an infinity. -/
def round (q : ℚ) : float :=
  let u : ℚ := (2 : ℚ) ^ (exponent q - 23)
  let r : ℚ := (round_even (q / u) : ℚ) * u
  if |r| ≥ 2 ^ 128 then inf (decide (q < 0)) else fin r

/-- Unary minus. -/
def neg : float → float
  | fin q => fin (-q)
  | inf s => inf (!s)
  | nan => nan

/-- Operator `+`. -/
def add : float → float → float
  | fin a, fin b => round (a + b)
  | fin _, inf s => inf s
  | inf s, fin _ => inf s
  | inf s, inf t => if s = t then inf s else nan
  | _, _ => nan

/-- Operator `-`. -/
def sub (x y : float) : float := add x (neg y)

/-- Operator `*`. -/
def mul : float → float → float
  | fin a, fin b => round (a * b)
  | fin a, inf s => if a = 0 then nan else inf (xor s (decide (a < 0)))
  | inf s, fin b => if b = 0 then nan else inf (xor s (decide (b < 0)))
  | inf s, inf t => inf (xor s t)
  | _, _ => nan

/-- Operator `/`. -/
def div : float → float → float
  | fin a, fin b =>
    if b = 0 then (if a = 0 then nan else inf (decide (a < 0))) else round (a / b)
  | fin _, inf _ => fin 0
  | inf s, fin b => inf (xor s (decide (b < 0)))
  | _, _ => nan

/-- Operator `<`; false when an operand is a NaN. -/
def lt : float → float → Bool
  | fin a, fin b => decide (a < b)
  | fin _, inf s => !s
  | inf s, fin _ => s
  | inf s, inf t => s && !t
  | _, _ => false

/-- Operator `<=`; false when an operand is a NaN. -/
def le : float → float → Bool
  | fin a, fin b => decide (a ≤ b)
  | fin _, inf s => !s
  | inf s, fin _ => s
  | inf s, inf t => s || !t
  | _, _ => false

/-- Operator `==`; false when an operand is a NaN. -/
def eq : float → float → Bool
  | fin a, fin b => decide (a = b)
  | inf s, inf t => decide (s = t)
  | _, _ => false

instance : Add float := ⟨add⟩
instance : Sub float := ⟨sub⟩
instance : Mul float := ⟨mul⟩
instance : Div float := ⟨div⟩
instance : Neg float := ⟨neg⟩

end float

/-- The value of the rounding of `q` before the overflow test of `float.round`. -/
def rounded (q : ℚ) : ℚ :=
  (round_even (q / (2 : ℚ) ^ (exponent q - 23)) : ℚ) * (2 : ℚ) ^ (exponent q - 23)

/-- The rational `q` is a binary32 value: rounding leaves it as it is. -/
def representable (q : ℚ) : Prop := float.round q = float.fin q

/-- The value is not negative: a finite value `>= 0`, plus infinity, or a NaN. -/
def float.nonneg : float → Prop
  | float.fin q => 0 ≤ q
  | float.inf s => s = false
  | float.nan => True

namespace fp

/-- The type `glm::vec3` with arbitrary `float` components. -/
structure vec3 where
  x : float
  y : float
  z : float
deriving DecidableEq

/-- Component read `v[axis]`. -/
def vec3.get (v : vec3) (axis : Nat) : float :=
  match axis with
  | 0 => v.x
  | 1 => v.y
  | _ => v.z

instance : Add vec3 := ⟨fun a b => ⟨a.x + b.x, a.y + b.y, a.z + b.z⟩⟩
instance : Sub vec3 := ⟨fun a b => ⟨a.x - b.x, a.y - b.y, a.z - b.z⟩⟩

/-- Scalar product `s * v`. -/
def vec3.smul (s : float) (v : vec3) : vec3 := ⟨s * v.x, s * v.y, s * v.z⟩

/-- Division by a scalar `v / s`. -/
def vec3.sdiv (v : vec3) (s : float) : vec3 := ⟨v.x / s, v.y / s, v.z / s⟩

/-- Operator `==` of `glm::vec3`. -/
def vec3.eq (a b : vec3) : Bool := float.eq a.x b.x && float.eq a.y b.y && float.eq a.z b.z

/-- Function `glm::dot`: the three products are added from left to right. -/
def dot (a b : vec3) : float := a.x * b.x + a.y * b.y + a.z * b.z

/-- Function `glm::length2`. -/
def length2 (a : vec3) : float := dot a a

/-- Function `glm::cross`. -/
def cross (a b : vec3) : vec3 :=
  ⟨a.y * b.z - b.y * a.z, a.z * b.x - b.z * a.x, a.x * b.y - b.x * a.y⟩

/-- Module-wide tolerance `constexpr float cEpsilon = 1e-6f`: the binary32 value nearest to
1e-6. -/
def cEpsilon : float := float.round (1 / 1000000)

/-- Largest finite `float`, `FLT_MAX` = `std::numeric_limits<float>::max()`. -/
def FLT_MAX : float := float.fin 340282346638528859811704183484516925440

/-- Function `are_equal` of math.cpp. -/
def are_equal (x y : float) : Bool := float.le x (y + cEpsilon) && float.le (y - cEpsilon) x

/-- The struct `plane`. -/
structure plane where
  mPoint : vec3
  mNormal : vec3
deriving DecidableEq

/-- The struct `aabb`. -/
structure aabb where
  mMinPos : vec3
  mMaxPos : vec3
deriving DecidableEq

/-- The struct `ray`. -/
structure ray where
  mOrigin : vec3
  mDir : vec3
deriving DecidableEq

/-- The struct `triangle`. -/
structure triangle where
  mPos1 : vec3
  mPos2 : vec3
  mPos3 : vec3
deriving DecidableEq

/-- The struct `segment`. -/
structure segment where
  mPos1 : vec3
  mPos2 : vec3
deriving DecidableEq

/-- Function `classify_plane_point` of geometry.cpp; `none` when the assertion on the
normal fails. -/
def classify_plane_point (plane_ : plane) (point : vec3) (plane_thickness : float) :
    Option classification_t :=
  let planeNormalLengthSq := length2 plane_.mNormal
  if are_equal planeNormalLengthSq (float.fin 0) then none
  else
    let pointVec := point - plane_.mPoint
    let projVecOnNormal := vec3.smul (dot pointVec plane_.mNormal / planeNormalLengthSq) plane_.mNormal
    let projVecLengthSq := length2 projVecOnNormal
    let thicknessSq := plane_thickness * plane_thickness
    if float.le projVecLengthSq thicknessSq then some classification_t.overlapping
    else
      let dotResult := dot projVecOnNormal plane_.mNormal
      some (if float.lt dotResult (float.fin 0) then classification_t.inside
        else classification_t.outside)

end fp

/-- A `glm::vec3` with finite components as a vector of `float`s. -/
def vec3.to_fp (v : vec3) : fp.vec3 := ⟨float.fin v.x, float.fin v.y, float.fin v.z⟩

/-- A plane with finite coordinates as a plane of `float`s. -/
def plane.to_fp (P : plane) : fp.plane := { mPoint := P.mPoint.to_fp, mNormal := P.mNormal.to_fp }

/-- A box with finite coordinates as a box of `float`s. -/
def aabb.to_fp (b : aabb) : fp.aabb := { mMinPos := b.mMinPos.to_fp, mMaxPos := b.mMaxPos.to_fp }

/-! ## bvh_tree.hpp -/

/-- The enum `tree_node_type`. -/
inductive tree_node_type where
  | internal
  | leaf
deriving DecidableEq

/-- A `bvh_node *`: the null pointer, or the node it owns with its fields
`mBV`, `mId`, `mNodeType`, `mIndices`, `mLeft`, `mRight`. -/
inductive bvh_ptr where
  | null : bvh_ptr
  | node (mBV : aabb) (mId : Int) (mNodeType : tree_node_type) (mIndices : List Nat)
      (mLeft mRight : bvh_ptr) : bvh_ptr
deriving DecidableEq

/-- The enum `bvh_construction_method`. -/
inductive bvh_construction_method where
  | top_down
  | bottom_up
  | insertion
  | not_constructed
deriving DecidableEq

/-- Read `positions[i]`; an out-of-range read (undefined in the source) yields the origin. -/
def pos_at (positions : List vec3) (i : Nat) : vec3 := positions.getD i ⟨0, 0, 0⟩

namespace bvh_tree

/-- One pass of the axis loop of `compute_bv` for the vertex `p`. -/
def compute_bv_axes (p : vec3) : Nat → vec3 × vec3 → vec3 × vec3
  | 0, acc => acc
  | n + 1, acc =>
    let acc1 := compute_bv_axes p n acc
    let axis := n
    let mn := if p.get axis < acc1.1.get axis then acc1.1.set axis (p.get axis) else acc1.1
    let mx := if p.get axis > acc1.2.get axis then acc1.2.set axis (p.get axis) else acc1.2
    (mn, mx)

/-- Function `bvh_tree::compute_bv`. -/
def compute_bv (positions : List vec3) (posIndices : List Nat) : aabb :=
  let r := posIndices.foldl (fun acc currIndex => compute_bv_axes (pos_at positions currIndex) 3 acc)
    (vec3.splat FLT_MAX, vec3.splat FLT_LOWEST)
  { mMinPos := r.1, mMaxPos := r.2 }

/-- Value returned by `bvh_tree::create_node`: a fresh node with the given volume and type,
`mId` the current `nodeCounter`, no indices and no children. The caller increments the
counter. -/
def create_node (nodeCounter : Int) (bv : aabb) (node_type : tree_node_type) : bvh_ptr :=
  bvh_ptr.node bv nodeCounter node_type [] bvh_ptr.null bvh_ptr.null

/-- Centroid `(p[i] + p[i+1] + p[i+2]) / 3.0f` of one triangle, in `float` arithmetic. -/
def centroid (inPositions : List vec3) (a b c : Nat) : fp.vec3 :=
  fp.vec3.sdiv ((pos_at inPositions a).to_fp + (pos_at inPositions b).to_fp +
    (pos_at inPositions c).to_fp) (float.fin 3)

/-- First loop of `top_down_partition`: the longest cardinal axis of `sizeVec`, scanning
axes 1 and 2 against the running maximum (ties keep the earlier axis). -/
def longest_axis (sizeVec : fp.vec3) : Nat :=
  let maxDist0 := sizeVec.x
  let maxAxis0 := 0
  let r1 := if float.lt maxDist0 (sizeVec.get 1) then (sizeVec.get 1, 1) else (maxDist0, maxAxis0)
  let r2 := if float.lt r1.1 (sizeVec.get 2) then (sizeVec.get 2, 2) else r1
  r2.2

/-- Direction `maxAxisDir` of `top_down_partition`: the unit vector of `maxAxis`. -/
def axis_dir (maxAxis : Nat) : vec3 :=
  if maxAxis = 0 then ⟨1, 0, 0⟩ else (⟨0, 0, 0⟩ : vec3).set maxAxis 1

/-- Second loop of `top_down_partition`: the sum of all triangle centroids, three indices
per step. -/
def centroid_sum (inPositions : List vec3) : List Nat → fp.vec3 → fp.vec3
  | a :: b :: c :: rest, partPoint =>
    centroid_sum inPositions rest (partPoint + centroid inPositions a b c)
  | _, partPoint => partPoint

/-- Third loop of `top_down_partition`: triangles whose centroid is `inside` the plane go
to the left list, all others to the right list. `none` if `classify_plane_point` asserts. -/
def partition_loop (inPositions : List vec3) (partPlane : fp.plane) :
    List Nat → List Nat → List Nat → Option (List Nat × List Nat)
  | a :: b :: c :: rest, outLeftIndices, outRightIndices =>
    match fp.classify_plane_point partPlane (centroid inPositions a b c) fp.cEpsilon with
    | none => none
    | some pointvsPlane =>
      if pointvsPlane = classification_t.inside then
        partition_loop inPositions partPlane rest (outLeftIndices ++ [a, b, c]) outRightIndices
      else
        partition_loop inPositions partPlane rest outLeftIndices (outRightIndices ++ [a, b, c])
  | _, outLeftIndices, outRightIndices => some (outLeftIndices, outRightIndices)

/-- Plane `partPlane` of `top_down_partition`: through the sum of the centroids divided by
the number of triangles (converted to `float`), with the unit vector of the longest axis
of the node volume as normal. -/
def partition_plane (nodeBV : aabb) (inPositions : List vec3) (inIndices : List Nat) : fp.plane :=
  let sizeVec := nodeBV.mMaxPos.to_fp - nodeBV.mMinPos.to_fp
  let maxAxisDir := axis_dir (longest_axis sizeVec)
  let partSum := centroid_sum inPositions inIndices (vec3.to_fp ⟨0, 0, 0⟩)
  let numberOfTriangles := inIndices.length / 3
  let partPoint := fp.vec3.sdiv partSum (float.round (numberOfTriangles : ℚ))
  { mPoint := partPoint, mNormal := maxAxisDir.to_fp }

/-- Function `bvh_tree::top_down_partition` on the node volume `nodeBV`. The result is the
returned flag together with the two output lists; when the flag is `false` the caller's
node has been turned into a leaf (and nothing else of it has been written). -/
def top_down_partition (nodeBV : aabb) (inPositions : List vec3) (inIndices : List Nat) :
    Option (Bool × List Nat × List Nat) :=
  match partition_loop inPositions (partition_plane nodeBV inPositions inIndices) inIndices [] [] with
  | none => none
  | some (outLeftIndices, outRightIndices) =>
    if outLeftIndices.length = 0 ∨ outRightIndices.length = 0 then
      some (false, outLeftIndices, outRightIndices)
    else
      some (true, outLeftIndices, outRightIndices)

/-- Function `bvh_tree::top_down_bvh`. `tree` is the value of `*tree` on entry, the result
is its value on exit together with the new `nodeCounter`. The first argument bounds the
recursion depth; `none` when it is exhausted or an assertion fails. -/
def top_down_bvh (positions : List vec3) :
    Nat → Int → bvh_ptr → List Nat → Option (bvh_ptr × Int)
  | 0, _, _, _ => none
  | fuel + 1, nodeCounter, tree, posIndices =>
    if posIndices.length / 3 = 0 then some (tree, nodeCounter)
    else
      let bv := compute_bv positions posIndices
      if posIndices.length / 3 = 1 then
        some (bvh_ptr.node bv nodeCounter tree_node_type.leaf posIndices bvh_ptr.null bvh_ptr.null,
          nodeCounter + 1)
      else
        match top_down_partition bv positions posIndices with
        | none => none
        | some (ok, leftIndices, rightIndices) =>
          if ok = false then
            some (bvh_ptr.node bv nodeCounter tree_node_type.leaf [] bvh_ptr.null bvh_ptr.null,
              nodeCounter + 1)
          else
            match top_down_bvh positions fuel (nodeCounter + 1) bvh_ptr.null leftIndices with
            | none => none
            | some (l, c1) =>
              match top_down_bvh positions fuel c1 bvh_ptr.null rightIndices with
              | none => none
              | some (r, c2) =>
                some (bvh_ptr.node bv nodeCounter tree_node_type.internal [] l r, c2)

/-- Field `mBV` read through a node pointer; the default box for the null pointer
(a null dereference in the source). -/
def mBV : bvh_ptr → aabb
  | bvh_ptr.null => {}
  | bvh_ptr.node bv _ _ _ _ _ => bv

/-- Surface-area score `2xy + 2xz + 2yz` of the box spanned by `mn` and `mx`, as computed
in `find_merge_candidates`: `float` arithmetic on `sizeVec = max - min`. -/
def surface_area (mn mx : vec3) : float :=
  let sizeVec := mx.to_fp - mn.to_fp
  let area1 := sizeVec.x * sizeVec.y * float.fin 2
  let area2 := sizeVec.x * sizeVec.z * float.fin 2
  let area3 := sizeVec.y * sizeVec.z * float.fin 2
  area1 + area2 + area3

/-- Running state of `find_merge_candidates`: `minSurfArea`, `resultingBV`, `dest`, `src`. -/
structure merge_state where
  minSurfArea : float
  resultingBV : aabb
  dest : Int
  src : Int
deriving DecidableEq

/-- Body of the inner loop of `find_merge_candidates` for the pair `(i, j)`. -/
def merge_step (nodes : List bvh_ptr) (i j : Nat) (st : merge_state) : merge_state :=
  let bv1 := mBV (nodes.getD i bvh_ptr.null)
  let bv2 := mBV (nodes.getD j bvh_ptr.null)
  let mn := vec3.min bv1.mMinPos bv2.mMinPos
  let mx := vec3.max bv1.mMaxPos bv2.mMaxPos
  let surfaceArea := surface_area mn mx
  if float.lt surfaceArea st.minSurfArea then
    { minSurfArea := surfaceArea, resultingBV := { mMinPos := mn, mMaxPos := mx },
      dest := i, src := j }
  else st

/-- Inner loop of `find_merge_candidates`: `j` runs from `j` while `j < numberOfNodes`;
the first argument is the number of iterations left. -/
def merge_inner (nodes : List bvh_ptr) (i : Nat) : Nat → Nat → merge_state → merge_state
  | 0, _, st => st
  | k + 1, j, st => merge_inner nodes i k (j + 1) (merge_step nodes i j st)

/-- Outer loop of `find_merge_candidates`: `i` runs from `i` while `i < numberOfNodes - 1`;
the first argument is the number of iterations left. -/
def merge_outer (nodes : List bvh_ptr) (numberOfNodes : Nat) : Nat → Nat → merge_state → merge_state
  | 0, _, st => st
  | k + 1, i, st =>
    merge_outer nodes numberOfNodes k (i + 1) (merge_inner nodes i (numberOfNodes - (i + 1)) (i + 1) st)

/-- Function `bvh_tree::find_merge_candidates`; `dest` and `src` are the in/out
references, returned next to the box. -/
def find_merge_candidates (nodes : List bvh_ptr) (numberOfNodes : Nat) (dest src : Int) :
    aabb × Int × Int :=
  let st := merge_outer nodes numberOfNodes (numberOfNodes - 1) 0
    { minSurfArea := fp.FLT_MAX, resultingBV := {}, dest := dest, src := src }
  (st.resultingBV, st.dest, st.src)

/-- First loop of `bottom_up_bvh`: one leaf per triangle, ids from `nodeCounter` on. -/
def make_leafs (positions : List vec3) : List Nat → Int → List bvh_ptr
  | a :: b :: c :: rest, nodeCounter =>
    bvh_ptr.node (compute_bv positions [a, b, c]) nodeCounter tree_node_type.leaf [a, b, c]
      bvh_ptr.null bvh_ptr.null :: make_leafs positions rest (nodeCounter + 1)
  | _, _ => []

/-- The `while (currNumberOfNodes > 1)` loop of `bottom_up_bvh`, one merge per round. -/
def merge_loop : Nat → List bvh_ptr → Int → Int → Int → List bvh_ptr × Int
  | 0, leafs, nodeCounter, _, _ => (leafs, nodeCounter)
  | 1, leafs, nodeCounter, _, _ => (leafs, nodeCounter)
  | currNumberOfNodes + 2, leafs, nodeCounter, dest, src =>
    let found := find_merge_candidates leafs (currNumberOfNodes + 2) dest src
    let newBV := found.1
    let dest1 := found.2.1
    let src1 := found.2.2
    let newNode := bvh_ptr.node newBV nodeCounter tree_node_type.internal []
      (leafs.getD dest1.toNat bvh_ptr.null) (leafs.getD src1.toNat bvh_ptr.null)
    let dest2 := if dest1 > src1 then src1 else dest1
    let src2 := if dest1 > src1 then dest1 else src1
    let leafs1 := leafs.set dest2.toNat newNode
    let leafs2 := leafs1.set src2.toNat (leafs1.getD (currNumberOfNodes + 1) bvh_ptr.null)
    merge_loop (currNumberOfNodes + 1) leafs2 (nodeCounter + 1) dest2 src2

/-- Function `bvh_tree::bottom_up_bvh`: the new `mRoot` and `nodeCounter`. `none` for an
empty triangle list, where the source reads `leafs[0]` of an empty vector. -/
def bottom_up_bvh (positions : List vec3) (posIndices : List Nat) (nodeCounter : Int) :
    Option (bvh_ptr × Int) :=
  let numberOfTriangles := posIndices.length / 3
  let leafs := make_leafs positions posIndices nodeCounter
  let r := merge_loop numberOfTriangles leafs (nodeCounter + numberOfTriangles) 0 0
  match r.1 with
  | [] => none
  | root :: _ => some (root, r.2)

/-- Function `bvh_tree::free_node` seen from the counter: `--nodeCounter`. -/
def free_node (nodeCounter : Int) : Int := nodeCounter - 1

/-- Function `bvh_tree::destroy_tree`: post-order traversal freeing every node; the result
is the `nodeCounter` after the traversal. The pointer it was called with is passed by
value and is not written. -/
def destroy_tree : bvh_ptr → Int → Int
  | bvh_ptr.null, nodeCounter => nodeCounter
  | bvh_ptr.node _ _ _ _ mLeft mRight, nodeCounter =>
    free_node (destroy_tree mRight (destroy_tree mLeft nodeCounter))

end bvh_tree

/-- The struct `mesh_data`, restricted to the two members the builder reads. -/
structure mesh_data where
  positions : List vec3
  mPosIndices : List Nat
deriving DecidableEq

/-- The class `bvh_tree`: its members `mRoot`, `mBuildMethod`, `nodeCounter`, and the
record `mRootFreed` that the nodes `mRoot` points to have been deleted (a dangling
pointer keeps its value). -/
structure bvh_tree where
  mRoot : bvh_ptr
  mBuildMethod : bvh_construction_method
  nodeCounter : Int
  mRootFreed : Bool
deriving DecidableEq

namespace bvh_tree

/-- Constructor `bvh_tree::bvh_tree()`. -/
def init : bvh_tree :=
  { mRoot := bvh_ptr.null, mBuildMethod := bvh_construction_method.not_constructed,
    nodeCounter := 0, mRootFreed := false }

/-- Function `bvh_tree::get_root`. -/
def get_root (t : bvh_tree) : bvh_ptr := t.mRoot

/-- Function `bvh_tree::get_build_method`. -/
def get_build_method (t : bvh_tree) : bvh_construction_method := t.mBuildMethod

/-- Function `bvh_tree::is_empty`: `mRoot == nullptr`. -/
def is_empty (t : bvh_tree) : Bool := decide (t.mRoot = bvh_ptr.null)

/-- Function `bvh_tree::clear`: `destroy_tree(mRoot); nodeCounter = 0;`. The member `mRoot`
is not assigned. `none` when `mRoot` dangles already (a second delete of the same nodes). -/
def clear (t : bvh_tree) : Option bvh_tree :=
  if t.mRoot ≠ bvh_ptr.null ∧ t.mRootFreed = true then none
  else
    let _counter := destroy_tree t.mRoot t.nodeCounter
    some { t with nodeCounter := 0, mRootFreed := decide (t.mRoot ≠ bvh_ptr.null) }

/-- Function `bvh_tree::construct_bvh`. -/
def construct_bvh (t : bvh_tree) (vert_data : mesh_data)
    (building_method : bvh_construction_method) : Option bvh_tree :=
  if building_method = t.mBuildMethod then some t
  else
    match clear { t with mBuildMethod := building_method } with
    | none => none
    | some t1 =>
      match building_method with
      | bvh_construction_method.top_down =>
        match top_down_bvh vert_data.positions (vert_data.mPosIndices.length / 3 + 1)
            t1.nodeCounter t1.mRoot vert_data.mPosIndices with
        | none => none
        | some (root, counter) =>
          some { t1 with mRoot := root, nodeCounter := counter,
                         mRootFreed := t1.mRootFreed && decide (vert_data.mPosIndices.length / 3 = 0) }
      | bvh_construction_method.bottom_up =>
        match bottom_up_bvh vert_data.positions vert_data.mPosIndices t1.nodeCounter with
        | none => none
        | some (root, counter) =>
          some { t1 with mRoot := root, nodeCounter := counter, mRootFreed := false }
      | bvh_construction_method.insertion => some t1
      | bvh_construction_method.not_constructed => some t1

/-! ## Reading a built tree -/

/-- Index lists of the leaf nodes of a tree, left to right. -/
def leaf_lists : bvh_ptr → List (List Nat)
  | bvh_ptr.null => []
  | bvh_ptr.node _ _ tree_node_type.leaf mIndices _ _ => [mIndices]
  | bvh_ptr.node _ _ tree_node_type.internal _ mLeft mRight => leaf_lists mLeft ++ leaf_lists mRight

/-- The triangles of a flat index list: consecutive groups of three indices. -/
def triangles : List Nat → List (List Nat)
  | a :: b :: c :: rest => [a, b, c] :: triangles rest
  | _ => []

/-- Mesh of two coincident triangles over three vertices. -/
def coincident_mesh : mesh_data :=
  { positions := [⟨0, 0, 0⟩, ⟨1, 0, 0⟩, ⟨0, 1, 0⟩], mPosIndices := [0, 1, 2, 0, 1, 2] }

/-- Mesh of a single triangle. -/
def single_triangle_mesh : mesh_data :=
  { positions := [⟨0, 0, 0⟩, ⟨1, 0, 0⟩, ⟨0, 1, 0⟩], mPosIndices := [0, 1, 2] }

end bvh_tree

/-! ## octree.cpp / octree.inl: locational codes -/

/-- The type `glm::vec<3, int>`. -/
structure ivec3 where
  x : Int
  y : Int
  z : Int
deriving DecidableEq

/-- Component read `v[axis]` of an integer vector. -/
def ivec3.get (v : ivec3) (axis : Nat) : Int :=
  match axis with
  | 0 => v.x
  | 1 => v.y
  | _ => v.z

/-- Conversion `static_cast<int>(n)` of a 32-bit unsigned value (two's complement). -/
def to_int32 (n : Nat) : Int :=
  if n % 2 ^ 32 < 2 ^ 31 then ((n % 2 ^ 32 : Nat) : Int) else ((n % 2 ^ 32 : Nat) : Int) - 2 ^ 32

/-- A 32-bit integer result: the representative of `z` modulo 2^32 in the `int` range. -/
def wrap_int32 (z : Int) : Int := to_int32 (z % 2 ^ 32).toNat

/-- The expression `1u << idx` for an `int` index; `none` when the shift count is
negative or not below 32 (undefined in the source). -/
def shl1 (idx : Int) : Option Nat :=
  if 0 ≤ idx ∧ idx < 32 then some (1 <<< idx.toNat) else none

/-- Loop of `locational_code_depth`: `i` runs from `n - 1` down to 0 and the first set
bit gives `i / 3`; 0 when no bit is set. -/
def locational_code_depth_loop (lc : Nat) : Nat → Nat
  | 0 => 0
  | n + 1 => if lc &&& (1 <<< n) ≠ 0 then n / 3 else locational_code_depth_loop lc n

/-- Function `locational_code_depth`. -/
def locational_code_depth (lc : Nat) : Nat := locational_code_depth_loop lc 32

/-- Body of the axis loop of `compute_bv` at bit index `i` for one axis. -/
def compute_bv_axis (locational_code root_size sentinelIndex i axis : Nat) (result : aabb) : aabb :=
  let isBitOne := locational_code &&& (1 <<< (i - (3 - 1 - axis)))
  let step : ℚ := ((root_size >>> ((sentinelIndex - 1 - i) / 3 + 1) : Nat) : ℚ)
  if isBitOne ≠ 0 then
    { result with mMinPos := result.mMinPos.set axis (result.mMinPos.get axis + step) }
  else
    { result with mMaxPos := result.mMaxPos.set axis (result.mMaxPos.get axis - step) }

/-- The three axis steps of one round of the outer loop of `compute_bv`. -/
def compute_bv_level (locational_code root_size sentinelIndex i : Nat) (result : aabb) : aabb :=
  compute_bv_axis locational_code root_size sentinelIndex i 2
    (compute_bv_axis locational_code root_size sentinelIndex i 1
      (compute_bv_axis locational_code root_size sentinelIndex i 0 result))

/-- Outer loop of `compute_bv`: `for (int i = sentinelIndex - 1; i >= 0; i -= 3)`; the
first argument bounds the number of rounds. -/
def compute_bv_loop (locational_code root_size sentinelIndex : Nat) : Nat → Int → aabb → aabb
  | 0, _, result => result
  | k + 1, i, result =>
    if i ≥ 0 then
      compute_bv_loop locational_code root_size sentinelIndex k (i - 3)
        (compute_bv_level locational_code root_size sentinelIndex i.toNat result)
    else result

/-- Function `compute_bv(locational_code, root_size)` of octree.cpp. The loop runs once
per level, `depth` rounds in all. -/
def compute_bv (locational_code root_size : Nat) : aabb :=
  let halfSize : Int := (to_int32 root_size).tdiv 2
  let result : aabb := { mMinPos := vec3.splat ((-halfSize : Int) : ℚ), mMaxPos := vec3.splat (halfSize : ℚ) }
  let depth := locational_code_depth locational_code
  let sentinelIndex := depth * 3
  compute_bv_loop locational_code root_size sentinelIndex depth ((sentinelIndex : Int) - 1) result

/-- One term of the merge loop of `compute_locational_code`:
`(codes[axis] & (1u << i)) << (i * (dimension - 1) + axis)` in 32 bits. -/
def merge_term (code i axis : Nat) : Nat :=
  ((code &&& (1 <<< i)) <<< (i * (3 - 1) + axis)) % 2 ^ 32

/-- The merge loop of `compute_locational_code` over `i < levels` and the three axes. -/
def merge_codes (cx cy cz : Nat) : Nat → Nat
  | 0 => 0
  | i + 1 =>
    (((merge_codes cx cy cz i) ||| merge_term cx i 0) ||| merge_term cy i 1) ||| merge_term cz i 2

/-- Function `compute_locational_code<3>(world_position, root_size, levels)`; `none` when
one of its assertions fails. `glm::log2` of an unsigned value is the index of its highest
set bit. -/
def compute_locational_code (world_position : ivec3) (root_size levels : Nat) : Option Nat :=
  if root_size ≤ 1 then some 1
  else
    let halfSize := root_size / 2
    let wx := wrap_int32 (world_position.x + to_int32 halfSize)
    let wy := wrap_int32 (world_position.y + to_int32 halfSize)
    let wz := wrap_int32 (world_position.z + to_int32 halfSize)
    if wx < 0 ∨ wx ≥ to_int32 root_size then some 1
    else if wy < 0 ∨ wy ≥ to_int32 root_size then some 1
    else if wz < 0 ∨ wz ≥ to_int32 root_size then some 1
    else
      let bits := Nat.log2 halfSize
      if ¬ (bits ≤ 4 * 8 + 1) then none
      else
        let bitsToShift := wrap_int32 ((bits : Int) - (levels : Int) + 1)
        if bitsToShift ≥ 0 then
          let cx := wx.toNat >>> bitsToShift.toNat
          let cy := wy.toNat >>> bitsToShift.toNat
          let cz := wz.toNat >>> bitsToShift.toNat
          let finalCode := merge_codes cx cy cz levels
          let bitsUsed := levels * 3
          if ¬ (bitsUsed + 1 ≤ 4 * 8) then none
          else
            let sentinel := 1 <<< bitsUsed
            some (finalCode ||| sentinel)
        else none

/-- First loop of `common_locational_code`: scan the bits from index `n - 1` down, record
the first set bit of each code, stop when both are found. -/
def sentinel_scan (lc1 lc2 : Nat) : Nat → Int → Int → Int × Int
  | 0, sentinel1Index, sentinel2Index => (sentinel1Index, sentinel2Index)
  | n + 1, sentinel1Index, sentinel2Index =>
    let currentBit1 := lc1 &&& (1 <<< n)
    let currentBit2 := lc2 &&& (1 <<< n)
    let s1 := if currentBit1 ≠ 0 ∧ sentinel1Index = -1 then (n : Int) else sentinel1Index
    let s2 := if currentBit2 ≠ 0 ∧ sentinel2Index = -1 then (n : Int) else sentinel2Index
    if s1 ≠ -1 ∧ s2 ≠ -1 then (s1, s2) else sentinel_scan lc1 lc2 n s1 s2

/-- The statements `commonCode >>= (maxSentinel - i); commonCode |= (1u << i); return`. -/
def common_return (commonCode : Nat) (maxSentinel : Int) (i : Nat) : Nat :=
  (commonCode >>> (maxSentinel - i).toNat) ||| (1 <<< i)

/-- Axis loop of `common_locational_code` at group offset `i`. `Sum.inl r`: the function
returned `r`; `Sum.inr c`: the loop ended with `commonCode = c`. `none` on an undefined
shift. The first argument is the number of axes left. -/
def common_axis_loop (maxCode minCode : Nat) (maxSentinel minSentinel : Int) (i : Nat) :
    Nat → Nat → Nat → Option (Nat ⊕ Nat)
  | 0, _, commonCode => some (Sum.inr commonCode)
  | k + 1, axis, commonCode =>
    let maxIdxToCompare : Int := maxSentinel - 1 - i - axis
    match shl1 maxIdxToCompare with
    | none => none
    | some maxMask =>
      let bitMax := maxCode &&& maxMask
      let minIdxToCompare : Int := minSentinel - 1 - i - axis
      if minIdxToCompare < 0 then some (Sum.inl (common_return commonCode maxSentinel i))
      else
        let bitMin := ((minCode &&& (1 <<< minIdxToCompare.toNat)) <<< (maxSentinel - minSentinel).toNat) % 2 ^ 32
        if bitMax ≠ bitMin then some (Sum.inl (common_return commonCode maxSentinel i))
        else common_axis_loop maxCode minCode maxSentinel minSentinel i k (axis + 1) (commonCode ||| bitMax)

/-- Outer loop of `common_locational_code`, `for (; i < maxSentinel; i += dimension)`,
followed by the final `commonCode |= (1u << i)`. The first argument bounds the number of
rounds (a sentinel index is at most 31, so 11 rounds reach the exit). -/
def common_group_loop (maxCode minCode : Nat) (maxSentinel minSentinel : Int) :
    Nat → Nat → Nat → Option Nat
  | 0, i, commonCode => (shl1 i).map (fun m => commonCode ||| m)
  | k + 1, i, commonCode =>
    if (i : Int) < maxSentinel then
      match common_axis_loop maxCode minCode maxSentinel minSentinel i 3 0 commonCode with
      | none => none
      | some (Sum.inl r) => some r
      | some (Sum.inr c) => common_group_loop maxCode minCode maxSentinel minSentinel k (i + 3) c
    else (shl1 i).map (fun m => commonCode ||| m)

/-- Function `common_locational_code`; `none` when a shift count is out of range. -/
def common_locational_code (lc1 lc2 : Nat) : Option Nat :=
  if lc1 = lc2 then some lc1
  else
    let s := sentinel_scan lc1 lc2 32 (-1) (-1)
    let maxSentinel := Max.max s.1 s.2
    let minSentinel := Min.min s.1 s.2
    let maxCode := Max.max lc1 lc2
    let minCode := Min.min lc1 lc2
    common_group_loop maxCode minCode maxSentinel minSentinel 11 0 0

/-- Conversion `static_cast<int>(f)` of a `float` whose value is the integer `z`; `none`
when `z` is outside the range of `int`, where the conversion is undefined. -/
def float_to_int (z : Int) : Option Int :=
  if -(2 ^ 31) ≤ z ∧ z < 2 ^ 31 then some z else none

/-- The three conversions `static_cast<int>` of the components of one corner. -/
def corner_to_int (x y z : Int) : Option ivec3 :=
  match float_to_int x, float_to_int y, float_to_int z with
  | some a, some b, some c => some ⟨a, b, c⟩
  | _, _, _ => none

/-- Function `compute_locational_code(bv, root_size, levels)` for a box: the codes of the
floored minimum and the ceiled maximum, then their common code; `none` when a corner is
outside the range of `int` or an assertion fails. -/
def compute_locational_code_aabb (bv : aabb) (root_size levels : Nat) : Option Nat :=
  match corner_to_int (Int.floor bv.mMinPos.x) (Int.floor bv.mMinPos.y) (Int.floor bv.mMinPos.z),
    corner_to_int (Int.ceil bv.mMaxPos.x) (Int.ceil bv.mMaxPos.y) (Int.ceil bv.mMaxPos.z) with
  | some minFloored, some maxCeiled =>
    match compute_locational_code minFloored root_size levels with
    | none => none
    | some minCode =>
      match compute_locational_code maxCeiled root_size levels with
      | none => none
      | some maxCode => common_locational_code minCode maxCode
  | _, _ => none

/-! ## octree.hpp / octree.inl: the node map -/

/-- The struct `octree<T>::node`; `first` is the head pointer of the occupant list
(`none` for `nullptr`, otherwise the identity of the first object). -/
structure octree_node where
  locational_code : Nat := 0
  children_active : Nat := 0
  first : Option Nat := none
deriving DecidableEq

/-- The class `octree<T>`: `m_nodes` maps a code to the node it owns (`none`: no entry).
A `node *` into the map is represented by the key of its entry. -/
structure octree where
  m_nodes : Nat → Option octree_node
  m_root_size : Nat
  m_levels : Nat

namespace octree

/-- Constructor `octree<T>::octree()`: no nodes, root size 128, 3 levels. -/
def init : octree := { m_nodes := fun _ => none, m_root_size := 128, m_levels := 3 }

/-- Function `octree<T>::find_node(uint32_t)`: the entry for the code, `none` for `nullptr`. -/
def find_node (o : octree) (locational_code : Nat) : Option octree_node :=
  o.m_nodes locational_code

/-- Function `octree<T>::find_create_node(uint32_t)`: adds a fresh node when the code has
no entry. The pointer it returns designates the entry of `locational_code`. -/
def find_create_node (o : octree) (locational_code : Nat) : octree :=
  match o.m_nodes locational_code with
  | none =>
    let newNode : octree_node := { locational_code := locational_code, children_active := 0, first := none }
    { o with m_nodes := Function.update o.m_nodes locational_code (some newNode) }
  | some _ => o

/-- Function `octree<T>::delete_node`: removes the entry of the code, if any. -/
def delete_node (o : octree) (locational_code : Nat) : octree :=
  match o.m_nodes locational_code with
  | none => o
  | some _ => { o with m_nodes := Function.update o.m_nodes locational_code none }

/-- Write to `children_active` (a `uint8_t`) of the node with the given key. -/
def set_children_active (o : octree) (key : Nat) (mask : Nat) : octree :=
  match o.m_nodes key with
  | none => o
  | some n =>
    let written : octree_node := { n with children_active := mask % 256 }
    { o with m_nodes := Function.update o.m_nodes key (some written) }

/-- The `while (locational_code > 1)` loop of `create_node`; the first argument bounds the
number of rounds (each round drops three bits of a 32-bit code). -/
def create_node_loop : Nat → octree → Nat → octree
  | 0, o, _ => o
  | k + 1, o, locational_code =>
    if locational_code > 1 then
      let o1 := find_create_node o (locational_code >>> 3)
      let mask := match o1.m_nodes (locational_code >>> 3) with
        | none => 0
        | some parentNode => parentNode.children_active
      let o2 := set_children_active o1 (locational_code >>> 3)
        (mask ||| (1 <<< (locational_code &&& ((1 <<< 3) - 1))))
      create_node_loop k o2 (locational_code >>> 3)
    else o

/-- Function `octree<T>::create_node`: the new state and the returned pointer (the key of
the entry of `locational_code`). -/
def create_node (o : octree) (locational_code : Nat) : octree × Nat :=
  let o1 := find_create_node o locational_code
  (create_node_loop 11 o1 locational_code, locational_code)

/-- The `while (locational_code > 1)` loop of `delete_node_rec`. -/
def delete_node_rec_loop : Nat → octree → Nat → octree
  | 0, o, _ => o
  | k + 1, o, locational_code =>
    if locational_code > 1 then
      match o.m_nodes (locational_code >>> 3) with
      | none => delete_node_rec_loop k o (locational_code >>> 3)
      | some parentNode =>
        let mask := (parentNode.children_active &&&
          ((2 ^ 32 - 1) ^^^ (1 <<< (locational_code &&& ((1 <<< 3) - 1))))) % 256
        let o1 := set_children_active o (locational_code >>> 3) mask
        if mask = 0 then
          delete_node_rec_loop k (delete_node o1 (locational_code >>> 3)) (locational_code >>> 3)
        else o1
    else o

/-- Function `octree<T>::delete_node_rec`; `none` when the assertion `childNode != nullptr`
fails. -/
def delete_node_rec (o : octree) (locational_code : Nat) : Option octree :=
  match find_node o locational_code with
  | none => none
  | some childNode =>
    let o1 := if childNode.children_active = 0 then delete_node o locational_code else o
    some (delete_node_rec_loop 11 o1 locational_code)

/-- Effect of `node::push_front(object)` on the node with the given key, as far as the
node is concerned: `first = object`. -/
def set_first (o : octree) (key : Nat) (object : Option Nat) : octree :=
  match o.m_nodes key with
  | none => o
  | some n =>
    let written : octree_node := { n with first := object }
    { o with m_nodes := Function.update o.m_nodes key (some written) }

end octree

namespace octree

/-- The node `create_node` leaves at an ancestor key: the old node (or a fresh one) with the
bit of the traversed child added to `children_active`. -/
def bumped (old : Option octree_node) (key bit : Nat) : octree_node :=
  match old with
  | none => { locational_code := key, children_active := (0 ||| (1 <<< bit)) % 256, first := none }
  | some n => { n with children_active := (n.children_active ||| (1 <<< bit)) % 256 }

end octree

namespace octree

/-- State for C7: the path of the code 64 (nodes 64, 8 and 1) on the empty octree. -/
def path_64 : octree := (create_node init 64).1

/-- State for C9: the path of the code 8 on the empty octree, with one object in the
occupant list of the root node. -/
def occupied_root : octree := set_first (create_node init 8).1 1 (some 0)

end octree

namespace octree

/-- A well-formed locational code: a sentinel bit on top of `d` groups of three bits,
`d` at most 10 in 32 bits; equivalently `c >> 3d = 1`. -/
def is_locational_code (c : Nat) : Prop := ∃ d, d ≤ 10 ∧ c >>> (3 * d) = 1

/-- Every key of the map is a well-formed locational code. -/
def keys_valid (o : octree) : Prop := ∀ q n, o.m_nodes q = some n → is_locational_code q

/-- Occupancy at one bit: bit `i` of the mask of node `p` is set exactly when `i < 8` and
the child `8p + i` has a node. -/
def occ_at (o : octree) (p i : Nat) : Prop :=
  ∀ n, o.m_nodes p = some n →
    (n.children_active.testBit i = true ↔ (i < 8 ∧ (o.m_nodes (8 * p + i)).isSome = true))

/-- The occupancy invariant of the specification: for every node `p` of the map and every
`i` in 0..7, bit `i` of `children_active` is set iff the node `(p << 3) + i` is in the map. -/
def occupancy_invariant (o : octree) : Prop :=
  ∀ p n, o.m_nodes p = some n → ∀ i, i < 8 →
    (n.children_active.testBit i = true ↔ (o.m_nodes (p <<< 3 + i)).isSome = true)

/-- Every node other than the root (code 1) has its parent in the map. -/
def ancestor_closed (o : octree) : Prop :=
  ∀ q n, o.m_nodes q = some n → q ≠ 1 → (o.m_nodes (q >>> 3)).isSome = true

/-- States reached from an empty map by `create_node` on well-formed codes and
`delete_node_rec` on nodes that are present and have no active children. -/
inductive reachable : octree → Prop where
  | empty (o : octree) : (∀ q, o.m_nodes q = none) → reachable o
  | create (o : octree) (c : Nat) : reachable o → is_locational_code c →
      reachable (create_node o c).1
  | delete (o : octree) (c : Nat) (n : octree_node) (o1 : octree) : reachable o →
      o.m_nodes c = some n → n.children_active = 0 → delete_node_rec o c = some o1 →
      reachable o1

/-- State for C8: the paths of the codes 64 and 9 on the empty octree (nodes 1, 8, 9, 64). -/
def two_children : octree := (create_node (create_node init 64).1 9).1

end octree

/-- Amount added to the minimum of an axis at level `j` (counted from the deepest level) of a
code of depth `d`: the step `root_size >> (d - j)` when the bit `3j + axis` is set. -/
def lo_term (c R d j a : Nat) : ℚ := if c.testBit (3 * j + a) then ((R >>> (d - j) : Nat) : ℚ) else 0

/-- Amount subtracted from the maximum of an axis at level `j` of a code of depth `d`: the
step `root_size >> (d - j)` when the bit `3j + axis` is clear. -/
def hi_term (c R d j a : Nat) : ℚ := if c.testBit (3 * j + a) then 0 else ((R >>> (d - j) : Nat) : ℚ)

/-- Total added to the minimum of an axis over the levels of a code of depth `d`. -/
def lo_sum (c R d a : Nat) : ℚ := ∑ j in Finset.range d, lo_term c R d j a

/-- Total subtracted from the maximum of an axis over the levels of a code of depth `d`. -/
def hi_sum (c R d a : Nat) : ℚ := ∑ j in Finset.range d, hi_term c R d j a

/-- Box `outer` contains box `inner`: on every axis its minimum is at most and its maximum at
least that of `inner`. -/
def aabb.contains (outer inner : aabb) : Prop :=
  outer.mMinPos.x ≤ inner.mMinPos.x ∧ outer.mMinPos.y ≤ inner.mMinPos.y ∧
  outer.mMinPos.z ≤ inner.mMinPos.z ∧ inner.mMaxPos.x ≤ outer.mMaxPos.x ∧
  inner.mMaxPos.y ≤ outer.mMaxPos.y ∧ inner.mMaxPos.z ≤ outer.mMaxPos.z

/-- Box for C5: the cube [1/2, 3/2]^3. -/
def small_box : aabb := { mMinPos := ⟨1 / 2, 1 / 2, 1 / 2⟩, mMaxPos := ⟨3 / 2, 3 / 2, 3 / 2⟩ }

/-- Box for C5: the unit cube [0, 1]^3. -/
def unit_box : aabb := { mMinPos := ⟨0, 0, 0⟩, mMaxPos := ⟨1, 1, 1⟩ }

namespace bvh_tree

/-- State for C16: the tree built top-down from the single-triangle mesh. -/
def built_single : bvh_tree :=
  (construct_bvh init single_triangle_mesh bvh_construction_method.top_down).getD init

end bvh_tree

/-- Function `intersection_aabb_aabb` of geometry.cpp. -/
def intersection_aabb_aabb (box1 box2 : aabb) : Bool :=
  if box2.mMinPos.x > box1.mMaxPos.x ∨ box2.mMaxPos.x < box1.mMinPos.x then false
  else if box2.mMinPos.y > box1.mMaxPos.y ∨ box2.mMaxPos.y < box1.mMinPos.y then false
  else if box2.mMinPos.z > box1.mMaxPos.z ∨ box2.mMaxPos.z < box1.mMinPos.z then false
  else true

/-- The struct `ray`. -/
structure ray where
  mOrigin : vec3
  mDir : vec3
deriving DecidableEq

/-- The plane with the same point and the negated normal. -/
def plane.flipped (P : plane) : plane :=
  { mPoint := P.mPoint, mNormal := ⟨-P.mNormal.x, -P.mNormal.y, -P.mNormal.z⟩ }

/-- Box for C20: the unit cube [-1/2, 1/2]^3. -/
def unit_cube : aabb := { mMinPos := ⟨-1 / 2, -1 / 2, -1 / 2⟩, mMaxPos := ⟨1 / 2, 1 / 2, 1 / 2⟩ }

/-- Ray for C20: from (-2, 0, 0) along +x. -/
def axis_ray : ray := { mOrigin := ⟨-2, 0, 0⟩, mDir := ⟨1, 0, 0⟩ }

/-- Ray for C20: from (-2^120, 0, 0) along +x with speed 2^-10. -/
def far_ray : ray := { mOrigin := ⟨-(2 ^ 120), 0, 0⟩, mDir := ⟨1 / 1024, 0, 0⟩ }

/-- The entry parameter of C20 for a ray along axis `i`: the distance from the origin to
the near face of the box divided by the absolute value of the direction component. -/
def entry_parameter (ray_ : ray) (box : aabb) (i : Nat) : ℚ :=
  (if 0 < ray_.mDir.get i then box.mMinPos.get i - ray_.mOrigin.get i
    else ray_.mOrigin.get i - box.mMaxPos.get i) / |ray_.mDir.get i|

/-- Lower face, along one axis, of the cell of depth `L` that holds the integer coordinate
`v` in a root of size `2^k`: `v + 2^(k-1)` rounded down to a multiple of the cell width
`2^(k-L)`, moved back by `2^(k-1)`. -/
def cell_lo (k L : Nat) (v : Int) : ℚ :=
  ((2 ^ (k - L) * ((v + 2 ^ (k - 1)).toNat / 2 ^ (k - L)) : Nat) : ℚ) - 2 ^ (k - 1)

/-- The integer position `p` moved by `t` along one axis. -/
def ivec3.shift (p : ivec3) (axis : Nat) (t : Int) : ivec3 :=
  ⟨p.x + (if axis = 0 then t else 0), p.y + (if axis = 1 then t else 0),
    p.z + (if axis = 2 then t else 0)⟩

/-- The vector `v` moved by `t` along one axis. -/
def vec3.shift (v : vec3) (axis : Nat) (t : ℚ) : vec3 :=
  ⟨v.x + (if axis = 0 then t else 0), v.y + (if axis = 1 then t else 0),
    v.z + (if axis = 2 then t else 0)⟩

/-- The box `b` moved by `t` along one axis. -/
def aabb.translate (b : aabb) (axis : Nat) (t : ℚ) : aabb :=
  { mMinPos := b.mMinPos.shift axis t, mMaxPos := b.mMaxPos.shift axis t }

/-- Box for C14: the cube [17, 18]^3, inside the deepest cell [16, 32]^3 of a root of size
128 with 3 levels. -/
def odd_cell_box : aabb := { mMinPos := ⟨17, 17, 17⟩, mMaxPos := ⟨18, 18, 18⟩ }

/-- Box for C14: the box [-1, 1] x [1, 2] x [1, 2], across the plane x = 0. -/
def straddling_box : aabb := { mMinPos := ⟨-1, 1, 1⟩, mMaxPos := ⟨1, 2, 2⟩ }

/-- Box for C11: the cube [0, 16]^3, the volume of the node 960 of a root of size 128. -/
def first_cell_box : aabb := { mMinPos := ⟨0, 0, 0⟩, mMaxPos := ⟨16, 16, 16⟩ }

/-- The half-open containment used for C11: on every axis the lower face of `outer` is at
most the floored minimum of `inner` and its upper face is above the ceiled maximum. -/
def aabb.holds_corners (outer inner : aabb) : Prop :=
  (outer.mMinPos.x ≤ (Int.floor inner.mMinPos.x : ℚ) ∧
    (Int.ceil inner.mMaxPos.x : ℚ) < outer.mMaxPos.x) ∧
  (outer.mMinPos.y ≤ (Int.floor inner.mMinPos.y : ℚ) ∧
    (Int.ceil inner.mMaxPos.y : ℚ) < outer.mMaxPos.y) ∧
  (outer.mMinPos.z ≤ (Int.floor inner.mMinPos.z : ℚ) ∧
    (Int.ceil inner.mMaxPos.z : ℚ) < outer.mMaxPos.z)

namespace bvh_tree

/-- The box `b` is the AABB of the vertices indexed by `idx`: on every axis its min is the
minimum and its max is the maximum of that coordinate over the indexed vertices. -/
def is_bounding_box (positions : List vec3) (idx : List Nat) (b : aabb) : Prop :=
  ∀ a, a < 3 →
    (∀ i, i ∈ idx → b.mMinPos.get a ≤ (pos_at positions i).get a ∧
      (pos_at positions i).get a ≤ b.mMaxPos.get a) ∧
    (∃ i, i ∈ idx ∧ b.mMinPos.get a = (pos_at positions i).get a) ∧
    (∃ i, i ∈ idx ∧ b.mMaxPos.get a = (pos_at positions i).get a)

/-- Every coordinate of every indexed vertex is a finite `float`. -/
def finite_coords (positions : List vec3) (idx : List Nat) : Prop :=
  ∀ i, i ∈ idx → ∀ a, a < 3 →
    FLT_LOWEST ≤ (pos_at positions i).get a ∧ (pos_at positions i).get a ≤ FLT_MAX

/-- Number of internal nodes of a tree. -/
def count_internal : bvh_ptr → Nat
  | bvh_ptr.null => 0
  | bvh_ptr.node _ _ tree_node_type.leaf _ _ _ => 0
  | bvh_ptr.node _ _ tree_node_type.internal _ mLeft mRight =>
    1 + count_internal mLeft + count_internal mRight

/-- All vertex indices held by the leaves of a tree. -/
def tree_indices (t : bvh_ptr) : List Nat := (leaf_lists t).flatten

/-- Shape of a tree built bottom-up: a leaf has no children, three indices and the AABB of
its triangle; an internal node has two children of that shape and the AABB of all the
vertices below it. -/
def bottom_up_shape (positions : List vec3) : bvh_ptr → Prop
  | bvh_ptr.null => False
  | bvh_ptr.node bv _ tree_node_type.leaf mIndices mLeft mRight =>
    mLeft = bvh_ptr.null ∧ mRight = bvh_ptr.null ∧ mIndices.length = 3 ∧
      is_bounding_box positions mIndices bv
  | bvh_ptr.node bv _ tree_node_type.internal _ mLeft mRight =>
    bottom_up_shape positions mLeft ∧ bottom_up_shape positions mRight ∧
      is_bounding_box positions (tree_indices mLeft ++ tree_indices mRight) bv

end bvh_tree

namespace bvh_tree

/-- The box that `find_merge_candidates` computes for the pair `(i, j)`. -/
def merged_box (nodes : List bvh_ptr) (i j : Nat) : aabb :=
  { mMinPos := vec3.min (mBV (nodes.getD i bvh_ptr.null)).mMinPos
      (mBV (nodes.getD j bvh_ptr.null)).mMinPos,
    mMaxPos := vec3.max (mBV (nodes.getD i bvh_ptr.null)).mMaxPos
      (mBV (nodes.getD j bvh_ptr.null)).mMaxPos }

/-- The state of `find_merge_candidates` holds a pair `i < j < n` found in this call,
with its box. -/
def merge_found (nodes : List bvh_ptr) (n : Nat) (st : merge_state) : Prop :=
  float.lt st.minSurfArea fp.FLT_MAX = true ∧
    ∃ i j, i < j ∧ j < n ∧ st.dest = (i : Int) ∧ st.src = (j : Int) ∧
      st.resultingBV = merged_box nodes i j

end bvh_tree

namespace bvh_tree

/-- Sum of `g` over the first `n` nodes of the work list of `bottom_up_bvh`. -/
def forest_sum (g : bvh_ptr → Nat) (leafs : List bvh_ptr) (n : Nat) : Nat :=
  ∑ k in Finset.range n, g (leafs.getD k bvh_ptr.null)

/-- Invariant of the merge loop of `bottom_up_bvh` on the first `n` nodes of the work list,
for the input `posIndices`: every node has the bottom-up shape and holds input indices
only, every triangle is held as often as it occurs in the input, and the internal nodes
number `posIndices.length / 3 - n`. -/
def forest_invariant (positions : List vec3) (posIndices : List Nat) (leafs : List bvh_ptr)
    (n : Nat) : Prop :=
  n ≤ leafs.length ∧
  (∀ k, k < n → bottom_up_shape positions (leafs.getD k bvh_ptr.null) ∧
    ∀ i, i ∈ tree_indices (leafs.getD k bvh_ptr.null) → i ∈ posIndices) ∧
  (∀ tri, forest_sum (fun t => (leaf_lists t).countP (fun l => decide (l = tri))) leafs n
    = (triangles posIndices).countP (fun l => decide (l = tri))) ∧
  forest_sum count_internal leafs n + n = posIndices.length / 3

end bvh_tree

namespace bvh_tree

/-- Input accepted by the builders: every index is in range of the positions and every
indexed vertex has finite coordinates. -/
def valid_input (positions : List vec3) (posIndices : List Nat) : Prop :=
  (∀ i, i ∈ posIndices → i < positions.length) ∧ finite_coords positions posIndices

/-- Mesh of two triangles with far-apart vertices: the AABB of the whole input has a
surface area above `FLT_MAX`. -/
def huge_mesh : mesh_data :=
  { positions := [⟨0, 0, 0⟩, ⟨2 ^ 70, 0, 0⟩, ⟨0, 2 ^ 70, 0⟩, ⟨-(2 ^ 70), 0, 0⟩, ⟨0, -(2 ^ 70), 0⟩],
    mPosIndices := [0, 1, 2, 0, 3, 4] }

/-- Mesh of two triangles forming the unit square. -/
def square_mesh : mesh_data :=
  { positions := [⟨0, 0, 0⟩, ⟨1, 0, 0⟩, ⟨0, 1, 0⟩, ⟨1, 1, 0⟩], mPosIndices := [0, 1, 2, 1, 3, 2] }

end bvh_tree

/-- Index of the highest set bit of a code, -1 for the code 0: the value that the first
loop of `common_locational_code` finds for a 32-bit code. -/
def msb_index (lc : Nat) : Int := if lc = 0 then -1 else (Nat.log2 lc : Int)

/-! ## Invariants of the builders and of the node map -/

namespace bvh_tree

end bvh_tree

namespace octree

/-- Every `children_active` of the map is a value of its type `uint8_t`. -/
def masks_in_range (o : octree) : Prop :=
  ∀ q n, o.m_nodes q = some n → n.children_active < 256

/-- State for C29: a map with the keys 0 and 1, where node 0 has the bits 0 and 1 set (the
nodes `(0 << 3) + 0 = 0` and `(0 << 3) + 1 = 1` are in the map) and node 1 has no children. -/
def zero_key_state : octree :=
  { m_nodes := fun q =>
      if q = 0 then some { locational_code := 0, children_active := 3, first := none }
      else if q = 1 then some { locational_code := 1, children_active := 0, first := none }
      else none,
    m_root_size := 128, m_levels := 3 }

end octree

namespace bvh_tree

/-- Volumes are nested below a node: the box of every child that exists lies within the box
of its parent (parent min <= child min and child max <= parent max on every axis). -/
def nested : bvh_ptr → Prop
  | bvh_ptr.null => True
  | bvh_ptr.node bv _ _ _ mLeft mRight =>
    (mLeft ≠ bvh_ptr.null → aabb.contains bv (mBV mLeft)) ∧
    (mRight ≠ bvh_ptr.null → aabb.contains bv (mBV mRight)) ∧ nested mLeft ∧ nested mRight

/-- Every internal node below a node has two children, and its box is the union box of
theirs: componentwise min of the mins and max of the maxes. -/
def union_boxes : bvh_ptr → Prop
  | bvh_ptr.null => True
  | bvh_ptr.node _ _ tree_node_type.leaf _ _ _ => True
  | bvh_ptr.node bv _ tree_node_type.internal _ mLeft mRight =>
    mLeft ≠ bvh_ptr.null ∧ mRight ≠ bvh_ptr.null ∧
    bv = { mMinPos := vec3.min (mBV mLeft).mMinPos (mBV mRight).mMinPos,
           mMaxPos := vec3.max (mBV mLeft).mMaxPos (mBV mRight).mMaxPos } ∧
    union_boxes mLeft ∧ union_boxes mRight

/-- Mesh of three triangles: the two halves of the unit square and one triangle with
vertices at distance 2^70. Every box around the far triangle has a surface area above
`FLT_MAX`. -/
def far_mesh : mesh_data :=
  { positions := [⟨0, 0, 0⟩, ⟨1, 0, 0⟩, ⟨0, 1, 0⟩, ⟨1, 1, 0⟩,
      ⟨2 ^ 70, 0, 0⟩, ⟨0, 2 ^ 70, 0⟩, ⟨0, 0, 2 ^ 70⟩],
    mPosIndices := [0, 1, 2, 1, 3, 2, 4, 5, 6] }

end bvh_tree

/-! ## geometry.cpp: containment and classification -/

/-- Function `intersection_point_aabb` of geometry.cpp. -/
def intersection_point_aabb (point : vec3) (aabb_ : aabb) : Bool :=
  if point.x < aabb_.mMinPos.x ∨ point.x > aabb_.mMaxPos.x then false
  else if point.y < aabb_.mMinPos.y ∨ point.y > aabb_.mMaxPos.y then false
  else if point.z < aabb_.mMinPos.z ∨ point.z > aabb_.mMaxPos.z then false
  else true

/-- The point `O + t v` of a ray, `O` its origin and `v` its direction. -/
def ray.point_at (ray_ : ray) (t : ℚ) : vec3 := ray_.mOrigin + vec3.smul t ray_.mDir

/-- The point of the ray at parameter `s` lies in the slab of the box on axis `a`. -/
def ray.in_slab (ray_ : ray) (box : aabb) (a : Nat) (s : ℚ) : Prop :=
  box.mMinPos.get a ≤ (ray_.point_at s).get a ∧ (ray_.point_at s).get a ≤ box.mMaxPos.get a

/-- Function `glm::cross`. -/
def cross (a b : vec3) : vec3 :=
  ⟨a.y * b.z - b.y * a.z, a.z * b.x - b.z * a.x, a.x * b.y - b.x * a.y⟩

/-- The struct `triangle`. -/
structure triangle where
  mPos1 : vec3 := ⟨-1 / 2, -1 / 2, 0⟩
  mPos2 : vec3 := ⟨1 / 2, -1 / 2, 0⟩
  mPos3 : vec3 := ⟨0, 1 / 2, 0⟩
deriving DecidableEq

/-- The point `a * A + b * B + c * C` of the plane of a triangle `A, B, C`. -/
def triangle.combination (tri : triangle) (a b c : ℚ) : vec3 :=
  vec3.smul a tri.mPos1 + vec3.smul b tri.mPos2 + vec3.smul c tri.mPos3

/-- The point `p` is contained in the closed triangle spanned by the three vertices: it is a
combination of them with weights `a, b, c >= 0`, `a + b + c = 1`. -/
def triangle.contains (tri : triangle) (p : vec3) : Prop :=
  ∃ a b c : ℚ, 0 ≤ a ∧ 0 ≤ b ∧ 0 ≤ c ∧ a + b + c = 1 ∧ p = tri.combination a b c

/-- Normal `(B - A) x (C - A)` of a triangle; the zero vector for a degenerate one. -/
def triangle.normal (tri : triangle) : vec3 :=
  cross (tri.mPos2 - tri.mPos1) (tri.mPos3 - tri.mPos1)

/-- Triangle for C22: (0, 0, 0), (1, 0, 0), (0, 1, 0). -/
def corner_triangle : triangle :=
  { mPos1 := ⟨0, 0, 0⟩, mPos2 := ⟨1, 0, 0⟩, mPos3 := ⟨0, 1, 0⟩ }

/-- Plane for C25: through the origin with normal (0, 1, 0), the default of the struct. -/
def ground_plane : plane := { mPoint := ⟨0, 0, 0⟩, mNormal := ⟨0, 1, 0⟩ }

/-! ## octree.inl / demo_octree.hpp: the occupant list of a node -/

/-- The space-partitioning members of the struct `physics_object` (demo_octree.hpp), the
occupant type of the octree: the back-reference to the node (its key in the map) and the
two links of the intrusive list. `none` is `nullptr`, an object pointer is an address. -/
structure physics_object where
  octree_node : Option Nat := none
  octree_next_object : Option Nat := none
  octree_prev_object : Option Nat := none
deriving DecidableEq

namespace octree_node

/-- Function `octree<T>::node::push_front(T * object)` on the node `n` and the memory `heap`
of the objects; `object` is a pointer other than `nullptr`. -/
def push_front (n : octree_node) (heap : Nat → physics_object) (object : Nat) :
    octree_node × (Nat → physics_object) :=
  let heap1 := Function.update heap object { heap object with octree_prev_object := none }
  let heap2 := Function.update heap1 object { heap1 object with octree_next_object := n.first }
  let heap3 := match n.first with
    | some f => Function.update heap2 f { heap2 f with octree_prev_object := some object }
    | none => heap2
  ({ n with first := some object }, heap3)

/-- Function `octree<T>::node::remove(T * object)` on the node `n` and the memory `heap` of
the objects; `object` is a pointer other than `nullptr`. -/
def remove (n : octree_node) (heap : Nat → physics_object) (object : Nat) :
    octree_node × (Nat → physics_object) :=
  let n1 := if some object = n.first then { n with first := (heap object).octree_next_object }
    else n
  let heap1 := match (heap object).octree_next_object with
    | some nx => Function.update heap nx
        { heap nx with octree_prev_object := (heap object).octree_prev_object }
    | none => heap
  let heap2 := match (heap1 object).octree_prev_object with
    | some pv => Function.update heap1 pv
        { heap1 pv with octree_next_object := (heap1 object).octree_next_object }
    | none => heap1
  let heap3 := Function.update heap2 object { heap2 object with octree_next_object := none }
  let heap4 := Function.update heap3 object { heap3 object with octree_prev_object := none }
  let heap5 := Function.update heap4 object { heap4 object with octree_node := none }
  (n1, heap5)

/-- The objects of `L` are chained from the pointer `cur` on, in this order: `cur` points to
the first of them, whose `prev` link is `prev`; every `next` link points to the following
object, whose `prev` link points back; the `next` link of the last one is null. -/
def linked (heap : Nat → physics_object) : Option Nat → Option Nat → List Nat → Prop
  | _, cur, [] => cur = none
  | prev, cur, x :: xs =>
    cur = some x ∧ (heap x).octree_prev_object = prev ∧
      linked heap (some x) (heap x).octree_next_object xs

/-- The occupant list of the node is the well-formed doubly linked list of the distinct
objects `L`: chained from `first`, the head having a null `prev` link. -/
def occupants (n : octree_node) (heap : Nat → physics_object) (L : List Nat) : Prop :=
  L.Nodup ∧ linked heap none n.first L

/-- Memory for C28: the objects 10, 20 and 30 chained in this order in the node 1. -/
def three_objects : Nat → physics_object := fun a =>
  if a = 10 then { octree_node := some 1, octree_next_object := some 20, octree_prev_object := none }
  else if a = 20 then
    { octree_node := some 1, octree_next_object := some 30, octree_prev_object := some 10 }
  else if a = 30 then
    { octree_node := some 1, octree_next_object := none, octree_prev_object := some 20 }
  else {}

/-- Node for C28: the node 1 whose list starts at the object 10. -/
def list_head : octree_node := { locational_code := 1, children_active := 0, first := some 10 }

end octree_node

/-! ## geometry.hpp: segments -/

/-- The struct `segment`. -/
structure segment where
  mPos1 : vec3 := ⟨0, 0, 0⟩
  mPos2 : vec3 := ⟨1, 0, 0⟩
deriving DecidableEq

/-- The point of a segment at the parameter `s`: `mPos1 + s * (mPos2 - mPos1)`; the points of
the segment are those with `0 <= s <= 1`. -/
def segment.point (seg : segment) (s : ℚ) : vec3 :=
  seg.mPos1 + vec3.smul s (seg.mPos2 - seg.mPos1)

/-- Segment for C24: the default segment from the origin to (1, 0, 0). -/
def unit_segment : segment := { mPos1 := ⟨0, 0, 0⟩, mPos2 := ⟨1, 0, 0⟩ }

/-! ## geometry.cpp in `float` arithmetic -/

namespace fp

/-- Body of the slab loop of `intersection_ray_aabb` for axis `i` on the running pair
`(tMin, tMax)`; `none` stands for the early `return -1.0f`. -/
def ray_aabb_slab (ray_ : ray) (box : aabb) (i : Nat) (t : float × float) :
    Option (float × float) :=
  if are_equal (ray_.mDir.get i) (float.fin 0) then
    if float.lt (ray_.mOrigin.get i) (box.mMinPos.get i) ||
        float.lt (box.mMaxPos.get i) (ray_.mOrigin.get i) then none
    else some t
  else
    let tEnter0 := (box.mMinPos.get i - ray_.mOrigin.get i) / ray_.mDir.get i
    let tExit0 := (box.mMaxPos.get i - ray_.mOrigin.get i) / ray_.mDir.get i
    let tEnter := if float.lt tExit0 tEnter0 then tExit0 else tEnter0
    let tExit := if float.lt tExit0 tEnter0 then tEnter0 else tExit0
    let tMin := if float.lt t.1 tEnter then tEnter else t.1
    let tMax := if float.lt tExit t.2 then tExit else t.2
    if float.lt tMax tMin then none else some (tMin, tMax)

/-- The slab loop of `intersection_ray_aabb`, `for (int i = 0; i < 3; ++i)`; the first
argument is the number of axes left. -/
def ray_aabb_loop (ray_ : ray) (box : aabb) : Nat → Nat → float × float → Option (float × float)
  | 0, _, t => some t
  | k + 1, i, t =>
    match ray_aabb_slab ray_ box i t with
    | none => none
    | some t1 => ray_aabb_loop ray_ box k (i + 1) t1

/-- Function `intersection_ray_aabb` of geometry.cpp. -/
def intersection_ray_aabb (ray_ : ray) (box : aabb) : float :=
  match ray_aabb_loop ray_ box 3 0 (float.fin 0, FLT_MAX) with
  | none => float.fin (-1)
  | some t => if float.lt (float.fin 0) t.1 then t.1 else float.fin 0

/-- Function `intersection_point_triangle` of geometry.cpp. -/
def intersection_point_triangle (point : vec3) (tri : triangle) : Bool :=
  let pToA := tri.mPos1 - point
  let pToB := tri.mPos2 - point
  let pToC := tri.mPos3 - point
  let cross1 := cross pToA pToB
  let cross2 := cross pToB pToC
  if float.lt (dot cross1 cross2) (float.fin 0) then false
  else
    let cross3 := cross pToC pToA
    if float.lt (dot cross1 cross3) (float.fin 0) then false
    else true

/-- Function `std::clamp`. -/
def clamp (v lo hi : float) : float := if float.lt v lo then lo else if float.lt hi v then hi else v

/-- Function `closest_segment_segment` of geometry.cpp. The pair `st` holds the parameters
`s` and `t` at the end of the three nested cases. -/
def closest_segment_segment (seg1 seg2 : segment) : segment :=
  if (vec3.eq seg1.mPos1 seg2.mPos1 && vec3.eq seg1.mPos2 seg2.mPos2) ||
      (vec3.eq seg1.mPos1 seg2.mPos2 && vec3.eq seg1.mPos2 seg2.mPos1) then
    { mPos1 := seg1.mPos2, mPos2 := seg2.mPos1 }
  else
    let dir1 := seg1.mPos2 - seg1.mPos1
    let dir2 := seg2.mPos2 - seg2.mPos1
    let startsVec := seg1.mPos1 - seg2.mPos1
    let seg1LengthSq := length2 dir1
    let seg2LengthSq := length2 dir2
    let dotStartsDir2 := dot dir2 startsVec
    if are_equal seg1LengthSq (float.fin 0) && are_equal seg2LengthSq (float.fin 0) then
      { mPos1 := seg1.mPos1, mPos2 := seg2.mPos1 }
    else
      let st : float × float :=
        if are_equal seg1LengthSq (float.fin 0) then
          (float.fin 0, clamp (dotStartsDir2 / seg2LengthSq) (float.fin 0) (float.fin 1))
        else
          let dotStartsDir1 := dot dir1 startsVec
          if are_equal seg2LengthSq (float.fin 0) then
            (clamp (-dotStartsDir1 / seg1LengthSq) (float.fin 0) (float.fin 1), float.fin 0)
          else
            let dotDirs := dot dir1 dir2
            let denominator := seg1LengthSq * seg2LengthSq - dotDirs * dotDirs
            let s0 :=
              if are_equal denominator (float.fin 0) = false then
                clamp ((dotDirs * dotStartsDir2 - dotStartsDir1 * seg2LengthSq) / denominator)
                  (float.fin 0) (float.fin 1)
              else float.fin 0
            let t0 := (dotDirs * s0 + dotStartsDir2) / seg2LengthSq
            if float.lt t0 (float.fin 0) then
              (clamp (-dotStartsDir1 / seg1LengthSq) (float.fin 0) (float.fin 1), float.fin 0)
            else if float.lt (float.fin 1) t0 then
              (clamp ((dotDirs - dotStartsDir1) / seg1LengthSq) (float.fin 0) (float.fin 1),
                float.fin 1)
            else (s0, t0)
      { mPos1 := seg1.mPos1 + vec3.smul st.1 dir1, mPos2 := seg2.mPos1 + vec3.smul st.2 dir2 }

end fp

/-- A ray with finite coordinates as a ray of `float`s. -/
def ray.to_fp (r : ray) : fp.ray := { mOrigin := r.mOrigin.to_fp, mDir := r.mDir.to_fp }

/-- A triangle with finite coordinates as a triangle of `float`s. -/
def triangle.to_fp (t : triangle) : fp.triangle :=
  { mPos1 := t.mPos1.to_fp, mPos2 := t.mPos2.to_fp, mPos3 := t.mPos3.to_fp }

/-- A segment with finite coordinates as a segment of `float`s. -/
def segment.to_fp (s : segment) : fp.segment :=
  { mPos1 := s.mPos1.to_fp, mPos2 := s.mPos2.to_fp }

/-! ## geometry.cpp read in exact arithmetic

The definitions of the namespace `ideal` are not the program. They are the statements of
`are_equal`, `intersection_ray_aabb` and `classify_plane_aabb` read over the rationals,
where no operation rounds; the tolerance is the decimal value 1e-6. The theorems on the
`float` functions of the namespace `fp` compare the two on the inputs on which no
operation of the `float` computation rounds. -/

namespace ideal

/-- The test of `are_equal` of math.cpp on exact values. -/
def are_equal (x y : ℚ) : Bool :=
  if x ≤ y + cEpsilon ∧ x ≥ y - cEpsilon then true else false

/-- The body of the slab loop of `intersection_ray_aabb` for axis `i` on exact values;
`none` stands for the early `return -1.0f`. -/
def ray_aabb_slab (ray_ : ray) (box : aabb) (i : Nat) (t : ℚ × ℚ) : Option (ℚ × ℚ) :=
  if are_equal (ray_.mDir.get i) 0 then
    if ray_.mOrigin.get i < box.mMinPos.get i ∨ ray_.mOrigin.get i > box.mMaxPos.get i then none
    else some t
  else
    let tEnter0 := (box.mMinPos.get i - ray_.mOrigin.get i) / ray_.mDir.get i
    let tExit0 := (box.mMaxPos.get i - ray_.mOrigin.get i) / ray_.mDir.get i
    let tEnter := if tEnter0 > tExit0 then tExit0 else tEnter0
    let tExit := if tEnter0 > tExit0 then tEnter0 else tExit0
    let tMin := if tEnter > t.1 then tEnter else t.1
    let tMax := if tExit < t.2 then tExit else t.2
    if tMin > tMax then none else some (tMin, tMax)

/-- The slab loop of `intersection_ray_aabb` on exact values; the first argument is the
number of axes left. -/
def ray_aabb_loop (ray_ : ray) (box : aabb) : Nat → Nat → ℚ × ℚ → Option (ℚ × ℚ)
  | 0, _, t => some t
  | k + 1, i, t =>
    match ray_aabb_slab ray_ box i t with
    | none => none
    | some t1 => ray_aabb_loop ray_ box k (i + 1) t1

/-- The statements of `intersection_ray_aabb` on exact values. -/
def intersection_ray_aabb (ray_ : ray) (box : aabb) : ℚ :=
  match ray_aabb_loop ray_ box 3 0 (0, FLT_MAX) with
  | none => -1
  | some t => if t.1 > 0 then t.1 else 0

end ideal

/-! ## Inputs and predicates of the theorems on `float` geometry -/

/-- Ray for C20: from (-3/2, 0, 0) along +x with speed 3. -/
def third_ray : ray := { mOrigin := ⟨-3 / 2, 0, 0⟩, mDir := ⟨3, 0, 0⟩ }

/-- Ray for C21: from (-15/2, 0, 0) along +x with speed 10. -/
def tenth_ray : ray := { mOrigin := ⟨-15 / 2, 0, 0⟩, mDir := ⟨10, 0, 0⟩ }

/-- The rational `q` is a multiple `m * 2^k` of the power of two `2^k` by an integer `m`
with `|m| <= M`. -/
def on_grid (k : Int) (M : Nat) (q : ℚ) : Prop :=
  ∃ m : Int, q = (m : ℚ) * (2 : ℚ) ^ k ∧ |m| ≤ (M : Int)

/-- The three components of a vector are multiples of `2^k` by integers up to `M`. -/
def vec3.grid (k : Int) (M : Nat) (v : vec3) : Prop :=
  on_grid k M v.x ∧ on_grid k M v.y ∧ on_grid k M v.z

/-- The value is not positive: a finite value `<= 0`, minus infinity, or a NaN. -/
def float.nonpos : float → Prop
  | float.fin q => q ≤ 0
  | float.inf s => s = true
  | float.nan => True

/-- Triangle for C23: (2^-28, -3, 0), (1/32, 0, 0), (7/32768, 1/256, 0). -/
def thin_triangle : triangle :=
  { mPos1 := ⟨1 / 268435456, -3, 0⟩, mPos2 := ⟨1 / 32, 0, 0⟩, mPos3 := ⟨7 / 32768, 1 / 256, 0⟩ }

/-- Smallest positive `float`, the subnormal `FLT_TRUE_MIN` = 2^-149. -/
def FLT_TRUE_MIN : ℚ := (2 : ℚ) ^ (-149 : Int)

/-- The value is zero or above: a finite value `>= 0` or plus infinity. -/
def float.ge_zero : float → Prop
  | float.fin q => 0 ≤ q
  | float.inf s => s = false
  | float.nan => False

/-- The value is above zero: a finite value of at least `FLT_TRUE_MIN` or plus infinity. -/
def float.gt_zero : float → Prop
  | float.fin q => FLT_TRUE_MIN ≤ q
  | float.inf s => s = false
  | float.nan => False

/-- Unary minus of a `glm::vec3`. -/
def fp.vec3.neg (v : fp.vec3) : fp.vec3 := ⟨-v.x, -v.y, -v.z⟩

/-- Plane for C19: through the origin with normal (2^64, 0, 0). -/
def steep_plane : plane := { mPoint := ⟨0, 0, 0⟩, mNormal := ⟨2 ^ 64, 0, 0⟩ }

/-- The three components of a vector have magnitude at most `B`. -/
def vec3.within (B : ℚ) (v : vec3) : Prop := |v.x| ≤ B ∧ |v.y| ≤ B ∧ |v.z| ≤ B

instance (B : ℚ) (v : vec3) : Decidable (v.within B) := by
  unfold vec3.within
  infer_instance

/-- Segment for C24: from the origin to (10000, 0, 0). -/
def long_segment : segment := { mPos1 := ⟨0, 0, 0⟩, mPos2 := ⟨10000, 0, 0⟩ }

/-- Segment for C24: from (0, 1, 0) to (10000, 0, 0), which ends where `long_segment`
ends. -/
def slanted_segment : segment := { mPos1 := ⟨0, 1, 0⟩, mPos2 := ⟨10000, 0, 0⟩ }

/-! # Theorems -/

/-! ## Lemmas: binary32 rounding -/

theorem two_zpow_pos (e : Int) : (0 : ℚ) < (2 : ℚ) ^ e := zpow_pos (by norm_num) e

theorem two_zpow_succ (e : Int) : (2 : ℚ) ^ (e + 1) = 2 * (2 : ℚ) ^ e := by
  rw [zpow_add_one₀ (by norm_num)]
  ring

theorem two_zpow_le {a b : Int} (h : a ≤ b) : (2 : ℚ) ^ a ≤ (2 : ℚ) ^ b :=
  zpow_le_zpow_right₀ (by norm_num) h

theorem two_zpow_lt {a b : Int} (h : a < b) : (2 : ℚ) ^ a < (2 : ℚ) ^ b :=
  zpow_lt_zpow_right₀ (by norm_num) h

theorem exponent_search_spec : ∀ (n : Nat) (e : Int) (p q : ℚ), p = (2 : ℚ) ^ e →
    e ≤ exponent_search n e p q ∧ exponent_search n e p q ≤ e + n ∧
    (e < exponent_search n e p q → (2 : ℚ) ^ exponent_search n e p q ≤ q) ∧
    (exponent_search n e p q < e + n → q < (2 : ℚ) ^ (exponent_search n e p q + 1)) ∧
    ((2 : ℚ) ^ e ≤ q → (2 : ℚ) ^ exponent_search n e p q ≤ q) := by
  intro n
  induction n with
  | zero =>
    intro e p q _
    simp only [exponent_search]
    exact ⟨le_refl _, by simp, fun h => absurd h (lt_irrefl _), fun h => absurd h (by simp),
      fun h => h⟩
  | succ n ih =>
    intro e p q hp
    rw [exponent_search]
    by_cases h2 : 2 * p ≤ q
    · rw [if_pos h2]
      have hp2 : 2 * p = (2 : ℚ) ^ (e + 1) := by rw [two_zpow_succ, hp]
      obtain ⟨a, b, c, d, f⟩ := ih (e + 1) (2 * p) q hp2
      rw [hp2] at h2
      refine ⟨by omega, by push_cast; omega, fun _ => f h2, fun h => d (by push_cast at h; omega),
        fun _ => f h2⟩
    · rw [if_neg h2]
      refine ⟨le_refl _, by push_cast; omega, fun h => absurd h (lt_irrefl _), fun _ => ?_,
        fun h => h⟩
      rw [two_zpow_succ, ← hp]
      exact not_le.mp h2

theorem exponent_spec (q : ℚ) :
    -126 ≤ exponent q ∧ exponent q ≤ 127 ∧
    (-126 < exponent q → (2 : ℚ) ^ exponent q ≤ |q|) ∧
    (exponent q < 127 → |q| < (2 : ℚ) ^ (exponent q + 1)) ∧
    ((2 : ℚ) ^ (-126 : Int) ≤ |q| → (2 : ℚ) ^ exponent q ≤ |q|) := by
  obtain ⟨a, b, c, d, f⟩ := exponent_search_spec 253 (-126) ((2 : ℚ) ^ (-126 : Int)) |q| rfl
  exact ⟨a, by unfold exponent; push_cast at b; omega, c,
    fun h => d (by unfold exponent at h; push_cast; omega), f⟩

theorem exponent_neg (q : ℚ) : exponent (-q) = exponent q := by
  unfold exponent
  rw [abs_neg]



theorem round_even_int (n : Int) : round_even (n : ℚ) = n := by
  unfold round_even
  simp only [Int.floor_intCast, sub_self]
  rw [if_pos (by norm_num)]

theorem round_even_bounds (m : ℚ) : Int.floor m ≤ round_even m ∧ round_even m ≤ Int.floor m + 1 := by
  unfold round_even
  simp only []
  split
  · exact ⟨le_refl _, by omega⟩
  · split
    · exact ⟨by omega, le_refl _⟩
    · split
      · exact ⟨le_refl _, by omega⟩
      · exact ⟨by omega, le_refl _⟩

/-- Below the half-way point the result is the floor, above it the floor plus one. -/
theorem round_even_cases (m : ℚ) :
    (m - Int.floor m < 1 / 2 → round_even m = Int.floor m) ∧
    (1 / 2 < m - Int.floor m → round_even m = Int.floor m + 1) := by
  unfold round_even
  simp only []
  constructor
  · intro h
    rw [if_pos h]
  · intro h
    rw [if_neg (by linarith), if_pos h]

theorem round_even_mono {a b : ℚ} (h : a ≤ b) : round_even a ≤ round_even b := by
  have hf : Int.floor a ≤ Int.floor b := Int.floor_mono h
  obtain ⟨a1, a2⟩ := round_even_bounds a
  obtain ⟨b1, b2⟩ := round_even_bounds b
  rcases lt_or_eq_of_le hf with hlt | heq
  · omega
  · -- same floor
    by_cases ha : a - Int.floor a < 1 / 2
    · rw [(round_even_cases a).1 ha]
      omega
    · by_cases hb : 1 / 2 < b - Int.floor b
      · rw [(round_even_cases b).2 hb]
        omega
      · -- both fractions are exactly one half
        have hb' : b - Int.floor b ≤ 1 / 2 := not_lt.mp hb
        have ha' : 1 / 2 ≤ a - Int.floor a := not_lt.mp ha
        have hab : a = b := by
          have e : (Int.floor a : ℚ) = Int.floor b := by rw [heq]
          linarith
        rw [hab]

theorem round_even_le_of_le {m : ℚ} {n : Int} (h : m ≤ n) : round_even m ≤ n := by
  have := round_even_mono h
  rw [round_even_int] at this
  exact this

theorem round_even_ge_of_ge {m : ℚ} {n : Int} (h : (n : ℚ) ≤ m) : n ≤ round_even m := by
  have := round_even_mono h
  rw [round_even_int] at this
  exact this

theorem round_even_neg (m : ℚ) : round_even (-m) = -round_even m := by
  by_cases hint : (Int.floor m : ℚ) = m
  · rw [← hint, ← Int.cast_neg, round_even_int, round_even_int]
  · have hfl : (Int.floor m : ℚ) < m := lt_of_le_of_ne (Int.floor_le m) hint
    have hlt : m < Int.floor m + 1 := Int.lt_floor_add_one m
    have hneg : Int.floor (-m) = -Int.floor m - 1 := by
      rw [Int.floor_eq_iff]
      push_cast
      constructor <;> linarith
    have hfrac : -m - ((Int.floor (-m) : Int) : ℚ) = 1 - (m - Int.floor m) := by
      rw [hneg]
      push_cast
      ring
    unfold round_even
    simp only []
    rw [hfrac, hneg]
    by_cases h1 : m - Int.floor m < 1 / 2
    · rw [if_pos h1, if_neg (by linarith), if_pos (by linarith)]
      omega
    · rw [if_neg h1]
      by_cases h2 : m - Int.floor m > 1 / 2
      · rw [if_pos h2, if_pos (by linarith)]
        omega
      · rw [if_neg h2]
        have heq : m - Int.floor m = 1 / 2 := le_antisymm (not_lt.mp h2) (not_lt.mp h1)
        rw [if_neg (by linarith), if_neg (by linarith)]
        by_cases hev : Int.floor m % 2 = 0
        · rw [if_pos hev, if_neg (by omega)]
          omega
        · rw [if_neg hev, if_pos (by omega)]
          omega



theorem round_def (q : ℚ) :
    float.round q = if |rounded q| ≥ 2 ^ 128 then float.inf (decide (q < 0))
      else float.fin (rounded q) := rfl

theorem rounded_neg (q : ℚ) : rounded (-q) = -rounded q := by
  unfold rounded
  rw [exponent_neg, neg_div, round_even_neg]
  push_cast
  ring

theorem rounded_nonneg {q : ℚ} (h : 0 ≤ q) : 0 ≤ rounded q := by
  unfold rounded
  have hu := two_zpow_pos (exponent q - 23)
  have : (0 : Int) ≤ round_even (q / (2 : ℚ) ^ (exponent q - 23)) :=
    round_even_ge_of_ge (by
      push_cast
      exact div_nonneg h (le_of_lt hu))
  exact mul_nonneg (by exact_mod_cast this) (le_of_lt hu)

theorem exponent_mono {a b : ℚ} (h : |a| ≤ |b|) : exponent a ≤ exponent b := by
  by_contra hlt
  rw [not_le] at hlt
  obtain ⟨a1, a2, a3, a4, a5⟩ := exponent_spec a
  obtain ⟨b1, b2, b3, b4, b5⟩ := exponent_spec b
  have h1 := a3 (by omega)
  have h2 := b4 (by omega)
  have h3 : (2 : ℚ) ^ (exponent b + 1) ≤ (2 : ℚ) ^ exponent a := two_zpow_le (by omega)
  linarith

theorem rounded_mono_nonneg {a b : ℚ} (ha : 0 ≤ a) (h : a ≤ b) : rounded a ≤ rounded b := by
  have hb : 0 ≤ b := le_trans ha h
  have habs : |a| ≤ |b| := by rw [abs_of_nonneg ha, abs_of_nonneg hb]; exact h
  have hE := exponent_mono habs
  obtain ⟨a1, a2, a3, a4, a5⟩ := exponent_spec a
  obtain ⟨b1, b2, b3, b4, b5⟩ := exponent_spec b
  rw [abs_of_nonneg ha] at a3 a4
  rw [abs_of_nonneg hb] at b3 b4
  have hua := two_zpow_pos (exponent a - 23)
  have hub := two_zpow_pos (exponent b - 23)
  rcases lt_or_eq_of_le hE with hlt | heq
  · -- different binades
    have h1 : rounded a ≤ (2 : ℚ) ^ (exponent a + 1) := by
      unfold rounded
      have hq : a / (2 : ℚ) ^ (exponent a - 23) ≤ ((2 ^ 24 : Int) : ℚ) := by
        rw [div_le_iff₀ hua]
        have e : (((2 : Int) ^ 24 : Int) : ℚ) * (2 : ℚ) ^ (exponent a - 23) =
            (2 : ℚ) ^ (exponent a + 1) := by
          have : ((2 ^ 24 : Int) : ℚ) = (2 : ℚ) ^ (24 : Int) := by norm_num
          rw [this, ← zpow_add₀ (by norm_num)]
          congr 1
          ring
        rw [e]
        exact le_of_lt (a4 (by omega))
      have hr := round_even_le_of_le hq
      have hr' : (round_even (a / (2 : ℚ) ^ (exponent a - 23)) : ℚ) ≤ ((2 ^ 24 : Int) : ℚ) := by
        exact_mod_cast hr
      have e : (((2 : Int) ^ 24 : Int) : ℚ) * (2 : ℚ) ^ (exponent a - 23) =
          (2 : ℚ) ^ (exponent a + 1) := by
        have : ((2 ^ 24 : Int) : ℚ) = (2 : ℚ) ^ (24 : Int) := by norm_num
        rw [this, ← zpow_add₀ (by norm_num)]
        congr 1
        ring
      rw [← e]
      exact mul_le_mul_of_nonneg_right hr' (le_of_lt hua)
    have h2 : (2 : ℚ) ^ exponent b ≤ rounded b := by
      unfold rounded
      have e : (((2 : Int) ^ 23 : Int) : ℚ) * (2 : ℚ) ^ (exponent b - 23) = (2 : ℚ) ^ exponent b := by
        have : ((2 ^ 23 : Int) : ℚ) = (2 : ℚ) ^ (23 : Int) := by norm_num
        rw [this, ← zpow_add₀ (by norm_num)]
        congr 1
        ring
      have hq : ((2 ^ 23 : Int) : ℚ) ≤ b / (2 : ℚ) ^ (exponent b - 23) := by
        rw [le_div_iff₀ hub, e]
        exact b3 (by omega)
      have hr := round_even_ge_of_ge hq
      have hr' : ((2 ^ 23 : Int) : ℚ) ≤ (round_even (b / (2 : ℚ) ^ (exponent b - 23)) : ℚ) := by
        exact_mod_cast hr
      rw [← e]
      exact mul_le_mul_of_nonneg_right hr' (le_of_lt hub)
    have h3 : (2 : ℚ) ^ (exponent a + 1) ≤ (2 : ℚ) ^ exponent b := two_zpow_le (by omega)
    linarith
  · unfold rounded
    rw [heq]
    have hq : a / (2 : ℚ) ^ (exponent b - 23) ≤ b / (2 : ℚ) ^ (exponent b - 23) :=
      div_le_div_of_nonneg_right h (le_of_lt hub)
    have hr := round_even_mono hq
    have hr' : (round_even (a / (2 : ℚ) ^ (exponent b - 23)) : ℚ) ≤
        (round_even (b / (2 : ℚ) ^ (exponent b - 23)) : ℚ) := by exact_mod_cast hr
    exact mul_le_mul_of_nonneg_right hr' (le_of_lt hub)

theorem rounded_mono {a b : ℚ} (h : a ≤ b) : rounded a ≤ rounded b := by
  rcases le_or_lt 0 a with ha | ha
  · exact rounded_mono_nonneg ha h
  · rcases le_or_lt 0 b with hb | hb
    · have h1 : rounded a ≤ 0 := by
        have := rounded_nonneg (le_of_lt (neg_pos.mpr ha))
        rw [rounded_neg] at this
        linarith
      exact le_trans h1 (rounded_nonneg hb)
    · have := rounded_mono_nonneg (le_of_lt (neg_pos.mpr hb)) (neg_le_neg h)
      rw [rounded_neg, rounded_neg] at this
      linarith

/-- A value `m * 2^j` with a 24-bit `m` and `j` at least -149 is its own rounding. -/
theorem rounded_exact (q : ℚ) (m j : Int) (hq : q = (m : ℚ) * (2 : ℚ) ^ j) (hm : |m| < 2 ^ 24)
    (hj : -149 ≤ j) : rounded q = q := by
  obtain ⟨a1, a2, a3, a4, a5⟩ := exponent_spec q
  have hu := two_zpow_pos (exponent q - 23)
  have hle : exponent q - 23 ≤ j := by
    by_cases hE : exponent q = -126
    · omega
    · have h1 := a3 (by omega)
      have hmq : |q| < (2 : ℚ) ^ (24 + j) := by
        rw [hq, abs_mul, abs_of_pos (two_zpow_pos j), zpow_add₀ (by norm_num)]
        apply mul_lt_mul_of_pos_right _ (two_zpow_pos j)
        have : ((|m| : Int) : ℚ) < ((2 ^ 24 : Int) : ℚ) := by exact_mod_cast hm
        rw [Int.cast_abs] at this
        calc |(m : ℚ)| < ((2 ^ 24 : Int) : ℚ) := this
          _ = (2 : ℚ) ^ (24 : Int) := by norm_num
      have : (2 : ℚ) ^ exponent q < (2 : ℚ) ^ (24 + j) := lt_of_le_of_lt h1 hmq
      have := (zpow_lt_zpow_iff_right₀ (by norm_num : (1 : ℚ) < 2)).mp this
      omega
  obtain ⟨k, hk⟩ : ∃ k : Nat, j = exponent q - 23 + k := ⟨(j - (exponent q - 23)).toNat, by omega⟩
  unfold rounded
  generalize exponent q = E at hk hu ⊢
  have hdiv : q / (2 : ℚ) ^ (E - 23) = ((m * 2 ^ k : Int) : ℚ) := by
    rw [hq, hk, zpow_add₀ (by norm_num)]
    push_cast
    field_simp
    ring
  rw [hdiv, round_even_int, ← hdiv]
  field_simp

theorem float_round_exact (q : ℚ) (m j : Int) (hq : q = (m : ℚ) * (2 : ℚ) ^ j) (hm : |m| < 2 ^ 24)
    (hj : -149 ≤ j) (hlt : |q| < 2 ^ 128) : float.round q = float.fin q := by
  rw [round_def, rounded_exact q m j hq hm hj, if_neg (not_le.mpr hlt)]

namespace float

theorem add_def (x y : float) : x + y = add x y := rfl

theorem sub_def (x y : float) : x - y = add x (neg y) := rfl

theorem mul_def (x y : float) : x * y = mul x y := rfl

theorem div_def (x y : float) : x / y = div x y := rfl

theorem neg_def (x : float) : -x = neg x := rfl

theorem add_fin (a b : ℚ) : fin a + fin b = round (a + b) := rfl

theorem sub_fin (a b : ℚ) : fin a - fin b = round (a - b) := by
  rw [sub_def, neg, add, sub_eq_add_neg]

theorem mul_fin (a b : ℚ) : fin a * fin b = round (a * b) := rfl

theorem div_fin (a b : ℚ) (hb : b ≠ 0) : fin a / fin b = round (a / b) := by
  rw [div_def, div, if_neg hb]

theorem lt_lt {a b c : float} (h1 : lt a b = true) (h2 : lt b c = true) : lt a c = true := by
  rcases a with a | ⟨_ | _⟩ | _ <;> rcases b with b | ⟨_ | _⟩ | _ <;> rcases c with c | ⟨_ | _⟩ | _ <;>
    simp_all [lt] <;> linarith

theorem lt_le {a b c : float} (h1 : lt a b = true) (h2 : le b c = true) :
    lt a c = true := by
  rcases a with a | ⟨_ | _⟩ | _ <;> rcases b with b | ⟨_ | _⟩ | _ <;> rcases c with c | ⟨_ | _⟩ | _ <;>
    simp_all [lt, le] <;> linarith

theorem lt_imp_le {a b : float} (h : lt a b = true) : le a b = true := by
  rcases a with a | ⟨_ | _⟩ | _ <;> rcases b with b | ⟨_ | _⟩ | _ <;> simp_all [lt, le] <;> linarith

theorem lt_of_le_of_not_le {a b : float} (h1 : le a b = true) (h2 : le b a = false) :
    lt a b = true := by
  rcases a with a | ⟨_ | _⟩ | _ <;> rcases b with b | ⟨_ | _⟩ | _ <;> simp_all [lt, le]

theorem lt_imp_not_le {a b : float} (h : lt a b = true) : le b a = false := by
  rcases a with a | ⟨_ | _⟩ | _ <;> rcases b with b | ⟨_ | _⟩ | _ <;> simp_all [lt, le]

theorem le_imp_not_lt {a b : float} (h : le a b = true) : lt b a = false := by
  rcases a with a | ⟨_ | _⟩ | _ <;> rcases b with b | ⟨_ | _⟩ | _ <;> simp_all [lt, le]

theorem fin_of_add {x y : float} {q : ℚ} (h : x + y = fin q) : ∃ a b, x = fin a ∧ y = fin b := by
  rw [add_def] at h
  cases x <;> cases y <;> simp [add] at h
  · exact ⟨_, _, rfl, rfl⟩
  · split at h <;> simp at h

theorem fin_of_mul {x y : float} {q : ℚ} (h : x * y = fin q) : ∃ a b, x = fin a ∧ y = fin b := by
  rw [mul_def] at h
  cases x <;> cases y <;> simp [mul] at h
  · exact ⟨_, _, rfl, rfl⟩
  · split at h <;> simp at h
  · split at h <;> simp at h

theorem fin_of_sub {x y : float} {q : ℚ} (h : x - y = fin q) : ∃ a b, x = fin a ∧ y = fin b := by
  rw [sub_def] at h
  cases x <;> cases y <;> simp [add, neg] at h
  · exact ⟨_, _, rfl, rfl⟩
  · split at h <;> simp at h

end float

theorem round_eq_fin {q r : ℚ} (h : float.round q = float.fin r) :
    r = rounded q ∧ |rounded q| < 2 ^ 128 := by
  rw [round_def] at h
  split at h
  · exact absurd h (by simp)
  · next hlt =>
    simp only [float.fin.injEq] at h
    exact ⟨h.symm, not_le.mp hlt⟩

theorem round_of_lt {q : ℚ} (h : |rounded q| < 2 ^ 128) : float.round q = float.fin (rounded q) := by
  rw [round_def, if_neg (not_le.mpr h)]

/-- Rounding is monotone on the finite non-negative values. -/
theorem round_fin_mono {a b rb : ℚ} (h0 : 0 ≤ a) (hab : a ≤ b) (hb : float.round b = float.fin rb) :
    ∃ ra, float.round a = float.fin ra ∧ 0 ≤ ra ∧ ra ≤ rb := by
  obtain ⟨e, hlt⟩ := round_eq_fin hb
  have h1 := rounded_nonneg h0
  have h2 := rounded_mono hab
  have h3 : |rounded a| < 2 ^ 128 := by
    rw [abs_of_nonneg h1]
    exact lt_of_le_of_lt h2 (lt_of_le_of_lt (le_abs_self _) hlt)
  exact ⟨rounded a, round_of_lt h3, h1, by rw [e]; exact h2⟩

namespace float

/-- The pair `x`, `y` of finite values with `0 <= x <= y`. -/
theorem dom_mul {x y u v : float} {p : ℚ}
    (hx : ∃ a b, x = fin a ∧ y = fin b ∧ 0 ≤ a ∧ a ≤ b)
    (hu : ∃ a b, u = fin a ∧ v = fin b ∧ 0 ≤ a ∧ a ≤ b) (hp : y * v = fin p) :
    ∃ a b, x * u = fin a ∧ y * v = fin b ∧ 0 ≤ a ∧ a ≤ b := by
  obtain ⟨a, b, rfl, rfl, ha, hab⟩ := hx
  obtain ⟨c, d, rfl, rfl, hc, hcd⟩ := hu
  rw [mul_fin] at hp ⊢
  rw [mul_fin]
  obtain ⟨ra, e, h1, h2⟩ := round_fin_mono (mul_nonneg ha hc)
    (mul_le_mul hab hcd hc (ha.trans hab)) hp
  exact ⟨ra, p, e, hp, h1, h2⟩

theorem dom_add {x y u v : float} {p : ℚ}
    (hx : ∃ a b, x = fin a ∧ y = fin b ∧ 0 ≤ a ∧ a ≤ b)
    (hu : ∃ a b, u = fin a ∧ v = fin b ∧ 0 ≤ a ∧ a ≤ b) (hp : y + v = fin p) :
    ∃ a b, x + u = fin a ∧ y + v = fin b ∧ 0 ≤ a ∧ a ≤ b := by
  obtain ⟨a, b, rfl, rfl, ha, hab⟩ := hx
  obtain ⟨c, d, rfl, rfl, hc, hcd⟩ := hu
  rw [add_fin] at hp ⊢
  rw [add_fin]
  obtain ⟨ra, e, h1, h2⟩ := round_fin_mono (add_nonneg ha hc) (add_le_add hab hcd) hp
  exact ⟨ra, p, e, hp, h1, h2⟩

end float

namespace float

theorem nonneg_round {q : ℚ} (h : 0 ≤ q) : nonneg (round q) := by
  rw [round_def]
  split
  · simp [nonneg, not_lt.mpr h]
  · exact rounded_nonneg h

theorem nonneg_add {x y : float} (hx : nonneg x) (hy : nonneg y) : nonneg (x + y) := by
  rw [add_def]
  rcases x with a | ⟨_ | _⟩ | _ <;> rcases y with b | ⟨_ | _⟩ | _ <;> simp_all [nonneg, add]
  exact nonneg_round (add_nonneg hx hy)

theorem nonneg_mul {x y : float} (hx : nonneg x) (hy : nonneg y) : nonneg (x * y) := by
  rw [mul_def]
  rcases x with a | ⟨_ | _⟩ | _ <;> rcases y with b | ⟨_ | _⟩ | _ <;> simp_all [nonneg, mul]
  · exact nonneg_round (mul_nonneg hx hy)
  · by_cases h0 : a = 0
    · simp [h0, nonneg]
    · simp [h0, nonneg, not_lt.mpr hx]
  · by_cases h0 : b = 0
    · simp [h0, nonneg]
    · simp [h0, nonneg, not_lt.mpr hy]

theorem fin_of_lt_nonneg {x : float} {M : ℚ} (hx : nonneg x) (h : lt x (fin M) = true) :
    ∃ q, x = fin q ∧ q < M := by
  rcases x with a | ⟨_ | _⟩ | _ <;> simp_all [nonneg, lt]

end float


/-! ## Lemmas: binary32 bounds and exactness -/

/-- Rounding is monotone, infinities included. -/
theorem round_le_round {a b : ℚ} (h : a ≤ b) : float.le (float.round a) (float.round b) = true := by
  have hm := rounded_mono h
  rw [round_def, round_def]
  by_cases ha : |rounded a| ≥ 2 ^ 128
  · rw [if_pos ha]
    by_cases hneg : a < 0
    · by_cases hb : |rounded b| ≥ 2 ^ 128
      · rw [if_pos hb]
        simp [float.le, hneg]
      · rw [if_neg hb]
        simp [float.le, hneg]
    · have h0 : 0 ≤ a := not_lt.mp hneg
      have hra := rounded_nonneg h0
      rw [abs_of_nonneg hra] at ha
      have hrb : |rounded b| ≥ 2 ^ 128 := by
        rw [abs_of_nonneg (hra.trans hm)]
        exact ha.trans hm
      rw [if_pos hrb]
      have hb0 : ¬ b < 0 := not_lt.mpr (h0.trans h)
      simp [float.le, hneg, hb0]
  · rw [if_neg ha]
    by_cases hb : |rounded b| ≥ 2 ^ 128
    · rw [if_pos hb]
      have hbneg : ¬ b < 0 := by
        intro hb0
        have hrb : rounded b ≤ 0 := by
          have := rounded_nonneg (le_of_lt (neg_pos.mpr hb0))
          rw [rounded_neg] at this
          linarith
        rw [abs_of_nonpos hrb] at hb
        rw [not_le] at ha
        have := neg_abs_le (rounded a)
        linarith
      simp [float.le, hbneg]
    · rw [if_neg hb]
      simp [float.le, hm]

/-- A finite result of a rounding is at most `FLT_MAX` in magnitude. -/
theorem round_le_max {x q : ℚ} (h : float.round x = float.fin q) : |q| ≤ FLT_MAX := by
  obtain ⟨e, hlt⟩ := round_eq_fin h
  obtain ⟨a1, a2, a3, a4, a5⟩ := exponent_spec x
  by_cases hE : exponent x = 127
  · rw [e]
    unfold rounded at hlt ⊢
    rw [hE] at hlt ⊢
    have hu : (2 : ℚ) ^ ((127 : Int) - 23) = 2 ^ 104 := by norm_num
    rw [hu] at hlt ⊢
    rw [abs_mul, abs_of_pos (by norm_num : (0 : ℚ) < 2 ^ 104)] at hlt ⊢
    have hn : |(round_even (x / 2 ^ 104) : ℚ)| < 2 ^ 24 := by
      by_contra hc
      rw [not_lt] at hc
      have : (2 : ℚ) ^ 24 * 2 ^ 104 ≤ |(round_even (x / 2 ^ 104) : ℚ)| * 2 ^ 104 :=
        mul_le_mul_of_nonneg_right hc (by norm_num)
      norm_num at this hlt
      linarith
    have hn2 : |round_even (x / 2 ^ 104)| < 2 ^ 24 := by
      have : ((|round_even (x / 2 ^ 104)| : Int) : ℚ) < ((2 ^ 24 : Int) : ℚ) := by
        rw [Int.cast_abs]
        norm_num
        norm_num at hn
        exact hn
      exact_mod_cast this
    have hn3 : |round_even (x / 2 ^ 104)| ≤ 2 ^ 24 - 1 := by omega
    have hn4 : |(round_even (x / 2 ^ 104) : ℚ)| ≤ 2 ^ 24 - 1 := by
      have : ((|round_even (x / 2 ^ 104)| : Int) : ℚ) ≤ ((2 ^ 24 - 1 : Int) : ℚ) := by
        exact_mod_cast hn3
      rw [Int.cast_abs] at this
      norm_num at this
      norm_num
      exact this
    have := mul_le_mul_of_nonneg_right hn4 (by norm_num : (0 : ℚ) ≤ 2 ^ 104)
    unfold FLT_MAX
    norm_num at this ⊢
    exact this
  · have hx : |x| < 2 ^ 127 := by
      have h1 := a4 (by omega)
      have h2 : (2 : ℚ) ^ (exponent x + 1) ≤ (2 : ℚ) ^ (127 : Int) := two_zpow_le (by omega)
      have h3 : (2 : ℚ) ^ (127 : Int) = 2 ^ 127 := by norm_num
      linarith
    have hex : rounded (2 ^ 127) = 2 ^ 127 :=
      rounded_exact (2 ^ 127) 1 127 (by norm_num) (by norm_num) (by norm_num)
    have hup : rounded x ≤ 2 ^ 127 := by
      rw [← hex]
      exact rounded_mono (le_of_lt (lt_of_le_of_lt (le_abs_self x) hx))
    have hlo : -(2 ^ 127) ≤ rounded x := by
      have := rounded_mono (le_of_lt (lt_of_le_of_lt (neg_le_abs x) hx))
      rw [hex, rounded_neg] at this
      linarith
    rw [e, abs_le]
    unfold FLT_MAX
    constructor
    · linarith
    · linarith

/-! ## Lemmas: bounds through a rounding -/

theorem rounded_zero : rounded 0 = 0 :=
  rounded_exact 0 0 0 (by simp) (by norm_num) (by norm_num)

theorem rounded_pow (e : Int) (h1 : -149 ≤ e) : rounded ((2 : ℚ) ^ e) = (2 : ℚ) ^ e :=
  rounded_exact _ 1 e (by simp) (by norm_num) h1

theorem rounded_ge_pow {q : ℚ} {e : Int} (h1 : -149 ≤ e) (h : (2 : ℚ) ^ e ≤ q) :
    (2 : ℚ) ^ e ≤ rounded q :=
  calc (2 : ℚ) ^ e = rounded ((2 : ℚ) ^ e) := (rounded_pow e h1).symm
    _ ≤ rounded q := rounded_mono h

theorem rounded_le_pow {q : ℚ} {e : Int} (h1 : -149 ≤ e) (h : q ≤ (2 : ℚ) ^ e) :
    rounded q ≤ (2 : ℚ) ^ e :=
  calc rounded q ≤ rounded ((2 : ℚ) ^ e) := rounded_mono h
    _ = (2 : ℚ) ^ e := rounded_pow e h1

theorem rounded_abs_le_pow {q : ℚ} {e : Int} (h1 : -149 ≤ e) (h : |q| ≤ (2 : ℚ) ^ e) :
    |rounded q| ≤ (2 : ℚ) ^ e := by
  obtain ⟨hl, hu⟩ := abs_le.mp h
  rw [abs_le]
  refine ⟨?_, rounded_le_pow h1 hu⟩
  have := rounded_le_pow (q := -q) h1 (by linarith)
  rw [rounded_neg] at this
  linarith

theorem rounded_abs_ge_pow {q : ℚ} {e : Int} (h1 : -149 ≤ e) (h : (2 : ℚ) ^ e ≤ |q|) :
    (2 : ℚ) ^ e ≤ |rounded q| := by
  rcases le_or_lt 0 q with h0 | h0
  · rw [abs_of_nonneg h0] at h
    exact (rounded_ge_pow h1 h).trans (le_abs_self _)
  · rw [abs_of_neg h0] at h
    have := rounded_ge_pow h1 h
    rw [rounded_neg] at this
    exact this.trans (neg_le_abs _)

theorem rounded_nonpos {q : ℚ} (h : q ≤ 0) : rounded q ≤ 0 := by
  have := rounded_nonneg (q := -q) (by linarith)
  rw [rounded_neg] at this
  linarith

theorem exponent_small {q : ℚ} (h : |q| < (2 : ℚ) ^ (-125 : Int)) : exponent q = -126 := by
  obtain ⟨a1, a2, a3, a4, a5⟩ := exponent_spec q
  by_contra hne
  have h1 := a3 (by omega)
  have h2 : (2 : ℚ) ^ (-125 : Int) ≤ (2 : ℚ) ^ exponent q := two_zpow_le (by omega)
  linarith

theorem round_even_half : round_even (1 / 2) = 0 := by decide!

theorem round_even_neg_half : round_even (-(1 / 2)) = 0 := by
  rw [round_even_neg, round_even_half]
  rfl

/-- A value of magnitude at most `2^-150` rounds to zero. -/
theorem rounded_eq_zero {q : ℚ} (h : |q| ≤ (2 : ℚ) ^ (-150 : Int)) : rounded q = 0 := by
  have hlt : |q| < (2 : ℚ) ^ (-125 : Int) :=
    lt_of_le_of_lt h (two_zpow_lt (by norm_num))
  unfold rounded
  rw [exponent_small hlt]
  have hu : (2 : ℚ) ^ ((-126 : Int) - 23) = (2 : ℚ) ^ (-149 : Int) := by norm_num
  rw [hu]
  have hpos := two_zpow_pos (-149)
  have e150 : (2 : ℚ) ^ (-150 : Int) = (1 / 2) * (2 : ℚ) ^ (-149 : Int) := by
    rw [show (-150 : Int) = -149 - 1 by norm_num, zpow_sub₀ (by norm_num : (2 : ℚ) ≠ 0)]
    field_simp
    ring
  rw [e150] at h
  obtain ⟨hl, hr⟩ := abs_le.mp h
  generalize (2 : ℚ) ^ (-149 : Int) = u at hpos hl hr ⊢
  have h1 : q / u ≤ 1 / 2 := by
    rw [div_le_iff₀ hpos]
    linarith
  have h2 : -(1 / 2) ≤ q / u := by
    rw [le_div_iff₀ hpos]
    linarith
  have r1 := round_even_mono h1
  have r2 := round_even_mono h2
  rw [round_even_half] at r1
  rw [round_even_neg_half] at r2
  have : round_even (q / u) = 0 := le_antisymm r1 r2
  rw [this]
  simp

/-- A value of magnitude above `2^-150` does not round to zero. -/
theorem rounded_abs_ge_min {q : ℚ} (h : (2 : ℚ) ^ (-150 : Int) < |q|) :
    (2 : ℚ) ^ (-149 : Int) ≤ |rounded q| := by
  by_cases hbig : (2 : ℚ) ^ (-149 : Int) ≤ |q|
  · exact rounded_abs_ge_pow (by norm_num) hbig
  · rw [not_le] at hbig
    have hlt : |q| < (2 : ℚ) ^ (-125 : Int) := lt_trans hbig (two_zpow_lt (by norm_num))
    have hpos := two_zpow_pos (-149)
    have e150 : (2 : ℚ) ^ (-150 : Int) = (1 / 2) * (2 : ℚ) ^ (-149 : Int) := by
      rw [show (-150 : Int) = -149 - 1 by norm_num, zpow_sub₀ (by norm_num : (2 : ℚ) ≠ 0)]
      field_simp
      ring
    -- the positive case
    have key : ∀ x : ℚ, (2 : ℚ) ^ (-150 : Int) < x → x < (2 : ℚ) ^ (-149 : Int) →
        rounded x = (2 : ℚ) ^ (-149 : Int) := by
      intro x hx1 hx2
      have hx0 : 0 < x := lt_trans (two_zpow_pos _) hx1
      have hxl : |x| < (2 : ℚ) ^ (-125 : Int) := by
        rw [abs_of_pos hx0]
        exact lt_trans hx2 (two_zpow_lt (by norm_num))
      unfold rounded
      rw [exponent_small hxl]
      have hu : (2 : ℚ) ^ ((-126 : Int) - 23) = (2 : ℚ) ^ (-149 : Int) := by norm_num
      rw [hu]
      rw [e150] at hx1
      generalize (2 : ℚ) ^ (-149 : Int) = u at hpos hx1 hx2 ⊢
      have m1 : 1 / 2 < x / u := by
        rw [lt_div_iff₀ hpos]
        linarith
      have m2 : x / u < 1 := by
        rw [div_lt_iff₀ hpos]
        linarith
      have hfl : Int.floor (x / u) = 0 := by
        rw [Int.floor_eq_iff]
        constructor
        · push_cast
          linarith
        · push_cast
          linarith
      have := (round_even_cases (x / u)).2 (by rw [hfl]; push_cast; linarith)
      rw [this, hfl]
      push_cast
      ring
    rcases le_or_lt 0 q with h0 | h0
    · rw [abs_of_nonneg h0] at h hbig
      rw [key q h hbig, abs_of_pos hpos]
    · rw [abs_of_neg h0] at h hbig
      have := key (-q) h hbig
      rw [rounded_neg] at this
      have e : rounded q = -(2 : ℚ) ^ (-149 : Int) := by linarith
      rw [e, abs_neg, abs_of_pos hpos]

theorem round_fin_of_le {q : ℚ} (h : |q| ≤ (2 : ℚ) ^ (127 : Int)) :
    float.round q = float.fin (rounded q) := by
  apply round_of_lt
  have := rounded_abs_le_pow (by norm_num) h
  have e : (2 : ℚ) ^ (127 : Int) < 2 ^ 128 := by norm_num
  linarith

theorem round_neg (q : ℚ) : float.round (-q) = float.neg (float.round q) := by
  rw [round_def, round_def, rounded_neg, abs_neg]
  by_cases h : |rounded q| ≥ 2 ^ 128
  · rw [if_pos h, if_pos h]
    have hq : q ≠ 0 := by
      intro h0
      rw [h0, rounded_zero] at h
      norm_num at h
    simp only [float.neg, float.inf.injEq]
    rcases lt_or_gt_of_ne hq with h1 | h1
    · have : ¬ -q < 0 := by linarith
      simp [h1, this]
    · have h2 : -q < 0 := by linarith
      have : ¬ q < 0 := by linarith
      simp [h2, this]
  · rw [if_neg h, if_neg h]
    rfl

namespace float

end float

/-! ## Lemmas: values on a grid of powers of two -/

theorem on_grid_add {k : Int} {M N : Nat} {a b : ℚ} (ha : on_grid k M a) (hb : on_grid k N b) :
    on_grid k (M + N) (a + b) := by
  obtain ⟨m, rfl, hm⟩ := ha
  obtain ⟨n, rfl, hn⟩ := hb
  refine ⟨m + n, by push_cast; ring, ?_⟩
  have := abs_add m n
  push_cast
  omega

theorem on_grid_neg {k : Int} {M : Nat} {a : ℚ} (ha : on_grid k M a) : on_grid k M (-a) := by
  obtain ⟨m, rfl, hm⟩ := ha
  exact ⟨-m, by push_cast; ring, by rw [abs_neg]; exact hm⟩

theorem on_grid_sub {k : Int} {M N : Nat} {a b : ℚ} (ha : on_grid k M a) (hb : on_grid k N b) :
    on_grid k (M + N) (a - b) := by
  rw [sub_eq_add_neg]
  exact on_grid_add ha (on_grid_neg hb)

theorem on_grid_mul {k l : Int} {M N : Nat} {a b : ℚ} (ha : on_grid k M a) (hb : on_grid l N b) :
    on_grid (k + l) (M * N) (a * b) := by
  obtain ⟨m, rfl, hm⟩ := ha
  obtain ⟨n, rfl, hn⟩ := hb
  refine ⟨m * n, ?_, ?_⟩
  · rw [zpow_add₀ (by norm_num : (2 : ℚ) ≠ 0)]
    push_cast
    ring
  · rw [abs_mul]
    push_cast
    exact mul_le_mul hm hn (abs_nonneg _) (by omega)

theorem on_grid_mono {k : Int} {M N : Nat} {a : ℚ} (h : M ≤ N) (ha : on_grid k M a) :
    on_grid k N a := by
  obtain ⟨m, e, hm⟩ := ha
  exact ⟨m, e, by omega⟩

theorem on_grid_zero (k : Int) (M : Nat) : on_grid k M 0 := ⟨0, by simp, by simp⟩

/-- A multiple of `2^k` by an integer below `2^24`, with `k` in the exponent range of
binary32, is a binary32 value. -/
theorem on_grid_representable {k : Int} {M : Nat} {a : ℚ} (ha : on_grid k M a)
    (hM : M < 2 ^ 24) (hk1 : -149 ≤ k) (hk2 : k ≤ 104) : representable a := by
  obtain ⟨m, e, hm⟩ := ha
  have hm2 : |m| < 2 ^ 24 := by
    have : ((M : Nat) : Int) < 2 ^ 24 := by exact_mod_cast hM
    omega
  apply float_round_exact a m k e hm2 hk1
  rw [e, abs_mul, abs_of_pos (two_zpow_pos k)]
  have h1 : |(m : ℚ)| < 2 ^ 24 := by
    have : ((|m| : Int) : ℚ) < ((2 ^ 24 : Int) : ℚ) := by exact_mod_cast hm2
    rw [Int.cast_abs] at this
    norm_num at this
    norm_num
    exact this
  have h2 : (2 : ℚ) ^ k ≤ 2 ^ (104 : Int) := two_zpow_le hk2
  have h3 : (2 : ℚ) ^ (104 : Int) = 2 ^ 104 := by norm_num
  calc |(m : ℚ)| * 2 ^ k ≤ |(m : ℚ)| * 2 ^ (104 : Int) :=
        mul_le_mul_of_nonneg_left h2 (abs_nonneg _)
    _ < 2 ^ 24 * 2 ^ (104 : Int) := mul_lt_mul_of_pos_right h1 (by positivity)
    _ = 2 ^ 128 := by norm_num

theorem sub_exact {a b : ℚ} (h : representable (a - b)) :
    float.fin a - float.fin b = float.fin (a - b) := by
  rw [float.sub_fin]
  exact h

theorem mul_exact {a b : ℚ} (h : representable (a * b)) :
    float.fin a * float.fin b = float.fin (a * b) := by
  rw [float.mul_fin]
  exact h

theorem cross_exact {k l : Int} {M N : Nat} {v w : vec3} (hv : v.grid k M) (hw : w.grid l N)
    (hM : 2 * (M * N) < 2 ^ 24) (hk1 : -149 ≤ k + l) (hk2 : k + l ≤ 104) :
    fp.cross v.to_fp w.to_fp = (cross v w).to_fp ∧ (cross v w).grid (k + l) (2 * (M * N)) := by
  have e2 : M * N + N * M = 2 * (M * N) := by ring
  have swap : ∀ {a b : ℚ}, on_grid l N a → on_grid k M b → on_grid (k + l) (N * M) (a * b) := by
    intro a b ha hb
    have := on_grid_mul ha hb
    rw [add_comm] at this
    exact this
  have p1 := on_grid_mul hv.2.1 hw.2.2
  have p2 := swap hw.2.1 hv.2.2
  have p3 := on_grid_mul hv.2.2 hw.1
  have p4 := swap hw.2.2 hv.1
  have p5 := on_grid_mul hv.1 hw.2.1
  have p6 := swap hw.1 hv.2.1
  have gx := on_grid_sub p1 p2
  have gy := on_grid_sub p3 p4
  have gz := on_grid_sub p5 p6
  rw [e2] at gx gy gz
  refine ⟨?_, gx, gy, gz⟩
  have hNM : N * M = M * N := Nat.mul_comm _ _
  have e : fp.cross v.to_fp w.to_fp =
      ⟨float.fin v.y * float.fin w.z - float.fin w.y * float.fin v.z,
        float.fin v.z * float.fin w.x - float.fin w.z * float.fin v.x,
        float.fin v.x * float.fin w.y - float.fin w.x * float.fin v.y⟩ := rfl
  rw [e, mul_exact (on_grid_representable p1 (by omega) hk1 hk2),
    mul_exact (on_grid_representable p2 (by omega) hk1 hk2),
    mul_exact (on_grid_representable p3 (by omega) hk1 hk2),
    mul_exact (on_grid_representable p4 (by omega) hk1 hk2),
    mul_exact (on_grid_representable p5 (by omega) hk1 hk2),
    mul_exact (on_grid_representable p6 (by omega) hk1 hk2),
    sub_exact (on_grid_representable gx hM hk1 hk2),
    sub_exact (on_grid_representable gy hM hk1 hk2),
    sub_exact (on_grid_representable gz hM hk1 hk2)]
  rfl

/-! ## Ray against box -/

theorem to_fp_get (v : vec3) (i : Nat) : v.to_fp.get i = float.fin (v.get i) := by
  unfold fp.vec3.get vec3.get vec3.to_fp
  split <;> rfl

theorem cEpsilon_val : fp.cEpsilon = float.fin (8796093 / 8796093022208) := by decide!

theorem zero_add_eps : float.fin 0 + fp.cEpsilon = float.fin (8796093 / 8796093022208) := by
  decide!

theorem zero_sub_eps : float.fin 0 - fp.cEpsilon = float.fin (-(8796093 / 8796093022208)) := by
  decide!

/-- The test `are_equal(d, 0.0f)` holds exactly for `|d| <= 1e-6f`. -/
theorem are_equal_zero (d : ℚ) :
    fp.are_equal (float.fin d) (float.fin 0) =
      (decide (d ≤ 8796093 / 8796093022208) && decide (-(8796093 / 8796093022208) ≤ d)) := by
  unfold fp.are_equal
  rw [zero_add_eps, zero_sub_eps]
  rfl

theorem are_equal_zero_self : fp.are_equal (float.fin 0) (float.fin 0) = true := by
  rw [are_equal_zero]
  norm_num

theorem are_equal_zero_of_gt {d : ℚ} (h : cEpsilon < |d|) :
    fp.are_equal (float.fin d) (float.fin 0) = false := by
  rw [are_equal_zero]
  unfold cEpsilon at h
  rcases le_or_lt 0 d with h0 | h0
  · rw [abs_of_nonneg h0] at h
    have : ¬ d ≤ 8796093 / 8796093022208 := by
      rw [not_le]
      refine lt_trans ?_ h
      norm_num
    simp [this]
  · rw [abs_of_neg h0] at h
    have : ¬ -(8796093 / 8796093022208) ≤ d := by
      rw [not_le]
      have : (8796093 : ℚ) / 8796093022208 < 1 / 1000000 := by norm_num
      linarith
    simp [this]

theorem round_ne_nan (q : ℚ) : float.round q ≠ float.nan := by
  rw [round_def]
  split <;> simp

namespace float

theorem le_inf_false {x : float} (h : x ≠ nan) : le x (inf false) = true := by
  rcases x with a | ⟨_ | _⟩ | _ <;> simp_all [le]

theorem inf_true_le {x : float} (h : x ≠ nan) : le (inf true) x = true := by
  rcases x with a | ⟨_ | _⟩ | _ <;> simp_all [le]

theorem div_ne_nan {x : float} {d : ℚ} (hx : x ≠ nan) (hd : d ≠ 0) : x / fin d ≠ nan := by
  rw [div_def]
  rcases x with a | s | _
  · rw [div, if_neg hd]
    exact round_ne_nan _
  · simp [div]
  · exact absurd rfl hx

theorem div_le_div_pos {x y : float} {d : ℚ} (hd : 0 < d) (h : le x y = true) :
    le (x / fin d) (y / fin d) = true := by
  have hd0 : d ≠ 0 := ne_of_gt hd
  have hnd : ¬ d < 0 := not_lt.mpr (le_of_lt hd)
  rcases x with a | ⟨_ | _⟩ | _
  · rcases y with b | ⟨_ | _⟩ | _
    · rw [div_fin _ _ hd0, div_fin _ _ hd0]
      simp only [le, decide_eq_true_eq] at h
      exact round_le_round (div_le_div_of_nonneg_right h (le_of_lt hd))
    · have e : inf false / fin d = inf false := by simp [div_def, div, hnd]
      rw [e]
      exact le_inf_false (div_ne_nan (by simp) hd0)
    · simp [le] at h
    · simp [le] at h
  · rcases y with b | ⟨_ | _⟩ | _
    · simp [le] at h
    · have e : inf false / fin d = inf false := by simp [div_def, div, hnd]
      rw [e]
      simp [le]
    · simp [le] at h
    · simp [le] at h
  · have e : inf true / fin d = inf true := by simp [div_def, div, hnd]
    rw [e]
    apply inf_true_le
    apply div_ne_nan _ hd0
    intro hy
    rw [hy] at h
    simp [le] at h
  · simp [le] at h

theorem div_le_div_neg {x y : float} {d : ℚ} (hd : d < 0) (h : le x y = true) :
    le (y / fin d) (x / fin d) = true := by
  have hd0 : d ≠ 0 := ne_of_lt hd
  rcases x with a | ⟨_ | _⟩ | _
  · rcases y with b | ⟨_ | _⟩ | _
    · rw [div_fin _ _ hd0, div_fin _ _ hd0]
      simp only [le, decide_eq_true_eq] at h
      exact round_le_round (div_le_div_of_nonpos_of_le (le_of_lt hd) h)
    · have e : inf false / fin d = inf true := by simp [div_def, div, hd]
      rw [e]
      exact inf_true_le (div_ne_nan (by simp) hd0)
    · simp [le] at h
    · simp [le] at h
  · rcases y with b | ⟨_ | _⟩ | _
    · simp [le] at h
    · have e : inf false / fin d = inf true := by simp [div_def, div, hd]
      rw [e]
      simp [le]
    · simp [le] at h
    · simp [le] at h
  · have e : inf true / fin d = inf false := by simp [div_def, div, hd]
    rw [e]
    apply le_inf_false
    apply div_ne_nan _ hd0
    intro hy
    rw [hy] at h
    simp [le] at h
  · simp [le] at h

theorem eq_of_le_not_lt {x y : float} (h1 : le x y = true) (h2 : lt x y = false) : x = y := by
  rcases x with a | ⟨_ | _⟩ | _ <;> rcases y with b | ⟨_ | _⟩ | _ <;> simp_all [le, lt]
  exact le_antisymm h1 h2

end float

theorem fp_slab_parallel (r : ray) (box : aabb) (j : Nat) (t : float × float)
    (hd : r.mDir.get j = 0) (hlo : box.mMinPos.get j ≤ r.mOrigin.get j)
    (hhi : r.mOrigin.get j ≤ box.mMaxPos.get j) :
    fp.ray_aabb_slab r.to_fp box.to_fp j t = some t := by
  unfold fp.ray_aabb_slab
  simp only [ray.to_fp, aabb.to_fp, to_fp_get, hd, are_equal_zero_self, if_true]
  have h1 : float.lt (float.fin (r.mOrigin.get j)) (float.fin (box.mMinPos.get j)) = false := by
    simp [float.lt, hlo]
  have h2 : float.lt (float.fin (box.mMaxPos.get j)) (float.fin (r.mOrigin.get j)) = false := by
    simp [float.lt, hhi]
  rw [h1, h2]
  rfl

theorem fin_of_div {x : float} {d q : ℚ} (hd : d ≠ 0) (h : x / float.fin d = float.fin q) :
    ∃ a, x = float.fin a ∧ float.round (a / d) = float.fin q := by
  rcases x with a | s | _
  · rw [float.div_fin _ _ hd] at h
    exact ⟨a, rfl, h⟩
  · simp [float.div_def, float.div] at h
  · simp [float.div_def, float.div] at h

/-- The slab step for the axis of the ray: the lower parameter becomes the quotient of the
near face, when that quotient is finite. -/
theorem fp_slab_axis (r : ray) (box : aabb) (i : Nat)
    (hbox : box.mMinPos.get i ≤ box.mMaxPos.get i)
    (hd : cEpsilon < |r.mDir.get i|)
    (hout : (0 < r.mDir.get i ∧ r.mOrigin.get i < box.mMinPos.get i) ∨
      (r.mDir.get i < 0 ∧ box.mMaxPos.get i < r.mOrigin.get i))
    (q : ℚ)
    (hq : (float.fin (if 0 < r.mDir.get i then box.mMinPos.get i else box.mMaxPos.get i) -
      float.fin (r.mOrigin.get i)) / float.fin (r.mDir.get i) = float.fin q) :
    0 ≤ q ∧ ∃ tMax, fp.ray_aabb_slab r.to_fp box.to_fp i (float.fin 0, fp.FLT_MAX) =
      some (float.fin q, tMax) := by
  have hne := are_equal_zero_of_gt hd
  have hAB : float.le (float.fin (box.mMinPos.get i) - float.fin (r.mOrigin.get i))
      (float.fin (box.mMaxPos.get i) - float.fin (r.mOrigin.get i)) = true := by
    rw [float.sub_fin, float.sub_fin]
    exact round_le_round (by linarith)
  have hd0 : r.mDir.get i ≠ 0 := by
    intro h0
    rw [h0, abs_zero] at hd
    unfold cEpsilon at hd
    norm_num at hd
  -- the quotient of the near face is finite, not negative and at most FLT_MAX
  have hqs : 0 ≤ q ∧ q ≤ FLT_MAX := by
    obtain ⟨a, ha, hr⟩ := fin_of_div hd0 hq
    rw [float.sub_fin] at ha
    obtain ⟨ea, _⟩ := round_eq_fin ha
    obtain ⟨eq, _⟩ := round_eq_fin hr
    refine ⟨?_, (abs_le.mp (round_le_max hr)).2⟩
    rw [eq]
    apply rounded_nonneg
    rcases hout with ⟨hpos, ho⟩ | ⟨hneg, ho⟩
    · rw [if_pos hpos] at ea
      have : 0 ≤ a := by
        rw [ea]
        exact rounded_nonneg (by linarith)
      exact div_nonneg this hpos.le
    · rw [if_neg (not_lt.mpr hneg.le)] at ea
      have : a ≤ 0 := by
        rw [ea]
        have := rounded_nonneg (q := -(box.mMaxPos.get i - r.mOrigin.get i)) (by linarith)
        rw [rounded_neg] at this
        linarith
      exact div_nonneg_of_nonpos this hneg.le
  refine ⟨hqs.1, ?_⟩
  unfold fp.ray_aabb_slab
  simp only [ray.to_fp, aabb.to_fp, to_fp_get, hne, Bool.false_eq_true, if_false]
  have key : ∀ (N F : float), N = float.fin q → float.le N F = true →
      ∃ tMax, (if float.lt (if float.lt F fp.FLT_MAX = true then F else fp.FLT_MAX)
          (if float.lt (float.fin 0) N = true then N else float.fin 0) = true then none
        else some (if float.lt (float.fin 0) N = true then N else float.fin 0,
          if float.lt F fp.FLT_MAX = true then F else fp.FLT_MAX)) = some (float.fin q, tMax) := by
    intro N F hN hNF
    subst hN
    have hmin : (if float.lt (float.fin 0) (float.fin q) = true then float.fin q else float.fin 0) =
        float.fin q := by
      by_cases hp : 0 < q
      · simp [float.lt, hp]
      · have : q = 0 := le_antisymm (not_lt.mp hp) hqs.1
        simp [float.lt, this]
    rw [hmin]
    by_cases hx : float.lt F fp.FLT_MAX = true
    · rw [if_pos hx, if_neg (by rw [float.le_imp_not_lt hNF]; simp)]
      exact ⟨_, rfl⟩
    · rw [if_neg hx]
      have hmax : float.lt fp.FLT_MAX (float.fin q) = false := by
        simp only [fp.FLT_MAX, float.lt, decide_eq_false_iff_not, not_lt]
        exact hqs.2
      rw [if_neg (by rw [hmax]; simp)]
      exact ⟨_, rfl⟩
  rcases hout with ⟨hpos, ho⟩ | ⟨hneg, ho⟩
  · rw [if_pos hpos] at hq
    have hle := float.div_le_div_pos hpos hAB
    rw [float.le_imp_not_lt hle]
    simp only [Bool.false_eq_true, if_false]
    exact key _ _ hq hle
  · rw [if_neg (not_lt.mpr hneg.le)] at hq
    have hle := float.div_le_div_neg hneg hAB
    by_cases hsw : float.lt ((float.fin (box.mMaxPos.get i) - float.fin (r.mOrigin.get i)) /
        float.fin (r.mDir.get i)) ((float.fin (box.mMinPos.get i) - float.fin (r.mOrigin.get i)) /
        float.fin (r.mDir.get i)) = true
    · simp only [hsw, if_true]
      exact key _ _ hq hle
    · rw [Bool.not_eq_true] at hsw
      have heq := float.eq_of_le_not_lt hle hsw
      simp only [hsw, Bool.false_eq_true, if_false]
      rw [← heq]
      exact key _ _ hq (by rw [hq]; simp [float.le])

theorem fp_loop_axis (r : ray) (box : aabb) (i : Nat) (hi : i < 3)
    (hbox : ∀ j, j < 3 → box.mMinPos.get j ≤ box.mMaxPos.get j)
    (hd : cEpsilon < |r.mDir.get i|)
    (hother : ∀ j, j < 3 → j ≠ i → r.mDir.get j = 0 ∧
      box.mMinPos.get j ≤ r.mOrigin.get j ∧ r.mOrigin.get j ≤ box.mMaxPos.get j)
    (hout : (0 < r.mDir.get i ∧ r.mOrigin.get i < box.mMinPos.get i) ∨
      (r.mDir.get i < 0 ∧ box.mMaxPos.get i < r.mOrigin.get i))
    (q : ℚ)
    (hq : (float.fin (if 0 < r.mDir.get i then box.mMinPos.get i else box.mMaxPos.get i) -
      float.fin (r.mOrigin.get i)) / float.fin (r.mDir.get i) = float.fin q) :
    fp.intersection_ray_aabb r.to_fp box.to_fp = float.fin q ∧ 0 ≤ q := by
  obtain ⟨hq0, tMax, hax⟩ := fp_slab_axis r box i (hbox i hi) hd hout q hq
  have hpar : ∀ j, j < 3 → j ≠ i → ∀ t, fp.ray_aabb_slab r.to_fp box.to_fp j t = some t :=
    fun j hj hji t => fp_slab_parallel r box j t (hother j hj hji).1 (hother j hj hji).2.1
      (hother j hj hji).2.2
  refine ⟨?_, hq0⟩
  unfold fp.intersection_ray_aabb
  have hloop : fp.ray_aabb_loop r.to_fp box.to_fp 3 0 (float.fin 0, fp.FLT_MAX) =
      some (float.fin q, tMax) := by
    interval_cases i
    · simp only [fp.ray_aabb_loop, hax, hpar 1 (by decide) (by decide),
        hpar 2 (by decide) (by decide)]
    · simp only [fp.ray_aabb_loop, hax, hpar 0 (by decide) (by decide),
        hpar 2 (by decide) (by decide)]
    · simp only [fp.ray_aabb_loop, hax, hpar 0 (by decide) (by decide),
        hpar 1 (by decide) (by decide)]
  rw [hloop]
  simp only []
  by_cases hp : 0 < q
  · simp [float.lt, hp]
  · have : q = 0 := le_antisymm (not_lt.mp hp) hq0
    simp [float.lt, this]

/-! ## Ray against box: the `float` computation without rounding -/

theorem FLT_MAX_fin : fp.FLT_MAX = float.fin FLT_MAX := rfl

theorem lt_fin (a b : ℚ) : float.lt (float.fin a) (float.fin b) = decide (a < b) := rfl

theorem are_equal_zero_exact {d : ℚ} (h : d = 0 ∨ cEpsilon < |d|) :
    fp.are_equal (float.fin d) (float.fin 0) = ideal.are_equal d 0 := by
  rcases h with h | h
  · rw [h, are_equal_zero_self]
    unfold ideal.are_equal cEpsilon
    norm_num
  · rw [are_equal_zero_of_gt h]
    unfold ideal.are_equal
    rw [if_neg]
    rintro ⟨h1, h2⟩
    have : |d| ≤ cEpsilon := abs_le.mpr ⟨by linarith, by linarith⟩
    linarith

/-- On an axis where the four quotients of the slab step are binary32 values the `float`
step computes the exact step. -/
theorem fp_slab_exact (r : ray) (box : aabb) (i : Nat) (t1 t2 : ℚ)
    (hdir : r.mDir.get i = 0 ∨ cEpsilon < |r.mDir.get i|)
    (hex : r.mDir.get i ≠ 0 →
      representable (box.mMinPos.get i - r.mOrigin.get i) ∧
      representable (box.mMaxPos.get i - r.mOrigin.get i) ∧
      representable ((box.mMinPos.get i - r.mOrigin.get i) / r.mDir.get i) ∧
      representable ((box.mMaxPos.get i - r.mOrigin.get i) / r.mDir.get i)) :
    fp.ray_aabb_slab r.to_fp box.to_fp i (float.fin t1, float.fin t2) =
      (ideal.ray_aabb_slab r box i (t1, t2)).map (fun p => (float.fin p.1, float.fin p.2)) := by
  unfold fp.ray_aabb_slab ideal.ray_aabb_slab
  simp only [ray.to_fp, aabb.to_fp, to_fp_get, are_equal_zero_exact hdir]
  by_cases hz : ideal.are_equal (r.mDir.get i) 0 = true
  · simp only [hz, if_true, lt_fin, Bool.or_eq_true, decide_eq_true_eq, gt_iff_lt]
    by_cases hc : r.mOrigin.get i < box.mMinPos.get i ∨ r.mOrigin.get i > box.mMaxPos.get i
    · rw [if_pos hc, if_pos hc]
      rfl
    · rw [if_neg hc, if_neg hc]
      rfl
  · have hd0 : r.mDir.get i ≠ 0 := by
      intro h0
      apply hz
      rw [h0]
      unfold ideal.are_equal cEpsilon
      norm_num
    obtain ⟨e1, e2, e3, e4⟩ := hex hd0
    unfold representable at e1 e2 e3 e4
    simp only [hz, Bool.false_eq_true, if_false, float.sub_fin, e1, e2, float.div_fin _ _ hd0,
      e3, e4]
    generalize (box.mMinPos.get i - r.mOrigin.get i) / r.mDir.get i = a
    generalize (box.mMaxPos.get i - r.mOrigin.get i) / r.mDir.get i = b
    simp only [lt_fin, apply_ite float.fin, decide_eq_true_eq, gt_iff_lt]
    split_ifs <;> (try simp only [lt_fin, decide_eq_true_eq] at *) <;>
      first | rfl | (exfalso; linarith)

theorem fp_loop_exact (r : ray) (box : aabb)
    (hdir : ∀ a, a < 3 → r.mDir.get a = 0 ∨ cEpsilon < |r.mDir.get a|)
    (hex : ∀ a, a < 3 → r.mDir.get a ≠ 0 →
      representable (box.mMinPos.get a - r.mOrigin.get a) ∧
      representable (box.mMaxPos.get a - r.mOrigin.get a) ∧
      representable ((box.mMinPos.get a - r.mOrigin.get a) / r.mDir.get a) ∧
      representable ((box.mMaxPos.get a - r.mOrigin.get a) / r.mDir.get a)) :
    ∀ (k i : Nat) (t1 t2 : ℚ), i + k ≤ 3 →
      fp.ray_aabb_loop r.to_fp box.to_fp k i (float.fin t1, float.fin t2) =
        (ideal.ray_aabb_loop r box k i (t1, t2)).map (fun p => (float.fin p.1, float.fin p.2)) := by
  intro k
  induction k with
  | zero =>
    intro i t1 t2 _
    rfl
  | succ k ih =>
    intro i t1 t2 hik
    rw [fp.ray_aabb_loop, ideal.ray_aabb_loop, fp_slab_exact r box i t1 t2 (hdir i (by omega))
      (hex i (by omega))]
    cases ideal.ray_aabb_slab r box i (t1, t2) with
    | none => rfl
    | some p =>
      simp only [Option.map_some']
      exact ih (i + 1) p.1 p.2 (by omega)

/-- Without rounding in the slab parameters `intersection_ray_aabb` returns the value of
the same computation in exact arithmetic. -/
theorem fp_intersection_ray_aabb_exact (r : ray) (box : aabb)
    (hdir : ∀ a, a < 3 → r.mDir.get a = 0 ∨ cEpsilon < |r.mDir.get a|)
    (hex : ∀ a, a < 3 → r.mDir.get a ≠ 0 →
      representable (box.mMinPos.get a - r.mOrigin.get a) ∧
      representable (box.mMaxPos.get a - r.mOrigin.get a) ∧
      representable ((box.mMinPos.get a - r.mOrigin.get a) / r.mDir.get a) ∧
      representable ((box.mMaxPos.get a - r.mOrigin.get a) / r.mDir.get a)) :
    fp.intersection_ray_aabb r.to_fp box.to_fp = float.fin (ideal.intersection_ray_aabb r box) := by
  unfold fp.intersection_ray_aabb ideal.intersection_ray_aabb
  rw [FLT_MAX_fin, fp_loop_exact r box hdir hex 3 0 0 FLT_MAX (by omega)]
  cases ideal.ray_aabb_loop r box 3 0 (0, FLT_MAX) with
  | none => rfl
  | some p =>
    simp only [Option.map_some', lt_fin, decide_eq_true_eq, gt_iff_lt]
    split_ifs <;> rfl

theorem fp_intersection_ray_aabb_range (r : fp.ray) (box : fp.aabb) :
    fp.intersection_ray_aabb r box = float.fin (-1) ∨
      float.le (float.fin 0) (fp.intersection_ray_aabb r box) = true := by
  unfold fp.intersection_ray_aabb
  cases fp.ray_aabb_loop r box 3 0 (float.fin 0, fp.FLT_MAX) with
  | none =>
    left
    rfl
  | some p =>
    right
    simp only []
    by_cases h : float.lt (float.fin 0) p.1 = true
    · rw [if_pos h]
      exact float.lt_imp_le h
    · rw [if_neg h]
      simp [float.le]

/-! ## BVH: evaluation at failing inputs -/

namespace bvh_tree

/-- C2 (failing input): for two coincident triangles the partition puts both on the right
side, `top_down_partition` reports failure, and the root becomes a leaf whose index list
is empty: the two input triangles are in no leaf. -/
theorem top_down_failed_partition_drops_triangles :
    top_down_bvh coincident_mesh.positions 3 0 bvh_ptr.null coincident_mesh.mPosIndices
      = some (bvh_ptr.node ⟨⟨0, 0, 0⟩, ⟨1, 1, 0⟩⟩ 0 tree_node_type.leaf [] bvh_ptr.null bvh_ptr.null, 1)
    ∧ (construct_bvh init coincident_mesh bvh_construction_method.top_down).map
        (fun t => leaf_lists t.mRoot) = some [[]]
    ∧ triangles coincident_mesh.mPosIndices = [[0, 1, 2], [0, 1, 2]] := by
  decide!

/-- C4 (failing input): after building a one-triangle tree, `clear()` frees the nodes and
resets the counter but leaves `mRoot` pointing at the freed root, so `is_empty()` is
false. -/
theorem clear_leaves_root_dangling :
    ((construct_bvh init single_triangle_mesh bvh_construction_method.top_down).bind clear).map
      (fun t => (is_empty t, t.nodeCounter, t.mRootFreed)) = some (false, 0, true) := by
  decide!

end bvh_tree

namespace octree

/-! ## Lemmas: node map -/

theorem shiftRight_three_lt {x : Nat} (h : 1 ≤ x) : x >>> 3 < x := by
  rw [Nat.shiftRight_eq_div_pow]
  exact Nat.div_lt_self h (by norm_num)

theorem chain_succ (c j : Nat) : (c >>> 3) >>> (3 * j) = c >>> (3 * (j + 1)) := by
  rw [← Nat.shiftRight_add]
  congr 1
  omega

theorem chain_lt_of_pos {p j : Nat} (hp : 1 ≤ p) (hj : 1 ≤ j) : p >>> (3 * j) < p := by
  rw [Nat.shiftRight_eq_div_pow]
  apply Nat.div_lt_self hp
  have : 2 ^ 1 ≤ 2 ^ (3 * j) := Nat.pow_le_pow_right (by norm_num) (by omega)
  omega

theorem shiftRight_three_bound {code fuel : Nat} (h : code < 2 ^ (3 * (fuel + 1) + 1)) :
    code >>> 3 < 2 ^ (3 * fuel + 1) := by
  rw [Nat.shiftRight_eq_div_pow]
  rw [Nat.div_lt_iff_lt_mul (by positivity)]
  calc code < 2 ^ (3 * (fuel + 1) + 1) := h
    _ = 2 ^ (3 * fuel + 1) * 2 ^ 3 := by rw [← Nat.pow_add]; congr 1

theorem find_create_node_nodes (o : octree) (c q : Nat) :
    (find_create_node o c).m_nodes q =
      if q = c then
        (match o.m_nodes c with
          | none => some { locational_code := c, children_active := 0, first := none }
          | some n => some n)
      else o.m_nodes q := by
  unfold find_create_node
  cases h : o.m_nodes c with
  | none =>
    by_cases hq : q = c
    · subst hq; simp [Function.update]
    · simp [Function.update, hq]
  | some n =>
    by_cases hq : q = c
    · subst hq; simp [h]
    · simp [hq]

theorem set_children_active_nodes (o : octree) (key mask q : Nat) :
    (set_children_active o key mask).m_nodes q =
      if q = key then (o.m_nodes key).map (fun n => { n with children_active := mask % 256 })
      else o.m_nodes q := by
  unfold set_children_active
  cases h : o.m_nodes key with
  | none =>
    by_cases hq : q = key
    · subst hq; simp [h]
    · simp [hq]
  | some n =>
    by_cases hq : q = key
    · subst hq; simp [Function.update]
    · simp [Function.update, hq]

theorem delete_node_nodes (o : octree) (key q : Nat) :
    (delete_node o key).m_nodes q = if q = key then none else o.m_nodes q := by
  unfold delete_node
  cases h : o.m_nodes key with
  | none =>
    by_cases hq : q = key
    · subst hq; simp [h]
    · simp [hq]
  | some n =>
    by_cases hq : q = key
    · subst hq; simp [Function.update]
    · simp [Function.update, hq]

theorem create_node_loop_step (o : octree) (code q : Nat) :
    (set_children_active (find_create_node o (code >>> 3)) (code >>> 3)
      ((match (find_create_node o (code >>> 3)).m_nodes (code >>> 3) with
        | none => 0
        | some parentNode => parentNode.children_active) |||
        (1 <<< (code &&& ((1 <<< 3) - 1))))).m_nodes q =
      if q = code >>> 3 then some (bumped (o.m_nodes (code >>> 3)) (code >>> 3) (code &&& 7))
      else o.m_nodes q := by
  rw [set_children_active_nodes]
  by_cases hq : q = code >>> 3
  · simp only [hq, if_true, find_create_node_nodes]
    cases h : o.m_nodes (code >>> 3) <;> simp [bumped]
  · simp [hq, find_create_node_nodes]

theorem create_node_loop_spec : ∀ (fuel : Nat) (o : octree) (code : Nat),
    code < 2 ^ (3 * fuel + 1) →
    (∀ q, (∀ j, 1 ≤ j → 1 < code >>> (3 * (j - 1)) → q ≠ code >>> (3 * j)) →
        (create_node_loop fuel o code).m_nodes q = o.m_nodes q) ∧
    (∀ j, 1 ≤ j → 1 < code >>> (3 * (j - 1)) →
        (create_node_loop fuel o code).m_nodes (code >>> (3 * j)) =
          some (bumped (o.m_nodes (code >>> (3 * j))) (code >>> (3 * j))
            ((code >>> (3 * (j - 1))) &&& 7))) := by
  intro fuel
  induction fuel with
  | zero =>
    intro o code hcode
    have h1 : code ≤ 1 := by simp at hcode; omega
    refine ⟨fun q _ => rfl, fun j hj hv => ?_⟩
    exfalso
    have : code >>> (3 * (j - 1)) ≤ code := by
      rw [Nat.shiftRight_eq_div_pow]; exact Nat.div_le_self _ _
    omega
  | succ k ih =>
    intro o code hcode
    unfold create_node_loop
    by_cases hgt : code > 1
    · rw [if_pos hgt]
      obtain ⟨ihF, ihV⟩ := ih
        (set_children_active (find_create_node o (code >>> 3)) (code >>> 3)
          ((match (find_create_node o (code >>> 3)).m_nodes (code >>> 3) with
            | none => 0
            | some parentNode => parentNode.children_active) |||
            (1 <<< (code &&& ((1 <<< 3) - 1))))) (code >>> 3) (shiftRight_three_bound hcode)
      constructor
      · intro q hq
        rw [ihF q]
        · rw [create_node_loop_step]
          have : q ≠ code >>> 3 := by
            have := hq 1 (le_refl 1) (by simpa using hgt)
            simpa using this
          simp [this]
        · intro j hj hv
          rw [chain_succ]
          apply hq (j + 1) (by omega)
          have : j + 1 - 1 = (j - 1) + 1 := by omega
          rw [this, ← chain_succ]; exact hv
      · intro j hj hv
        by_cases hj1 : j = 1
        · subst hj1
          simp only [Nat.mul_one, Nat.sub_self, Nat.mul_zero, Nat.shiftRight_zero]
          rw [ihF]
          · rw [create_node_loop_step]; simp
          · intro i hi hvi
            have hp : 1 ≤ code >>> 3 := by
              have : (code >>> 3) >>> (3 * (i - 1)) ≤ code >>> 3 := by
                rw [Nat.shiftRight_eq_div_pow (code >>> 3)]; exact Nat.div_le_self _ _
              omega
            exact Nat.ne_of_gt (chain_lt_of_pos hp hi)
        · have hj2 : 2 ≤ j := by omega
          have e1 : code >>> (3 * j) = (code >>> 3) >>> (3 * (j - 1)) := by
            rw [chain_succ]; congr 2; omega
          have e2 : code >>> (3 * (j - 1)) = (code >>> 3) >>> (3 * (j - 1 - 1)) := by
            rw [chain_succ]; congr 2; omega
          rw [e1, e2]
          rw [ihV (j - 1) (by omega) (by rw [← e2]; exact hv)]
          rw [create_node_loop_step]
          have hne : (code >>> 3) >>> (3 * (j - 1)) ≠ code >>> 3 := by
            have hp : 1 ≤ code >>> 3 := by
              have : (code >>> 3) >>> (3 * (j - 1 - 1)) ≤ code >>> 3 := by
                rw [Nat.shiftRight_eq_div_pow (code >>> 3)]; exact Nat.div_le_self _ _
              rw [e2] at hv
              omega
            exact Nat.ne_of_lt (chain_lt_of_pos hp (by omega))
          simp [hne]
    · rw [if_neg hgt]
      refine ⟨fun q _ => rfl, fun j hj hv => ?_⟩
      exfalso
      have : code >>> (3 * (j - 1)) ≤ code := by
        rw [Nat.shiftRight_eq_div_pow]; exact Nat.div_le_self _ _
      omega

end octree

namespace octree

theorem and_seven_lt (x : Nat) : x &&& 7 < 8 := by
  have : x &&& 7 = x % 8 := Nat.and_pow_two_sub_one_eq_mod x 3
  omega

theorem bumped_testBit (old : Option octree_node) (key bit i : Nat) :
    (bumped old key bit).children_active.testBit i =
      (decide (i < 8) && (((old.map (fun (n : octree_node) => n.children_active)).getD 0).testBit i || decide (bit = i))) := by
  have h256 : (256 : Nat) = 2 ^ 8 := by norm_num
  cases old with
  | none =>
    simp only [bumped, Option.map, Option.getD, h256, Nat.testBit_mod_two_pow, Nat.testBit_or,
      Nat.one_shiftLeft, Nat.testBit_two_pow]
  | some n =>
    simp only [bumped, Option.map, Option.getD, h256, Nat.testBit_mod_two_pow, Nat.testBit_or,
      Nat.one_shiftLeft, Nat.testBit_two_pow]

theorem chain_le (c j : Nat) : c >>> (3 * j) ≤ c := by
  rw [Nat.shiftRight_eq_div_pow]; exact Nat.div_le_self _ _

theorem visited_of_chain_pos {c k : Nat} (hk : 1 ≤ k) (h : 1 ≤ c >>> (3 * k)) :
    1 < c >>> (3 * (k - 1)) := by
  have e : c >>> (3 * k) = (c >>> (3 * (k - 1))) >>> 3 := by
    rw [← Nat.shiftRight_add]; congr 1; omega
  rw [e, Nat.shiftRight_eq_div_pow] at h
  have : 1 * 2 ^ 3 ≤ c >>> (3 * (k - 1)) := (Nat.le_div_iff_mul_le (by norm_num)).mp h
  omega

theorem mask_clear_testBit (ca bit i : Nat) :
    ((ca &&& ((2 ^ 32 - 1) ^^^ (1 <<< bit))) % 256).testBit i =
      (decide (i < 8) && ca.testBit i && !decide (bit = i)) := by
  have h256 : (256 : Nat) = 2 ^ 8 := by norm_num
  rw [h256, Nat.testBit_mod_two_pow, Nat.testBit_and, Nat.testBit_xor, Nat.testBit_two_pow_sub_one,
    Nat.one_shiftLeft, Nat.testBit_two_pow]
  by_cases h8 : i < 8
  · have : i < 32 := by omega
    by_cases hb : bit = i <;> simp [h8, this, hb]
  · simp [h8]

theorem mask_clear_eq_zero {ca bit : Nat} (h : ∀ i, ca.testBit i = true → i = bit) :
    (ca &&& ((2 ^ 32 - 1) ^^^ (1 <<< bit))) % 256 = 0 := by
  apply Nat.eq_of_testBit_eq
  intro i
  rw [mask_clear_testBit, Nat.zero_testBit]
  by_cases hi : ca.testBit i = true
  · have := h i hi
    simp [this]
  · simp [hi]

theorem delete_node_rec_loop_frame : ∀ (fuel : Nat) (o : octree) (code : Nat) (q : Nat),
    (∀ j, 1 ≤ j → 1 < code >>> (3 * (j - 1)) → q ≠ code >>> (3 * j)) →
    (delete_node_rec_loop fuel o code).m_nodes q = o.m_nodes q := by
  intro fuel
  induction fuel with
  | zero => intro o code q _; rfl
  | succ k ih =>
    intro o code q hq
    unfold delete_node_rec_loop
    by_cases hgt : code > 1
    · rw [if_pos hgt]
      have hq1 : q ≠ code >>> 3 := by
        have := hq 1 (le_refl 1) (by simpa using hgt)
        simpa using this
      have hq' : ∀ j, 1 ≤ j → 1 < (code >>> 3) >>> (3 * (j - 1)) → q ≠ (code >>> 3) >>> (3 * j) := by
        intro j hj hv
        rw [chain_succ]
        apply hq (j + 1) (by omega)
        have : j + 1 - 1 = (j - 1) + 1 := by omega
        rw [this, ← chain_succ]; exact hv
      cases hp : o.m_nodes (code >>> 3) with
      | none => simp only []; exact ih o _ q hq'
      | some parentNode =>
        simp only []
        split
        · rw [ih _ _ q hq', delete_node_nodes, set_children_active_nodes]
          simp [hq1]
        · rw [set_children_active_nodes]; simp [hq1]
    · rw [if_neg hgt]

theorem delete_node_rec_loop_removes : ∀ (fuel : Nat) (o : octree) (code : Nat) (J : Nat),
    code < 2 ^ (3 * fuel + 1) →
    (∀ j, 1 ≤ j → j ≤ J → 1 < code >>> (3 * (j - 1)) → ∀ p, o.m_nodes (code >>> (3 * j)) = some p →
      ∀ i, p.children_active.testBit i = true → i = (code >>> (3 * (j - 1))) &&& 7) →
    ∀ j, 1 ≤ j → j ≤ J → 1 < code >>> (3 * (j - 1)) →
      (delete_node_rec_loop fuel o code).m_nodes (code >>> (3 * j)) = none := by
  intro fuel
  induction fuel with
  | zero =>
    intro o code J hcode _ j hj _ hv
    exfalso
    have h1 : code ≤ 1 := by simp at hcode; omega
    have := chain_le code (j - 1)
    omega
  | succ k ih =>
    intro o code J hcode hmask j hj hjJ hv
    have hgt : code > 1 := by
      have := chain_le code (j - 1)
      omega
    -- the hypothesis on the ancestors of the parent, in any state that agrees above the parent
    have hshift : ∀ (o1 : octree), (∀ q, q ≠ code >>> 3 → o1.m_nodes q = o.m_nodes q) →
        ∀ j, 1 ≤ j → j ≤ J - 1 → 1 < (code >>> 3) >>> (3 * (j - 1)) → ∀ p,
          o1.m_nodes ((code >>> 3) >>> (3 * j)) = some p →
          ∀ i, p.children_active.testBit i = true → i = ((code >>> 3) >>> (3 * (j - 1))) &&& 7 := by
      intro o1 hagree i hi hiJ hvi p hp b hb
      have hpos : 1 ≤ code >>> 3 := by
        have := chain_le (code >>> 3) (i - 1)
        omega
      have hne : (code >>> 3) >>> (3 * i) ≠ code >>> 3 := Nat.ne_of_lt (chain_lt_of_pos hpos hi)
      rw [hagree _ hne] at hp
      have e1 : (code >>> 3) >>> (3 * i) = code >>> (3 * (i + 1)) := chain_succ code i
      have e2 : (code >>> 3) >>> (3 * (i - 1)) = code >>> (3 * (i + 1 - 1)) := by
        rw [chain_succ]; congr 2; omega
      rw [e2]
      rw [e1] at hp
      exact hmask (i + 1) (by omega) (by omega) (by rw [← e2]; exact hvi) p hp b hb
    unfold delete_node_rec_loop
    rw [if_pos hgt]
    by_cases hj1 : j = 1
    · subst hj1
      simp only [Nat.mul_one]
      have hself : ∀ i, 1 ≤ i → 1 < (code >>> 3) >>> (3 * (i - 1)) →
          code >>> 3 ≠ (code >>> 3) >>> (3 * i) := by
        intro i hi hvi
        have hpos : 1 ≤ code >>> 3 := by
          have := chain_le (code >>> 3) (i - 1)
          omega
        exact Nat.ne_of_gt (chain_lt_of_pos hpos hi)
      cases hp : o.m_nodes (code >>> 3) with
      | none =>
        simp only []
        rw [delete_node_rec_loop_frame k o _ _ hself]; exact hp
      | some parentNode =>
        simp only []
        have hz : (parentNode.children_active &&&
            ((2 ^ 32 - 1) ^^^ (1 <<< (code &&& ((1 <<< 3) - 1))))) % 256 = 0 := by
          apply mask_clear_eq_zero
          intro i hi
          have := hmask 1 (le_refl 1) (by omega) (by simpa using hgt) parentNode (by simpa using hp) i hi
          simpa using this
        rw [if_pos hz]
        rw [delete_node_rec_loop_frame k _ _ _ hself, delete_node_nodes]
        simp
    · have hj2 : 2 ≤ j := by omega
      have e1 : code >>> (3 * j) = (code >>> 3) >>> (3 * (j - 1)) := by
        rw [chain_succ]; congr 2; omega
      have e2 : code >>> (3 * (j - 1)) = (code >>> 3) >>> (3 * (j - 1 - 1)) := by
        rw [chain_succ]; congr 2; omega
      rw [e1]
      cases hp : o.m_nodes (code >>> 3) with
      | none =>
        simp only []
        exact ih o _ (J - 1) (shiftRight_three_bound hcode) (hshift o (fun _ _ => rfl)) (j - 1)
          (by omega) (by omega) (by rw [← e2]; exact hv)
      | some parentNode =>
        simp only []
        have hz : (parentNode.children_active &&&
            ((2 ^ 32 - 1) ^^^ (1 <<< (code &&& ((1 <<< 3) - 1))))) % 256 = 0 := by
          apply mask_clear_eq_zero
          intro i hi
          have := hmask 1 (le_refl 1) (by omega) (by simpa using hgt) parentNode (by simpa using hp) i hi
          simpa using this
        rw [if_pos hz]
        apply ih _ _ (J - 1) (shiftRight_three_bound hcode) _ (j - 1) (by omega) (by omega)
          (by rw [← e2]; exact hv)
        apply hshift
        intro q hq
        rw [delete_node_nodes, set_children_active_nodes]
        simp [hq]

end octree

namespace octree

theorem chain_antitone (c : Nat) {j k : Nat} (h : j ≤ k) : c >>> (3 * k) ≤ c >>> (3 * j) := by
  have : 3 * k = 3 * j + 3 * (k - j) := by omega
  rw [this, Nat.shiftRight_add]
  exact chain_le _ _

theorem self_ne_chain {c j : Nat} (hc : 1 ≤ c) (hj : 1 ≤ j) : c ≠ c >>> (3 * j) :=
  Nat.ne_of_gt (chain_lt_of_pos hc hj)

end octree

/-! ## Octree: node creation and recursive deletion -/

namespace octree

/-- C6: for every octree state and every 32-bit code c >= 1, `create_node(c)` returns the
pointer to the entry of c, and afterwards every code `c >> 3k` that is at least 1 (c itself
and each ancestor down to the root code 1) has a node in the map; each ancestor (k >= 1)
has the occupancy bit `(c >> 3(k-1)) & 7` of the child on the path to c set. -/
theorem create_node_makes_path (o : octree) (c : Nat) (hc : 1 ≤ c) (h32 : c < 2 ^ 32) :
    (create_node o c).2 = c ∧
    ∀ k, 1 ≤ c >>> (3 * k) →
      ∃ n, (create_node o c).1.m_nodes (c >>> (3 * k)) = some n ∧
        (1 ≤ k → n.children_active.testBit ((c >>> (3 * (k - 1))) &&& 7) = true) := by
  refine ⟨rfl, ?_⟩
  intro k hk
  have hb : c < 2 ^ (3 * 11 + 1) := lt_of_lt_of_le h32 (by norm_num)
  obtain ⟨hF, hV⟩ := create_node_loop_spec 11 (find_create_node o c) c hb
  unfold create_node
  simp only []
  by_cases hk0 : k = 0
  · subst hk0
    simp only [Nat.mul_zero, Nat.shiftRight_zero]
    rw [hF c (fun j hj _ => self_ne_chain hc hj), find_create_node_nodes]
    cases h : o.m_nodes c with
    | none => exact ⟨_, by rw [if_pos rfl], fun h0 => absurd h0 (by omega)⟩
    | some n => exact ⟨n, by rw [if_pos rfl], fun h0 => absurd h0 (by omega)⟩
  · have hk1 : 1 ≤ k := by omega
    rw [hV k hk1 (visited_of_chain_pos hk1 hk)]
    refine ⟨_, rfl, fun _ => ?_⟩
    rw [bumped_testBit]
    simp [and_seven_lt]

/-- Witness for C6: the code 960 (depth 3) on the empty octree. -/
theorem create_node_makes_path_witness :
    1 ≤ 960 ∧ 960 < 2 ^ 32 ∧
    ((create_node init 960).2 = 960 ∧
      ∀ k, 1 ≤ 960 >>> (3 * k) →
        ∃ n, (create_node init 960).1.m_nodes (960 >>> (3 * k)) = some n ∧
          (1 ≤ k → n.children_active.testBit ((960 >>> (3 * (k - 1))) &&& 7) = true)) :=
  ⟨by decide, by decide, create_node_makes_path init 960 (by decide) (by decide)⟩

/-- C7: if the node of a 32-bit code c >= 1 exists with no active children and every
ancestor `c >> 3k >= 1` that is in the map has no occupancy bit set other than the one of
the child on the path to c, then `delete_node_rec(c)` removes c and every ancestor
`c >> 3k >= 1` (the root code 1 included) and leaves every node whose code is not of the
form `c >> 3k` unchanged. Moreover `create_node(c)` on an octree with an empty map followed
by `delete_node_rec(c)` leaves the map empty. -/
theorem delete_node_rec_removes_path (o : octree) (c : Nat) (hc : 1 ≤ c) (h32 : c < 2 ^ 32)
    (n : octree_node) (hn : o.m_nodes c = some n) (hchild : n.children_active = 0)
    (hsib : ∀ k, 1 ≤ k → 1 ≤ c >>> (3 * k) → ∀ p, o.m_nodes (c >>> (3 * k)) = some p →
      ∀ i, p.children_active.testBit i = true → i = (c >>> (3 * (k - 1))) &&& 7) :
    (∃ o1, delete_node_rec o c = some o1 ∧
        (∀ k, 1 ≤ c >>> (3 * k) → o1.m_nodes (c >>> (3 * k)) = none) ∧
        (∀ q, (∀ k, q ≠ c >>> (3 * k)) → o1.m_nodes q = o.m_nodes q)) ∧
    (∀ e : octree, (∀ q, e.m_nodes q = none) →
      ∃ o2, delete_node_rec (create_node e c).1 c = some o2 ∧ ∀ q, o2.m_nodes q = none) := by
  have hb : c < 2 ^ (3 * 11 + 1) := lt_of_lt_of_le h32 (by norm_num)
  constructor
  · refine ⟨delete_node_rec_loop 11 (delete_node o c) c, ?_, ?_, ?_⟩
    · unfold delete_node_rec find_node
      rw [hn]
      simp [hchild]
    · intro k hk
      by_cases hk0 : k = 0
      · subst hk0
        simp only [Nat.mul_zero, Nat.shiftRight_zero]
        rw [delete_node_rec_loop_frame 11 _ c c (fun j hj _ => self_ne_chain hc hj),
          delete_node_nodes]
        simp
      · have hk1 : 1 ≤ k := by omega
        apply delete_node_rec_loop_removes 11 (delete_node o c) c k hb _ k hk1 (le_refl k)
          (visited_of_chain_pos hk1 hk)
        intro j hj hjk hv p hp i hi
        rw [delete_node_nodes, if_neg (Ne.symm (self_ne_chain hc hj))] at hp
        exact hsib j hj (le_trans hk (chain_antitone c hjk)) p hp i hi
    · intro q hq
      rw [delete_node_rec_loop_frame 11 _ c q (fun j _ _ => hq j), delete_node_nodes]
      have := hq 0
      simp only [Nat.mul_zero, Nat.shiftRight_zero] at this
      simp [this]
  · intro e hempty
    obtain ⟨hF, hV⟩ := create_node_loop_spec 11 (find_create_node e c) c hb
    have hnode : (create_node e c).1.m_nodes c =
        some { locational_code := c, children_active := 0, first := none } := by
      unfold create_node
      simp only []
      rw [hF c (fun j hj _ => self_ne_chain hc hj), find_create_node_nodes, hempty]
      simp
    have hanc : ∀ j, 1 ≤ j → 1 < c >>> (3 * (j - 1)) →
        (create_node e c).1.m_nodes (c >>> (3 * j)) =
          some (bumped none (c >>> (3 * j)) ((c >>> (3 * (j - 1))) &&& 7)) := by
      intro j hj hv
      unfold create_node
      simp only []
      rw [hV j hj hv, find_create_node_nodes, if_neg (Ne.symm (self_ne_chain hc hj)), hempty]
    refine ⟨delete_node_rec_loop 11 (delete_node (create_node e c).1 c) c, ?_, ?_⟩
    · unfold delete_node_rec find_node
      rw [hnode]
      simp
    · intro q
      by_cases hq : ∃ j, 1 ≤ j ∧ 1 < c >>> (3 * (j - 1)) ∧ q = c >>> (3 * j)
      · obtain ⟨j, hj, hv, rfl⟩ := hq
        apply delete_node_rec_loop_removes 11 _ c j hb _ j hj (le_refl j) hv
        intro i hi _ hvi p hp b hbit
        rw [delete_node_nodes, if_neg (Ne.symm (self_ne_chain hc hi)), hanc i hi hvi] at hp
        have hp1 := Option.some.inj hp
        rw [← hp1, bumped_testBit] at hbit
        simp at hbit
        exact hbit.2.symm
      · have hq1 : ∀ j, 1 ≤ j → 1 < c >>> (3 * (j - 1)) → q ≠ c >>> (3 * j) := by
          intro j hj hv heq
          exact hq ⟨j, hj, hv, heq⟩
        rw [delete_node_rec_loop_frame 11 _ c q hq1, delete_node_nodes]
        by_cases hqc : q = c
        · simp [hqc]
        · rw [if_neg hqc]
          unfold create_node
          simp only []
          rw [hF q hq1, find_create_node_nodes, if_neg hqc, hempty]

theorem path_64_siblings : ∀ k, 1 ≤ k → 1 ≤ 64 >>> (3 * k) →
    ∀ p, path_64.m_nodes (64 >>> (3 * k)) = some p →
      ∀ i, p.children_active.testBit i = true → i = (64 >>> (3 * (k - 1))) &&& 7 := by
  intro k hk hpos
  have hk2 : k ≤ 2 := by
    by_contra hlt
    have h3 : 3 ≤ k := by omega
    have := chain_antitone 64 h3
    have e : 64 >>> (3 * 3) = 0 := by decide
    omega
  have hcases : k = 1 ∨ k = 2 := by omega
  rcases hcases with rfl | rfl
  · intro p hp i hi
    have hp1 : p = { locational_code := 8, children_active := 1, first := none } := by
      have : path_64.m_nodes 8 = some { locational_code := 8, children_active := 1, first := none } := by
        decide
      have e : 64 >>> (3 * 1) = 8 := by decide
      rw [e, this] at hp
      exact (Option.some.inj hp).symm
    subst hp1
    have e0 : (64 >>> (3 * (1 - 1))) &&& 7 = 0 := by decide
    rw [e0]
    by_contra hne
    have : Nat.testBit 1 i = false := by
      apply Nat.testBit_lt_two_pow
      calc 1 < 2 ^ 1 := by norm_num
        _ ≤ 2 ^ i := Nat.pow_le_pow_right (by norm_num) (by omega)
    simp only [] at hi
    rw [this] at hi
    exact Bool.noConfusion hi
  · intro p hp i hi
    have hp1 : p = { locational_code := 1, children_active := 1, first := none } := by
      have : path_64.m_nodes 1 = some { locational_code := 1, children_active := 1, first := none } := by
        decide
      have e : 64 >>> (3 * 2) = 1 := by decide
      rw [e, this] at hp
      exact (Option.some.inj hp).symm
    subst hp1
    have e0 : (64 >>> (3 * (2 - 1))) &&& 7 = 0 := by decide
    rw [e0]
    by_contra hne
    have : Nat.testBit 1 i = false := by
      apply Nat.testBit_lt_two_pow
      calc 1 < 2 ^ 1 := by norm_num
        _ ≤ 2 ^ i := Nat.pow_le_pow_right (by norm_num) (by omega)
    simp only [] at hi
    rw [this] at hi
    exact Bool.noConfusion hi

/-- Witness for C7: the three-node path 64, 8, 1 built on the empty octree. -/
theorem delete_node_rec_removes_path_witness :
    1 ≤ 64 ∧ 64 < 2 ^ 32 ∧
    path_64.m_nodes 64 = some { locational_code := 64, children_active := 0, first := none } ∧
    ((∃ o1, delete_node_rec path_64 64 = some o1 ∧
        (∀ k, 1 ≤ 64 >>> (3 * k) → o1.m_nodes (64 >>> (3 * k)) = none) ∧
        (∀ q, (∀ k, q ≠ 64 >>> (3 * k)) → o1.m_nodes q = path_64.m_nodes q)) ∧
    (∀ e : octree, (∀ q, e.m_nodes q = none) →
      ∃ o2, delete_node_rec (create_node e 64).1 64 = some o2 ∧ ∀ q, o2.m_nodes q = none)) :=
  ⟨by decide, by decide, by decide,
    delete_node_rec_removes_path path_64 64 (by decide) (by decide)
      { locational_code := 64, children_active := 0, first := none } (by decide) rfl
      path_64_siblings⟩

/-- C9 (failing input): the root node holds an occupant and has the single child 8;
`delete_node_rec(8)` clears the root's last occupancy bit and deletes the root, occupant
list and all. -/
theorem delete_node_rec_deletes_occupied_ancestor :
    (occupied_root.m_nodes 1).map (fun n => (n.first, n.children_active)) = some (some 0, 1)
    ∧ (occupied_root.m_nodes 8).map (fun n => (n.first, n.children_active)) = some (none, 0)
    ∧ (delete_node_rec occupied_root 8).map (fun o => (o.m_nodes 1, o.m_nodes 8))
        = some (none, none) := by
  decide

end octree

namespace octree

/-! ## Lemmas: occupancy invariant -/

theorem child_shift (p i : Nat) (hi : i < 8) : (8 * p + i) >>> 3 = p := by
  rw [Nat.shiftRight_eq_div_pow]
  have : (2 : Nat) ^ 3 = 8 := by norm_num
  rw [this]
  omega

theorem child_low (p i : Nat) (hi : i < 8) : (8 * p + i) &&& 7 = i := by
  have : (8 * p + i) &&& 7 = (8 * p + i) % 8 := Nat.and_pow_two_sub_one_eq_mod _ 3
  rw [this]
  omega

theorem parent_child (q : Nat) : 8 * (q >>> 3) + (q &&& 7) = q := by
  have h1 : q &&& 7 = q % 8 := Nat.and_pow_two_sub_one_eq_mod _ 3
  have h2 : q >>> 3 = q / 8 := by
    rw [Nat.shiftRight_eq_div_pow]
  rw [h1, h2]
  omega

theorem child_eq_iff {p i q : Nat} (hi : i < 8) : 8 * p + i = q ↔ (p = q >>> 3 ∧ i = q &&& 7) := by
  constructor
  · intro h
    subst h
    exact ⟨(child_shift p i hi).symm, (child_low p i hi).symm⟩
  · rintro ⟨rfl, rfl⟩
    exact parent_child q

theorem is_locational_code_pos {c : Nat} (h : is_locational_code c) : 1 ≤ c := by
  obtain ⟨d, _, hd⟩ := h
  have := chain_le c d
  omega

theorem is_locational_code_parent {c : Nat} (h : is_locational_code c) (h1 : c ≠ 1) :
    is_locational_code (c >>> 3) := by
  obtain ⟨d, hd10, hd⟩ := h
  have hd0 : d ≠ 0 := by
    intro h0
    subst h0
    simp at hd
    exact h1 hd
  refine ⟨d - 1, by omega, ?_⟩
  rw [chain_succ]
  have : d - 1 + 1 = d := by omega
  rw [this]
  exact hd

theorem is_locational_code_lt {c : Nat} (h : is_locational_code c) : c < 2 ^ 31 := by
  obtain ⟨d, hd10, hd⟩ := h
  rw [Nat.shiftRight_eq_div_pow] at hd
  have hlt : c / 2 ^ (3 * d) < 2 := by omega
  rw [Nat.div_lt_iff_lt_mul (by positivity)] at hlt
  calc c < 2 * 2 ^ (3 * d) := hlt
    _ = 2 ^ (3 * d + 1) := by rw [Nat.pow_succ]; ring
    _ ≤ 2 ^ 31 := Nat.pow_le_pow_right (by norm_num) (by omega)

theorem occupancy_of_occ_at {o : octree} (h : ∀ p i, occ_at o p i) : occupancy_invariant o := by
  intro p n hn i hi
  have := h p i n hn
  have e : p <<< 3 + i = 8 * p + i := by
    rw [Nat.shiftLeft_eq]; ring
  rw [e, this]
  simp [hi]

/-- Loop invariant of `create_node`: everything holds except that the parent of `code` may
be absent or may lack the bit of `code`. -/
theorem create_node_loop_inv : ∀ (fuel : Nat) (o : octree) (code : Nat),
    code < 2 ^ (3 * fuel + 1) → keys_valid o → is_locational_code code →
    (o.m_nodes code).isSome = true →
    (∀ q n, o.m_nodes q = some n → q ≠ 1 → q ≠ code → (o.m_nodes (q >>> 3)).isSome = true) →
    (∀ p i, ¬ (p = code >>> 3 ∧ i = code &&& 7) → occ_at o p i) →
    keys_valid (create_node_loop fuel o code) ∧ ancestor_closed (create_node_loop fuel o code) ∧
      ∀ p i, occ_at (create_node_loop fuel o code) p i := by
  intro fuel
  induction fuel with
  | zero =>
    intro o code hcode hK hval hin hA hO
    have hpos := is_locational_code_pos hval
    have h1 : code = 1 := by simp at hcode; omega
    subst h1
    refine ⟨hK, ?_, ?_⟩
    · intro q n hq hq1
      exact hA q n hq hq1 hq1
    · intro p i
      by_cases hex : p = 1 >>> 3 ∧ i = 1 &&& 7
      · intro n hn
        have := is_locational_code_pos (hK p n hn)
        have hp0 : p = 0 := by rw [hex.1]; decide
        omega
      · exact hO p i hex
  | succ k ih =>
    intro o code hcode hK hval hin hA hO
    unfold create_node_loop
    by_cases hgt : code > 1
    · rw [if_pos hgt]
      have hne1 : code ≠ 1 := by omega
      have hpval := is_locational_code_parent hval hne1
      have hppos := is_locational_code_pos hpval
      apply ih _ _ (shiftRight_three_bound hcode)
      · -- keys stay valid
        intro q n hq
        rw [create_node_loop_step] at hq
        by_cases hqp : q = code >>> 3
        · rw [hqp]; exact hpval
        · rw [if_neg hqp] at hq
          exact hK q n hq
      · exact hpval
      · rw [create_node_loop_step]; simp
      · -- parents exist, except possibly for the new current node
        intro q n hq hq1 hqp
        rw [create_node_loop_step, if_neg hqp] at hq
        rw [create_node_loop_step]
        by_cases hpar : q >>> 3 = code >>> 3
        · rw [if_pos hpar]; rfl
        · rw [if_neg hpar]
          apply hA q n hq hq1
          intro hqc
          rw [hqc] at hpar
          exact hpar rfl
      · -- occupancy, except at the parent of the new current node
        intro p i hex n hn
        rw [create_node_loop_step] at hn
        have hchild : ∀ j, j < 8 → 8 * p + j ≠ code >>> 3 ∨ (p = (code >>> 3) >>> 3 ∧ j = (code >>> 3) &&& 7) := by
          intro j hj
          by_cases h : 8 * p + j = code >>> 3
          · right; exact (child_eq_iff hj).mp h
          · left; exact h
        by_cases hp : p = code >>> 3
        · rw [if_pos hp] at hn
          have hn1 := Option.some.inj hn
          rw [← hn1, bumped_testBit]
          by_cases hi : i < 8
          · have hcne : 8 * p + i ≠ code >>> 3 := by rw [hp]; omega
            rw [create_node_loop_step, if_neg hcne]
            by_cases hib : i = code &&& 7
            · have : 8 * p + i = code := by rw [hp, hib]; exact parent_child code
              rw [this]
              simp [hi, hib, hin]
            · have hex0 : ¬ (p = code >>> 3 ∧ i = code &&& 7) := fun h => hib h.2
              have hOp := hO p i hex0
              cases hold : o.m_nodes (code >>> 3) with
              | none =>
                have hnone : (o.m_nodes (8 * p + i)).isSome = false := by
                  cases hc : o.m_nodes (8 * p + i) with
                  | none => rfl
                  | some m =>
                    exfalso
                    have hcc : 8 * p + i ≠ code := by
                      intro h
                      have := (child_eq_iff hi).mp h
                      exact hib this.2
                    have := hA (8 * p + i) m hc (by omega) hcc
                    rw [child_shift p i hi, hp, hold] at this
                    exact Bool.noConfusion this
                simp [hi, hnone, Ne.symm hib]
              | some m =>
                have := hOp m (by rw [hp]; exact hold)
                simp only [Option.map, Option.getD]
                have hib2 : (code &&& 7) ≠ i := Ne.symm hib
                simp only [hi, decide_True, Bool.true_and, hib2, decide_False, Bool.or_false, true_and]
                rw [this]
                simp [hi]
          · simp [hi]
        · rw [if_neg hp] at hn
          have hex0 : ¬ (p = code >>> 3 ∧ i = code &&& 7) := fun h => hp h.1
          have hOp := hO p i hex0 n hn
          rw [hOp]
          by_cases hi : i < 8
          · rcases hchild i hi with hne | heq
            · rw [create_node_loop_step, if_neg hne]
            · exact absurd heq hex
          · simp [hi]
    · rw [if_neg hgt]
      have hpos := is_locational_code_pos hval
      have h1 : code = 1 := by omega
      subst h1
      refine ⟨hK, ?_, ?_⟩
      · intro q n hq hq1
        exact hA q n hq hq1 hq1
      · intro p i
        by_cases hex : p = 1 >>> 3 ∧ i = 1 &&& 7
        · intro n hn
          have := is_locational_code_pos (hK p n hn)
          have hp0 : p = 0 := by rw [hex.1]; decide
          omega
        · exact hO p i hex

end octree

namespace octree

theorem create_node_preserves (o : octree) (c : Nat) (hval : is_locational_code c)
    (hK : keys_valid o) (hA : ancestor_closed o) (hO : ∀ p i, occ_at o p i) :
    keys_valid (create_node o c).1 ∧ ancestor_closed (create_node o c).1 ∧
      ∀ p i, occ_at (create_node o c).1 p i := by
  have hb : c < 2 ^ (3 * 11 + 1) := lt_of_lt_of_le (is_locational_code_lt hval) (by norm_num)
  have hpos := is_locational_code_pos hval
  unfold create_node
  simp only []
  apply create_node_loop_inv 11 _ c hb
  · intro q n hq
    rw [find_create_node_nodes] at hq
    by_cases hqc : q = c
    · rw [hqc]; exact hval
    · rw [if_neg hqc] at hq; exact hK q n hq
  · exact hval
  · rw [find_create_node_nodes, if_pos rfl]
    cases o.m_nodes c <;> rfl
  · intro q n hq hq1 hqc
    rw [find_create_node_nodes, if_neg hqc] at hq
    have := hA q n hq hq1
    rw [find_create_node_nodes]
    by_cases hpar : q >>> 3 = c
    · rw [if_pos hpar]
      cases o.m_nodes c <;> rfl
    · rw [if_neg hpar]; exact this
  · intro p i hex n hn
    rw [find_create_node_nodes] at hn
    by_cases hi : i < 8
    · have hcne : 8 * p + i ≠ c := by
        intro h
        exact hex ((child_eq_iff hi).mp h)
      rw [find_create_node_nodes, if_neg hcne]
      by_cases hp : p = c
      · rw [if_pos hp] at hn
        cases hold : o.m_nodes c with
        | none =>
          rw [hold] at hn
          have hn1 := Option.some.inj hn
          rw [← hn1]
          have hnone : (o.m_nodes (8 * p + i)).isSome = false := by
            cases hc : o.m_nodes (8 * p + i) with
            | none => rfl
            | some m =>
              exfalso
              have := hA (8 * p + i) m hc (by omega)
              rw [child_shift p i hi, hp, hold] at this
              exact Bool.noConfusion this
          simp [hnone]
        | some m =>
          rw [hold] at hn
          have hn1 := Option.some.inj hn
          rw [← hn1]
          exact hO p i m (by rw [hp]; exact hold)
      · rw [if_neg hp] at hn
        exact hO p i n hn
    · by_cases hp : p = c
      · rw [if_pos hp] at hn
        cases hold : o.m_nodes c with
        | none =>
          rw [hold] at hn
          have hn1 := Option.some.inj hn
          rw [← hn1]
          simp [hi]
        | some m =>
          rw [hold] at hn
          have hn1 := Option.some.inj hn
          rw [← hn1]
          have := hO p i m (by rw [hp]; exact hold)
          rw [this]
          simp [hi]
      · rw [if_neg hp] at hn
        have := hO p i n hn
        rw [this]
        simp [hi]

/-- Loop invariant of `delete_node_rec`: `code` has just been removed, and everything holds
except that the parent of `code` still carries the bit of `code`. -/
theorem delete_node_rec_loop_inv : ∀ (fuel : Nat) (o : octree) (code : Nat),
    code < 2 ^ (3 * fuel + 1) → keys_valid o → ancestor_closed o → is_locational_code code →
    o.m_nodes code = none →
    (code ≠ 1 → (o.m_nodes (code >>> 3)).isSome = true) →
    (∀ p i, ¬ (p = code >>> 3 ∧ i = code &&& 7) → occ_at o p i) →
    keys_valid (delete_node_rec_loop fuel o code) ∧
      ancestor_closed (delete_node_rec_loop fuel o code) ∧
      ∀ p i, occ_at (delete_node_rec_loop fuel o code) p i := by
  intro fuel
  induction fuel with
  | zero =>
    intro o code hcode hK hA hval hout hpar hO
    have hpos := is_locational_code_pos hval
    have h1 : code = 1 := by simp at hcode; omega
    subst h1
    refine ⟨hK, hA, ?_⟩
    intro p i
    by_cases hex : p = 1 >>> 3 ∧ i = 1 &&& 7
    · intro n hn
      have := is_locational_code_pos (hK p n hn)
      have hp0 : p = 0 := by rw [hex.1]; decide
      omega
    · exact hO p i hex
  | succ k ih =>
    intro o code hcode hK hA hval hout hpar hO
    unfold delete_node_rec_loop
    by_cases hgt : code > 1
    · rw [if_pos hgt]
      have hne1 : code ≠ 1 := by omega
      have hpval := is_locational_code_parent hval hne1
      have hppos := is_locational_code_pos hpval
      have hpin := hpar hne1
      cases hp : o.m_nodes (code >>> 3) with
      | none => rw [hp] at hpin; exact Bool.noConfusion hpin
      | some parentNode =>
        simp only []
        -- the state after the mask of the parent has been written
        have hm1 : ∀ q, (set_children_active o (code >>> 3)
              ((parentNode.children_active &&&
                ((2 ^ 32 - 1) ^^^ (1 <<< (code &&& ((1 <<< 3) - 1))))) % 256)).m_nodes q =
            if q = code >>> 3 then
              some { parentNode with children_active :=
                (parentNode.children_active &&& ((2 ^ 32 - 1) ^^^ (1 <<< (code &&& 7)))) % 256 }
            else o.m_nodes q := by
          intro q
          rw [set_children_active_nodes]
          by_cases hq : q = code >>> 3
          · rw [if_pos hq, if_pos hq, hp]; simp
          · rw [if_neg hq, if_neg hq]
        have hsome1 : ∀ q, ((set_children_active o (code >>> 3)
              ((parentNode.children_active &&&
                ((2 ^ 32 - 1) ^^^ (1 <<< (code &&& ((1 <<< 3) - 1))))) % 256)).m_nodes q).isSome
              = (o.m_nodes q).isSome := by
          intro q
          rw [hm1]
          by_cases hq : q = code >>> 3
          · rw [if_pos hq, hq, hp]; rfl
          · rw [if_neg hq]
        have hK1 : keys_valid (set_children_active o (code >>> 3)
              ((parentNode.children_active &&&
                ((2 ^ 32 - 1) ^^^ (1 <<< (code &&& ((1 <<< 3) - 1))))) % 256)) := by
          intro q n hq
          rw [hm1] at hq
          by_cases hqp : q = code >>> 3
          · rw [hqp]; exact hpval
          · rw [if_neg hqp] at hq; exact hK q n hq
        have hA1 : ancestor_closed (set_children_active o (code >>> 3)
              ((parentNode.children_active &&&
                ((2 ^ 32 - 1) ^^^ (1 <<< (code &&& ((1 <<< 3) - 1))))) % 256)) := by
          intro q n hq hq1
          rw [hsome1]
          have hqs : (o.m_nodes q).isSome = true := by rw [← hsome1, hq]; rfl
          cases hqq : o.m_nodes q with
          | none => rw [hqq] at hqs; exact Bool.noConfusion hqs
          | some m => exact hA q m hqq hq1
        have hO1 : ∀ p i, occ_at (set_children_active o (code >>> 3)
              ((parentNode.children_active &&&
                ((2 ^ 32 - 1) ^^^ (1 <<< (code &&& ((1 <<< 3) - 1))))) % 256)) p i := by
          intro p i n hn
          rw [hsome1]
          rw [hm1] at hn
          by_cases hpp : p = code >>> 3
          · rw [if_pos hpp] at hn
            have hn1 := Option.some.inj hn
            rw [← hn1]
            simp only []
            rw [mask_clear_testBit]
            by_cases hib : i = code &&& 7
            · have hc : 8 * p + i = code := by rw [hpp, hib]; exact parent_child code
              rw [hc, hout]
              simp [hib]
            · have hex0 : ¬ (p = code >>> 3 ∧ i = code &&& 7) := fun h => hib h.2
              have := hO p i hex0 parentNode (by rw [hpp]; exact hp)
              have hib2 : (code &&& 7) ≠ i := Ne.symm hib
              by_cases hi : i < 8
              · simp only [hi, decide_True, Bool.true_and, hib2, decide_False, Bool.not_false,
                  Bool.and_true, true_and]
                rw [this]
                simp [hi]
              · simp [hi]
          · rw [if_neg hpp] at hn
            exact hO p i (fun h => hpp h.1) n hn
        split
        · -- the parent has become childless and is deleted too
          rename_i hz
          apply ih _ _ (shiftRight_three_bound hcode)
          · intro q n hq
            rw [delete_node_nodes] at hq
            by_cases hqp : q = code >>> 3
            · rw [if_pos hqp] at hq; exact Option.noConfusion hq
            · rw [if_neg hqp] at hq; exact hK1 q n hq
          · intro q n hq hq1
            rw [delete_node_nodes] at hq
            by_cases hqp : q = code >>> 3
            · rw [if_pos hqp] at hq; exact Option.noConfusion hq
            · rw [if_neg hqp] at hq
              rw [delete_node_nodes]
              by_cases hpar2 : q >>> 3 = code >>> 3
              · -- q would be a child of the deleted parent, whose mask is 0
                exfalso
                have hocc := hO1 (code >>> 3) (q &&& 7) _ (by rw [hm1, if_pos rfl])
                simp only [] at hocc
                have hqc : 8 * (code >>> 3) + (q &&& 7) = q := by
                  rw [← hpar2]; exact parent_child q
                rw [hqc, hq] at hocc
                have hbit := hocc.mpr ⟨and_seven_lt q, rfl⟩
                have h7 : code &&& ((1 <<< 3) - 1) = code &&& 7 := rfl
                rw [h7] at hz
                rw [hz, Nat.zero_testBit] at hbit
                exact Bool.noConfusion hbit
              · rw [if_neg hpar2]
                exact hA1 q n hq hq1
          · exact hpval
          · rw [delete_node_nodes, if_pos rfl]
          · intro hp1
            rw [delete_node_nodes]
            have hne : (code >>> 3) >>> 3 ≠ code >>> 3 :=
              Nat.ne_of_lt (shiftRight_three_lt hppos)
            rw [if_neg hne, hsome1]
            exact hA (code >>> 3) parentNode hp hp1
          · intro p i hex n hn
            rw [delete_node_nodes] at hn
            by_cases hpp : p = code >>> 3
            · rw [if_pos hpp] at hn; exact Option.noConfusion hn
            · rw [if_neg hpp] at hn
              have := hO1 p i n hn
              rw [this]
              by_cases hi : i < 8
              · have hcne : 8 * p + i ≠ code >>> 3 := by
                  intro h
                  exact hex ((child_eq_iff hi).mp h)
                rw [delete_node_nodes, if_neg hcne]
              · simp [hi]
        · exact ⟨hK1, hA1, hO1⟩
    · rw [if_neg hgt]
      have hpos := is_locational_code_pos hval
      have h1 : code = 1 := by omega
      subst h1
      refine ⟨hK, hA, ?_⟩
      intro p i
      by_cases hex : p = 1 >>> 3 ∧ i = 1 &&& 7
      · intro n hn
        have := is_locational_code_pos (hK p n hn)
        have hp0 : p = 0 := by rw [hex.1]; decide
        omega
      · exact hO p i hex

end octree

namespace octree

theorem delete_node_rec_preserves (o : octree) (c : Nat) (n : octree_node) (o1 : octree)
    (hn : o.m_nodes c = some n) (hchild : n.children_active = 0)
    (hdel : delete_node_rec o c = some o1)
    (hK : keys_valid o) (hA : ancestor_closed o) (hO : ∀ p i, occ_at o p i) :
    keys_valid o1 ∧ ancestor_closed o1 ∧ ∀ p i, occ_at o1 p i := by
  have hval := hK c n hn
  have hpos := is_locational_code_pos hval
  have hb : c < 2 ^ (3 * 11 + 1) := lt_of_lt_of_le (is_locational_code_lt hval) (by norm_num)
  have ho1 : o1 = delete_node_rec_loop 11 (delete_node o c) c := by
    unfold delete_node_rec find_node at hdel
    rw [hn] at hdel
    simp only [hchild, if_true] at hdel
    exact (Option.some.inj hdel).symm
  rw [ho1]
  have hnochild : ∀ i, i < 8 → o.m_nodes (8 * c + i) = none := by
    intro i hi
    have := hO c i n hn
    rw [hchild, Nat.zero_testBit] at this
    cases hc : o.m_nodes (8 * c + i) with
    | none => rfl
    | some m =>
      exfalso
      rw [hc] at this
      have := this.mpr ⟨hi, rfl⟩
      exact Bool.noConfusion this
  apply delete_node_rec_loop_inv 11 _ c hb
  · intro q m hq
    rw [delete_node_nodes] at hq
    by_cases hqc : q = c
    · rw [if_pos hqc] at hq; exact Option.noConfusion hq
    · rw [if_neg hqc] at hq; exact hK q m hq
  · intro q m hq hq1
    rw [delete_node_nodes] at hq
    by_cases hqc : q = c
    · rw [if_pos hqc] at hq; exact Option.noConfusion hq
    · rw [if_neg hqc] at hq
      rw [delete_node_nodes]
      by_cases hpar : q >>> 3 = c
      · exfalso
        have := hnochild (q &&& 7) (and_seven_lt q)
        rw [← hpar, parent_child q, hq] at this
        exact Option.noConfusion this
      · rw [if_neg hpar]; exact hA q m hq hq1
  · exact hval
  · rw [delete_node_nodes, if_pos rfl]
  · intro hc1
    rw [delete_node_nodes]
    have hne : c >>> 3 ≠ c := Nat.ne_of_lt (shiftRight_three_lt hpos)
    rw [if_neg hne]
    exact hA c n hn hc1
  · intro p i hex m hm
    rw [delete_node_nodes] at hm
    by_cases hpc : p = c
    · rw [if_pos hpc] at hm; exact Option.noConfusion hm
    · rw [if_neg hpc] at hm
      have := hO p i m hm
      rw [this]
      by_cases hi : i < 8
      · have hcne : 8 * p + i ≠ c := by
          intro h
          exact hex ((child_eq_iff hi).mp h)
        rw [delete_node_nodes, if_neg hcne]
      · simp [hi]

theorem reachable_inv (o : octree) (h : reachable o) :
    keys_valid o ∧ ancestor_closed o ∧ ∀ p i, occ_at o p i := by
  induction h with
  | empty o hempty =>
    refine ⟨?_, ?_, ?_⟩
    · intro q n hq; rw [hempty] at hq; exact Option.noConfusion hq
    · intro q n hq; rw [hempty] at hq; exact Option.noConfusion hq
    · intro p i n hn; rw [hempty] at hn; exact Option.noConfusion hn
  | create o c _ hval ih =>
    exact create_node_preserves o c hval ih.1 ih.2.1 ih.2.2
  | delete o c n o1 _ hn hchild hdel ih =>
    exact delete_node_rec_preserves o c n o1 hn hchild hdel ih.1 ih.2.1 ih.2.2

end octree

/-! ## Octree: the occupancy invariant -/

namespace octree

/-- C8 (counterexample): node 8 is in the map and has the active child 64;
`delete_node_rec(8)` keeps node 8 but clears its bit in the root, which stays in the map
because of its other child 9. Afterwards bit 0 of the root is clear although the node
`(1 << 3) + 0 = 8` exists: the occupancy invariant fails in a state reached by
`create_node` and `delete_node_rec` on a code present in the map. It also fails after
`create_node(2)` alone: the code 2 has no sentinel on a group boundary, its parent is the
code 0, and node 0 is its own child number 0 without having bit 0 set. -/
theorem occupancy_broken_by_delete_of_parent :
    (two_children.m_nodes 8).isSome = true
    ∧ (delete_node_rec two_children 8).map
        (fun o => ((o.m_nodes 1).map (fun n => n.children_active.testBit 0), (o.m_nodes 8).isSome))
        = some (some false, true)
    ∧ ¬ occupancy_invariant ((delete_node_rec two_children 8).getD init)
    ∧ ¬ occupancy_invariant (create_node init 2).1 := by
  refine ⟨by decide, by decide, ?_, ?_⟩
  · intro h
    have h1 := h 1 { locational_code := 1, children_active := 2, first := none } (by decide) 0
      (by decide)
    have h2 : ((((delete_node_rec two_children 8).getD init).m_nodes (1 <<< 3 + 0)).isSome = true) := by
      decide
    have h3 := h1.mpr h2
    exact absurd h3 (by decide)
  · intro h
    have h1 := h 0 { locational_code := 0, children_active := 4, first := none } (by decide) 0
      (by decide)
    have h2 : (((create_node init 2).1.m_nodes (0 <<< 3 + 0)).isSome = true) := by decide
    have h3 := h1.mpr h2
    exact absurd h3 (by decide)

/-- C8 (amended): in every state reached from an empty map by `create_node` on well-formed
locational codes and `delete_node_rec` on nodes that are in the map and have no active
children, for every node p of the map and every i in 0..7, bit i of p's `children_active`
is set iff the node `(p << 3) + i` is in the map. -/
theorem reachable_occupancy_invariant (o : octree) (h : reachable o) : occupancy_invariant o :=
  occupancy_of_occ_at (reachable_inv o h).2.2

/-- Witness for C8: the state with the nodes 1, 8, 9 and 64. -/
theorem reachable_occupancy_invariant_witness :
    reachable two_children ∧ occupancy_invariant two_children :=
  ⟨reachable.create _ 9 (reachable.create init 64 (reachable.empty init (fun _ => rfl))
      ⟨2, by decide, by decide⟩) ⟨1, by decide, by decide⟩,
    reachable_occupancy_invariant two_children
      (reachable.create _ 9 (reachable.create init 64 (reachable.empty init (fun _ => rfl))
        ⟨2, by decide, by decide⟩) ⟨1, by decide, by decide⟩)⟩

end octree

/-! ## Lemmas: locational codes -/

theorem and_two_pow_eq (x k : Nat) : x &&& 2 ^ k = if x.testBit k then 2 ^ k else 0 := by
  apply Nat.eq_of_testBit_eq
  intro j
  rw [Nat.testBit_and, Nat.testBit_two_pow]
  by_cases hx : x.testBit k = true
  · rw [if_pos hx, Nat.testBit_two_pow]
    by_cases hj : k = j
    · subst hj; simp [hx]
    · simp [hj]
  · rw [if_neg hx, Nat.zero_testBit]
    by_cases hj : k = j
    · subst hj; simp [hx]
    · simp [hj]

theorem and_one_shiftLeft_ne_zero (x k : Nat) : (x &&& (1 <<< k) ≠ 0) ↔ x.testBit k = true := by
  rw [Nat.one_shiftLeft, and_two_pow_eq]
  by_cases hx : x.testBit k = true
  · simp [hx]
  · simp [hx]

/-- Facts about a code whose sentinel is bit `3 * d`. -/
theorem code_bounds {c d : Nat} (h : c >>> (3 * d) = 1) : 2 ^ (3 * d) ≤ c ∧ c < 2 ^ (3 * d + 1) := by
  rw [Nat.shiftRight_eq_div_pow] at h
  constructor
  · have : 1 * 2 ^ (3 * d) ≤ c := (Nat.le_div_iff_mul_le (by positivity)).mp (by omega)
    omega
  · have hlt : c / 2 ^ (3 * d) < 2 := by omega
    rw [Nat.div_lt_iff_lt_mul (by positivity)] at hlt
    calc c < 2 * 2 ^ (3 * d) := hlt
      _ = 2 ^ (3 * d + 1) := by rw [Nat.pow_succ]; ring

theorem code_testBit_sentinel {c d : Nat} (h : c >>> (3 * d) = 1) : c.testBit (3 * d) = true := by
  have : (c >>> (3 * d)).testBit 0 = true := by rw [h]; decide
  rw [Nat.testBit_shiftRight] at this
  simpa using this

theorem code_testBit_above {c d j : Nat} (h : c >>> (3 * d) = 1) (hj : 3 * d < j) :
    c.testBit j = false := by
  apply Nat.testBit_lt_two_pow
  calc c < 2 ^ (3 * d + 1) := (code_bounds h).2
    _ ≤ 2 ^ j := Nat.pow_le_pow_right (by norm_num) (by omega)

theorem code_log2 {c d : Nat} (h : c >>> (3 * d) = 1) : Nat.log2 c = 3 * d := by
  have hb := code_bounds h
  have hne : c ≠ 0 := by
    have : 0 < 2 ^ (3 * d) := by positivity
    omega
  have h1 : Nat.log2 c < 3 * d + 1 := (Nat.log2_lt hne).mpr hb.2
  have h2 : 3 * d ≤ Nat.log2 c := (Nat.le_log2 hne).mpr hb.1
  omega

theorem sentinel_scan_spec (lc1 lc2 : Nat) (h1 : lc1 ≠ 0) (h2 : lc2 ≠ 0) :
    ∀ (n : Nat) (s1 s2 : Int),
      (s1 = -1 → lc1 < 2 ^ n) → (s1 ≠ -1 → s1 = (Nat.log2 lc1 : Int)) →
      (s2 = -1 → lc2 < 2 ^ n) → (s2 ≠ -1 → s2 = (Nat.log2 lc2 : Int)) →
      sentinel_scan lc1 lc2 n s1 s2 = ((Nat.log2 lc1 : Int), (Nat.log2 lc2 : Int)) := by
  have key : ∀ (lc : Nat), lc ≠ 0 → ∀ (n : Nat) (s : Int),
      (s = -1 → lc < 2 ^ (n + 1)) → (s ≠ -1 → s = (Nat.log2 lc : Int)) →
      ((if lc &&& (1 <<< n) ≠ 0 ∧ s = -1 then (n : Int) else s) = -1 → lc < 2 ^ n) ∧
      ((if lc &&& (1 <<< n) ≠ 0 ∧ s = -1 then (n : Int) else s) ≠ -1 →
        (if lc &&& (1 <<< n) ≠ 0 ∧ s = -1 then (n : Int) else s) = (Nat.log2 lc : Int)) := by
    intro lc hlc n s ha hb
    have hiff := and_one_shiftLeft_ne_zero lc n
    by_cases hs : s = -1
    · have hlt := ha hs
      by_cases hbit : lc &&& (1 <<< n) ≠ 0
      · rw [if_pos ⟨hbit, hs⟩]
        refine ⟨fun h => absurd h (by omega), fun _ => ?_⟩
        have hge := Nat.testBit_implies_ge (hiff.mp hbit)
        have e1 : Nat.log2 lc < n + 1 := (Nat.log2_lt hlc).mpr hlt
        have e2 : n ≤ Nat.log2 lc := (Nat.le_log2 hlc).mpr hge
        have : Nat.log2 lc = n := by omega
        rw [this]
      · rw [if_neg (fun h => hbit h.1)]
        refine ⟨fun _ => ?_, fun h => absurd hs h⟩
        apply Nat.lt_pow_two_of_testBit
        intro j hj
        by_cases hjn : j = n
        · subst hjn
          have : ¬ lc.testBit j = true := fun h => hbit (hiff.mpr h)
          simpa using this
        · apply Nat.testBit_lt_two_pow
          calc lc < 2 ^ (n + 1) := hlt
            _ ≤ 2 ^ j := Nat.pow_le_pow_right (by norm_num) (by omega)
    · rw [if_neg (fun h => hs h.2)]
      exact ⟨fun h => absurd h hs, fun _ => hb hs⟩
  intro n
  induction n with
  | zero =>
    intro s1 s2 a1 b1 a2 b2
    unfold sentinel_scan
    have e1 : s1 = (Nat.log2 lc1 : Int) := by
      apply b1
      intro h
      have := a1 h
      simp at this
      exact h1 this
    have e2 : s2 = (Nat.log2 lc2 : Int) := by
      apply b2
      intro h
      have := a2 h
      simp at this
      exact h2 this
    rw [e1, e2]
  | succ n ih =>
    intro s1 s2 a1 b1 a2 b2
    unfold sentinel_scan
    simp only []
    obtain ⟨k1a, k1b⟩ := key lc1 h1 n s1 a1 b1
    obtain ⟨k2a, k2b⟩ := key lc2 h2 n s2 a2 b2
    generalize (if lc1 &&& (1 <<< n) ≠ 0 ∧ s1 = -1 then (n : Int) else s1) = t1 at k1a k1b ⊢
    generalize (if lc2 &&& (1 <<< n) ≠ 0 ∧ s2 = -1 then (n : Int) else s2) = t2 at k2a k2b ⊢
    by_cases hboth : t1 ≠ -1 ∧ t2 ≠ -1
    · rw [if_pos hboth, k1b hboth.1, k2b hboth.2]
    · rw [if_neg hboth]
      exact ih _ _ k1a k1b k2a k2b

theorem shl1_of_lt (n : Nat) (h : n < 32) : shl1 (n : Int) = some (1 <<< n) := by
  unfold shl1
  have : (0 : Int) ≤ (n : Int) ∧ (n : Int) < 32 := by omega
  rw [if_pos this]
  simp

theorem common_axis_loop_step (M N S s i k axis c : Nat) (h1 : i + axis < S) (hS : S ≤ 31)
    (hs : s ≤ S) :
    common_axis_loop M N (S : Int) (s : Int) i (k + 1) axis c =
      if s ≤ i + axis then some (Sum.inl (common_return c (S : Int) i))
      else if M.testBit (S - 1 - i - axis) ≠ N.testBit (s - 1 - i - axis) then
        some (Sum.inl (common_return c (S : Int) i))
      else common_axis_loop M N (S : Int) (s : Int) i k (axis + 1)
        (c ||| (M &&& 2 ^ (S - 1 - i - axis))) := by
  rw [common_axis_loop]
  have e1 : ((S : Int) - 1 - (i : Int) - (axis : Int)) = ((S - 1 - i - axis : Nat) : Int) := by omega
  simp only [e1]
  rw [shl1_of_lt _ (by omega)]
  simp only []
  by_cases hmin : s ≤ i + axis
  · have : ((s : Int) - 1 - (i : Int) - (axis : Int)) < 0 := by omega
    rw [if_pos this, if_pos hmin]
  · have hnot : ¬ ((s : Int) - 1 - (i : Int) - (axis : Int)) < 0 := by omega
    rw [if_neg hnot, if_neg hmin]
    have e2 : ((s : Int) - 1 - (i : Int) - (axis : Int)).toNat = s - 1 - i - axis := by omega
    have e3 : ((S : Int) - (s : Int)).toNat = S - s := by omega
    rw [e2, e3, Nat.one_shiftLeft, Nat.one_shiftLeft, and_two_pow_eq M, and_two_pow_eq N]
    have hpow : (2 ^ (s - 1 - i - axis)) <<< (S - s) = 2 ^ (S - 1 - i - axis) := by
      rw [Nat.shiftLeft_eq, ← Nat.pow_add]
      congr 1
      omega
    have hlt : 2 ^ (S - 1 - i - axis) < 2 ^ 32 := Nat.pow_lt_pow_right (by norm_num) (by omega)
    have hpos : 0 < 2 ^ (S - 1 - i - axis) := by positivity
    have hne1 : (2 : Nat) ^ (S - 1 - i - axis) ≠ 0 := Nat.ne_of_gt hpos
    have hmod : (2 : Nat) ^ (S - 1 - i - axis) % 4294967296 = 2 ^ (S - 1 - i - axis) :=
      Nat.mod_eq_of_lt (lt_of_lt_of_le hlt (by norm_num))
    by_cases hM : M.testBit (S - 1 - i - axis) = true
    · by_cases hN : N.testBit (s - 1 - i - axis) = true
      · simp [hM, hN, hpow, hmod]
      · have hN2 : N.testBit (s - 1 - i - axis) = false := by simpa using hN
        simp [hM, hN2, hne1]
    · have hM2 : M.testBit (S - 1 - i - axis) = false := by simpa using hM
      by_cases hN : N.testBit (s - 1 - i - axis) = true
      · simp [hM2, hN, hpow, hmod, hne1.symm]
      · have hN2 : N.testBit (s - 1 - i - axis) = false := by simpa using hN
        simp [hM2, hN2]

/-- What `common_return` yields when the running code holds the bits of `M` from bit
`S - i` up: the top `i` bits of `M` below the sentinel, with a sentinel on top. -/
theorem common_return_eq (M S i c : Nat) (hi : i ≤ S) (hsent : M.testBit S = true)
    (habove : ∀ j, S < j → M.testBit j = false)
    (hsub : ∀ j, c.testBit j = true → M.testBit j = true ∧ j < S)
    (hhigh : ∀ j, S - i ≤ j → j < S → M.testBit j = true → c.testBit j = true) :
    common_return c (S : Int) i = M >>> (S - i) := by
  unfold common_return
  have e : ((S : Int) - (i : Int)).toNat = S - i := by omega
  rw [e]
  apply Nat.eq_of_testBit_eq
  intro j
  rw [Nat.testBit_or, Nat.testBit_shiftRight, Nat.testBit_shiftRight, Nat.one_shiftLeft,
    Nat.testBit_two_pow]
  by_cases hj : j < i
  · have hne : ¬ i = j := by omega
    simp only [hne, decide_False, Bool.or_false]
    by_cases hc : c.testBit (S - i + j) = true
    · rw [hc, (hsub _ hc).1]
    · by_cases hm : M.testBit (S - i + j) = true
      · exact absurd (hhigh _ (by omega) (by omega) hm) hc
      · have hc2 : c.testBit (S - i + j) = false := by simpa using hc
        have hm2 : M.testBit (S - i + j) = false := by simpa using hm
        rw [hc2, hm2]
  · by_cases hji : i = j
    · subst hji
      have : S - i + i = S := by omega
      rw [this, hsent]
      simp
    · have hlt : S < S - i + j := by omega
      rw [habove _ hlt]
      have hc : c.testBit (S - i + j) = false := by
        by_cases hc : c.testBit (S - i + j) = true
        · have := (hsub _ hc).2
          omega
        · simpa using hc
      simp [hc, hji]

theorem common_axis_loop_inv (M N S s i : Nat) (hS : S ≤ 31) (hs : s ≤ S) (hiS : i + 3 ≤ S)
    (hsi : s ≤ i ∨ i + 3 ≤ s) (hsent : M.testBit S = true)
    (habove : ∀ j, S < j → M.testBit j = false) :
    ∀ (k axis c : Nat), axis + k = 3 →
      (∀ j, c.testBit j = true → M.testBit j = true ∧ j < S) →
      (∀ j, S - i - axis ≤ j → j < S → M.testBit j = true → c.testBit j = true) →
      (∀ a, a < axis → M.testBit (S - 1 - i - a) = N.testBit (s - 1 - i - a)) →
      (0 < axis → i + 3 ≤ s) →
      match common_axis_loop M N (S : Int) (s : Int) i k axis c with
      | none => False
      | some (Sum.inl r) => r = M >>> (S - i) ∧
          (s ≤ i ∨ ∃ a, a < 3 ∧ M.testBit (S - 1 - i - a) ≠ N.testBit (s - 1 - i - a))
      | some (Sum.inr c1) => i + 3 ≤ s ∧
          (∀ j, c1.testBit j = true → M.testBit j = true ∧ j < S) ∧
          (∀ j, S - i - 3 ≤ j → j < S → M.testBit j = true → c1.testBit j = true) ∧
          (∀ a, a < 3 → M.testBit (S - 1 - i - a) = N.testBit (s - 1 - i - a)) := by
  intro k
  induction k with
  | zero =>
    intro axis c hax hsub hhigh hmatch hprog
    have : axis = 3 := by omega
    subst this
    unfold common_axis_loop
    simp only []
    exact ⟨hprog (by omega), hsub, hhigh, hmatch⟩
  | succ k ih =>
    intro axis c hax hsub hhigh hmatch hprog
    rw [common_axis_loop_step M N S s i k axis c (by omega) hS hs]
    have hret : common_return c (S : Int) i = M >>> (S - i) :=
      common_return_eq M S i c (by omega) hsent habove hsub
        (fun j h1 h2 h3 => hhigh j (by omega) h2 h3)
    by_cases hmin : s ≤ i + axis
    · rw [if_pos hmin]
      simp only []
      exact ⟨hret, Or.inl (by omega)⟩
    · rw [if_neg hmin]
      by_cases hne : M.testBit (S - 1 - i - axis) ≠ N.testBit (s - 1 - i - axis)
      · rw [if_pos hne]
        simp only []
        exact ⟨hret, Or.inr ⟨axis, by omega, hne⟩⟩
      · rw [if_neg hne]
        have heq : M.testBit (S - 1 - i - axis) = N.testBit (s - 1 - i - axis) := by
          simpa using hne
        apply ih (axis + 1) _ (by omega)
        · intro j hj
          rw [Nat.testBit_or, Nat.testBit_and, Nat.testBit_two_pow] at hj
          by_cases hc : c.testBit j = true
          · exact hsub j hc
          · have hc2 : c.testBit j = false := by simpa using hc
            rw [hc2] at hj
            simp only [Bool.false_or, Bool.and_eq_true, decide_eq_true_eq] at hj
            exact ⟨hj.1, by omega⟩
        · intro j h1 h2 h3
          rw [Nat.testBit_or, Nat.testBit_and, Nat.testBit_two_pow]
          by_cases hj : S - 1 - i - axis = j
          · simp [hj, h3]
          · have := hhigh j (by omega) h2 h3
            simp [this]
        · intro a ha
          by_cases haa : a = axis
          · rw [haa]; exact heq
          · exact hmatch a (by omega)
        · intro _
          omega

theorem prefix_extend (M N S s i : Nat) (hiS : i + 3 ≤ S) (his : i + 3 ≤ s)
    (hpa : M >>> (S - i) = N >>> (s - i))
    (hbits : ∀ a, a < 3 → M.testBit (S - 1 - i - a) = N.testBit (s - 1 - i - a)) :
    M >>> (S - i - 3) = N >>> (s - i - 3) := by
  apply Nat.eq_of_testBit_eq
  intro j
  rw [Nat.testBit_shiftRight, Nat.testBit_shiftRight]
  by_cases hj : j < 3
  · have := hbits (2 - j) (by omega)
    have e1 : S - 1 - i - (2 - j) = S - i - 3 + j := by omega
    have e2 : s - 1 - i - (2 - j) = s - i - 3 + j := by omega
    rw [e1, e2] at this
    exact this
  · have h1 : (M >>> (S - i)).testBit (j - 3) = (N >>> (s - i)).testBit (j - 3) := by rw [hpa]
    rw [Nat.testBit_shiftRight, Nat.testBit_shiftRight] at h1
    have e1 : S - i + (j - 3) = S - i - 3 + j := by omega
    have e2 : s - i + (j - 3) = s - i - 3 + j := by omega
    rw [e1, e2] at h1
    exact h1

theorem prefix_differ (M N S s i : Nat) (hiS : i + 3 ≤ S) (his : i + 3 ≤ s)
    (hbits : ∃ a, a < 3 ∧ M.testBit (S - 1 - i - a) ≠ N.testBit (s - 1 - i - a)) :
    M >>> (S - i - 3) ≠ N >>> (s - i - 3) := by
  obtain ⟨a, ha, hne⟩ := hbits
  intro heq
  apply hne
  have h1 : (M >>> (S - i - 3)).testBit (2 - a) = (N >>> (s - i - 3)).testBit (2 - a) := by
    rw [heq]
  rw [Nat.testBit_shiftRight, Nat.testBit_shiftRight] at h1
  have e1 : S - i - 3 + (2 - a) = S - 1 - i - a := by omega
  have e2 : s - i - 3 + (2 - a) = s - 1 - i - a := by omega
  rw [e1, e2] at h1
  exact h1

theorem common_group_loop_spec (M N dM dN : Nat) (hM : M >>> (3 * dM) = 1)
    (hd : dN ≤ dM) (hdM : dM ≤ 10) :
    ∀ (fuel m c : Nat), dM ≤ m + fuel → m ≤ dN →
      M >>> (3 * dM - 3 * m) = N >>> (3 * dN - 3 * m) →
      (∀ j, c.testBit j = true → M.testBit j = true ∧ j < 3 * dM) →
      (∀ j, 3 * dM - 3 * m ≤ j → j < 3 * dM → M.testBit j = true → c.testBit j = true) →
      ∃ mm, m ≤ mm ∧ mm ≤ dN ∧
        common_group_loop M N ((3 * dM : Nat) : Int) ((3 * dN : Nat) : Int) fuel (3 * m) c
          = some (M >>> (3 * dM - 3 * mm)) ∧
        M >>> (3 * dM - 3 * mm) = N >>> (3 * dN - 3 * mm) ∧
        (mm = dN ∨ M >>> (3 * dM - 3 * (mm + 1)) ≠ N >>> (3 * dN - 3 * (mm + 1))) := by
  have hsent := code_testBit_sentinel hM
  have habove : ∀ j, 3 * dM < j → M.testBit j = false := fun j hj => code_testBit_above hM hj
  -- the exit of the loop: all groups of the deeper code were matched
  have hexit : ∀ (m c : Nat), dM ≤ m → m ≤ dN →
      M >>> (3 * dM - 3 * m) = N >>> (3 * dN - 3 * m) →
      (∀ j, c.testBit j = true → M.testBit j = true ∧ j < 3 * dM) →
      (∀ j, 3 * dM - 3 * m ≤ j → j < 3 * dM → M.testBit j = true → c.testBit j = true) →
      ∃ mm, m ≤ mm ∧ mm ≤ dN ∧
        (shl1 ((3 * m : Nat) : Int)).map (fun x => c ||| x) = some (M >>> (3 * dM - 3 * mm)) ∧
        M >>> (3 * dM - 3 * mm) = N >>> (3 * dN - 3 * mm) ∧
        (mm = dN ∨ M >>> (3 * dM - 3 * (mm + 1)) ≠ N >>> (3 * dN - 3 * (mm + 1))) := by
    intro m c h1 h2 hpa hsub hhigh
    have hm : m = dM := by omega
    have hmN : m = dN := by omega
    refine ⟨m, le_refl m, h2, ?_, hpa, Or.inl hmN⟩
    rw [shl1_of_lt _ (by omega)]
    have := common_return_eq M (3 * dM) (3 * m) c (by omega) hsent habove hsub
      (fun j a b d => hhigh j (by omega) b d)
    unfold common_return at this
    have e : (((3 * dM : Nat) : Int) - ((3 * m : Nat) : Int)).toNat = 0 := by omega
    rw [e, Nat.shiftRight_zero] at this
    simp only [Option.map]
    rw [this]
  intro fuel
  induction fuel with
  | zero =>
    intro m c h1 h2 hpa hsub hhigh
    unfold common_group_loop
    exact hexit m c (by omega) h2 hpa hsub hhigh
  | succ k ih =>
    intro m c h1 h2 hpa hsub hhigh
    unfold common_group_loop
    by_cases hlt : m < dM
    · have hcond : (((3 * m : Nat) : Int)) < ((3 * dM : Nat) : Int) := by omega
      rw [if_pos hcond]
      have hinv := common_axis_loop_inv M N (3 * dM) (3 * dN) (3 * m) (by omega) (by omega)
        (by omega) (by omega) hsent habove 3 0 c rfl hsub
        (fun j a b d => hhigh j (by omega) b d) (fun a ha => absurd ha (by omega))
        (fun h0 => absurd h0 (by omega))
      cases hres : common_axis_loop M N ((3 * dM : Nat) : Int) ((3 * dN : Nat) : Int) (3 * m) 3 0 c with
      | none => rw [hres] at hinv; exact hinv.elim
      | some v =>
        cases v with
        | inl r =>
          rw [hres] at hinv
          simp only [] at hinv
          obtain ⟨hr, hwhy⟩ := hinv
          refine ⟨m, le_refl m, h2, ?_, hpa, ?_⟩
          · simp only []
            rw [hr]
          · rcases hwhy with hle | hbits
            · left; omega
            · by_cases hmN : m = dN
              · left; exact hmN
              · right
                have := prefix_differ M N (3 * dM) (3 * dN) (3 * m) (by omega) (by omega) hbits
                have e1 : 3 * dM - 3 * (m + 1) = 3 * dM - 3 * m - 3 := by omega
                have e2 : 3 * dN - 3 * (m + 1) = 3 * dN - 3 * m - 3 := by omega
                rw [e1, e2]
                exact this
        | inr c1 =>
          rw [hres] at hinv
          simp only [] at hinv
          obtain ⟨hs3, hsub1, hhigh1, hbits⟩ := hinv
          have hpa1 := prefix_extend M N (3 * dM) (3 * dN) (3 * m) (by omega) hs3 hpa hbits
          have e1 : 3 * dM - 3 * (m + 1) = 3 * dM - 3 * m - 3 := by omega
          have e2 : 3 * dN - 3 * (m + 1) = 3 * dN - 3 * m - 3 := by omega
          have e3 : 3 * m + 3 = 3 * (m + 1) := by omega
          obtain ⟨mm, hm1, hm2, hres2, hpa2, hmax⟩ := ih (m + 1) c1 (by omega) (by omega)
            (by rw [e1, e2]; exact hpa1) hsub1 (by rw [e1]; exact hhigh1)
          refine ⟨mm, by omega, hm2, ?_, hpa2, hmax⟩
          simp only []
          rw [e3]
          exact hres2
    · have hcond : ¬ (((3 * m : Nat) : Int)) < ((3 * dM : Nat) : Int) := by omega
      rw [if_neg hcond]
      exact hexit m c (by omega) h2 hpa hsub hhigh

theorem depth_le_of_le {M N dM dN : Nat} (hM : M >>> (3 * dM) = 1) (hN : N >>> (3 * dN) = 1)
    (hle : N ≤ M) : dN ≤ dM := by
  have h1 := (code_bounds hN).1
  have h2 := (code_bounds hM).2
  have : 2 ^ (3 * dN) < 2 ^ (3 * dM + 1) := by omega
  have := (Nat.pow_lt_pow_iff_right (by norm_num : 1 < 2)).mp this
  omega

theorem shiftRight_shiftRight_three (x a b : Nat) : (x >>> (3 * a)) >>> (3 * b) = x >>> (3 * (a + b)) := by
  rw [← Nat.shiftRight_add]
  congr 1
  omega

/-- The common code of an ordered pair of well-formed codes: the longest shared prefix of
groups, which is an ancestor-or-self of both and below every other common ancestor. -/
theorem common_core (M N dM dN : Nat) (hM : M >>> (3 * dM) = 1) (hN : N >>> (3 * dN) = 1)
    (hle : N ≤ M) (hdM : dM ≤ 10) :
    ∃ r, common_group_loop M N ((Nat.log2 M : Nat) : Int) ((Nat.log2 N : Nat) : Int) 11 0 0 = some r ∧
      octree.is_locational_code r ∧
      (∃ j, r = M >>> (3 * j)) ∧ (∃ k, r = N >>> (3 * k)) ∧
      ∀ a, (∃ j, a = M >>> (3 * j)) → (∃ k, a = N >>> (3 * k)) → ∃ l, a = r >>> (3 * l) := by
  have hd := depth_le_of_le hM hN hle
  rw [code_log2 hM, code_log2 hN]
  have h0 : M >>> (3 * dM - 3 * 0) = N >>> (3 * dN - 3 * 0) := by
    simp only [Nat.mul_zero, Nat.sub_zero]
    rw [hM, hN]
  obtain ⟨mm, _, hmm, hres, hpa, hmax⟩ := common_group_loop_spec M N dM dN hM hd hdM 11 0 0
    (by omega) (by omega) h0
    (fun j hj => by rw [Nat.zero_testBit] at hj; exact Bool.noConfusion hj)
    (fun j a b _ => by omega)
  have hres0 : common_group_loop M N ((3 * dM : Nat) : Int) ((3 * dN : Nat) : Int) 11 0 0
      = some (M >>> (3 * dM - 3 * mm)) := by
    have := hres
    simp only [Nat.mul_zero] at this
    exact this
  have eM : 3 * dM - 3 * mm = 3 * (dM - mm) := by omega
  have eN : 3 * dN - 3 * mm = 3 * (dN - mm) := by omega
  have hrdepth : (M >>> (3 * dM - 3 * mm)) >>> (3 * mm) = 1 := by
    rw [eM, shiftRight_shiftRight_three]
    have : dM - mm + mm = dM := by omega
    rw [this]
    exact hM
  refine ⟨M >>> (3 * dM - 3 * mm), hres0, ⟨mm, by omega, hrdepth⟩, ⟨dM - mm, by rw [eM]⟩,
    ⟨dN - mm, by rw [hpa, eN]⟩, ?_⟩
  rintro a ⟨j, hj⟩ ⟨k, hk⟩
  by_cases ha0 : a = 0
  · refine ⟨11, ?_⟩
    rw [ha0, eM, shiftRight_shiftRight_three]
    symm
    rw [Nat.shiftRight_eq_div_pow]
    apply Nat.div_eq_of_lt
    calc M < 2 ^ (3 * dM + 1) := (code_bounds hM).2
      _ ≤ 2 ^ (3 * (dM - mm + 11)) := Nat.pow_le_pow_right (by norm_num) (by omega)
  · -- `a` is a code of some depth `e`, a prefix of both `M` and `N`
    have hjle : j ≤ dM := by
      by_contra hgt
      apply ha0
      rw [hj, Nat.shiftRight_eq_div_pow]
      apply Nat.div_eq_of_lt
      calc M < 2 ^ (3 * dM + 1) := (code_bounds hM).2
        _ ≤ 2 ^ (3 * j) := Nat.pow_le_pow_right (by norm_num) (by omega)
    have hkle : k ≤ dN := by
      by_contra hgt
      apply ha0
      rw [hk, Nat.shiftRight_eq_div_pow]
      apply Nat.div_eq_of_lt
      calc N < 2 ^ (3 * dN + 1) := (code_bounds hN).2
        _ ≤ 2 ^ (3 * k) := Nat.pow_le_pow_right (by norm_num) (by omega)
    have haM : a >>> (3 * (dM - j)) = 1 := by
      rw [hj, shiftRight_shiftRight_three]
      have : j + (dM - j) = dM := by omega
      rw [this]; exact hM
    have haN : a >>> (3 * (dN - k)) = 1 := by
      rw [hk, shiftRight_shiftRight_three]
      have : k + (dN - k) = dN := by omega
      rw [this]; exact hN
    have hdepth : dM - j = dN - k := by
      have h1 := code_log2 haM
      have h2 := code_log2 haN
      omega
    have hemm : dM - j ≤ mm := by
      by_contra hgt
      have hlt : mm < dN := by omega
      rcases hmax with heq | hne
      · omega
      · apply hne
        have e1 : 3 * dM - 3 * (mm + 1) = 3 * (j + (dM - j - (mm + 1))) := by omega
        have e2 : 3 * dN - 3 * (mm + 1) = 3 * (k + (dN - k - (mm + 1))) := by omega
        rw [e1, e2, ← shiftRight_shiftRight_three, ← shiftRight_shiftRight_three, ← hj, ← hk,
          hdepth]
    refine ⟨mm - (dM - j), ?_⟩
    rw [eM, shiftRight_shiftRight_three, hj]
    congr 2
    omega

/-! ## Locational codes: the common ancestor -/

/-- The result of `common_locational_code` on two well-formed codes: a well-formed common
ancestor-or-self below which every other common ancestor-or-self lies. -/
theorem common_locational_code_spec (lc1 lc2 : Nat) (h1 : octree.is_locational_code lc1)
    (h2 : octree.is_locational_code lc2) :
    ∃ r, common_locational_code lc1 lc2 = some r ∧ octree.is_locational_code r ∧
      (∃ j, r = lc1 >>> (3 * j)) ∧ (∃ k, r = lc2 >>> (3 * k)) ∧
      ∀ a, (∃ j, a = lc1 >>> (3 * j)) → (∃ k, a = lc2 >>> (3 * k)) → ∃ l, a = r >>> (3 * l) := by
  unfold common_locational_code
  by_cases heq : lc1 = lc2
  · rw [if_pos heq]
    subst heq
    exact ⟨lc1, rfl, h1, ⟨0, by simp⟩, ⟨0, by simp⟩, fun a ⟨j, hj⟩ _ => ⟨j, hj⟩⟩
  · rw [if_neg heq]
    obtain ⟨d1, hd1, hc1⟩ := h1
    obtain ⟨d2, hd2, hc2⟩ := h2
    have hpos1 : lc1 ≠ 0 := by
      have := (code_bounds hc1).1
      have : 0 < 2 ^ (3 * d1) := by positivity
      omega
    have hpos2 : lc2 ≠ 0 := by
      have := (code_bounds hc2).1
      have : 0 < 2 ^ (3 * d2) := by positivity
      omega
    have hscan := sentinel_scan_spec lc1 lc2 hpos1 hpos2 32 (-1) (-1)
      (fun _ => lt_of_lt_of_le (code_bounds hc1).2
        (Nat.pow_le_pow_right (by norm_num) (by omega)))
      (fun h => absurd rfl h)
      (fun _ => lt_of_lt_of_le (code_bounds hc2).2
        (Nat.pow_le_pow_right (by norm_num) (by omega)))
      (fun h => absurd rfl h)
    simp only [hscan]
    by_cases hle : lc1 ≤ lc2
    · have hd := depth_le_of_le hc2 hc1 hle
      have hl1 := code_log2 hc1
      have hl2 := code_log2 hc2
      have e1 : Max.max ((Nat.log2 lc1 : Nat) : Int) ((Nat.log2 lc2 : Nat) : Int) = ((Nat.log2 lc2 : Nat) : Int) := by
        apply max_eq_right; omega
      have e2 : Min.min ((Nat.log2 lc1 : Nat) : Int) ((Nat.log2 lc2 : Nat) : Int) = ((Nat.log2 lc1 : Nat) : Int) := by
        apply min_eq_left; omega
      rw [e1, e2, max_eq_right hle, min_eq_left hle]
      obtain ⟨r, hr, hv, hj, hk, hmax⟩ := common_core lc2 lc1 d2 d1 hc2 hc1 hle hd2
      exact ⟨r, hr, hv, hk, hj, fun a ha1 ha2 => hmax a ha2 ha1⟩
    · have hle2 : lc2 ≤ lc1 := by omega
      have hd := depth_le_of_le hc1 hc2 hle2
      have hl1 := code_log2 hc1
      have hl2 := code_log2 hc2
      have e1 : Max.max ((Nat.log2 lc1 : Nat) : Int) ((Nat.log2 lc2 : Nat) : Int) = ((Nat.log2 lc1 : Nat) : Int) := by
        apply max_eq_left; omega
      have e2 : Min.min ((Nat.log2 lc1 : Nat) : Int) ((Nat.log2 lc2 : Nat) : Int) = ((Nat.log2 lc2 : Nat) : Int) := by
        apply min_eq_right; omega
      rw [e1, e2, max_eq_left hle2, min_eq_right hle2]
      exact common_core lc1 lc2 d1 d2 hc1 hc2 hle2 hd1

/-- C10: for all locational codes lc1 and lc2 whose sentinel bit index is a multiple of 3
(32-bit codes, depth at most 10), `common_locational_code(lc1, lc2)` returns a well-formed
code that equals `lc1 >> 3j` and `lc2 >> 3k` for some j, k, and every code that is an
ancestor-or-self of both (of the form `lc1 >> 3j` and `lc2 >> 3k`) is an ancestor-or-self
of the result. -/
theorem common_locational_code_deepest (lc1 lc2 : Nat) (h1 : octree.is_locational_code lc1)
    (h2 : octree.is_locational_code lc2) :
    ∃ r, common_locational_code lc1 lc2 = some r ∧ octree.is_locational_code r ∧
      (∃ j, r = lc1 >>> (3 * j)) ∧ (∃ k, r = lc2 >>> (3 * k)) ∧
      ∀ a, (∃ j, a = lc1 >>> (3 * j)) → (∃ k, a = lc2 >>> (3 * k)) → ∃ l, a = r >>> (3 * l) :=
  common_locational_code_spec lc1 lc2 h1 h2

/-- Witness for C10: the codes 960 (depth 3) and 120 (depth 2). -/
theorem common_locational_code_deepest_witness :
    octree.is_locational_code 960 ∧ octree.is_locational_code 120 ∧
    ∃ r, common_locational_code 960 120 = some r ∧ octree.is_locational_code r ∧
      (∃ j, r = 960 >>> (3 * j)) ∧ (∃ k, r = 120 >>> (3 * k)) ∧
      ∀ a, (∃ j, a = 960 >>> (3 * j)) → (∃ k, a = 120 >>> (3 * k)) → ∃ l, a = r >>> (3 * l) :=
  ⟨⟨3, by decide, by decide⟩, ⟨2, by decide, by decide⟩,
    common_locational_code_deepest 960 120 ⟨3, by decide, by decide⟩ ⟨2, by decide, by decide⟩⟩

/-! ## Lemmas: node volumes -/

theorem locational_code_depth_loop_eq (lc : Nat) (hlc : lc ≠ 0) :
    ∀ n, lc < 2 ^ n → locational_code_depth_loop lc n = Nat.log2 lc / 3 := by
  intro n
  induction n with
  | zero =>
    intro h
    simp at h
    exact absurd h hlc
  | succ n ih =>
    intro h
    unfold locational_code_depth_loop
    by_cases hbit : lc &&& (1 <<< n) ≠ 0
    · rw [if_pos hbit]
      have hge := Nat.testBit_implies_ge ((and_one_shiftLeft_ne_zero lc n).mp hbit)
      have e1 : Nat.log2 lc < n + 1 := (Nat.log2_lt hlc).mpr h
      have e2 : n ≤ Nat.log2 lc := (Nat.le_log2 hlc).mpr hge
      have : Nat.log2 lc = n := by omega
      rw [this]
    · rw [if_neg hbit]
      apply ih
      apply Nat.lt_pow_two_of_testBit
      intro j hj
      by_cases hjn : j = n
      · subst hjn
        have : ¬ lc.testBit j = true := fun h => hbit ((and_one_shiftLeft_ne_zero lc j).mpr h)
        simpa using this
      · apply Nat.testBit_lt_two_pow
        calc lc < 2 ^ (n + 1) := h
          _ ≤ 2 ^ j := Nat.pow_le_pow_right (by norm_num) (by omega)

theorem locational_code_depth_eq {c d : Nat} (hd : d ≤ 10) (h : c >>> (3 * d) = 1) :
    locational_code_depth c = d := by
  have hb := code_bounds h
  have hne : c ≠ 0 := by
    have : 0 < 2 ^ (3 * d) := by positivity
    omega
  unfold locational_code_depth
  rw [locational_code_depth_loop_eq c hne 32
    (lt_of_lt_of_le hb.2 (Nat.pow_le_pow_right (by norm_num) (by omega))), code_log2 h]
  omega

theorem compute_bv_level_eq (c R d j : Nat) (hj : j < d) (result : aabb) :
    compute_bv_level c R (d * 3) (3 * j + 2) result =
      { mMinPos := ⟨result.mMinPos.x + lo_term c R d j 0, result.mMinPos.y + lo_term c R d j 1,
          result.mMinPos.z + lo_term c R d j 2⟩,
        mMaxPos := ⟨result.mMaxPos.x - hi_term c R d j 0, result.mMaxPos.y - hi_term c R d j 1,
          result.mMaxPos.z - hi_term c R d j 2⟩ } := by
  have hstep : (d * 3 - 1 - (3 * j + 2)) / 3 + 1 = d - j := by omega
  have e0 : 3 * j + 2 - (3 - 1 - 0) = 3 * j + 0 := by omega
  have e1 : 3 * j + 2 - (3 - 1 - 1) = 3 * j + 1 := by omega
  have e2 : 3 * j + 2 - (3 - 1 - 2) = 3 * j + 2 := by omega
  unfold compute_bv_level compute_bv_axis
  simp only [hstep, e0, e1, e2, and_one_shiftLeft_ne_zero]
  unfold lo_term hi_term
  by_cases h0 : c.testBit (3 * j) = true <;> by_cases h1 : c.testBit (3 * j + 1) = true <;>
    by_cases h2 : c.testBit (3 * j + 2) = true <;>
    simp [h0, h1, h2, vec3.get, vec3.set]

theorem compute_bv_loop_eq (c R d : Nat) : ∀ (k : Nat) (acc : aabb), k ≤ d →
    compute_bv_loop c R (d * 3) k ((3 * k : Nat) - 1 : Int) acc =
      { mMinPos := ⟨acc.mMinPos.x + ∑ j in Finset.range k, lo_term c R d j 0,
          acc.mMinPos.y + ∑ j in Finset.range k, lo_term c R d j 1,
          acc.mMinPos.z + ∑ j in Finset.range k, lo_term c R d j 2⟩,
        mMaxPos := ⟨acc.mMaxPos.x - ∑ j in Finset.range k, hi_term c R d j 0,
          acc.mMaxPos.y - ∑ j in Finset.range k, hi_term c R d j 1,
          acc.mMaxPos.z - ∑ j in Finset.range k, hi_term c R d j 2⟩ } := by
  intro k
  induction k with
  | zero =>
    intro acc _
    unfold compute_bv_loop
    simp
  | succ k ih =>
    intro acc hk
    unfold compute_bv_loop
    have hi : (((3 * (k + 1) : Nat) : Int) - 1) ≥ 0 := by omega
    rw [if_pos hi]
    have e1 : (((3 * (k + 1) : Nat) : Int) - 1).toNat = 3 * k + 2 := by omega
    have e2 : (((3 * (k + 1) : Nat) : Int) - 1) - 3 = ((3 * k : Nat) : Int) - 1 := by omega
    rw [e1, e2, compute_bv_level_eq c R d k (by omega), ih _ (by omega)]
    simp only [Finset.sum_range_succ]
    congr 2 <;> ring

theorem compute_bv_eq (c R d : Nat) (hd : d ≤ 10) (h : c >>> (3 * d) = 1) :
    compute_bv c R =
      { mMinPos := ⟨-(((to_int32 R).tdiv 2 : Int) : ℚ) + lo_sum c R d 0,
          -(((to_int32 R).tdiv 2 : Int) : ℚ) + lo_sum c R d 1,
          -(((to_int32 R).tdiv 2 : Int) : ℚ) + lo_sum c R d 2⟩,
        mMaxPos := ⟨(((to_int32 R).tdiv 2 : Int) : ℚ) - hi_sum c R d 0,
          (((to_int32 R).tdiv 2 : Int) : ℚ) - hi_sum c R d 1,
          (((to_int32 R).tdiv 2 : Int) : ℚ) - hi_sum c R d 2⟩ } := by
  unfold compute_bv
  simp only [locational_code_depth_eq hd h]
  have e : ((d * 3 : Nat) : Int) - 1 = ((3 * d : Nat) : Int) - 1 := by omega
  rw [e, compute_bv_loop_eq c R d d _ (le_refl d)]
  simp [vec3.splat, lo_sum, hi_sum]

theorem lo_term_nonneg (c R d j a : Nat) : 0 ≤ lo_term c R d j a := by
  unfold lo_term
  split
  · exact Nat.cast_nonneg _
  · exact le_refl 0

theorem hi_term_nonneg (c R d j a : Nat) : 0 ≤ hi_term c R d j a := by
  unfold hi_term
  split
  · exact le_refl 0
  · exact Nat.cast_nonneg _

theorem lo_term_parent (c R d j a : Nat) :
    lo_term (c >>> 3) R (d - 1) j a = lo_term c R d (j + 1) a := by
  unfold lo_term
  rw [Nat.testBit_shiftRight]
  have e1 : 3 + (3 * j + a) = 3 * (j + 1) + a := by omega
  have e2 : d - 1 - j = d - (j + 1) := by omega
  rw [e1, e2]

theorem hi_term_parent (c R d j a : Nat) :
    hi_term (c >>> 3) R (d - 1) j a = hi_term c R d (j + 1) a := by
  unfold hi_term
  rw [Nat.testBit_shiftRight]
  have e1 : 3 + (3 * j + a) = 3 * (j + 1) + a := by omega
  have e2 : d - 1 - j = d - (j + 1) := by omega
  rw [e1, e2]

theorem lo_sum_parent (c R d a : Nat) (hd : 1 ≤ d) :
    lo_sum c R d a = lo_sum (c >>> 3) R (d - 1) a + lo_term c R d 0 a := by
  unfold lo_sum
  have e : d = (d - 1) + 1 := by omega
  conv_lhs => rw [e, Finset.sum_range_succ']
  congr 1
  · apply Finset.sum_congr rfl
    intro j _
    rw [lo_term_parent c R d j a]
    have : d - 1 + 1 = d := by omega
    rw [this]
  · have : d - 1 + 1 = d := by omega
    rw [this]

theorem hi_sum_parent (c R d a : Nat) (hd : 1 ≤ d) :
    hi_sum c R d a = hi_sum (c >>> 3) R (d - 1) a + hi_term c R d 0 a := by
  unfold hi_sum
  have e : d = (d - 1) + 1 := by omega
  conv_lhs => rw [e, Finset.sum_range_succ']
  congr 1
  · apply Finset.sum_congr rfl
    intro j _
    rw [hi_term_parent c R d j a]
    have : d - 1 + 1 = d := by omega
    rw [this]
  · have : d - 1 + 1 = d := by omega
    rw [this]

theorem aabb.contains_refl (b : aabb) : aabb.contains b b :=
  ⟨le_refl _, le_refl _, le_refl _, le_refl _, le_refl _, le_refl _⟩

theorem aabb.contains_trans {a b c : aabb} (h1 : aabb.contains a b) (h2 : aabb.contains b c) :
    aabb.contains a c :=
  ⟨le_trans h1.1 h2.1, le_trans h1.2.1 h2.2.1, le_trans h1.2.2.1 h2.2.2.1,
    le_trans h2.2.2.2.1 h1.2.2.2.1, le_trans h2.2.2.2.2.1 h1.2.2.2.2.1,
    le_trans h2.2.2.2.2.2 h1.2.2.2.2.2⟩

/-- The volume of a parent node contains the volume of its child. -/
theorem compute_bv_parent_contains (c R d : Nat) (hd1 : 1 ≤ d) (hd : d ≤ 10)
    (h : c >>> (3 * d) = 1) : aabb.contains (compute_bv (c >>> 3) R) (compute_bv c R) := by
  have hp : (c >>> 3) >>> (3 * (d - 1)) = 1 := by
    rw [octree.chain_succ]
    have : d - 1 + 1 = d := by omega
    rw [this]; exact h
  rw [compute_bv_eq c R d hd h, compute_bv_eq (c >>> 3) R (d - 1) (by omega) hp]
  unfold aabb.contains
  simp only []
  rw [lo_sum_parent c R d 0 hd1, lo_sum_parent c R d 1 hd1, lo_sum_parent c R d 2 hd1,
    hi_sum_parent c R d 0 hd1, hi_sum_parent c R d 1 hd1, hi_sum_parent c R d 2 hd1]
  have l0 := lo_term_nonneg c R d 0 0
  have l1 := lo_term_nonneg c R d 0 1
  have l2 := lo_term_nonneg c R d 0 2
  have h0 := hi_term_nonneg c R d 0 0
  have h1 := hi_term_nonneg c R d 0 1
  have h2 := hi_term_nonneg c R d 0 2
  refine ⟨?_, ?_, ?_, ?_, ?_, ?_⟩ <;> linarith

/-- The volume of an ancestor-or-self `c >> 3j` of a well-formed code contains the volume
of `c`. -/
theorem compute_bv_ancestor_contains (R : Nat) : ∀ (j c d : Nat), j ≤ d → d ≤ 10 →
    c >>> (3 * d) = 1 → aabb.contains (compute_bv (c >>> (3 * j)) R) (compute_bv c R) := by
  intro j
  induction j with
  | zero =>
    intro c d _ _ _
    simp only [Nat.mul_zero, Nat.shiftRight_zero]
    exact aabb.contains_refl _
  | succ j ih =>
    intro c d hj hd h
    have hp : (c >>> 3) >>> (3 * (d - 1)) = 1 := by
      rw [octree.chain_succ]
      have : d - 1 + 1 = d := by omega
      rw [this]; exact h
    have h1 := ih (c >>> 3) (d - 1) (by omega) (by omega) hp
    rw [octree.chain_succ] at h1
    exact aabb.contains_trans h1 (compute_bv_parent_contains c R d (by omega) hd h)

theorem merge_term_testBit (c i a n : Nat) (ha : a < 3) (hi : i ≤ 9) :
    (merge_term c i a).testBit n = (decide (n = 3 * i + a) && c.testBit i) := by
  unfold merge_term
  rw [Nat.testBit_mod_two_pow, Nat.testBit_shiftLeft, Nat.testBit_and, Nat.one_shiftLeft,
    Nat.testBit_two_pow]
  by_cases hn : n = 3 * i + a
  · subst hn
    have h1 : 3 * i + a < 32 := by omega
    have h2 : 3 * i + a ≥ i * (3 - 1) + a := by omega
    have h3 : 3 * i + a - (i * (3 - 1) + a) = i := by omega
    simp [h1, h2, h3]
  · by_cases h2 : n ≥ i * (3 - 1) + a
    · have h3 : ¬ i = n - (i * (3 - 1) + a) := by omega
      simp [hn, h3]
    · simp [hn, h2]

theorem merge_codes_testBit (cx cy cz : Nat) : ∀ (L n : Nat), L ≤ 10 →
    (merge_codes cx cy cz L).testBit n =
      (decide (n / 3 < L) &&
        (if n % 3 = 0 then cx.testBit (n / 3) else if n % 3 = 1 then cy.testBit (n / 3)
          else cz.testBit (n / 3))) := by
  intro L
  induction L with
  | zero =>
    intro n _
    unfold merge_codes
    simp
  | succ L ih =>
    intro n hL
    unfold merge_codes
    rw [Nat.testBit_or, Nat.testBit_or, Nat.testBit_or, ih n (by omega),
      merge_term_testBit cx L 0 n (by omega) (by omega),
      merge_term_testBit cy L 1 n (by omega) (by omega),
      merge_term_testBit cz L 2 n (by omega) (by omega)]
    by_cases hlt : n / 3 < L
    · have h0 : ¬ n = 3 * L := by omega
      have h1 : ¬ n = 3 * L + 1 := by omega
      have h2 : ¬ n = 3 * L + 2 := by omega
      have h3 : n / 3 < L + 1 := by omega
      simp [hlt, h0, h1, h2, h3]
    · by_cases heq : n / 3 = L
      · have h3 : n / 3 < L + 1 := by omega
        have hm : n % 3 = 0 ∨ n % 3 = 1 ∨ n % 3 = 2 := by omega
        rcases hm with hm | hm | hm
        · have h0 : n = 3 * L := by omega
          have h1 : ¬ n = 3 * L + 1 := by omega
          have h2 : ¬ n = 3 * L + 2 := by omega
          simp only [hlt, h3, hm, h1, h2, decide_False, decide_True, Bool.false_and,
            Bool.true_and, Bool.or_false, Bool.false_or, if_true, heq, Nat.add_zero]
          simp [h0]
        · have h0 : ¬ n = 3 * L := by omega
          have h1 : n = 3 * L + 1 := by omega
          have h2 : ¬ n = 3 * L + 2 := by omega
          have hm0 : ¬ n % 3 = 0 := by omega
          simp only [hlt, h3, hm, hm0, h0, h2, decide_False, decide_True, Bool.false_and,
            Bool.true_and, Bool.or_false, Bool.false_or, if_true, if_false, heq, Nat.add_zero]
          simp [h1]
        · have h0 : ¬ n = 3 * L := by omega
          have h1 : ¬ n = 3 * L + 1 := by omega
          have h2 : n = 3 * L + 2 := by omega
          have hm0 : ¬ n % 3 = 0 := by omega
          have hm1 : ¬ n % 3 = 1 := by omega
          simp only [hlt, h3, hm0, hm1, h0, h1, decide_False, decide_True, Bool.false_and,
            Bool.true_and, Bool.or_false, Bool.false_or, if_true, if_false, heq, Nat.add_zero]
          simp [h2]
      · have h0 : ¬ n = 3 * L := by omega
        have h1 : ¬ n = 3 * L + 1 := by omega
        have h2 : ¬ n = 3 * L + 2 := by omega
        have h3 : ¬ n / 3 < L + 1 := by omega
        simp [hlt, h0, h1, h2, h3]

/-- The code of a cell: the interleaved axis codes under a sentinel at bit `3 * L`. -/
theorem cell_code_testBit (cx cy cz L n : Nat) (hL : L ≤ 10) :
    (merge_codes cx cy cz L ||| (1 <<< (L * 3))).testBit n =
      (decide (n = 3 * L) || (decide (n / 3 < L) &&
        (if n % 3 = 0 then cx.testBit (n / 3) else if n % 3 = 1 then cy.testBit (n / 3)
          else cz.testBit (n / 3)))) := by
  rw [Nat.testBit_or, merge_codes_testBit cx cy cz L n hL, Nat.one_shiftLeft, Nat.testBit_two_pow]
  have : (L * 3 = n) ↔ (n = 3 * L) := by omega
  simp only [this, Bool.or_comm]

theorem cell_code_valid (cx cy cz L : Nat) (hL : L ≤ 10) :
    (merge_codes cx cy cz L ||| (1 <<< (L * 3))) >>> (3 * L) = 1 := by
  apply Nat.eq_of_testBit_eq
  intro n
  rw [Nat.testBit_shiftRight, cell_code_testBit cx cy cz L _ hL]
  have h1 : ¬ (3 * L + n) / 3 < L := by omega
  by_cases hn : n = 0
  · subst hn
    simp
  · have h2 : ¬ 3 * L + n = 3 * L := by omega
    have h3 : Nat.testBit 1 n = false := by
      apply Nat.testBit_lt_two_pow
      calc 1 < 2 ^ 1 := by norm_num
        _ ≤ 2 ^ n := Nat.pow_le_pow_right (by norm_num) (by omega)
    simp [h1, h2, h3]

theorem to_int32_of_lt {n : Nat} (h : n < 2 ^ 31) : to_int32 n = (n : Int) := by
  unfold to_int32
  have h1 : n % 2 ^ 32 = n := Nat.mod_eq_of_lt (lt_trans h (by norm_num))
  rw [h1, if_pos h]

theorem wrap_int32_of_range {z : Int} (h0 : 0 ≤ z) (h1 : z < 2 ^ 31) : wrap_int32 z = z := by
  unfold wrap_int32
  have e : z % 2 ^ 32 = z := Int.emod_eq_of_lt h0 (lt_trans h1 (by norm_num))
  rw [e, to_int32_of_lt (by omega)]
  omega

/-- Value of `compute_locational_code<3>` for a root of size `2^k`, `k` in 1..30, and
`levels` in 1..min(k, 10), at an integer position within distance `2^(k-1)` of the origin:
the root code 1 when a shifted coordinate leaves `[0, 2^k)`, otherwise the cell code built
from the top `levels` bits of each shifted coordinate. -/
theorem compute_locational_code_eq (p : ivec3) (k L : Nat) (hk1 : 1 ≤ k) (hk : k ≤ 30)
    (hL : L ≤ 10) (hLk : L ≤ k)
    (hx : -(2 ^ (k - 1) : Int) ≤ p.x ∧ p.x ≤ 2 ^ (k - 1))
    (hy : -(2 ^ (k - 1) : Int) ≤ p.y ∧ p.y ≤ 2 ^ (k - 1))
    (hz : -(2 ^ (k - 1) : Int) ≤ p.z ∧ p.z ≤ 2 ^ (k - 1)) :
    compute_locational_code p (2 ^ k) L =
      if p.x < 2 ^ (k - 1) ∧ p.y < 2 ^ (k - 1) ∧ p.z < 2 ^ (k - 1) then
        some (merge_codes ((p.x + 2 ^ (k - 1)).toNat >>> (k - L))
          ((p.y + 2 ^ (k - 1)).toNat >>> (k - L)) ((p.z + 2 ^ (k - 1)).toNat >>> (k - L)) L
          ||| (1 <<< (L * 3)))
      else some 1 := by
  have hpow : (2 : Nat) ^ k = 2 * 2 ^ (k - 1) := by
    have : k = (k - 1) + 1 := by omega
    conv_lhs => rw [this, Nat.pow_succ]
    ring
  have hhalf : (2 : Nat) ^ k / 2 = 2 ^ (k - 1) := by omega
  have hh30 : (2 : Nat) ^ (k - 1) ≤ 2 ^ 29 := Nat.pow_le_pow_right (by norm_num) (by omega)
  have hk30 : (2 : Nat) ^ k ≤ 2 ^ 30 := Nat.pow_le_pow_right (by norm_num) hk
  have hhpos : 0 < (2 : Nat) ^ (k - 1) := by positivity
  have hgt1 : ¬ (2 : Nat) ^ k ≤ 1 := by omega
  have hcast : ((2 ^ (k - 1) : Nat) : Int) = (2 : Int) ^ (k - 1) := by push_cast; rfl
  have hcastk : ((2 ^ k : Nat) : Int) = 2 * (2 : Int) ^ (k - 1) := by
    rw [hpow]; push_cast; rfl
  have hhI : (2 : Int) ^ (k - 1) ≤ 2 ^ 29 := by rw [← hcast]; exact_mod_cast hh30
  have hhIpos : (0 : Int) < (2 : Int) ^ (k - 1) := by positivity
  unfold compute_locational_code
  rw [if_neg hgt1]
  simp only [hhalf]
  rw [to_int32_of_lt (lt_of_le_of_lt hh30 (by norm_num)),
    to_int32_of_lt (lt_of_le_of_lt hk30 (by norm_num)), hcast, hcastk]
  rw [wrap_int32_of_range (by omega) (by omega), wrap_int32_of_range (by omega) (by omega),
    wrap_int32_of_range (by omega) (by omega)]
  have hlog : Nat.log2 (2 ^ (k - 1)) = k - 1 := by
    have h1 : Nat.log2 (2 ^ (k - 1)) < k - 1 + 1 :=
      (Nat.log2_lt (by omega)).mpr (Nat.pow_lt_pow_right (by norm_num) (by omega))
    have h2 : k - 1 ≤ Nat.log2 (2 ^ (k - 1)) := (Nat.le_log2 (by omega)).mpr (le_refl _)
    omega
  by_cases hin : p.x < 2 ^ (k - 1) ∧ p.y < 2 ^ (k - 1) ∧ p.z < 2 ^ (k - 1)
  · rw [if_pos hin]
    obtain ⟨hix, hiy, hiz⟩ := hin
    rw [if_neg (by omega), if_neg (by omega), if_neg (by omega)]
    rw [hlog]
    have hb : (k - 1 ≤ 4 * 8 + 1) := by omega
    rw [if_neg (by omega)]
    have hshift : (((k - 1 : Nat) : Int) - (L : Int) + 1) = ((k - L : Nat) : Int) := by omega
    rw [hshift, wrap_int32_of_range (by omega) (by omega)]
    rw [if_pos (by omega)]
    rw [if_neg (by omega)]
    simp
  · rw [if_neg hin]
    by_cases h1 : p.x + 2 ^ (k - 1) < 0 ∨ p.x + 2 ^ (k - 1) ≥ 2 * 2 ^ (k - 1)
    · rw [if_pos h1]
    · rw [if_neg h1]
      by_cases h2 : p.y + 2 ^ (k - 1) < 0 ∨ p.y + 2 ^ (k - 1) ≥ 2 * 2 ^ (k - 1)
      · rw [if_pos h2]
      · rw [if_neg h2]
        by_cases h3 : p.z + 2 ^ (k - 1) < 0 ∨ p.z + 2 ^ (k - 1) ≥ 2 * 2 ^ (k - 1)
        · rw [if_pos h3]
        · exfalso
          apply hin
          omega

theorem pow_shiftRight (k L j : Nat) (hj : j < L) (hL : L ≤ k) :
    2 ^ k >>> (L - j) = 2 ^ (k - L + j) := by
  rw [Nat.shiftRight_eq_div_pow]
  have : k = (k - L + j) + (L - j) := by omega
  conv_lhs => rw [this, Nat.pow_add]
  exact Nat.mul_div_cancel _ (by positivity)

theorem lo_partial (x k L : Nat) (hL : L ≤ k) : ∀ n, n ≤ L →
    (∑ j in Finset.range n, (if x.testBit j then ((2 ^ k >>> (L - j) : Nat) : ℚ) else 0))
      = ((2 ^ (k - L) * (x % 2 ^ n) : Nat) : ℚ) := by
  intro n
  induction n with
  | zero =>
    intro _
    simp [Nat.mod_one]
  | succ n ih =>
    intro hn
    rw [Finset.sum_range_succ, ih (by omega), pow_shiftRight k L n (by omega) hL,
      Nat.mod_pow_succ, Nat.testBit_to_div_mod]
    have hm : x / 2 ^ n % 2 = 0 ∨ x / 2 ^ n % 2 = 1 := by omega
    rcases hm with hm | hm
    · simp [hm]
    · simp only [hm, decide_True, if_true]
      push_cast
      rw [pow_add]
      ring

theorem all_partial (k L : Nat) (hL : L ≤ k) : ∀ n, n ≤ L →
    (∑ j in Finset.range n, ((2 ^ k >>> (L - j) : Nat) : ℚ))
      = (2 : ℚ) ^ (k - L) * ((2 : ℚ) ^ n - 1) := by
  intro n
  induction n with
  | zero =>
    intro _
    simp
  | succ n ih =>
    intro hn
    rw [Finset.sum_range_succ, ih (by omega), pow_shiftRight k L n (by omega) hL]
    push_cast
    rw [pow_add, pow_succ]
    ring

theorem hi_term_eq (c R d j a : Nat) :
    hi_term c R d j a = ((R >>> (d - j) : Nat) : ℚ) - lo_term c R d j a := by
  unfold hi_term lo_term
  split <;> simp

/-- Extent of a cell along one axis: if the bits of the code on that axis are the bits of
`w >> (k - L)`, the cell starts at `2^(k-L) * (w >> (k-L))` and has width `2^(k-L)`. -/
theorem cell_sums (C w k L a : Nat) (hL : L ≤ k) (hw : w < 2 ^ k)
    (hbits : ∀ j, j < L → C.testBit (3 * j + a) = (w >>> (k - L)).testBit j) :
    lo_sum C (2 ^ k) L a = ((2 ^ (k - L) * (w / 2 ^ (k - L)) : Nat) : ℚ) ∧
    hi_sum C (2 ^ k) L a = (2 : ℚ) ^ k - (2 : ℚ) ^ (k - L)
      - ((2 ^ (k - L) * (w / 2 ^ (k - L)) : Nat) : ℚ) := by
  have hlo : lo_sum C (2 ^ k) L a = ((2 ^ (k - L) * (w / 2 ^ (k - L)) : Nat) : ℚ) := by
    unfold lo_sum lo_term
    have hcongr : (∑ j in Finset.range L,
        (if C.testBit (3 * j + a) then ((2 ^ k >>> (L - j) : Nat) : ℚ) else 0))
        = ∑ j in Finset.range L,
          (if (w >>> (k - L)).testBit j then ((2 ^ k >>> (L - j) : Nat) : ℚ) else 0) := by
      apply Finset.sum_congr rfl
      intro j hj
      rw [hbits j (Finset.mem_range.mp hj)]
    rw [hcongr, lo_partial (w >>> (k - L)) k L hL L (le_refl L)]
    have hlt : w >>> (k - L) < 2 ^ L := by
      rw [Nat.shiftRight_eq_div_pow, Nat.div_lt_iff_lt_mul (by positivity), ← Nat.pow_add]
      have : L + (k - L) = k := by omega
      rw [this]; exact hw
    rw [Nat.mod_eq_of_lt hlt, Nat.shiftRight_eq_div_pow]
  refine ⟨hlo, ?_⟩
  have hsum : hi_sum C (2 ^ k) L a =
      (∑ j in Finset.range L, ((2 ^ k >>> (L - j) : Nat) : ℚ)) - lo_sum C (2 ^ k) L a := by
    unfold hi_sum lo_sum
    rw [← Finset.sum_sub_distrib]
    apply Finset.sum_congr rfl
    intro j _
    exact hi_term_eq C (2 ^ k) L j a
  rw [hsum, all_partial k L hL L (le_refl L), hlo]
  have : (2 : ℚ) ^ (k - L) * (2 : ℚ) ^ L = (2 : ℚ) ^ k := by
    rw [← pow_add]
    congr 1
    omega
  rw [mul_sub, this]
  ring

theorem cell_code_axis_bits (cx cy cz L : Nat) (hL : L ≤ 10) (a : Nat) (ha : a < 3) :
    ∀ j, j < L → (merge_codes cx cy cz L ||| (1 <<< (L * 3))).testBit (3 * j + a) =
      (if a = 0 then cx.testBit j else if a = 1 then cy.testBit j else cz.testBit j) := by
  intro j hj
  rw [cell_code_testBit cx cy cz L _ hL]
  have h1 : ¬ 3 * j + a = 3 * L := by omega
  have h2 : (3 * j + a) / 3 = j := by omega
  have h3 : (3 * j + a) % 3 = a := by omega
  simp [h1, h2, h3, hj]

theorem half_size_eq (k : Nat) (hk1 : 1 ≤ k) (hk : k ≤ 30) :
    (((to_int32 (2 ^ k)).tdiv 2 : Int) : ℚ) = (2 : ℚ) ^ (k - 1) := by
  have hk30 : (2 : Nat) ^ k ≤ 2 ^ 30 := Nat.pow_le_pow_right (by norm_num) hk
  rw [to_int32_of_lt (lt_of_le_of_lt hk30 (by norm_num))]
  have hpow : (2 : Nat) ^ k = 2 * 2 ^ (k - 1) := by
    have : k = (k - 1) + 1 := by omega
    conv_lhs => rw [this, Nat.pow_succ]
    ring
  have e : (((2 ^ k : Nat) : Int)).tdiv 2 = ((2 ^ (k - 1) : Nat) : Int) := by
    rw [Int.tdiv_eq_ediv (by positivity) (by norm_num), hpow]
    push_cast
    omega
  rw [e]
  push_cast
  rfl

theorem compute_bv_root (R : Nat) :
    compute_bv 1 R =
      { mMinPos := vec3.splat (-(((to_int32 R).tdiv 2 : Int) : ℚ)),
        mMaxPos := vec3.splat (((to_int32 R).tdiv 2 : Int) : ℚ) } := by
  rw [compute_bv_eq 1 R 0 (by omega) (by decide)]
  simp [lo_sum, hi_sum, vec3.splat]

/-- The box of the node that `compute_locational_code` assigns to an integer position
inside the closed root cube contains the position. -/
theorem code_box_contains_point (p : ivec3) (k L : Nat) (hk1 : 1 ≤ k) (hk : k ≤ 30)
    (hL : L ≤ 10) (hLk : L ≤ k)
    (hx : -(2 ^ (k - 1) : Int) ≤ p.x ∧ p.x ≤ 2 ^ (k - 1))
    (hy : -(2 ^ (k - 1) : Int) ≤ p.y ∧ p.y ≤ 2 ^ (k - 1))
    (hz : -(2 ^ (k - 1) : Int) ≤ p.z ∧ p.z ≤ 2 ^ (k - 1)) :
    ∃ code d, compute_locational_code p (2 ^ k) L = some code ∧ d ≤ 10 ∧
      code >>> (3 * d) = 1 ∧
      aabb.contains (compute_bv code (2 ^ k))
        { mMinPos := ⟨(p.x : ℚ), (p.y : ℚ), (p.z : ℚ)⟩,
          mMaxPos := ⟨(p.x : ℚ), (p.y : ℚ), (p.z : ℚ)⟩ } := by
  rw [compute_locational_code_eq p k L hk1 hk hL hLk hx hy hz]
  have hxq : -((2 : ℚ) ^ (k - 1)) ≤ (p.x : ℚ) ∧ (p.x : ℚ) ≤ (2 : ℚ) ^ (k - 1) := by
    constructor
    · have := hx.1
      exact_mod_cast this
    · have := hx.2
      exact_mod_cast this
  have hyq : -((2 : ℚ) ^ (k - 1)) ≤ (p.y : ℚ) ∧ (p.y : ℚ) ≤ (2 : ℚ) ^ (k - 1) := by
    constructor
    · have := hy.1
      exact_mod_cast this
    · have := hy.2
      exact_mod_cast this
  have hzq : -((2 : ℚ) ^ (k - 1)) ≤ (p.z : ℚ) ∧ (p.z : ℚ) ≤ (2 : ℚ) ^ (k - 1) := by
    constructor
    · have := hz.1
      exact_mod_cast this
    · have := hz.2
      exact_mod_cast this
  by_cases hin : p.x < 2 ^ (k - 1) ∧ p.y < 2 ^ (k - 1) ∧ p.z < 2 ^ (k - 1)
  · rw [if_pos hin]
    refine ⟨_, L, rfl, hL, cell_code_valid _ _ _ L hL, ?_⟩
    rw [compute_bv_eq _ (2 ^ k) L hL (cell_code_valid _ _ _ L hL), half_size_eq k hk1 hk]
    have hpow : (2 : Int) ^ k = 2 * 2 ^ (k - 1) := by
      have : k = (k - 1) + 1 := by omega
      conv_lhs => rw [this, pow_succ]
      ring
    have hpowq : (2 : ℚ) ^ k = 2 * 2 ^ (k - 1) := by
      have : k = (k - 1) + 1 := by omega
      conv_lhs => rw [this, pow_succ]
      ring
    -- one axis at a time
    have axis : ∀ (a : Nat) (v : Int), a < 3 → -(2 ^ (k - 1) : Int) ≤ v → v < 2 ^ (k - 1) →
        (∀ j, j < L →
          (merge_codes ((p.x + 2 ^ (k - 1)).toNat >>> (k - L))
            ((p.y + 2 ^ (k - 1)).toNat >>> (k - L)) ((p.z + 2 ^ (k - 1)).toNat >>> (k - L)) L
            ||| (1 <<< (L * 3))).testBit (3 * j + a)
            = ((v + 2 ^ (k - 1)).toNat >>> (k - L)).testBit j) →
        -((2 : ℚ) ^ (k - 1)) + lo_sum (merge_codes ((p.x + 2 ^ (k - 1)).toNat >>> (k - L))
            ((p.y + 2 ^ (k - 1)).toNat >>> (k - L)) ((p.z + 2 ^ (k - 1)).toNat >>> (k - L)) L
            ||| (1 <<< (L * 3))) (2 ^ k) L a ≤ (v : ℚ) ∧
        (v : ℚ) ≤ (2 : ℚ) ^ (k - 1) - hi_sum (merge_codes ((p.x + 2 ^ (k - 1)).toNat >>> (k - L))
            ((p.y + 2 ^ (k - 1)).toNat >>> (k - L)) ((p.z + 2 ^ (k - 1)).toNat >>> (k - L)) L
            ||| (1 <<< (L * 3))) (2 ^ k) L a := by
      intro a v _ hv1 hv2 hbits
      have hw : (v + 2 ^ (k - 1)).toNat < 2 ^ k := by
        have h1 : ((v + 2 ^ (k - 1)).toNat : Int) = v + 2 ^ (k - 1) := Int.toNat_of_nonneg (by omega)
        have h2 : ((v + 2 ^ (k - 1)).toNat : Int) < ((2 ^ k : Nat) : Int) := by
          rw [h1]; push_cast; omega
        exact_mod_cast h2
      obtain ⟨hlo, hhi⟩ := cell_sums _ (v + 2 ^ (k - 1)).toNat k L a hLk hw hbits
      rw [hlo, hhi]
      have hvq : (v : ℚ) = (((v + 2 ^ (k - 1)).toNat : Nat) : ℚ) - (2 : ℚ) ^ (k - 1) := by
        have h1 : ((v + 2 ^ (k - 1)).toNat : Int) = v + 2 ^ (k - 1) := Int.toNat_of_nonneg (by omega)
        have h2 : (((v + 2 ^ (k - 1)).toNat : Int) : ℚ) = ((v + 2 ^ (k - 1) : Int) : ℚ) := by rw [h1]
        push_cast at h2
        linarith
      have hdiv1 : 2 ^ (k - L) * ((v + 2 ^ (k - 1)).toNat / 2 ^ (k - L)) ≤ (v + 2 ^ (k - 1)).toNat :=
        Nat.mul_div_le _ _
      have hdiv2 : (v + 2 ^ (k - 1)).toNat <
          2 ^ (k - L) * ((v + 2 ^ (k - 1)).toNat / 2 ^ (k - L)) + 2 ^ (k - L) := by
        have := Nat.lt_mul_div_succ (v + 2 ^ (k - 1)).toNat (by positivity : 0 < 2 ^ (k - L))
        rw [Nat.mul_add, Nat.mul_one] at this
        exact this
      have q1 : ((2 ^ (k - L) * ((v + 2 ^ (k - 1)).toNat / 2 ^ (k - L)) : Nat) : ℚ)
          ≤ (((v + 2 ^ (k - 1)).toNat : Nat) : ℚ) := by exact_mod_cast hdiv1
      have q2 : (((v + 2 ^ (k - 1)).toNat : Nat) : ℚ)
          < ((2 ^ (k - L) * ((v + 2 ^ (k - 1)).toNat / 2 ^ (k - L)) : Nat) : ℚ) + (2 : ℚ) ^ (k - L) := by
        have : (((v + 2 ^ (k - 1)).toNat : Nat) : ℚ)
            < ((2 ^ (k - L) * ((v + 2 ^ (k - 1)).toNat / 2 ^ (k - L)) + 2 ^ (k - L) : Nat) : ℚ) := by
          exact_mod_cast hdiv2
        push_cast at this
        push_cast
        exact this
      constructor
      · rw [hvq]; linarith
      · rw [hvq]; linarith
    obtain ⟨hix, hiy, hiz⟩ := hin
    have bx := axis 0 p.x (by omega) hx.1 hix
      (fun j hj => by rw [cell_code_axis_bits _ _ _ L hL 0 (by omega) j hj]; simp)
    have by1 := axis 1 p.y (by omega) hy.1 hiy
      (fun j hj => by rw [cell_code_axis_bits _ _ _ L hL 1 (by omega) j hj]; simp)
    have bz := axis 2 p.z (by omega) hz.1 hiz
      (fun j hj => by rw [cell_code_axis_bits _ _ _ L hL 2 (by omega) j hj]; simp)
    exact ⟨bx.1, by1.1, bz.1, bx.2, by1.2, bz.2⟩
  · rw [if_neg hin]
    refine ⟨1, 0, rfl, by omega, by decide, ?_⟩
    rw [compute_bv_root, half_size_eq k hk1 hk]
    exact ⟨hxq.1, hyq.1, hzq.1, hxq.2, hyq.2, hzq.2⟩

theorem shiftRight_zero_of_depth_lt {c d j : Nat} (h : c >>> (3 * d) = 1) (hj : d < j) :
    c >>> (3 * j) = 0 := by
  rw [Nat.shiftRight_eq_div_pow]
  apply Nat.div_eq_of_lt
  calc c < 2 ^ (3 * d + 1) := (code_bounds h).2
    _ ≤ 2 ^ (3 * j) := Nat.pow_le_pow_right (by norm_num) (by omega)

/-- With more than 10 levels the final assertion `bitsUsed + 1 <= 32` of
`compute_locational_code<3>` fails for every position strictly inside the root. -/
theorem compute_locational_code_asserts (p : ivec3) (k L : Nat) (hk1 : 1 ≤ k) (hk : k ≤ 30)
    (hL : 11 ≤ L) (hLk : L ≤ k)
    (hx : -(2 ^ (k - 1) : Int) ≤ p.x ∧ p.x < 2 ^ (k - 1))
    (hy : -(2 ^ (k - 1) : Int) ≤ p.y ∧ p.y < 2 ^ (k - 1))
    (hz : -(2 ^ (k - 1) : Int) ≤ p.z ∧ p.z < 2 ^ (k - 1)) :
    compute_locational_code p (2 ^ k) L = none := by
  have hpow : (2 : Nat) ^ k = 2 * 2 ^ (k - 1) := by
    have : k = (k - 1) + 1 := by omega
    conv_lhs => rw [this, Nat.pow_succ]
    ring
  have hhalf : (2 : Nat) ^ k / 2 = 2 ^ (k - 1) := by omega
  have hh30 : (2 : Nat) ^ (k - 1) ≤ 2 ^ 29 := Nat.pow_le_pow_right (by norm_num) (by omega)
  have hk30 : (2 : Nat) ^ k ≤ 2 ^ 30 := Nat.pow_le_pow_right (by norm_num) hk
  have hhpos : 0 < (2 : Nat) ^ (k - 1) := by positivity
  have hgt1 : ¬ (2 : Nat) ^ k ≤ 1 := by omega
  have hcast : ((2 ^ (k - 1) : Nat) : Int) = (2 : Int) ^ (k - 1) := by push_cast; rfl
  have hcastk : ((2 ^ k : Nat) : Int) = 2 * (2 : Int) ^ (k - 1) := by
    rw [hpow]; push_cast; rfl
  have hhI : (2 : Int) ^ (k - 1) ≤ 2 ^ 29 := by rw [← hcast]; exact_mod_cast hh30
  have hhIpos : (0 : Int) < (2 : Int) ^ (k - 1) := by positivity
  unfold compute_locational_code
  rw [if_neg hgt1]
  simp only [hhalf]
  rw [to_int32_of_lt (lt_of_le_of_lt hh30 (by norm_num)),
    to_int32_of_lt (lt_of_le_of_lt hk30 (by norm_num)), hcast, hcastk]
  rw [wrap_int32_of_range (by omega) (by omega), wrap_int32_of_range (by omega) (by omega),
    wrap_int32_of_range (by omega) (by omega)]
  have hlog : Nat.log2 (2 ^ (k - 1)) = k - 1 := by
    have h1 : Nat.log2 (2 ^ (k - 1)) < k - 1 + 1 :=
      (Nat.log2_lt (by omega)).mpr (Nat.pow_lt_pow_right (by norm_num) (by omega))
    have h2 : k - 1 ≤ Nat.log2 (2 ^ (k - 1)) := (Nat.le_log2 (by omega)).mpr (le_refl _)
    omega
  rw [if_neg (by omega), if_neg (by omega), if_neg (by omega)]
  rw [hlog]
  rw [if_neg (by omega)]
  have hshift : (((k - 1 : Nat) : Int) - (L : Int) + 1) = ((k - L : Nat) : Int) := by omega
  rw [hshift, wrap_int32_of_range (by omega) (by omega)]
  rw [if_pos (by omega)]
  rw [if_pos (by omega)]

/-! ## Locational codes: round trip -/

theorem corner_to_int_eq (x y z : Int) (v : ivec3) (h : corner_to_int x y z = some v) :
    v = ⟨x, y, z⟩ := by
  unfold corner_to_int float_to_int at h
  split_ifs at h <;> simp at h
  exact h.symm

theorem corner_to_int_some (x y z : Int) (hx : -(2 ^ 31) ≤ x ∧ x < 2 ^ 31)
    (hy : -(2 ^ 31) ≤ y ∧ y < 2 ^ 31) (hz : -(2 ^ 31) ≤ z ∧ z < 2 ^ 31) :
    corner_to_int x y z = some ⟨x, y, z⟩ := by
  unfold corner_to_int float_to_int
  rw [if_pos hx, if_pos hy, if_pos hz]

/-- A coordinate inside a root of size at most 2^30 is in the range of `int`. -/
theorem int_range_of_root (k : Nat) (hk : k ≤ 30) (v : Int)
    (h : -(2 ^ (k - 1) : Int) ≤ v ∧ v ≤ 2 ^ (k - 1)) : -(2 ^ 31 : Int) ≤ v ∧ v < 2 ^ 31 := by
  have h1 : (2 : Int) ^ (k - 1) ≤ 2 ^ 29 := pow_le_pow_right₀ (by norm_num) (by omega)
  have h29 : (2 : Int) ^ 29 = 536870912 := by norm_num
  have h31 : (2 : Int) ^ 31 = 2147483648 := by norm_num
  rw [h29] at h1
  rw [h31]
  omega

/-- The code of a box whose floored and ceiled corners are in the range of `int`. -/
theorem compute_locational_code_aabb_eq (bv : aabb) (root_size levels : Nat)
    (hx : (-(2 ^ 31 : Int) ≤ Int.floor bv.mMinPos.x ∧ Int.floor bv.mMinPos.x < 2 ^ 31) ∧
      (-(2 ^ 31 : Int) ≤ Int.ceil bv.mMaxPos.x ∧ Int.ceil bv.mMaxPos.x < 2 ^ 31))
    (hy : (-(2 ^ 31 : Int) ≤ Int.floor bv.mMinPos.y ∧ Int.floor bv.mMinPos.y < 2 ^ 31) ∧
      (-(2 ^ 31 : Int) ≤ Int.ceil bv.mMaxPos.y ∧ Int.ceil bv.mMaxPos.y < 2 ^ 31))
    (hz : (-(2 ^ 31 : Int) ≤ Int.floor bv.mMinPos.z ∧ Int.floor bv.mMinPos.z < 2 ^ 31) ∧
      (-(2 ^ 31 : Int) ≤ Int.ceil bv.mMaxPos.z ∧ Int.ceil bv.mMaxPos.z < 2 ^ 31)) :
    compute_locational_code_aabb bv root_size levels =
      match compute_locational_code
        ⟨Int.floor bv.mMinPos.x, Int.floor bv.mMinPos.y, Int.floor bv.mMinPos.z⟩
        root_size levels with
      | none => none
      | some minCode =>
        match compute_locational_code
          ⟨Int.ceil bv.mMaxPos.x, Int.ceil bv.mMaxPos.y, Int.ceil bv.mMaxPos.z⟩
          root_size levels with
        | none => none
        | some maxCode => common_locational_code minCode maxCode := by
  unfold compute_locational_code_aabb
  rw [corner_to_int_some _ _ _ hx.1 hy.1 hz.1, corner_to_int_some _ _ _ hx.2 hy.2 hz.2]

/-- The code of a box inside a root of size at most 2^30. -/
theorem compute_locational_code_aabb_root (k : Nat) (hk : k ≤ 30) (bv : aabb)
    (root_size levels : Nat)
    (hx : (-(2 ^ (k - 1) : Int) ≤ Int.floor bv.mMinPos.x ∧ Int.floor bv.mMinPos.x ≤ 2 ^ (k - 1)) ∧
      (-(2 ^ (k - 1) : Int) ≤ Int.ceil bv.mMaxPos.x ∧ Int.ceil bv.mMaxPos.x ≤ 2 ^ (k - 1)))
    (hy : (-(2 ^ (k - 1) : Int) ≤ Int.floor bv.mMinPos.y ∧ Int.floor bv.mMinPos.y ≤ 2 ^ (k - 1)) ∧
      (-(2 ^ (k - 1) : Int) ≤ Int.ceil bv.mMaxPos.y ∧ Int.ceil bv.mMaxPos.y ≤ 2 ^ (k - 1)))
    (hz : (-(2 ^ (k - 1) : Int) ≤ Int.floor bv.mMinPos.z ∧ Int.floor bv.mMinPos.z ≤ 2 ^ (k - 1)) ∧
      (-(2 ^ (k - 1) : Int) ≤ Int.ceil bv.mMaxPos.z ∧ Int.ceil bv.mMaxPos.z ≤ 2 ^ (k - 1))) :
    compute_locational_code_aabb bv root_size levels =
      match compute_locational_code
        ⟨Int.floor bv.mMinPos.x, Int.floor bv.mMinPos.y, Int.floor bv.mMinPos.z⟩
        root_size levels with
      | none => none
      | some minCode =>
        match compute_locational_code
          ⟨Int.ceil bv.mMaxPos.x, Int.ceil bv.mMaxPos.y, Int.ceil bv.mMaxPos.z⟩
          root_size levels with
        | none => none
        | some maxCode => common_locational_code minCode maxCode :=
  compute_locational_code_aabb_eq bv root_size levels
    ⟨int_range_of_root k hk _ hx.1, int_range_of_root k hk _ hx.2⟩
    ⟨int_range_of_root k hk _ hy.1, int_range_of_root k hk _ hy.2⟩
    ⟨int_range_of_root k hk _ hz.1, int_range_of_root k hk _ hz.2⟩

/-- When the code of the floored minimum corner is refused, the box gets no code. -/
theorem compute_locational_code_aabb_none (bv : aabb) (root_size levels : Nat)
    (h : compute_locational_code
      ⟨Int.floor bv.mMinPos.x, Int.floor bv.mMinPos.y, Int.floor bv.mMinPos.z⟩
      root_size levels = none) :
    compute_locational_code_aabb bv root_size levels = none := by
  unfold compute_locational_code_aabb
  cases h1 : corner_to_int (Int.floor bv.mMinPos.x) (Int.floor bv.mMinPos.y)
      (Int.floor bv.mMinPos.z) with
  | none => rfl
  | some v =>
    cases h2 : corner_to_int (Int.ceil bv.mMaxPos.x) (Int.ceil bv.mMaxPos.y)
        (Int.ceil bv.mMaxPos.z) with
    | none => rfl
    | some w =>
      rw [corner_to_int_eq _ _ _ _ h1]
      simp only [h]

/-- C5 (counterexample): with root size 2^11 and 11 levels (levels = log2(root_size)) the
unit cube, which lies inside the root, gets no code: the assertion
`bitsUsed + 1 <= 32` of `compute_locational_code` fails. With root size 2^31 and one level
`static_cast<int>(root_size)` is negative, every position is sent to the root code 1, and
`compute_bv(1, 2^31)` is the inverted box with minimum 2^30 and maximum -2^30, which does
not contain the unit cube. -/
theorem round_trip_fails_outside_int_range :
    compute_locational_code_aabb unit_box (2 ^ 11) 11 = none
    ∧ compute_locational_code_aabb unit_box (2 ^ 31) 1 = some 1
    ∧ compute_bv 1 (2 ^ 31) = { mMinPos := vec3.splat (2 ^ 30), mMaxPos := vec3.splat (-(2 ^ 30)) }
    ∧ ¬ aabb.contains (compute_bv 1 (2 ^ 31)) unit_box := by
  have hfloor : ∀ q : ℚ, q = 0 → Int.floor q = 0 := by
    intro q hq; rw [hq]; exact Int.floor_zero
  have hceil : ∀ q : ℚ, q = 1 → Int.ceil q = 1 := by
    intro q hq; rw [hq]; exact Int.ceil_one
  have h3 : compute_bv 1 (2 ^ 31) =
      { mMinPos := vec3.splat (2 ^ 30), mMaxPos := vec3.splat (-(2 ^ 30)) } := by
    decide!
  refine ⟨?_, ?_, h3, ?_⟩
  · apply compute_locational_code_aabb_none
    apply compute_locational_code_asserts _ 11 11 (by decide) (by decide) (by decide) (by decide)
    · show -(2 ^ (11 - 1) : Int) ≤ Int.floor (0 : ℚ) ∧ Int.floor (0 : ℚ) < 2 ^ (11 - 1)
      rw [Int.floor_zero]; decide
    · show -(2 ^ (11 - 1) : Int) ≤ Int.floor (0 : ℚ) ∧ Int.floor (0 : ℚ) < 2 ^ (11 - 1)
      rw [Int.floor_zero]; decide
    · show -(2 ^ (11 - 1) : Int) ≤ Int.floor (0 : ℚ) ∧ Int.floor (0 : ℚ) < 2 ^ (11 - 1)
      rw [Int.floor_zero]; decide
  · unfold compute_locational_code_aabb unit_box
    simp only [hfloor _ rfl, hceil _ rfl]
    decide
  · rw [h3]
    unfold aabb.contains unit_box vec3.splat
    simp only []
    intro h
    have := h.1
    norm_num at this

/-- The floored minimum and the ceiled maximum of an interval inside `[-2^(k-1), 2^(k-1)]`
stay inside it. -/
theorem corner_bounds (k : Nat) (lo hi : ℚ) (hle : lo ≤ hi)
    (h1 : ((-((2 : Int) ^ (k - 1)) : Int) : ℚ) ≤ lo)
    (h2 : hi ≤ (((2 : Int) ^ (k - 1) : Int) : ℚ)) :
    (-(2 ^ (k - 1) : Int) ≤ Int.floor lo ∧ Int.floor lo ≤ 2 ^ (k - 1)) ∧
    (-(2 ^ (k - 1) : Int) ≤ Int.ceil hi ∧ Int.ceil hi ≤ 2 ^ (k - 1)) := by
  refine ⟨⟨Int.le_floor.mpr h1, ?_⟩, ⟨?_, Int.ceil_le.mpr h2⟩⟩
  · have : ((Int.floor lo : Int) : ℚ) ≤ (((2 : Int) ^ (k - 1) : Int) : ℚ) :=
      le_trans (Int.floor_le lo) (le_trans hle h2)
    exact_mod_cast this
  · have : ((-((2 : Int) ^ (k - 1)) : Int) : ℚ) ≤ ((Int.ceil hi : Int) : ℚ) :=
      le_trans h1 (le_trans hle (Int.le_ceil hi))
    exact_mod_cast this

/-- The corners of a box with `min <= max` inside the root `[-2^k/2, 2^k/2]^3`, floored and
ceiled, stay inside the closed root. -/
theorem box_corner_bounds (k : Nat) (bv : aabb) (hk1 : 1 ≤ k)
    (hord : bv.mMinPos.x ≤ bv.mMaxPos.x ∧ bv.mMinPos.y ≤ bv.mMaxPos.y ∧
      bv.mMinPos.z ≤ bv.mMaxPos.z)
    (hlow : -((2 : ℚ) ^ k / 2) ≤ bv.mMinPos.x ∧ -((2 : ℚ) ^ k / 2) ≤ bv.mMinPos.y ∧
      -((2 : ℚ) ^ k / 2) ≤ bv.mMinPos.z)
    (hhigh : bv.mMaxPos.x ≤ (2 : ℚ) ^ k / 2 ∧ bv.mMaxPos.y ≤ (2 : ℚ) ^ k / 2 ∧
      bv.mMaxPos.z ≤ (2 : ℚ) ^ k / 2) :
    ((-(2 ^ (k - 1) : Int) ≤ Int.floor bv.mMinPos.x ∧ Int.floor bv.mMinPos.x ≤ 2 ^ (k - 1)) ∧
      (-(2 ^ (k - 1) : Int) ≤ Int.ceil bv.mMaxPos.x ∧ Int.ceil bv.mMaxPos.x ≤ 2 ^ (k - 1))) ∧
    ((-(2 ^ (k - 1) : Int) ≤ Int.floor bv.mMinPos.y ∧ Int.floor bv.mMinPos.y ≤ 2 ^ (k - 1)) ∧
      (-(2 ^ (k - 1) : Int) ≤ Int.ceil bv.mMaxPos.y ∧ Int.ceil bv.mMaxPos.y ≤ 2 ^ (k - 1))) ∧
    ((-(2 ^ (k - 1) : Int) ≤ Int.floor bv.mMinPos.z ∧ Int.floor bv.mMinPos.z ≤ 2 ^ (k - 1)) ∧
      (-(2 ^ (k - 1) : Int) ≤ Int.ceil bv.mMaxPos.z ∧ Int.ceil bv.mMaxPos.z ≤ 2 ^ (k - 1))) := by
  have hhalf : (2 : ℚ) ^ k / 2 = (((2 : Int) ^ (k - 1) : Int) : ℚ) := by
    have : k = (k - 1) + 1 := by omega
    conv_lhs => rw [this, pow_succ]
    push_cast
    ring
  rw [hhalf] at hlow hhigh
  have hnegx : ((-((2 : Int) ^ (k - 1)) : Int) : ℚ) ≤ bv.mMinPos.x := by
    push_cast; push_cast at hlow; exact hlow.1
  have hnegy : ((-((2 : Int) ^ (k - 1)) : Int) : ℚ) ≤ bv.mMinPos.y := by
    push_cast; push_cast at hlow; exact hlow.2.1
  have hnegz : ((-((2 : Int) ^ (k - 1)) : Int) : ℚ) ≤ bv.mMinPos.z := by
    push_cast; push_cast at hlow; exact hlow.2.2
  exact ⟨corner_bounds k _ _ hord.1 hnegx hhigh.1, corner_bounds k _ _ hord.2.1 hnegy hhigh.2.1,
    corner_bounds k _ _ hord.2.2 hnegz hhigh.2.2⟩

/-- The code of a box inside the root: the common code `r` of the codes `c1`, `c2` of its
floored minimum and ceiled maximum; `r` is well formed, lies above every common
ancestor-or-self of `c1` and `c2`, and its volume contains the box. -/
theorem aabb_code_structure (k levels : Nat) (bv : aabb) (hk1 : 1 ≤ k) (hk : k ≤ 30)
    (hlk : levels ≤ k) (hl10 : levels ≤ 10)
    (hord : bv.mMinPos.x ≤ bv.mMaxPos.x ∧ bv.mMinPos.y ≤ bv.mMaxPos.y ∧
      bv.mMinPos.z ≤ bv.mMaxPos.z)
    (hlow : -((2 : ℚ) ^ k / 2) ≤ bv.mMinPos.x ∧ -((2 : ℚ) ^ k / 2) ≤ bv.mMinPos.y ∧
      -((2 : ℚ) ^ k / 2) ≤ bv.mMinPos.z)
    (hhigh : bv.mMaxPos.x ≤ (2 : ℚ) ^ k / 2 ∧ bv.mMaxPos.y ≤ (2 : ℚ) ^ k / 2 ∧
      bv.mMaxPos.z ≤ (2 : ℚ) ^ k / 2) :
    ∃ c1 c2 r,
      compute_locational_code
        ⟨Int.floor bv.mMinPos.x, Int.floor bv.mMinPos.y, Int.floor bv.mMinPos.z⟩ (2 ^ k) levels
        = some c1 ∧
      compute_locational_code
        ⟨Int.ceil bv.mMaxPos.x, Int.ceil bv.mMaxPos.y, Int.ceil bv.mMaxPos.z⟩ (2 ^ k) levels
        = some c2 ∧
      compute_locational_code_aabb bv (2 ^ k) levels = some r ∧
      octree.is_locational_code r ∧
      (∀ a, (∃ j, a = c1 >>> (3 * j)) → (∃ j, a = c2 >>> (3 * j)) → ∃ l, a = r >>> (3 * l)) ∧
      aabb.contains (compute_bv r (2 ^ k)) bv := by
  obtain ⟨⟨fx, cx⟩, ⟨fy, cy⟩, ⟨fz, cz⟩⟩ := box_corner_bounds k bv hk1 hord hlow hhigh
  obtain ⟨c1, d1, h1, hd1, hv1, hcon1⟩ := code_box_contains_point
    ⟨Int.floor bv.mMinPos.x, Int.floor bv.mMinPos.y, Int.floor bv.mMinPos.z⟩ k levels hk1 hk
    hl10 hlk fx fy fz
  obtain ⟨c2, d2, h2, hd2, hv2, hcon2⟩ := code_box_contains_point
    ⟨Int.ceil bv.mMaxPos.x, Int.ceil bv.mMaxPos.y, Int.ceil bv.mMaxPos.z⟩ k levels hk1 hk
    hl10 hlk cx cy cz
  obtain ⟨r, hr, hrv, ⟨j1, hj1⟩, ⟨j2, hj2⟩, hmax⟩ :=
    common_locational_code_spec c1 c2 ⟨d1, hd1, hv1⟩ ⟨d2, hd2, hv2⟩
  refine ⟨c1, c2, r, h1, h2, ?_, hrv, hmax, ?_⟩
  · rw [compute_locational_code_aabb_root k hk bv _ _ ⟨fx, cx⟩ ⟨fy, cy⟩ ⟨fz, cz⟩]
    simp only [h1, h2]
    exact hr
  · have hrpos := octree.is_locational_code_pos hrv
    have hle1 : j1 ≤ d1 := by
      by_contra hgt
      have := shiftRight_zero_of_depth_lt hv1 (by omega : d1 < j1)
      omega
    have hle2 : j2 ≤ d2 := by
      by_contra hgt
      have := shiftRight_zero_of_depth_lt hv2 (by omega : d2 < j2)
      omega
    have a1 := aabb.contains_trans (compute_bv_ancestor_contains (2 ^ k) j1 c1 d1 hle1 hd1 hv1) hcon1
    have a2 := aabb.contains_trans (compute_bv_ancestor_contains (2 ^ k) j2 c2 d2 hle2 hd2 hv2) hcon2
    rw [← hj1] at a1
    rw [← hj2] at a2
    unfold aabb.contains at a1 a2 ⊢
    simp only [] at a1 a2
    exact ⟨le_trans a1.1 (Int.floor_le _), le_trans a1.2.1 (Int.floor_le _),
      le_trans a1.2.2.1 (Int.floor_le _), le_trans (Int.le_ceil _) a2.2.2.2.1,
      le_trans (Int.le_ceil _) a2.2.2.2.2.1, le_trans (Int.le_ceil _) a2.2.2.2.2.2⟩

/-- C5 (amended): for a root of size `2^k` with `1 <= k <= 30`, `levels <= min(k, 10)`
(in particular `1 <= levels <= min(k, 10)`) and every box `bv` with `min <= max` componentwise that lies inside the root volume
`[-2^k/2, 2^k/2]^3`, `compute_locational_code(bv, 2^k, levels)` returns a code and
`compute_bv` of that code contains `bv`. -/
theorem compute_bv_contains_box (k levels : Nat) (bv : aabb) (hk1 : 1 ≤ k) (hk : k ≤ 30)
    (hlk : levels ≤ k) (hl10 : levels ≤ 10)
    (hord : bv.mMinPos.x ≤ bv.mMaxPos.x ∧ bv.mMinPos.y ≤ bv.mMaxPos.y ∧
      bv.mMinPos.z ≤ bv.mMaxPos.z)
    (hlow : -((2 : ℚ) ^ k / 2) ≤ bv.mMinPos.x ∧ -((2 : ℚ) ^ k / 2) ≤ bv.mMinPos.y ∧
      -((2 : ℚ) ^ k / 2) ≤ bv.mMinPos.z)
    (hhigh : bv.mMaxPos.x ≤ (2 : ℚ) ^ k / 2 ∧ bv.mMaxPos.y ≤ (2 : ℚ) ^ k / 2 ∧
      bv.mMaxPos.z ≤ (2 : ℚ) ^ k / 2) :
    ∃ code, compute_locational_code_aabb bv (2 ^ k) levels = some code ∧
      aabb.contains (compute_bv code (2 ^ k)) bv := by
  obtain ⟨_, _, r, _, _, hr, _, _, hcon⟩ :=
    aabb_code_structure k levels bv hk1 hk hlk hl10 hord hlow hhigh
  exact ⟨r, hr, hcon⟩

/-- Witness for C5: root size 128, 3 levels, the cube [1/2, 3/2]^3. -/
theorem compute_bv_contains_box_witness :
    (1 ≤ 7 ∧ 7 ≤ 30 ∧ 3 ≤ 7 ∧ 3 ≤ 10) ∧
    ∃ code, compute_locational_code_aabb small_box (2 ^ 7) 3 = some code ∧
      aabb.contains (compute_bv code (2 ^ 7)) small_box :=
  ⟨by decide,
    compute_bv_contains_box 7 3 small_box (by decide) (by decide) (by decide)
      (by decide) (by unfold small_box; norm_num) (by unfold small_box; norm_num)
      (by unfold small_box; norm_num)⟩

theorem sentinel_scan_swap (lc1 lc2 : Nat) : ∀ (n : Nat) (s1 s2 : Int),
    sentinel_scan lc2 lc1 n s2 s1 = ((sentinel_scan lc1 lc2 n s1 s2).2, (sentinel_scan lc1 lc2 n s1 s2).1) := by
  intro n
  induction n with
  | zero => intro s1 s2; rfl
  | succ n ih =>
    intro s1 s2
    unfold sentinel_scan
    simp only []
    generalize (if lc1 &&& (1 <<< n) ≠ 0 ∧ s1 = -1 then (n : Int) else s1) = t1
    generalize (if lc2 &&& (1 <<< n) ≠ 0 ∧ s2 = -1 then (n : Int) else s2) = t2
    by_cases h : t1 ≠ -1 ∧ t2 ≠ -1
    · rw [if_pos h, if_pos ⟨h.2, h.1⟩]
    · rw [if_neg h, if_neg (fun h2 => h ⟨h2.2, h2.1⟩)]
      exact ih t1 t2

theorem common_locational_code_comm (a b : Nat) :
    common_locational_code a b = common_locational_code b a := by
  unfold common_locational_code
  by_cases h : a = b
  · subst h; rfl
  · rw [if_neg h, if_neg (fun h2 => h h2.symm)]
    simp only [sentinel_scan_swap a b 32 (-1) (-1)]
    rw [max_comm (sentinel_scan a b 32 (-1) (-1)).2, min_comm (sentinel_scan a b 32 (-1) (-1)).2,
      max_comm b a, min_comm b a]

/-! ## Locational codes: the common code of arbitrary 32-bit codes -/

theorem sentinel_scan_msb (lc1 lc2 : Nat) :
    ∀ (n : Nat) (s1 s2 : Int),
      (s1 = -1 → lc1 < 2 ^ n) → (s1 ≠ -1 → lc1 ≠ 0 ∧ s1 = (Nat.log2 lc1 : Int)) →
      (s2 = -1 → lc2 < 2 ^ n) → (s2 ≠ -1 → lc2 ≠ 0 ∧ s2 = (Nat.log2 lc2 : Int)) →
      sentinel_scan lc1 lc2 n s1 s2 = (msb_index lc1, msb_index lc2) := by
  have fin : ∀ (lc : Nat) (s : Int), (s = -1 → lc < 2 ^ 0) →
      (s ≠ -1 → lc ≠ 0 ∧ s = (Nat.log2 lc : Int)) → s = msb_index lc := by
    intro lc s ha hb
    unfold msb_index
    by_cases hs : s = -1
    · have := ha hs
      have h0 : lc = 0 := by omega
      rw [if_pos h0, hs]
    · obtain ⟨h1, h2⟩ := hb hs
      rw [if_neg h1, h2]
  have found : ∀ (lc : Nat) (s : Int), s ≠ -1 → (s ≠ -1 → lc ≠ 0 ∧ s = (Nat.log2 lc : Int)) →
      s = msb_index lc := by
    intro lc s hs hb
    obtain ⟨h1, h2⟩ := hb hs
    unfold msb_index
    rw [if_neg h1, h2]
  have key : ∀ (lc : Nat) (n : Nat) (s : Int),
      (s = -1 → lc < 2 ^ (n + 1)) → (s ≠ -1 → lc ≠ 0 ∧ s = (Nat.log2 lc : Int)) →
      ((if lc &&& (1 <<< n) ≠ 0 ∧ s = -1 then (n : Int) else s) = -1 → lc < 2 ^ n) ∧
      ((if lc &&& (1 <<< n) ≠ 0 ∧ s = -1 then (n : Int) else s) ≠ -1 →
        lc ≠ 0 ∧ (if lc &&& (1 <<< n) ≠ 0 ∧ s = -1 then (n : Int) else s) = (Nat.log2 lc : Int)) := by
    intro lc n s ha hb
    have hiff := and_one_shiftLeft_ne_zero lc n
    by_cases hs : s = -1
    · have hlt := ha hs
      by_cases hbit : lc &&& (1 <<< n) ≠ 0
      · rw [if_pos ⟨hbit, hs⟩]
        refine ⟨fun h => absurd h (by omega), fun _ => ?_⟩
        have hge := Nat.testBit_implies_ge (hiff.mp hbit)
        have hlc : lc ≠ 0 := by
          have : 0 < 2 ^ n := by positivity
          omega
        have e1 : Nat.log2 lc < n + 1 := (Nat.log2_lt hlc).mpr hlt
        have e2 : n ≤ Nat.log2 lc := (Nat.le_log2 hlc).mpr hge
        have : Nat.log2 lc = n := by omega
        rw [this]
        exact ⟨hlc, rfl⟩
      · rw [if_neg (fun h => hbit h.1)]
        refine ⟨fun _ => ?_, fun h => absurd hs h⟩
        apply Nat.lt_pow_two_of_testBit
        intro j hj
        by_cases hjn : j = n
        · subst hjn
          have : ¬ lc.testBit j = true := fun h => hbit (hiff.mpr h)
          simpa using this
        · apply Nat.testBit_lt_two_pow
          calc lc < 2 ^ (n + 1) := hlt
            _ ≤ 2 ^ j := Nat.pow_le_pow_right (by norm_num) (by omega)
    · rw [if_neg (fun h => hs h.2)]
      exact ⟨fun h => absurd h hs, hb⟩
  intro n
  induction n with
  | zero =>
    intro s1 s2 a1 b1 a2 b2
    unfold sentinel_scan
    rw [fin lc1 s1 a1 b1, fin lc2 s2 a2 b2]
  | succ n ih =>
    intro s1 s2 a1 b1 a2 b2
    unfold sentinel_scan
    simp only []
    obtain ⟨k1, k2⟩ := key lc1 n s1 a1 b1
    obtain ⟨k3, k4⟩ := key lc2 n s2 a2 b2
    generalize (if lc1 &&& (1 <<< n) ≠ 0 ∧ s1 = -1 then (n : Int) else s1) = t1 at k1 k2 ⊢
    generalize (if lc2 &&& (1 <<< n) ≠ 0 ∧ s2 = -1 then (n : Int) else s2) = t2 at k3 k4 ⊢
    by_cases h : t1 ≠ -1 ∧ t2 ≠ -1
    · rw [if_pos h, found lc1 t1 h.1 k2, found lc2 t2 h.2 k4]
    · rw [if_neg h]
      exact ih t1 t2 k1 k2 k3 k4

theorem msb_index_mono {x y : Nat} (h : x ≤ y) : msb_index x ≤ msb_index y := by
  unfold msb_index
  by_cases hx : x = 0
  · rw [if_pos hx]
    split <;> omega
  · have hy : y ≠ 0 := by omega
    rw [if_neg hx, if_neg hy]
    have h1 : 2 ^ Nat.log2 x ≤ x := (Nat.le_log2 hx).mp (le_refl _)
    have h2 : Nat.log2 x ≤ Nat.log2 y := (Nat.le_log2 hy).mpr (le_trans h1 h)
    omega

theorem log2_bits {x : Nat} (hx : x ≠ 0) :
    x.testBit (Nat.log2 x) = true ∧ ∀ j, Nat.log2 x < j → x.testBit j = false := by
  have h1 : 2 ^ Nat.log2 x ≤ x := (Nat.le_log2 hx).mp (le_refl _)
  have h2 : x < 2 ^ (Nat.log2 x + 1) := (Nat.log2_lt hx).mp (by omega)
  constructor
  · rw [Nat.testBit_to_div_mod]
    have hdiv : x / 2 ^ Nat.log2 x = 1 := by
      apply Nat.div_eq_of_lt_le
      · rw [Nat.one_mul]; exact h1
      · rw [Nat.pow_succ] at h2
        omega
    rw [hdiv]
    rfl
  · intro j hj
    apply Nat.testBit_lt_two_pow
    exact lt_of_lt_of_le h2 (Nat.pow_le_pow_right (by norm_num) (by omega))

/-- Two nonzero codes whose highest set bits have the same index and whose bits below agree
are equal. -/
theorem eq_of_bits_agree (M N S s : Nat) (hM : M ≠ 0) (hN : N ≠ 0) (hS : Nat.log2 M = S)
    (hs : Nat.log2 N = s)
    (h : ∀ u, u < S → u < s ∧ M.testBit (S - 1 - u) = N.testBit (s - 1 - u)) (hsS : s ≤ S) :
    M = N := by
  have hSs : S = s := by
    by_cases h0 : S = 0
    · omega
    · have := (h (S - 1) (by omega)).1
      omega
  subst hSs
  obtain ⟨m1, m2⟩ := log2_bits hM
  obtain ⟨n1, n2⟩ := log2_bits hN
  rw [hS] at m1 m2
  rw [hs] at n1 n2
  apply Nat.eq_of_testBit_eq
  intro j
  rcases Nat.lt_trichotomy j S with hlt | heq | hgt
  · have := (h (S - 1 - j) (by omega)).2
    have e : S - 1 - (S - 1 - j) = j := by omega
    rw [e] at this
    exact this
  · rw [heq, m1, n1]
  · rw [m2 j hgt, n2 j hgt]

/-- The axis loop on two different nonzero codes, entered at `i + axis` with all earlier
bits equal: it returns, or ends with all bits up to `i + 3` equal. -/
theorem common_axis_loop_total (M N S s i : Nat) (hM : M ≠ 0) (hN : N ≠ 0) (hne : M ≠ N)
    (hS : Nat.log2 M = S) (hs : Nat.log2 N = s) (hsS : s ≤ S) (hS31 : S ≤ 31) :
    ∀ (k axis c : Nat), k + axis = 3 → i + axis ≤ S →
      (∀ u, u < i + axis → u < s ∧ M.testBit (S - 1 - u) = N.testBit (s - 1 - u)) →
      (∃ r, common_axis_loop M N (S : Int) (s : Int) i k axis c = some (Sum.inl r)) ∨
      (∃ c', common_axis_loop M N (S : Int) (s : Int) i k axis c = some (Sum.inr c') ∧
        ∀ u, u < i + 3 → u < s ∧ M.testBit (S - 1 - u) = N.testBit (s - 1 - u)) := by
  intro k
  induction k with
  | zero =>
    intro axis c hk _ hinv
    right
    have : axis = 3 := by omega
    subst this
    exact ⟨c, by rw [common_axis_loop], hinv⟩
  | succ k ih =>
    intro axis c hk hle hinv
    have hlt : i + axis < S := by
      rcases Nat.lt_or_ge (i + axis) S with h | h
      · exact h
      · exfalso
        have : i + axis = S := by omega
        rw [this] at hinv
        exact hne (eq_of_bits_agree M N S s hM hN hS hs hinv hsS)
    rw [common_axis_loop_step M N S s i k axis c hlt hS31 hsS]
    by_cases h1 : s ≤ i + axis
    · rw [if_pos h1]
      exact Or.inl ⟨_, rfl⟩
    · rw [if_neg h1]
      by_cases h2 : M.testBit (S - 1 - i - axis) ≠ N.testBit (s - 1 - i - axis)
      · rw [if_pos h2]
        exact Or.inl ⟨_, rfl⟩
      · rw [if_neg h2]
        have h2' : M.testBit (S - 1 - i - axis) = N.testBit (s - 1 - i - axis) := by
          by_contra hc
          exact h2 hc
        have hinv' : ∀ u, u < i + (axis + 1) → u < s ∧
            M.testBit (S - 1 - u) = N.testBit (s - 1 - u) := by
          intro u hu
          by_cases hu2 : u < i + axis
          · exact hinv u hu2
          · have : u = i + axis := by omega
            subst this
            refine ⟨by omega, ?_⟩
            have e1 : S - 1 - (i + axis) = S - 1 - i - axis := by omega
            have e2 : s - 1 - (i + axis) = s - 1 - i - axis := by omega
            rw [e1, e2]
            exact h2'
        have hle' : i + (axis + 1) ≤ S := by omega
        exact ih (axis + 1) _ (by omega) hle' hinv'

/-- The group loop on two different nonzero 32-bit codes returns. -/
theorem common_group_loop_total (M N S s : Nat) (hM : M ≠ 0) (hN : N ≠ 0) (hne : M ≠ N)
    (hS : Nat.log2 M = S) (hs : Nat.log2 N = s) (hsS : s ≤ S) (hS31 : S ≤ 31) :
    ∀ (k i c : Nat), S + 1 ≤ i + 3 * k → i ≤ S →
      (∀ u, u < i → u < s ∧ M.testBit (S - 1 - u) = N.testBit (s - 1 - u)) →
      ∃ r, common_group_loop M N (S : Int) (s : Int) k i c = some r := by
  intro k
  induction k with
  | zero =>
    intro i c h1 h2 _
    omega
  | succ k ih =>
    intro i c hfuel hiS hinv
    rw [common_group_loop]
    by_cases hlt : (i : Int) < (S : Int)
    · rw [if_pos hlt]
      rcases common_axis_loop_total M N S s i hM hN hne hS hs hsS hS31 3 0 c (by omega) (by omega)
        (fun u hu => hinv u (by omega)) with ⟨r, hr⟩ | ⟨c', hc', hinv'⟩
      · rw [hr]
        exact ⟨r, rfl⟩
      · rw [hc']
        simp only []
        have hle : i + 3 ≤ S := by
          by_contra hgt
          apply hne
          exact eq_of_bits_agree M N S s hM hN hS hs (fun u hu => hinv' u (by omega)) hsS
        exact ih (i + 3) c' (by omega) hle hinv'
    · rw [if_neg hlt]
      have : i = S := by omega
      rw [this, shl1_of_lt S (by omega)]
      exact ⟨_, rfl⟩

/-- Function `common_locational_code` returns a value on every pair of 32-bit codes: no
shift count in it leaves the range 0..31. -/
theorem common_locational_code_total (a b : Nat) (ha : a < 2 ^ 32) (hb : b < 2 ^ 32) :
    ∃ r, common_locational_code a b = some r := by
  unfold common_locational_code
  by_cases hab : a = b
  · rw [if_pos hab]
    exact ⟨a, rfl⟩
  · rw [if_neg hab]
    rw [sentinel_scan_msb a b 32 (-1) (-1) (fun _ => ha) (fun h => absurd rfl h) (fun _ => hb)
      (fun h => absurd rfl h)]
    simp only []
    have hmax : Max.max (msb_index a) (msb_index b) = msb_index (Max.max a b) := by
      rcases le_total a b with h | h
      · rw [max_eq_right h, max_eq_right (msb_index_mono h)]
      · rw [max_eq_left h, max_eq_left (msb_index_mono h)]
    have hmin : Min.min (msb_index a) (msb_index b) = msb_index (Min.min a b) := by
      rcases le_total a b with h | h
      · rw [min_eq_left h, min_eq_left (msb_index_mono h)]
      · rw [min_eq_right h, min_eq_right (msb_index_mono h)]
    rw [hmax, hmin]
    have hlt : Min.min a b < Max.max a b := by
      rcases Nat.lt_or_ge a b with h | h
      · rw [min_eq_left (le_of_lt h), max_eq_right (le_of_lt h)]
        exact h
      · have : b < a := by omega
        rw [min_eq_right (le_of_lt this), max_eq_left (le_of_lt this)]
        exact this
    have hM32 : Max.max a b < 2 ^ 32 := max_lt ha hb
    generalize Max.max a b = M at hlt hM32 ⊢
    generalize Min.min a b = N at hlt ⊢
    have hM : M ≠ 0 := by omega
    have hS31 : Nat.log2 M ≤ 31 := by
      have := (Nat.log2_lt hM).mpr hM32
      omega
    have eM : msb_index M = ((Nat.log2 M : Nat) : Int) := by
      unfold msb_index
      rw [if_neg hM]
    rw [eM]
    by_cases hN : N = 0
    · have eN : msb_index N = -1 := by
        unfold msb_index
        rw [if_pos hN]
      rw [eN, common_group_loop]
      by_cases h0 : ((0 : Nat) : Int) < ((Nat.log2 M : Nat) : Int)
      · rw [if_pos h0, common_axis_loop]
        have e1 : ((Nat.log2 M : Nat) : Int) - 1 - ((0 : Nat) : Int) - ((0 : Nat) : Int)
            = ((Nat.log2 M - 1 : Nat) : Int) := by omega
        rw [e1, shl1_of_lt _ (by omega)]
        simp only []
        rw [if_pos (by omega)]
        exact ⟨_, rfl⟩
      · rw [if_neg h0, shl1_of_lt 0 (by omega)]
        exact ⟨_, rfl⟩
    · have eN : msb_index N = ((Nat.log2 N : Nat) : Int) := by
        unfold msb_index
        rw [if_neg hN]
      rw [eN]
      have hsS : Nat.log2 N ≤ Nat.log2 M := by
        have := msb_index_mono (le_of_lt hlt)
        rw [eM, eN] at this
        omega
      exact common_group_loop_total M N _ _ hM hN (by omega) rfl rfl hsS hS31 11 0 0 (by omega)
        (by omega) (fun u hu => absurd hu (by omega))

/-! ## Locational codes: symmetry of the common code -/

/-- C12: `common_locational_code` is symmetric and is the identity on equal arguments: for
all 32-bit codes a and b, `common_locational_code(a, b)` and `common_locational_code(b, a)`
return the same value, and `common_locational_code(a, a)` returns a. -/
theorem common_locational_code_symm (a b : Nat) (ha : a < 2 ^ 32) (hb : b < 2 ^ 32) :
    (∃ r, common_locational_code a b = some r ∧ common_locational_code b a = some r) ∧
    common_locational_code a a = some a := by
  constructor
  · obtain ⟨r, hr⟩ := common_locational_code_total a b ha hb
    exact ⟨r, hr, by rw [← common_locational_code_comm a b]; exact hr⟩
  · unfold common_locational_code
    rw [if_pos rfl]

/-- Witness for C12: the codes 960 and 120. -/
theorem common_locational_code_symm_witness :
    (960 < 2 ^ 32 ∧ 120 < 2 ^ 32) ∧
    (∃ r, common_locational_code 960 120 = some r ∧ common_locational_code 120 960 = some r) ∧
    common_locational_code 960 960 = some 960 :=
  ⟨by decide, common_locational_code_symm 960 120 (by decide) (by decide)⟩

namespace bvh_tree

theorem construct_bvh_records_method (t : bvh_tree) (vert_data : mesh_data)
    (m : bvh_construction_method) (t1 : bvh_tree) (h : construct_bvh t vert_data m = some t1) :
    t1.mBuildMethod = m := by
  unfold construct_bvh at h
  by_cases hm : m = t.mBuildMethod
  · rw [if_pos hm] at h
    rw [← Option.some.inj h]
    exact hm.symm
  · rw [if_neg hm] at h
    have hclear : ∀ t2, clear { t with mBuildMethod := m } = some t2 → t2.mBuildMethod = m := by
      intro t2 h2
      unfold clear at h2
      split at h2
      · exact Option.noConfusion h2
      · rw [← Option.some.inj h2]
    cases hc : clear { t with mBuildMethod := m } with
    | none => rw [hc] at h; exact Option.noConfusion h
    | some t2 =>
      rw [hc] at h
      have h2 := hclear t2 hc
      cases m with
      | top_down =>
        simp only [] at h
        split at h
        · exact Option.noConfusion h
        · rw [← Option.some.inj h]; exact h2
      | bottom_up =>
        simp only [] at h
        split at h
        · exact Option.noConfusion h
        · rw [← Option.some.inj h]; exact h2
      | insertion =>
        simp only [] at h
        rw [← Option.some.inj h]; exact h2
      | not_constructed =>
        simp only [] at h
        rw [← Option.some.inj h]; exact h2

/-! ## BVH: the dispatcher -/

/-- C15: `construct_bvh` called with the recorded build method returns the state unchanged
(root, node count, build method), whatever mesh is passed; hence after any build with
method m that returned, a second call with m, on any mesh, gives back the same state. -/
theorem construct_bvh_same_method_noop (t : bvh_tree) (vert_data other_data : mesh_data)
    (m : bvh_construction_method) :
    construct_bvh t vert_data t.mBuildMethod = some t ∧
    (∀ t1, construct_bvh t vert_data m = some t1 → construct_bvh t1 other_data m = some t1) := by
  constructor
  · unfold construct_bvh
    rw [if_pos rfl]
  · intro t1 h
    have := construct_bvh_records_method t vert_data m t1 h
    unfold construct_bvh
    rw [if_pos this.symm]

/-- Witness for C15: the tree built top-down from one triangle, then a second top-down
call on another mesh. -/
theorem construct_bvh_same_method_noop_witness :
    construct_bvh init single_triangle_mesh bvh_construction_method.top_down = some built_single ∧
    construct_bvh built_single coincident_mesh bvh_construction_method.top_down
      = some built_single :=
  ⟨by decide!,
    (construct_bvh_same_method_noop init single_triangle_mesh coincident_mesh
      bvh_construction_method.top_down).2 built_single (by decide!)⟩

/-- C16 (counterexample): a tree built top-down from one triangle holds one node; a call
of `construct_bvh` with `not_constructed` records that value and clears the tree: the node
count drops from 1 to 0 and the nodes of the root are freed. -/
theorem construct_bvh_unknown_method_clears :
    (construct_bvh init single_triangle_mesh bvh_construction_method.top_down).map
      (fun t => (t.mBuildMethod, t.nodeCounter, t.mRootFreed))
      = some (bvh_construction_method.top_down, 1, false)
    ∧ ((construct_bvh init single_triangle_mesh bvh_construction_method.top_down).bind
        (fun t => construct_bvh t single_triangle_mesh bvh_construction_method.not_constructed)).map
      (fun t => (t.mBuildMethod, t.nodeCounter, t.mRootFreed))
      = some (bvh_construction_method.not_constructed, 0, true) := by
  decide!

/-- C16 (amended): for every bvh_tree state whose recorded build method is not
`not_constructed` and whose root does not dangle, `construct_bvh` called with
`not_constructed` returns, records `not_constructed` as the build method, resets the node
count to 0 and frees the nodes of the root without building anything. -/
theorem construct_bvh_unknown_method (t : bvh_tree) (vert_data : mesh_data)
    (hm : t.mBuildMethod ≠ bvh_construction_method.not_constructed)
    (hlive : ¬ (t.mRoot ≠ bvh_ptr.null ∧ t.mRootFreed = true)) :
    ∃ t1, construct_bvh t vert_data bvh_construction_method.not_constructed = some t1 ∧
      t1.mBuildMethod = bvh_construction_method.not_constructed ∧ t1.nodeCounter = 0 ∧
      t1.mRootFreed = decide (t.mRoot ≠ bvh_ptr.null) := by
  unfold construct_bvh
  rw [if_neg (fun h => hm h.symm)]
  unfold clear
  simp only []
  rw [if_neg hlive]
  exact ⟨_, rfl, rfl, rfl, rfl⟩

/-- Witness for C16: the tree built top-down from one triangle. -/
theorem construct_bvh_unknown_method_witness :
    built_single.mBuildMethod ≠ bvh_construction_method.not_constructed ∧
    ¬ (built_single.mRoot ≠ bvh_ptr.null ∧ built_single.mRootFreed = true) ∧
    ∃ t1, construct_bvh built_single single_triangle_mesh bvh_construction_method.not_constructed
        = some t1 ∧
      t1.mBuildMethod = bvh_construction_method.not_constructed ∧ t1.nodeCounter = 0 ∧
      t1.mRootFreed = decide (built_single.mRoot ≠ bvh_ptr.null) :=
  ⟨by decide!, by decide!,
    construct_bvh_unknown_method built_single single_triangle_mesh (by decide!) (by decide!)⟩

end bvh_tree

/-! ## Geometric predicates -/

/-- C17: `intersection_aabb_aabb` is symmetric for all boxes A and B, and for every box A
with min <= max on every axis `intersection_aabb_aabb(A, A)` is true. -/
theorem intersection_aabb_aabb_symm_refl (A B : aabb) :
    intersection_aabb_aabb A B = intersection_aabb_aabb B A ∧
    (A.mMinPos.x ≤ A.mMaxPos.x ∧ A.mMinPos.y ≤ A.mMaxPos.y ∧ A.mMinPos.z ≤ A.mMaxPos.z →
      intersection_aabb_aabb A A = true) := by
  constructor
  · unfold intersection_aabb_aabb
    have hx : (B.mMinPos.x > A.mMaxPos.x ∨ B.mMaxPos.x < A.mMinPos.x) ↔
        (A.mMinPos.x > B.mMaxPos.x ∨ A.mMaxPos.x < B.mMinPos.x) := by
      constructor <;> (intro h; rcases h with h | h; exact Or.inr h; exact Or.inl h)
    have hy : (B.mMinPos.y > A.mMaxPos.y ∨ B.mMaxPos.y < A.mMinPos.y) ↔
        (A.mMinPos.y > B.mMaxPos.y ∨ A.mMaxPos.y < B.mMinPos.y) := by
      constructor <;> (intro h; rcases h with h | h; exact Or.inr h; exact Or.inl h)
    have hz : (B.mMinPos.z > A.mMaxPos.z ∨ B.mMaxPos.z < A.mMinPos.z) ↔
        (A.mMinPos.z > B.mMaxPos.z ∨ A.mMaxPos.z < B.mMinPos.z) := by
      constructor <;> (intro h; rcases h with h | h; exact Or.inr h; exact Or.inl h)
    simp only [hx, hy, hz]
  · intro hA
    unfold intersection_aabb_aabb
    rw [if_neg (by rintro (h | h) <;> linarith [hA.1]),
      if_neg (by rintro (h | h) <;> linarith [hA.2.1]),
      if_neg (by rintro (h | h) <;> linarith [hA.2.2])]

/-- Witness for C17: the unit cube and the cube [1/2, 3/2]^3, which overlap. -/
theorem intersection_aabb_aabb_symm_refl_witness :
    (unit_box.mMinPos.x ≤ unit_box.mMaxPos.x ∧ unit_box.mMinPos.y ≤ unit_box.mMaxPos.y ∧
      unit_box.mMinPos.z ≤ unit_box.mMaxPos.z) ∧
    intersection_aabb_aabb unit_box small_box = true ∧
    intersection_aabb_aabb unit_box small_box = intersection_aabb_aabb small_box unit_box ∧
    intersection_aabb_aabb unit_box unit_box = true :=
  ⟨by decide!, by decide!, (intersection_aabb_aabb_symm_refl unit_box small_box).1,
    (intersection_aabb_aabb_symm_refl unit_box small_box).2 (by decide!)⟩

theorem cEpsilon_pos : 0 < cEpsilon := by
  unfold cEpsilon
  norm_num

/-! ## Plane against point -/

namespace float

end float

namespace float

theorem neg_neg_float (x : float) : neg (neg x) = x := by
  rcases x with a | ⟨_ | _⟩ | _ <;> simp [neg]

theorem neg_add_neg (x y : float) : neg x + neg y = neg (x + y) := by
  rcases x with a | s | _ <;> rcases y with b | t | _
  · show round (-a + -b) = neg (round (a + b))
    rw [← round_neg]
    congr 1
    ring
  all_goals first
    | rfl
    | (cases s <;> cases t <;> rfl)

theorem neg_mul_left (x y : float) : neg x * y = neg (x * y) := by
  rcases x with a | s | _ <;> rcases y with b | t | _
  · show round (-a * b) = neg (round (a * b))
    rw [← round_neg]
    congr 1
    ring
  · show (if -a = 0 then nan else inf (xor t (decide (-a < 0)))) =
      neg (if a = 0 then nan else inf (xor t (decide (a < 0))))
    by_cases h0 : a = 0
    · simp [h0, neg]
    · have h0' : ¬ -a = 0 := by
        intro h
        apply h0
        linarith
      rw [if_neg h0, if_neg h0']
      rcases lt_or_gt_of_ne h0 with h1 | h1
      · have : ¬ -a < 0 := by linarith
        cases t <;> simp [h1, this, neg]
      · have h2 : -a < 0 := by linarith
        have : ¬ a < 0 := by linarith
        cases t <;> simp [h2, this, neg]
  · rfl
  · show (if b = 0 then nan else inf (xor (!s) (decide (b < 0)))) =
      neg (if b = 0 then nan else inf (xor s (decide (b < 0))))
    by_cases h0 : b = 0
    · simp [h0, neg]
    · rw [if_neg h0, if_neg h0]
      cases s <;> simp [neg]
  · cases s <;> cases t <;> rfl
  · rfl
  · rfl
  · rfl
  · rfl

theorem neg_mul_right (x y : float) : x * neg y = neg (x * y) := by
  rcases x with a | s | _ <;> rcases y with b | t | _
  · show round (a * -b) = neg (round (a * b))
    rw [← round_neg]
    congr 1
    ring
  · show (if a = 0 then nan else inf (xor (!t) (decide (a < 0)))) =
      neg (if a = 0 then nan else inf (xor t (decide (a < 0))))
    by_cases h0 : a = 0
    · simp [h0, neg]
    · rw [if_neg h0, if_neg h0]
      cases t <;> simp [neg]
  · rfl
  · show (if -b = 0 then nan else inf (xor s (decide (-b < 0)))) =
      neg (if b = 0 then nan else inf (xor s (decide (b < 0))))
    by_cases h0 : b = 0
    · simp [h0, neg]
    · have h0' : ¬ -b = 0 := by
        intro h
        apply h0
        linarith
      rw [if_neg h0, if_neg h0']
      rcases lt_or_gt_of_ne h0 with h1 | h1
      · have : ¬ -b < 0 := by linarith
        cases s <;> simp [h1, this, neg]
      · have h2 : -b < 0 := by linarith
        have : ¬ b < 0 := by linarith
        cases s <;> simp [h2, this, neg]
  · cases s <;> cases t <;> rfl
  · rfl
  · rfl
  · rfl
  · rfl

theorem neg_mul_neg (x y : float) : neg x * neg y = x * y := by
  rw [neg_mul_left, neg_mul_right, neg_neg_float]

theorem neg_div_fin (x : float) (b : ℚ) (hb : b ≠ 0) : neg x / fin b = neg (x / fin b) := by
  rcases x with a | s | _
  · rw [div_fin _ _ hb]
    show div (fin (-a)) (fin b) = neg (round (a / b))
    rw [div, if_neg hb, ← round_neg]
    congr 1
    ring
  · show inf (xor (!s) (decide (b < 0))) = neg (inf (xor s (decide (b < 0))))
    cases s <;> simp [neg]
  · rfl

theorem lt_zero_neg (x : float) : lt (neg x) (fin 0) = lt (fin 0) x := by
  rcases x with a | ⟨_ | _⟩ | _ <;> simp [neg, lt]

theorem lt_neg_zero (x : float) : lt (fin 0) (neg x) = lt x (fin 0) := by
  rcases x with a | ⟨_ | _⟩ | _ <;> simp [neg, lt]

theorem ge_zero_round {q : ℚ} (h : 0 ≤ q) : ge_zero (round q) := by
  rw [round_def]
  split
  · simp [ge_zero, not_lt.mpr h]
  · exact rounded_nonneg h

theorem gt_zero_round {q : ℚ} (h : FLT_TRUE_MIN ≤ q) : gt_zero (round q) := by
  have h0 : 0 ≤ q := (two_zpow_pos (-149)).le.trans h
  rw [round_def]
  split
  · simp [gt_zero, not_lt.mpr h0]
  · exact rounded_ge_pow (by norm_num) h

theorem ge_zero_add {x y : float} (hx : ge_zero x) (hy : ge_zero y) : ge_zero (x + y) := by
  rw [add_def]
  rcases x with a | ⟨_ | _⟩ | _ <;> rcases y with b | ⟨_ | _⟩ | _ <;> simp_all [ge_zero, add]
  exact ge_zero_round (add_nonneg hx hy)

theorem gt_zero_add_left {x y : float} (hx : gt_zero x) (hy : ge_zero y) : gt_zero (x + y) := by
  rw [add_def]
  rcases x with a | ⟨_ | _⟩ | _ <;> rcases y with b | ⟨_ | _⟩ | _ <;>
    simp_all [gt_zero, ge_zero, add]
  exact gt_zero_round (by linarith)

theorem gt_zero_add_right {x y : float} (hx : ge_zero x) (hy : gt_zero y) : gt_zero (x + y) := by
  rw [add_def]
  rcases x with a | ⟨_ | _⟩ | _ <;> rcases y with b | ⟨_ | _⟩ | _ <;>
    simp_all [gt_zero, ge_zero, add]
  exact gt_zero_round (by linarith)

theorem lt_zero_of_gt_zero {x : float} (h : gt_zero x) : lt (fin 0) x = true := by
  rcases x with a | ⟨_ | _⟩ | _ <;> simp_all [gt_zero, lt]
  exact lt_of_lt_of_le (two_zpow_pos (-149)) h

theorem not_lt_zero_of_gt_zero {x : float} (h : gt_zero x) : lt x (fin 0) = false := by
  rcases x with a | ⟨_ | _⟩ | _ <;> simp_all [gt_zero, lt]
  exact ((two_zpow_pos (-149)).le.trans h)

end float

theorem fp_dot_neg_right (u v : fp.vec3) : fp.dot u v.neg = float.neg (fp.dot u v) := by
  have e : fp.dot u v.neg = u.x * float.neg v.x + u.y * float.neg v.y + u.z * float.neg v.z := rfl
  have e2 : fp.dot u v = u.x * v.x + u.y * v.y + u.z * v.z := rfl
  rw [e, e2, float.neg_mul_right, float.neg_mul_right, float.neg_mul_right, float.neg_add_neg,
    float.neg_add_neg]

theorem fp_length2_neg (v : fp.vec3) : fp.length2 v.neg = fp.length2 v := by
  have e : fp.length2 v.neg = float.neg v.x * float.neg v.x + float.neg v.y * float.neg v.y +
      float.neg v.z * float.neg v.z := rfl
  have e2 : fp.length2 v = v.x * v.x + v.y * v.y + v.z * v.z := rfl
  rw [e, e2, float.neg_mul_neg, float.neg_mul_neg, float.neg_mul_neg]

theorem fp_smul_neg_neg (s : float) (v : fp.vec3) :
    fp.vec3.smul (float.neg s) v.neg = fp.vec3.smul s v := by
  have e : fp.vec3.smul (float.neg s) v.neg =
      ⟨float.neg s * float.neg v.x, float.neg s * float.neg v.y, float.neg s * float.neg v.z⟩ := rfl
  rw [e, float.neg_mul_neg, float.neg_mul_neg, float.neg_mul_neg]
  rfl

theorem flipped_to_fp (P : plane) :
    P.flipped.to_fp = { mPoint := P.mPoint.to_fp, mNormal := P.mNormal.to_fp.neg } := rfl

namespace float

theorem neg_div (x y : float) : neg x / y = neg (x / y) := by
  rcases y with b | t | _
  · by_cases hb : b = 0
    · rcases x with a | s | _
      · show div (fin (-a)) (fin b) = neg (div (fin a) (fin b))
        rw [div, div, if_pos hb, if_pos hb]
        by_cases h0 : a = 0
        · simp [h0, neg]
        · have h0' : ¬ -a = 0 := by
            intro h
            apply h0
            linarith
          rw [if_neg h0, if_neg h0']
          rcases lt_or_gt_of_ne h0 with h1 | h1
          · have : ¬ -a < 0 := by linarith
            simp [h1, this, neg]
          · have h2 : -a < 0 := by linarith
            have : ¬ a < 0 := by linarith
            simp [h2, this, neg]
      · show inf (xor (!s) (decide (b < 0))) = neg (inf (xor s (decide (b < 0))))
        cases s <;> simp [neg]
      · rfl
    · exact neg_div_fin x b hb
  · rcases x with a | s | _
    · show fin 0 = neg (fin 0)
      simp [neg]
    · rfl
    · rfl
  · rcases x with a | s | _ <;> rfl

end float

/-- The four values that decide `classify_plane_point`: the squared length of the normal,
the scale of the projection, its squared length, and its dot product with the normal. -/
theorem fp_classify_plane_point_eq (P : fp.plane) (X : fp.vec3) (t : float) :
    fp.classify_plane_point P X t =
      if fp.are_equal (fp.length2 P.mNormal) (float.fin 0) = true then none
      else if float.le (fp.length2 (fp.vec3.smul
          (fp.dot (X - P.mPoint) P.mNormal / fp.length2 P.mNormal) P.mNormal)) (t * t) = true then
        some classification_t.overlapping
      else some (if float.lt (fp.dot (fp.vec3.smul
          (fp.dot (X - P.mPoint) P.mNormal / fp.length2 P.mNormal) P.mNormal) P.mNormal)
          (float.fin 0) = true then classification_t.inside else classification_t.outside) := rfl

/-- Negating the normal leaves the squared length and the projection as they are and
negates the dot product of the projection with the normal: rounding is symmetric. -/
theorem fp_classify_plane_point_flipped (P : plane) (X : vec3) (t : float) :
    fp.classify_plane_point P.flipped.to_fp X.to_fp t =
      if fp.are_equal (fp.length2 P.mNormal.to_fp) (float.fin 0) = true then none
      else if float.le (fp.length2 (fp.vec3.smul
          (fp.dot (X.to_fp - P.mPoint.to_fp) P.mNormal.to_fp / fp.length2 P.mNormal.to_fp)
          P.mNormal.to_fp)) (t * t) = true then
        some classification_t.overlapping
      else some (if float.lt (float.fin 0) (fp.dot (fp.vec3.smul
          (fp.dot (X.to_fp - P.mPoint.to_fp) P.mNormal.to_fp / fp.length2 P.mNormal.to_fp)
          P.mNormal.to_fp) P.mNormal.to_fp) = true then classification_t.inside
        else classification_t.outside) := by
  rw [fp_classify_plane_point_eq, flipped_to_fp]
  simp only [fp_length2_neg, fp_dot_neg_right, float.neg_div, fp_smul_neg_neg, float.lt_zero_neg]

theorem round_bound {q : ℚ} {e : Int} (h1 : -149 ≤ e) (h2 : e ≤ 127) (h : |q| ≤ (2 : ℚ) ^ e) :
    float.round q = float.fin (rounded q) ∧ |rounded q| ≤ (2 : ℚ) ^ e :=
  ⟨round_fin_of_le (h.trans (two_zpow_le h2)), rounded_abs_le_pow h1 h⟩

theorem abs_mul_le_pow {a b : ℚ} {e f g : Int} (hg : e + f = g) (ha : |a| ≤ (2 : ℚ) ^ e)
    (hb : |b| ≤ (2 : ℚ) ^ f) : |a * b| ≤ (2 : ℚ) ^ g := by
  subst hg
  rw [abs_mul, zpow_add₀ (by norm_num)]
  exact mul_le_mul ha hb (abs_nonneg _) (two_zpow_pos e).le

theorem abs_mul_ge_pow {a b : ℚ} {e f g : Int} (hg : e + f = g) (ha : (2 : ℚ) ^ e ≤ |a|)
    (hb : (2 : ℚ) ^ f ≤ |b|) : (2 : ℚ) ^ g ≤ |a * b| := by
  subst hg
  rw [abs_mul, zpow_add₀ (by norm_num)]
  exact mul_le_mul ha hb (two_zpow_pos f).le (abs_nonneg _)

theorem abs_add_le_pow {a b : ℚ} {e : Int} (ha : |a| ≤ (2 : ℚ) ^ e) (hb : |b| ≤ (2 : ℚ) ^ e) :
    |a + b| ≤ (2 : ℚ) ^ (e + 1) := by
  rw [two_zpow_succ]
  have := abs_add a b
  linarith

theorem abs_sub_le_pow {a b : ℚ} {e : Int} (ha : |a| ≤ (2 : ℚ) ^ e) (hb : |b| ≤ (2 : ℚ) ^ e) :
    |a - b| ≤ (2 : ℚ) ^ (e + 1) := by
  rw [sub_eq_add_neg]
  exact abs_add_le_pow ha (by rw [abs_neg]; exact hb)

/-- The computed dot product of two vectors of bounded components is finite. -/
theorem dot_bound (u w : vec3) (e f : Int) (hu : u.within ((2 : ℚ) ^ e))
    (hw : w.within ((2 : ℚ) ^ f)) (h1 : -149 ≤ e + f) (h2 : e + f + 2 ≤ 127) :
    fp.dot u.to_fp w.to_fp = float.fin (rounded (rounded (rounded (u.x * w.x) +
      rounded (u.y * w.y)) + rounded (u.z * w.z))) ∧
    |rounded (rounded (rounded (u.x * w.x) + rounded (u.y * w.y)) + rounded (u.z * w.z))| ≤
      (2 : ℚ) ^ (e + f + 2) := by
  obtain ⟨ux, uy, uz⟩ := hu
  obtain ⟨wx, wy, wz⟩ := hw
  obtain ⟨m1, b1⟩ := round_bound h1 (by omega) (abs_mul_le_pow rfl ux wx)
  obtain ⟨m2, b2⟩ := round_bound h1 (by omega) (abs_mul_le_pow rfl uy wy)
  obtain ⟨m3, b3⟩ := round_bound h1 (by omega) (abs_mul_le_pow rfl uz wz)
  obtain ⟨a1, c1⟩ := round_bound (e := e + f + 1) (by omega) (by omega) (abs_add_le_pow b1 b2)
  have b3' : |rounded (u.z * w.z)| ≤ (2 : ℚ) ^ (e + f + 1) := b3.trans (two_zpow_le (by omega))
  obtain ⟨a2, c2⟩ := round_bound (e := e + f + 1 + 1) (by omega) (by omega)
    (abs_add_le_pow c1 b3')
  have e0 : fp.dot u.to_fp w.to_fp = float.fin u.x * float.fin w.x +
      float.fin u.y * float.fin w.y + float.fin u.z * float.fin w.z := rfl
  rw [e0, float.mul_fin, float.mul_fin, float.mul_fin, m1, m2, m3, float.add_fin, a1,
    float.add_fin, a2]
  refine ⟨rfl, ?_⟩
  have : e + f + 1 + 1 = e + f + 2 := by ring
  rw [← this]
  exact c2

/-- The computed difference of two vectors of bounded components is finite. -/
theorem vsub_bound (X p : vec3) (e : Int) (hX : X.within ((2 : ℚ) ^ e))
    (hp : p.within ((2 : ℚ) ^ e)) (h1 : -149 ≤ e + 1) (h2 : e + 1 ≤ 127) :
    X.to_fp - p.to_fp =
      (vec3.mk (rounded (X.x - p.x)) (rounded (X.y - p.y)) (rounded (X.z - p.z))).to_fp ∧
    (vec3.mk (rounded (X.x - p.x)) (rounded (X.y - p.y)) (rounded (X.z - p.z))).within
      ((2 : ℚ) ^ (e + 1)) := by
  obtain ⟨m1, b1⟩ := round_bound h1 h2 (abs_sub_le_pow hX.1 hp.1)
  obtain ⟨m2, b2⟩ := round_bound h1 h2 (abs_sub_le_pow hX.2.1 hp.2.1)
  obtain ⟨m3, b3⟩ := round_bound h1 h2 (abs_sub_le_pow hX.2.2 hp.2.2)
  refine ⟨?_, b1, b2, b3⟩
  have e0 : X.to_fp - p.to_fp = ⟨float.fin X.x - float.fin p.x, float.fin X.y - float.fin p.y,
      float.fin X.z - float.fin p.z⟩ := rfl
  rw [e0, float.sub_fin, float.sub_fin, float.sub_fin, m1, m2, m3]
  rfl

/-- The computed product of a bounded scalar with a vector of bounded components. -/
theorem smul_bound (σ : ℚ) (n : vec3) (e f : Int) (hσ : |σ| ≤ (2 : ℚ) ^ e)
    (hn : n.within ((2 : ℚ) ^ f)) (h1 : -149 ≤ e + f) (h2 : e + f ≤ 127) :
    fp.vec3.smul (float.fin σ) n.to_fp =
      (vec3.mk (rounded (σ * n.x)) (rounded (σ * n.y)) (rounded (σ * n.z))).to_fp := by
  obtain ⟨m1, _⟩ := round_bound h1 h2 (abs_mul_le_pow rfl hσ hn.1)
  obtain ⟨m2, _⟩ := round_bound h1 h2 (abs_mul_le_pow rfl hσ hn.2.1)
  obtain ⟨m3, _⟩ := round_bound h1 h2 (abs_mul_le_pow rfl hσ hn.2.2)
  have e0 : fp.vec3.smul (float.fin σ) n.to_fp =
      ⟨float.fin σ * float.fin n.x, float.fin σ * float.fin n.y, float.fin σ * float.fin n.z⟩ := rfl
  rw [e0, float.mul_fin, float.mul_fin, float.mul_fin, m1, m2, m3]
  rfl

/-- A normal whose components are all at most 2^-11 in magnitude has a computed squared
length of at most 3 * 2^-22, which is below `cEpsilon`. -/
theorem length2_small (n : vec3) (h : n.within ((2 : ℚ) ^ (-11 : Int))) :
    rounded (rounded (rounded (n.x * n.x) + rounded (n.y * n.y)) + rounded (n.z * n.z)) ≤
      3 * (2 : ℚ) ^ (-22 : Int) := by
  have sq : ∀ a : ℚ, |a| ≤ (2 : ℚ) ^ (-11 : Int) → rounded (a * a) ≤ (2 : ℚ) ^ (-22 : Int) := by
    intro a ha
    apply rounded_le_pow (by norm_num)
    have := abs_mul_le_pow (g := -22) (by norm_num) ha ha
    exact (le_abs_self _).trans this
  have hx := sq n.x h.1
  have hy := sq n.y h.2.1
  have hz := sq n.z h.2.2
  have h2 : rounded (rounded (n.x * n.x) + rounded (n.y * n.y)) ≤ (2 : ℚ) ^ (-21 : Int) := by
    apply rounded_le_pow (by norm_num)
    have e : (2 : ℚ) ^ (-21 : Int) = 2 * (2 : ℚ) ^ (-22 : Int) := by
      rw [← two_zpow_succ]
      norm_num
    rw [e]
    linarith
  have e3 : rounded (3 * (2 : ℚ) ^ (-22 : Int)) = 3 * (2 : ℚ) ^ (-22 : Int) :=
    rounded_exact _ 3 (-22) (by norm_num) (by norm_num) (by norm_num)
  rw [← e3]
  apply rounded_mono
  have e : (2 : ℚ) ^ (-21 : Int) = 2 * (2 : ℚ) ^ (-22 : Int) := by
      rw [← two_zpow_succ]
      norm_num
  rw [e] at h2
  linarith

theorem term_nonneg {σ a : ℚ} (hσ : 0 ≤ σ) : 0 ≤ rounded (σ * a) * a := by
  rcases le_or_lt 0 a with h | h
  · exact mul_nonneg (rounded_nonneg (mul_nonneg hσ h)) h
  · have h1 : rounded (σ * a) ≤ 0 := rounded_nonpos (by nlinarith)
    nlinarith

/-- A component of the projection that does not vanish gives a term of the last dot product
that does not underflow: its own term, or the term of a component of the normal above
2^-11. -/
theorem term_big {σ a b : ℚ} (hb : (2 : ℚ) ^ (-11 : Int) ≤ |b|)
    (hπ : (2 : ℚ) ^ (-75 : Int) < |rounded (σ * a)|) :
    (2 : ℚ) ^ (-149 : Int) ≤ |rounded (σ * a) * a| ∨
      (2 : ℚ) ^ (-149 : Int) ≤ |rounded (σ * b) * b| := by
  by_cases hA : (2 : ℚ) ^ (-74 : Int) ≤ |a|
  · left
    exact abs_mul_ge_pow (e := -75) (f := -74) (by norm_num) hπ.le hA
  · right
    rw [not_le] at hA
    have hs : (2 : ℚ) ^ (-1 : Int) ≤ |σ| := by
      by_contra hc
      rw [not_le] at hc
      have := rounded_abs_le_pow (e := -75) (by norm_num)
        (abs_mul_le_pow (e := -1) (f := -74) (by norm_num) hc.le hA.le)
      linarith
    have h1 := rounded_abs_ge_pow (e := -12) (by norm_num)
      (abs_mul_ge_pow (e := -1) (f := -11) (by norm_num) hs hb)
    have h2 := abs_mul_ge_pow (e := -12) (f := -11) (g := -23) (by norm_num) h1 hb
    exact (two_zpow_le (by norm_num)).trans h2

namespace float

theorem le_zero_of_ge_zero {x : float} (h : ge_zero x) : le (fin 0) x = true := by
  rcases x with a | ⟨_ | _⟩ | _ <;> simp_all [ge_zero, le]

theorem ge_zero_mul_self {t : float} (h : t ≠ nan) : ge_zero (t * t) := by
  rcases t with a | s | _
  · rw [mul_fin]
    exact ge_zero_round (mul_self_nonneg a)
  · cases s <;> exact rfl
  · exact absurd rfl h

theorem lt_zero_asymm {x : float} (h : lt x (fin 0) = true) : lt (fin 0) x = false := by
  rcases x with a | ⟨_ | _⟩ | _ <;> simp_all [lt]
  exact h.le

end float

theorem round_sq_zero {a : ℚ} (h : |a| ≤ (2 : ℚ) ^ (-75 : Int)) :
    float.round (a * a) = float.fin 0 := by
  have h1 : |a * a| ≤ (2 : ℚ) ^ (-150 : Int) := abs_mul_le_pow (by norm_num) h h
  rw [round_fin_of_le (h1.trans (two_zpow_le (by norm_num))), rounded_eq_zero h1]

/-- With a scale `σ >= 0`, a normal with a component above 2^-11 and a projection that is
not overlapping, the computed dot product of the projection with the normal is above
zero. -/
theorem proj_sign (σ : ℚ) (n : vec3) (T : float) (hσ0 : 0 ≤ σ) (hσ : |σ| ≤ (2 : ℚ) ^ (63 : Int))
    (hn : n.within ((2 : ℚ) ^ (20 : Int)))
    (hbig : (2 : ℚ) ^ (-11 : Int) ≤ |n.x| ∨ (2 : ℚ) ^ (-11 : Int) ≤ |n.y| ∨
      (2 : ℚ) ^ (-11 : Int) ≤ |n.z|)
    (hT : float.ge_zero T)
    (hnon : float.le (fp.length2 (fp.vec3.smul (float.fin σ) n.to_fp)) T = false) :
    float.gt_zero (fp.dot (fp.vec3.smul (float.fin σ) n.to_fp) n.to_fp) := by
  rw [smul_bound σ n 63 20 hσ hn (by norm_num) (by norm_num)] at hnon ⊢
  have hex : (2 : ℚ) ^ (-75 : Int) < |rounded (σ * n.x)| ∨
      (2 : ℚ) ^ (-75 : Int) < |rounded (σ * n.y)| ∨
      (2 : ℚ) ^ (-75 : Int) < |rounded (σ * n.z)| := by
    by_contra hc
    push_neg at hc
    obtain ⟨c1, c2, c3⟩ := hc
    have e0 : fp.length2 (vec3.to_fp ⟨rounded (σ * n.x), rounded (σ * n.y), rounded (σ * n.z)⟩) =
        float.fin (rounded (σ * n.x)) * float.fin (rounded (σ * n.x)) +
        float.fin (rounded (σ * n.y)) * float.fin (rounded (σ * n.y)) +
        float.fin (rounded (σ * n.z)) * float.fin (rounded (σ * n.z)) := rfl
    have e1 : float.fin 0 + float.fin 0 + float.fin 0 = float.fin 0 := by decide!
    rw [e0, float.mul_fin, float.mul_fin, float.mul_fin, round_sq_zero c1, round_sq_zero c2,
      round_sq_zero c3, e1, float.le_zero_of_ge_zero hT] at hnon
    exact Bool.noConfusion hnon
  have hterm : (2 : ℚ) ^ (-149 : Int) ≤ |rounded (σ * n.x) * n.x| ∨
      (2 : ℚ) ^ (-149 : Int) ≤ |rounded (σ * n.y) * n.y| ∨
      (2 : ℚ) ^ (-149 : Int) ≤ |rounded (σ * n.z) * n.z| := by
    rcases hex with h | h | h <;> rcases hbig with b | b | b
    all_goals
      rcases term_big b h with t | t
      all_goals first
        | exact Or.inl t
        | exact Or.inr (Or.inl t)
        | exact Or.inr (Or.inr t)
  have e1 : fp.dot (vec3.to_fp ⟨rounded (σ * n.x), rounded (σ * n.y), rounded (σ * n.z)⟩)
      n.to_fp = float.fin (rounded (σ * n.x)) * float.fin n.x +
        float.fin (rounded (σ * n.y)) * float.fin n.y +
        float.fin (rounded (σ * n.z)) * float.fin n.z := rfl
  rw [e1, float.mul_fin, float.mul_fin, float.mul_fin]
  have gx : float.ge_zero (float.round (rounded (σ * n.x) * n.x)) :=
    float.ge_zero_round (term_nonneg hσ0)
  have gy : float.ge_zero (float.round (rounded (σ * n.y) * n.y)) :=
    float.ge_zero_round (term_nonneg hσ0)
  have gz : float.ge_zero (float.round (rounded (σ * n.z) * n.z)) :=
    float.ge_zero_round (term_nonneg hσ0)
  rcases hterm with t | t | t
  · rw [abs_of_nonneg (term_nonneg hσ0)] at t
    exact float.gt_zero_add_left (float.gt_zero_add_left (float.gt_zero_round t) gy) gz
  · rw [abs_of_nonneg (term_nonneg hσ0)] at t
    exact float.gt_zero_add_left (float.gt_zero_add_right gx (float.gt_zero_round t)) gz
  · rw [abs_of_nonneg (term_nonneg hσ0)] at t
    exact float.gt_zero_add_right (float.ge_zero_add gx gy) (float.gt_zero_round t)

/-- On coordinates of magnitude at most 2^20, when the assertion passes and the point is
not overlapping, the computed dot product of the projection with the normal is below or
above zero: it is neither zero nor a NaN. -/
theorem classify_plane_point_sign (P : plane) (X : vec3) (t : float)
    (hpt : P.mPoint.within ((2 : ℚ) ^ (20 : Int))) (hn : P.mNormal.within ((2 : ℚ) ^ (20 : Int)))
    (hX : X.within ((2 : ℚ) ^ (20 : Int))) (ht : t ≠ float.nan)
    (hassert : fp.are_equal (fp.length2 P.mNormal.to_fp) (float.fin 0) = false)
    (hnon : float.le (fp.length2 (fp.vec3.smul
      (fp.dot (X.to_fp - P.mPoint.to_fp) P.mNormal.to_fp / fp.length2 P.mNormal.to_fp)
      P.mNormal.to_fp)) (t * t) = false) :
    float.lt (fp.dot (fp.vec3.smul
      (fp.dot (X.to_fp - P.mPoint.to_fp) P.mNormal.to_fp / fp.length2 P.mNormal.to_fp)
      P.mNormal.to_fp) P.mNormal.to_fp) (float.fin 0) = true ∨
    float.lt (float.fin 0) (fp.dot (fp.vec3.smul
      (fp.dot (X.to_fp - P.mPoint.to_fp) P.mNormal.to_fp / fp.length2 P.mNormal.to_fp)
      P.mNormal.to_fp) P.mNormal.to_fp) = true := by
  obtain ⟨ev, bv⟩ := vsub_bound X P.mPoint 20 hX hpt (by norm_num) (by norm_num)
  obtain ⟨ed, bd⟩ := dot_bound _ P.mNormal 21 20 bv hn (by norm_num) (by norm_num)
  obtain ⟨el, bl⟩ := dot_bound P.mNormal P.mNormal 20 20 hn hn (by norm_num) (by norm_num)
  have el' : fp.length2 P.mNormal.to_fp = float.fin (rounded (rounded (rounded
      (P.mNormal.x * P.mNormal.x) + rounded (P.mNormal.y * P.mNormal.y)) +
      rounded (P.mNormal.z * P.mNormal.z))) := el
  have hl0 : 0 ≤ rounded (rounded (rounded (P.mNormal.x * P.mNormal.x) +
      rounded (P.mNormal.y * P.mNormal.y)) + rounded (P.mNormal.z * P.mNormal.z)) :=
    rounded_nonneg (add_nonneg (rounded_nonneg (add_nonneg
      (rounded_nonneg (mul_self_nonneg _)) (rounded_nonneg (mul_self_nonneg _))))
      (rounded_nonneg (mul_self_nonneg _)))
  rw [el', are_equal_zero] at hassert
  have hgt : 8796093 / 8796093022208 < rounded (rounded (rounded
      (P.mNormal.x * P.mNormal.x) + rounded (P.mNormal.y * P.mNormal.y)) +
      rounded (P.mNormal.z * P.mNormal.z)) := by
    by_contra hc
    rw [not_lt] at hc
    have h1 := decide_eq_true hc
    have h2 : decide (-(8796093 / 8796093022208) ≤ rounded (rounded (rounded
      (P.mNormal.x * P.mNormal.x) + rounded (P.mNormal.y * P.mNormal.y)) +
      rounded (P.mNormal.z * P.mNormal.z))) = true := decide_eq_true (by linarith)
    rw [h1, h2] at hassert
    exact Bool.noConfusion hassert
  have hbig : (2 : ℚ) ^ (-11 : Int) ≤ |P.mNormal.x| ∨ (2 : ℚ) ^ (-11 : Int) ≤ |P.mNormal.y| ∨
      (2 : ℚ) ^ (-11 : Int) ≤ |P.mNormal.z| := by
    by_contra hc
    push_neg at hc
    have h1 := length2_small P.mNormal ⟨hc.1.le, hc.2.1.le, hc.2.2.le⟩
    have e : 3 * (2 : ℚ) ^ (-22 : Int) < 8796093 / 8796093022208 := by norm_num
    exact lt_asymm (lt_of_lt_of_le hgt h1) e
  rw [ev, ed, el'] at hnon ⊢
  generalize rounded (rounded (rounded (P.mNormal.x * P.mNormal.x) +
      rounded (P.mNormal.y * P.mNormal.y)) + rounded (P.mNormal.z * P.mNormal.z)) = l
    at hgt hnon ⊢
  generalize rounded (rounded (rounded (rounded (X.x - P.mPoint.x) * P.mNormal.x) +
      rounded (rounded (X.y - P.mPoint.y) * P.mNormal.y)) +
      rounded (rounded (X.z - P.mPoint.z) * P.mNormal.z)) = d at hnon bd ⊢
  have hl1 : (2 : ℚ) ^ (-20 : Int) < l := lt_trans (by norm_num) hgt
  have hlpos : 0 < l := lt_trans (two_zpow_pos _) hl1
  rw [float.div_fin _ _ hlpos.ne.symm] at hnon ⊢
  have hq : |d / l| ≤ (2 : ℚ) ^ (63 : Int) := by
    rw [abs_div, abs_of_pos hlpos, div_le_iff₀ hlpos]
    have e43 : (2 : ℚ) ^ (63 : Int) * (2 : ℚ) ^ (-20 : Int) = (2 : ℚ) ^ (21 + 20 + 2 : Int) := by
      rw [← zpow_add₀ (by norm_num)]
      norm_num
    have := mul_le_mul_of_nonneg_left hl1.le (two_zpow_pos 63).le
    rw [e43] at this
    exact bd.trans this
  obtain ⟨es, bs⟩ := round_bound (by norm_num) (by norm_num) hq
  rw [es] at hnon ⊢
  generalize rounded (d / l) = σ at hnon bs ⊢
  have hT := float.ge_zero_mul_self ht
  rcases le_or_lt 0 σ with h0 | h0
  · right
    exact float.lt_zero_of_gt_zero (proj_sign σ P.mNormal (t * t) h0 bs hn hbig hT hnon)
  · left
    have ek : fp.vec3.smul (float.fin σ) P.mNormal.to_fp =
        fp.vec3.smul (float.fin (-σ)) P.flipped.mNormal.to_fp :=
      (fp_smul_neg_neg (float.fin σ) P.mNormal.to_fp).symm
    have hn' : P.flipped.mNormal.within ((2 : ℚ) ^ (20 : Int)) := by
      unfold plane.flipped vec3.within
      simp only [abs_neg]
      exact hn
    have hbig' : (2 : ℚ) ^ (-11 : Int) ≤ |P.flipped.mNormal.x| ∨
        (2 : ℚ) ^ (-11 : Int) ≤ |P.flipped.mNormal.y| ∨
        (2 : ℚ) ^ (-11 : Int) ≤ |P.flipped.mNormal.z| := by
      unfold plane.flipped
      simp only [abs_neg]
      exact hbig
    rw [ek] at hnon ⊢
    have h1 := proj_sign (-σ) P.flipped.mNormal (t * t) (by linarith) (by rw [abs_neg]; exact bs)
      hn' hbig' hT hnon
    have en : P.mNormal.to_fp = P.flipped.mNormal.to_fp.neg := by
      show (⟨float.fin P.mNormal.x, float.fin P.mNormal.y, float.fin P.mNormal.z⟩ : fp.vec3) =
        ⟨float.fin (- -P.mNormal.x), float.fin (- -P.mNormal.y), float.fin (- -P.mNormal.z)⟩
      simp only [neg_neg]
    rw [en, fp_dot_neg_right, float.lt_zero_neg]
    exact float.lt_zero_of_gt_zero h1

/-- C19 (counterexample): the plane through the origin with normal (2^64, 0, 0) and the
point (2^64, 0, 0) with thickness 0: the squared length of the normal overflows, the
projection is a NaN, and the point is classified outside for the plane and for the plane
with the negated normal alike. -/
theorem classify_plane_point_flipped_overflow :
    fp.classify_plane_point steep_plane.to_fp (vec3.to_fp ⟨2 ^ 64, 0, 0⟩) (float.fin 0) =
      some classification_t.outside ∧
    fp.classify_plane_point steep_plane.flipped.to_fp (vec3.to_fp ⟨2 ^ 64, 0, 0⟩) (float.fin 0) =
      some classification_t.outside := by
  decide!

/-- C19 (amended): for every plane P, every point X and every thickness t, in `float`, with
P' the plane P with its normal negated: `classify_plane_point(P', X, t)` is overlapping
exactly when `classify_plane_point(P, X, t)` is overlapping; inside for P gives outside
for P', and inside for P' gives outside for P; both calls return a classification when
the assertion on the normal passes; and when the coordinates of the plane point, of the
normal and of X have magnitude at most 2^20 and the thickness is not a NaN,
`classify_plane_point(P', X, t)` is inside exactly when `classify_plane_point(P, X, t)` is
outside, and outside exactly when it is inside. -/
theorem classify_plane_point_flipped (P : plane) (X : vec3) (t : float) :
    (fp.classify_plane_point P.flipped.to_fp X.to_fp t = some classification_t.overlapping ↔
      fp.classify_plane_point P.to_fp X.to_fp t = some classification_t.overlapping) ∧
    (fp.classify_plane_point P.to_fp X.to_fp t = some classification_t.inside →
      fp.classify_plane_point P.flipped.to_fp X.to_fp t = some classification_t.outside) ∧
    (fp.classify_plane_point P.flipped.to_fp X.to_fp t = some classification_t.inside →
      fp.classify_plane_point P.to_fp X.to_fp t = some classification_t.outside) ∧
    (fp.are_equal (fp.length2 P.mNormal.to_fp) (float.fin 0) = false →
      (∃ c, fp.classify_plane_point P.to_fp X.to_fp t = some c) ∧
      (∃ c, fp.classify_plane_point P.flipped.to_fp X.to_fp t = some c)) ∧
    (P.mPoint.within ((2 : ℚ) ^ (20 : Int)) → P.mNormal.within ((2 : ℚ) ^ (20 : Int)) →
      X.within ((2 : ℚ) ^ (20 : Int)) → t ≠ float.nan →
      (fp.classify_plane_point P.flipped.to_fp X.to_fp t = some classification_t.inside ↔
        fp.classify_plane_point P.to_fp X.to_fp t = some classification_t.outside) ∧
      (fp.classify_plane_point P.flipped.to_fp X.to_fp t = some classification_t.outside ↔
        fp.classify_plane_point P.to_fp X.to_fp t = some classification_t.inside)) := by
  have e1 : fp.classify_plane_point P.to_fp X.to_fp t =
      if fp.are_equal (fp.length2 P.mNormal.to_fp) (float.fin 0) = true then none
      else if float.le (fp.length2 (fp.vec3.smul
          (fp.dot (X.to_fp - P.mPoint.to_fp) P.mNormal.to_fp / fp.length2 P.mNormal.to_fp)
          P.mNormal.to_fp)) (t * t) = true then
        some classification_t.overlapping
      else some (if float.lt (fp.dot (fp.vec3.smul
          (fp.dot (X.to_fp - P.mPoint.to_fp) P.mNormal.to_fp / fp.length2 P.mNormal.to_fp)
          P.mNormal.to_fp) P.mNormal.to_fp) (float.fin 0) = true then classification_t.inside
        else classification_t.outside) := fp_classify_plane_point_eq P.to_fp X.to_fp t
  have e2 := fp_classify_plane_point_flipped P X t
  have key := classify_plane_point_sign P X t
  have asym := float.lt_zero_asymm (x := fp.dot (fp.vec3.smul
      (fp.dot (X.to_fp - P.mPoint.to_fp) P.mNormal.to_fp / fp.length2 P.mNormal.to_fp)
      P.mNormal.to_fp) P.mNormal.to_fp)
  rw [e1, e2]
  generalize fp.are_equal (fp.length2 P.mNormal.to_fp) (float.fin 0) = A at key ⊢
  generalize float.le (fp.length2 (fp.vec3.smul
      (fp.dot (X.to_fp - P.mPoint.to_fp) P.mNormal.to_fp / fp.length2 P.mNormal.to_fp)
      P.mNormal.to_fp)) (t * t) = B at key ⊢
  generalize float.lt (fp.dot (fp.vec3.smul
      (fp.dot (X.to_fp - P.mPoint.to_fp) P.mNormal.to_fp / fp.length2 P.mNormal.to_fp)
      P.mNormal.to_fp) P.mNormal.to_fp) (float.fin 0) = C1 at key asym ⊢
  generalize float.lt (float.fin 0) (fp.dot (fp.vec3.smul
      (fp.dot (X.to_fp - P.mPoint.to_fp) P.mNormal.to_fp / fp.length2 P.mNormal.to_fp)
      P.mNormal.to_fp) P.mNormal.to_fp) = C2 at key asym ⊢
  cases A <;> cases B <;> cases C1 <;> cases C2 <;> simp at asym ⊢
  · intro h1 h2 h3
    by_contra h4
    have := key h1 h2 h3 h4 rfl rfl
    simp at this

/-- Witness for C19: the plane through the origin with normal (0, 1, 0), the point
(1, 2, 1) and thickness 1: outside for the plane, inside for the plane with the negated
normal. -/
theorem classify_plane_point_flipped_witness :
    ground_plane.mPoint.within ((2 : ℚ) ^ (20 : Int)) ∧
    ground_plane.mNormal.within ((2 : ℚ) ^ (20 : Int)) ∧
    vec3.within ((2 : ℚ) ^ (20 : Int)) ⟨1, 2, 1⟩ ∧
    fp.classify_plane_point ground_plane.to_fp (vec3.to_fp ⟨1, 2, 1⟩) (float.fin 1) =
      some classification_t.outside ∧
    fp.classify_plane_point ground_plane.flipped.to_fp (vec3.to_fp ⟨1, 2, 1⟩) (float.fin 1) =
      some classification_t.inside ∧
    ((fp.classify_plane_point ground_plane.flipped.to_fp (vec3.to_fp ⟨1, 2, 1⟩) (float.fin 1) =
        some classification_t.inside ↔
      fp.classify_plane_point ground_plane.to_fp (vec3.to_fp ⟨1, 2, 1⟩) (float.fin 1) =
        some classification_t.outside) ∧
    (fp.classify_plane_point ground_plane.flipped.to_fp (vec3.to_fp ⟨1, 2, 1⟩) (float.fin 1) =
        some classification_t.outside ↔
      fp.classify_plane_point ground_plane.to_fp (vec3.to_fp ⟨1, 2, 1⟩) (float.fin 1) =
        some classification_t.inside)) :=
  ⟨by decide!, by decide!, by decide!, by decide!, by decide!,
    (classify_plane_point_flipped ground_plane ⟨1, 2, 1⟩ (float.fin 1)).2.2.2.2
      (by decide!) (by decide!) (by decide!) (fun h => float.noConfusion h)⟩

/-! ## Ray against box -/

/-- The slab step for the axis of the ray when the quotient of the near face overflows:
`tMin` becomes infinite, `tMax` stays at most `FLT_MAX`, and the step returns -1. -/
theorem fp_slab_axis_overflow (r : ray) (box : aabb) (i : Nat)
    (hbox : box.mMinPos.get i ≤ box.mMaxPos.get i)
    (hd : cEpsilon < |r.mDir.get i|)
    (hq : (float.fin (if 0 < r.mDir.get i then box.mMinPos.get i else box.mMaxPos.get i) -
      float.fin (r.mOrigin.get i)) / float.fin (r.mDir.get i) = float.inf false) :
    fp.ray_aabb_slab r.to_fp box.to_fp i (float.fin 0, fp.FLT_MAX) = none := by
  have hne := are_equal_zero_of_gt hd
  have hAB : float.le (float.fin (box.mMinPos.get i) - float.fin (r.mOrigin.get i))
      (float.fin (box.mMaxPos.get i) - float.fin (r.mOrigin.get i)) = true := by
    rw [float.sub_fin, float.sub_fin]
    exact round_le_round (by linarith)
  have hd0 : r.mDir.get i ≠ 0 := by
    intro h0
    rw [h0, abs_zero] at hd
    unfold cEpsilon at hd
    norm_num at hd
  unfold fp.ray_aabb_slab
  simp only [ray.to_fp, aabb.to_fp, to_fp_get, hne, Bool.false_eq_true, if_false]
  have top : ∀ F : float, float.le (float.inf false) F = true → F = float.inf false := by
    intro F hF
    rcases F with a | ⟨_ | _⟩ | _ <;> simp_all [float.le]
  rcases lt_or_gt_of_ne hd0 with hneg | hpos
  · rw [if_neg (not_lt.mpr hneg.le)] at hq
    have hle := float.div_le_div_neg hneg hAB
    rw [hq] at hle
    rw [hq, top _ hle]
    simp [float.lt, fp.FLT_MAX]
  · rw [if_pos hpos] at hq
    have hle := float.div_le_div_pos hpos hAB
    rw [hq] at hle
    rw [hq, top _ hle]
    simp [float.lt, fp.FLT_MAX]

/-- C20 (counterexample): the unit cube [-1/2, 1/2]^3 and the ray from (-3/2, 0, 0) with
direction (3, 0, 0): the ray starts outside and points along +x toward the box, its entry
parameter is 1/3, and the function returns the binary32 value 11184811 / 2^25 next to it.
For the ray from (-2^120, 0, 0) with direction (2^-10, 0, 0) the entry parameter is
2^130 - 512, the quotient overflows, and the function returns -1. -/
theorem intersection_ray_aabb_rounds :
    fp.intersection_ray_aabb third_ray.to_fp unit_cube.to_fp = float.fin (11184811 / 33554432) ∧
    entry_parameter third_ray unit_cube 0 = 1 / 3 ∧
    cEpsilon < |third_ray.mDir.get 0| ∧ third_ray.mDir.get 1 = 0 ∧ third_ray.mDir.get 2 = 0 ∧
    third_ray.mOrigin.get 0 < unit_cube.mMinPos.get 0 ∧
    (unit_cube.mMinPos.get 1 ≤ third_ray.mOrigin.get 1 ∧
      third_ray.mOrigin.get 1 ≤ unit_cube.mMaxPos.get 1) ∧
    (unit_cube.mMinPos.get 2 ≤ third_ray.mOrigin.get 2 ∧
      third_ray.mOrigin.get 2 ≤ unit_cube.mMaxPos.get 2) ∧
    fp.intersection_ray_aabb far_ray.to_fp unit_cube.to_fp = float.fin (-1) ∧
    entry_parameter far_ray unit_cube 0 = 2 ^ 130 - 512 := by
  decide!

/-- C20 (amended): for every box with min <= max and every ray that starts outside the
box and points along one coordinate axis `i` toward it (direction component `d` on that
axis with |d| above epsilon, the other two components 0, origin before the near face on
axis `i` and within the box's range on the other two axes), `intersection_ray_aabb`
returns the quotient `(near - origin) / d` as `float` arithmetic computes it, when that
quotient is finite, and it is not negative; it returns -1 when the quotient overflows.
When the difference `near - origin` and the entry parameter
t = (distance from the origin to the near face) / |d| are binary32 values, the function
returns t, and t > 0. For the unit cube [-1/2, 1/2]^3, origin (-2, 0, 0) and direction
(1, 0, 0) it returns 3/2. -/
theorem intersection_ray_aabb_axis (r : ray) (box : aabb) (i : Nat) (hi : i < 3)
    (hbox : ∀ j, j < 3 → box.mMinPos.get j ≤ box.mMaxPos.get j)
    (hd : cEpsilon < |r.mDir.get i|)
    (hother : ∀ j, j < 3 → j ≠ i → r.mDir.get j = 0 ∧
      box.mMinPos.get j ≤ r.mOrigin.get j ∧ r.mOrigin.get j ≤ box.mMaxPos.get j)
    (hout : (0 < r.mDir.get i ∧ r.mOrigin.get i < box.mMinPos.get i) ∨
      (r.mDir.get i < 0 ∧ box.mMaxPos.get i < r.mOrigin.get i)) :
    (∀ q, (float.fin (if 0 < r.mDir.get i then box.mMinPos.get i else box.mMaxPos.get i) -
        float.fin (r.mOrigin.get i)) / float.fin (r.mDir.get i) = float.fin q →
      fp.intersection_ray_aabb r.to_fp box.to_fp = float.fin q ∧ 0 ≤ q) ∧
    ((float.fin (if 0 < r.mDir.get i then box.mMinPos.get i else box.mMaxPos.get i) -
        float.fin (r.mOrigin.get i)) / float.fin (r.mDir.get i) = float.inf false →
      fp.intersection_ray_aabb r.to_fp box.to_fp = float.fin (-1)) ∧
    (representable ((if 0 < r.mDir.get i then box.mMinPos.get i else box.mMaxPos.get i) -
        r.mOrigin.get i) → representable (entry_parameter r box i) →
      fp.intersection_ray_aabb r.to_fp box.to_fp = float.fin (entry_parameter r box i) ∧
        0 < entry_parameter r box i) ∧
    fp.intersection_ray_aabb axis_ray.to_fp unit_cube.to_fp = float.fin (3 / 2) := by
  have hd0 : r.mDir.get i ≠ 0 := by
    intro h0
    rw [h0, abs_zero] at hd
    unfold cEpsilon at hd
    norm_num at hd
  have hpar : ∀ j, j < 3 → j ≠ i → ∀ t, fp.ray_aabb_slab r.to_fp box.to_fp j t = some t :=
    fun j hj hji t => fp_slab_parallel r box j t (hother j hj hji).1 (hother j hj hji).2.1
      (hother j hj hji).2.2
  refine ⟨fun q hq => fp_loop_axis r box i hi hbox hd hother hout q hq, ?_, ?_, by decide!⟩
  · intro hq
    have hax := fp_slab_axis_overflow r box i (hbox i hi) hd hq
    unfold fp.intersection_ray_aabb
    have hloop : fp.ray_aabb_loop r.to_fp box.to_fp 3 0 (float.fin 0, fp.FLT_MAX) = none := by
      interval_cases i
      · simp only [fp.ray_aabb_loop, hax]
      · simp only [fp.ray_aabb_loop, hax, hpar 0 (by decide) (by decide)]
      · simp only [fp.ray_aabb_loop, hax, hpar 0 (by decide) (by decide),
          hpar 1 (by decide) (by decide)]
    rw [hloop]
  · intro h1 h2
    have he : ((if 0 < r.mDir.get i then box.mMinPos.get i else box.mMaxPos.get i) -
        r.mOrigin.get i) / r.mDir.get i = entry_parameter r box i := by
      unfold entry_parameter
      rcases hout with ⟨hpos, ho⟩ | ⟨hneg, ho⟩
      · rw [if_pos hpos, if_pos hpos, abs_of_pos hpos]
      · rw [if_neg (not_lt.mpr hneg.le), if_neg (not_lt.mpr hneg.le), abs_of_neg hneg, div_neg,
          ← neg_div]
        congr 1
        ring
    have hq : (float.fin (if 0 < r.mDir.get i then box.mMinPos.get i else box.mMaxPos.get i) -
        float.fin (r.mOrigin.get i)) / float.fin (r.mDir.get i) =
        float.fin (entry_parameter r box i) := by
      rw [float.sub_fin, h1, float.div_fin _ _ hd0, he, h2]
    refine ⟨(fp_loop_axis r box i hi hbox hd hother hout _ hq).1, ?_⟩
    rw [← he]
    rcases hout with ⟨hpos, ho⟩ | ⟨hneg, ho⟩
    · rw [if_pos hpos]
      exact div_pos (by linarith) hpos
    · rw [if_neg (not_lt.mpr hneg.le)]
      exact div_pos_of_neg_of_neg (by linarith) hneg

/-- Witness for C20: the unit cube [-1/2, 1/2]^3 and the ray from (-2, 0, 0) with direction
(1, 0, 0): the function returns 3/2. -/
theorem intersection_ray_aabb_axis_witness :
    entry_parameter axis_ray unit_cube 0 = 3 / 2 ∧
    fp.intersection_ray_aabb axis_ray.to_fp unit_cube.to_fp =
      float.fin (entry_parameter axis_ray unit_cube 0) ∧
    0 < entry_parameter axis_ray unit_cube 0 :=
  ⟨by decide!,
    (intersection_ray_aabb_axis axis_ray unit_cube 0 (by decide)
      (by intro j hj; interval_cases j <;> decide!)
      (by decide!)
      (by intro j hj hne; interval_cases j
          · exact absurd rfl hne
          · decide!
          · decide!)
      (Or.inl (by decide!))).2.2.1 (by unfold representable; decide!)
        (by unfold representable; decide!)⟩

/-! ## Locational codes: the deepest cell of a position -/

theorem shifted_lt (k : Nat) (hk1 : 1 ≤ k) (v : Int) (h1 : -(2 ^ (k - 1) : Int) ≤ v)
    (h2 : v < 2 ^ (k - 1)) : (v + 2 ^ (k - 1)).toNat < 2 ^ k := by
  have hpow : (2 : Int) ^ k = 2 * 2 ^ (k - 1) := by
    have : k = (k - 1) + 1 := by omega
    conv_lhs => rw [this, pow_succ]
    ring
  have e1 : ((v + 2 ^ (k - 1)).toNat : Int) = v + 2 ^ (k - 1) := Int.toNat_of_nonneg (by omega)
  have e2 : ((v + 2 ^ (k - 1)).toNat : Int) < ((2 ^ k : Nat) : Int) := by
    rw [e1]; push_cast; omega
  exact_mod_cast e2

theorem cell_lo_bounds (k L : Nat) (v : Int) (h1 : -(2 ^ (k - 1) : Int) ≤ v) :
    cell_lo k L v ≤ (v : ℚ) ∧ (v : ℚ) < cell_lo k L v + 2 ^ (k - L) := by
  unfold cell_lo
  have hvq : (v : ℚ) = (((v + 2 ^ (k - 1)).toNat : Nat) : ℚ) - (2 : ℚ) ^ (k - 1) := by
    have e1 : ((v + 2 ^ (k - 1)).toNat : Int) = v + 2 ^ (k - 1) := Int.toNat_of_nonneg (by omega)
    have e2 : (((v + 2 ^ (k - 1)).toNat : Int) : ℚ) = ((v + 2 ^ (k - 1) : Int) : ℚ) := by rw [e1]
    push_cast at e2
    linarith
  have hdiv1 : 2 ^ (k - L) * ((v + 2 ^ (k - 1)).toNat / 2 ^ (k - L)) ≤ (v + 2 ^ (k - 1)).toNat :=
    Nat.mul_div_le _ _
  have hdiv2 : (v + 2 ^ (k - 1)).toNat <
      2 ^ (k - L) * ((v + 2 ^ (k - 1)).toNat / 2 ^ (k - L)) + 2 ^ (k - L) := by
    have := Nat.lt_mul_div_succ (v + 2 ^ (k - 1)).toNat (by positivity : 0 < 2 ^ (k - L))
    rw [Nat.mul_add, Nat.mul_one] at this
    exact this
  have q1 : ((2 ^ (k - L) * ((v + 2 ^ (k - 1)).toNat / 2 ^ (k - L)) : Nat) : ℚ)
      ≤ (((v + 2 ^ (k - 1)).toNat : Nat) : ℚ) := by exact_mod_cast hdiv1
  have q2 : (((v + 2 ^ (k - 1)).toNat : Nat) : ℚ)
      < ((2 ^ (k - L) * ((v + 2 ^ (k - 1)).toNat / 2 ^ (k - L)) : Nat) : ℚ) + (2 : ℚ) ^ (k - L) := by
    have : (((v + 2 ^ (k - 1)).toNat : Nat) : ℚ)
        < ((2 ^ (k - L) * ((v + 2 ^ (k - 1)).toNat / 2 ^ (k - L)) + 2 ^ (k - L) : Nat) : ℚ) := by
      exact_mod_cast hdiv2
    push_cast at this
    push_cast
    exact this
  constructor
  · rw [hvq]; linarith
  · rw [hvq]; linarith

/-- The box of a cell code whose axis bits are the top `L` bits of `wx`, `wy`, `wz`. -/
theorem cell_code_box (k L wx wy wz : Nat) (hk1 : 1 ≤ k) (hk : k ≤ 30) (hL : L ≤ 10)
    (hLk : L ≤ k) (hwx : wx < 2 ^ k) (hwy : wy < 2 ^ k) (hwz : wz < 2 ^ k) :
    compute_bv (merge_codes (wx >>> (k - L)) (wy >>> (k - L)) (wz >>> (k - L)) L
        ||| (1 <<< (L * 3))) (2 ^ k) =
      { mMinPos := ⟨((2 ^ (k - L) * (wx / 2 ^ (k - L)) : Nat) : ℚ) - 2 ^ (k - 1),
          ((2 ^ (k - L) * (wy / 2 ^ (k - L)) : Nat) : ℚ) - 2 ^ (k - 1),
          ((2 ^ (k - L) * (wz / 2 ^ (k - L)) : Nat) : ℚ) - 2 ^ (k - 1)⟩,
        mMaxPos := ⟨((2 ^ (k - L) * (wx / 2 ^ (k - L)) : Nat) : ℚ) - 2 ^ (k - 1) + 2 ^ (k - L),
          ((2 ^ (k - L) * (wy / 2 ^ (k - L)) : Nat) : ℚ) - 2 ^ (k - 1) + 2 ^ (k - L),
          ((2 ^ (k - L) * (wz / 2 ^ (k - L)) : Nat) : ℚ) - 2 ^ (k - 1) + 2 ^ (k - L)⟩ } := by
  rw [compute_bv_eq _ (2 ^ k) L hL (cell_code_valid _ _ _ L hL), half_size_eq k hk1 hk]
  have hpowq : (2 : ℚ) ^ k = 2 * 2 ^ (k - 1) := by
    have : k = (k - 1) + 1 := by omega
    conv_lhs => rw [this, pow_succ]
    ring
  obtain ⟨lx, hx⟩ := cell_sums _ wx k L 0 hLk hwx (fun j hj => by
    rw [Nat.add_zero]
    have := cell_code_axis_bits (wx >>> (k - L)) (wy >>> (k - L)) (wz >>> (k - L)) L hL 0
      (by decide) j hj
    rw [Nat.add_zero] at this
    rw [this]; rfl)
  obtain ⟨ly, hy⟩ := cell_sums _ wy k L 1 hLk hwy (fun j hj => by
    rw [cell_code_axis_bits (wx >>> (k - L)) (wy >>> (k - L)) (wz >>> (k - L)) L hL 1
      (by decide) j hj]
    rfl)
  obtain ⟨lz, hz⟩ := cell_sums _ wz k L 2 hLk hwz (fun j hj => by
    rw [cell_code_axis_bits (wx >>> (k - L)) (wy >>> (k - L)) (wz >>> (k - L)) L hL 2
      (by decide) j hj]
    rfl)
  rw [lx, ly, lz, hx, hy, hz, hpowq]
  congr 2 <;> ring

/-- Code and box of an integer position strictly inside the root: the code has depth `L`
and its box is the cell `[cell_lo, cell_lo + 2^(k-L)]` on every axis. -/
theorem point_code_box (p : ivec3) (k L : Nat) (hk1 : 1 ≤ k) (hk : k ≤ 30)
    (hL : L ≤ 10) (hLk : L ≤ k)
    (hx : -(2 ^ (k - 1) : Int) ≤ p.x ∧ p.x < 2 ^ (k - 1))
    (hy : -(2 ^ (k - 1) : Int) ≤ p.y ∧ p.y < 2 ^ (k - 1))
    (hz : -(2 ^ (k - 1) : Int) ≤ p.z ∧ p.z < 2 ^ (k - 1)) :
    ∃ code, compute_locational_code p (2 ^ k) L = some code ∧ code >>> (3 * L) = 1 ∧
      code = (merge_codes ((p.x + 2 ^ (k - 1)).toNat >>> (k - L))
          ((p.y + 2 ^ (k - 1)).toNat >>> (k - L)) ((p.z + 2 ^ (k - 1)).toNat >>> (k - L)) L
          ||| (1 <<< (L * 3))) ∧
      compute_bv code (2 ^ k) =
        { mMinPos := ⟨cell_lo k L p.x, cell_lo k L p.y, cell_lo k L p.z⟩,
          mMaxPos := ⟨cell_lo k L p.x + 2 ^ (k - L), cell_lo k L p.y + 2 ^ (k - L),
            cell_lo k L p.z + 2 ^ (k - L)⟩ } := by
  rw [compute_locational_code_eq p k L hk1 hk hL hLk ⟨hx.1, le_of_lt hx.2⟩ ⟨hy.1, le_of_lt hy.2⟩
    ⟨hz.1, le_of_lt hz.2⟩, if_pos ⟨hx.2, hy.2, hz.2⟩]
  refine ⟨_, rfl, cell_code_valid _ _ _ L hL, rfl, ?_⟩
  rw [cell_code_box k L _ _ _ hk1 hk hL hLk (shifted_lt k hk1 p.x hx.1 hx.2)
    (shifted_lt k hk1 p.y hy.1 hy.2) (shifted_lt k hk1 p.z hz.1 hz.2)]
  rfl

/-- C13 (counterexample): with root size 2^11 and 11 levels the position (0, 0, 0) gets no
code (the assertion `bitsUsed + 1 <= 32` fails); with root size 2^31 and 1 level the
position (0, 0, 0) gets the root code 1, of depth 0 instead of 1. -/
theorem compute_locational_code_beyond_limits :
    compute_locational_code ⟨0, 0, 0⟩ (2 ^ 11) 11 = none ∧
    compute_locational_code ⟨0, 0, 0⟩ (2 ^ 31) 1 = some 1 ∧ locational_code_depth 1 = 0 := by
  refine ⟨?_, ?_, ?_⟩
  · exact compute_locational_code_asserts ⟨0, 0, 0⟩ 11 11 (by decide) (by decide) (by decide)
      (by decide) (by decide) (by decide) (by decide)
  · decide
  · decide

/-- C13 (amended): for a root of size `2^k` with `1 <= k <= 30`, `levels <= min(k, 10)`
and every integer position p with `-2^k/2 <= p[axis] < 2^k/2` on each axis,
`compute_locational_code<3>(p, 2^k, levels)` returns a code whose `locational_code_depth`
is `levels` and whose `compute_bv` is a cube of side `2^k / 2^levels` with min <= p and
max > p on every axis. -/
theorem compute_locational_code_deepest_cell (p : ivec3) (k L : Nat) (hk1 : 1 ≤ k)
    (hk : k ≤ 30) (hL : L ≤ 10) (hLk : L ≤ k)
    (hx : -(2 ^ (k - 1) : Int) ≤ p.x ∧ p.x < 2 ^ (k - 1))
    (hy : -(2 ^ (k - 1) : Int) ≤ p.y ∧ p.y < 2 ^ (k - 1))
    (hz : -(2 ^ (k - 1) : Int) ≤ p.z ∧ p.z < 2 ^ (k - 1)) :
    ∃ code, compute_locational_code p (2 ^ k) L = some code ∧
      locational_code_depth code = L ∧
      (compute_bv code (2 ^ k)).mMaxPos.x - (compute_bv code (2 ^ k)).mMinPos.x
        = (2 : ℚ) ^ k / 2 ^ L ∧
      (compute_bv code (2 ^ k)).mMaxPos.y - (compute_bv code (2 ^ k)).mMinPos.y
        = (2 : ℚ) ^ k / 2 ^ L ∧
      (compute_bv code (2 ^ k)).mMaxPos.z - (compute_bv code (2 ^ k)).mMinPos.z
        = (2 : ℚ) ^ k / 2 ^ L ∧
      ((compute_bv code (2 ^ k)).mMinPos.x ≤ p.x ∧ (p.x : ℚ) < (compute_bv code (2 ^ k)).mMaxPos.x) ∧
      ((compute_bv code (2 ^ k)).mMinPos.y ≤ p.y ∧ (p.y : ℚ) < (compute_bv code (2 ^ k)).mMaxPos.y) ∧
      ((compute_bv code (2 ^ k)).mMinPos.z ≤ p.z ∧ (p.z : ℚ) < (compute_bv code (2 ^ k)).mMaxPos.z) := by
  obtain ⟨code, hcode, hvalid, _, hbox⟩ := point_code_box p k L hk1 hk hL hLk hx hy hz
  have hside : (2 : ℚ) ^ k / 2 ^ L = 2 ^ (k - L) := by
    have : k = (k - L) + L := by omega
    conv_lhs => rw [this, pow_add]
    field_simp
  refine ⟨code, hcode, locational_code_depth_eq hL hvalid, ?_⟩
  rw [hbox, hside]
  simp only []
  exact ⟨by ring, by ring, by ring, cell_lo_bounds k L p.x hx.1, cell_lo_bounds k L p.y hy.1,
    cell_lo_bounds k L p.z hz.1⟩

/-- Witness for C13: root size 128, 3 levels, position (0, 0, 0); the code is 960 and its
box is [0, 16]^3. -/
theorem compute_locational_code_deepest_cell_witness :
    compute_locational_code ⟨0, 0, 0⟩ (2 ^ 7) 3 = some 960 ∧
    compute_bv 960 (2 ^ 7) = { mMinPos := ⟨0, 0, 0⟩, mMaxPos := ⟨16, 16, 16⟩ } ∧
    ∃ code, compute_locational_code ⟨0, 0, 0⟩ (2 ^ 7) 3 = some code ∧
      locational_code_depth code = 3 ∧
      (compute_bv code (2 ^ 7)).mMaxPos.x - (compute_bv code (2 ^ 7)).mMinPos.x
        = (2 : ℚ) ^ 7 / 2 ^ 3 ∧
      (compute_bv code (2 ^ 7)).mMaxPos.y - (compute_bv code (2 ^ 7)).mMinPos.y
        = (2 : ℚ) ^ 7 / 2 ^ 3 ∧
      (compute_bv code (2 ^ 7)).mMaxPos.z - (compute_bv code (2 ^ 7)).mMinPos.z
        = (2 : ℚ) ^ 7 / 2 ^ 3 ∧
      ((compute_bv code (2 ^ 7)).mMinPos.x ≤ ((0 : Int) : ℚ) ∧
        (((0 : Int) : ℚ)) < (compute_bv code (2 ^ 7)).mMaxPos.x) ∧
      ((compute_bv code (2 ^ 7)).mMinPos.y ≤ ((0 : Int) : ℚ) ∧
        (((0 : Int) : ℚ)) < (compute_bv code (2 ^ 7)).mMaxPos.y) ∧
      ((compute_bv code (2 ^ 7)).mMinPos.z ≤ ((0 : Int) : ℚ) ∧
        (((0 : Int) : ℚ)) < (compute_bv code (2 ^ 7)).mMaxPos.z) :=
  ⟨by decide!, by decide!,
    compute_locational_code_deepest_cell ⟨0, 0, 0⟩ 7 3 (by decide) (by decide) (by decide)
      (by decide) (by decide) (by decide) (by decide)⟩

/-! ## Locational codes: codes of the same depth -/

theorem depth_unique {c d e : Nat} (hd : c >>> (3 * d) = 1) (he : c >>> (3 * e) = 1) :
    d = e := by
  have h1 := code_log2 hd
  have h2 := code_log2 he
  omega

theorem shiftRight_depth {c d j : Nat} (h : c >>> (3 * d) = 1) (hj : j ≤ d) :
    (c >>> (3 * j)) >>> (3 * (d - j)) = 1 := by
  rw [shiftRight_shiftRight_three]
  have : j + (d - j) = d := by omega
  rw [this]
  exact h

/-- The common code of two well-formed codes of the same depth `d` is their prefix at the
first level, counted from the deepest, at which the prefixes agree. -/
theorem common_same_depth (c1 c2 d : Nat) (hd : d ≤ 10) (h1 : c1 >>> (3 * d) = 1)
    (h2 : c2 >>> (3 * d) = 1) :
    ∃ j, j ≤ d ∧ common_locational_code c1 c2 = some (c1 >>> (3 * j)) ∧
      c1 >>> (3 * j) = c2 >>> (3 * j) ∧ ∀ i, i < j → c1 >>> (3 * i) ≠ c2 >>> (3 * i) := by
  obtain ⟨r, hr, ⟨m, _, hrm⟩, ⟨j1, hj1⟩, ⟨j2, hj2⟩, hmax⟩ :=
    common_locational_code_spec c1 c2 ⟨d, hd, h1⟩ ⟨d, hd, h2⟩
  have hrpos : r ≠ 0 := by
    have := (code_bounds hrm).1
    have : 0 < 2 ^ (3 * m) := by positivity
    omega
  have hj1d : j1 ≤ d := by
    by_contra hgt
    have := shiftRight_zero_of_depth_lt h1 (by omega : d < j1)
    omega
  have hj2d : j2 ≤ d := by
    by_contra hgt
    have := shiftRight_zero_of_depth_lt h2 (by omega : d < j2)
    omega
  have e1 := shiftRight_depth h1 hj1d
  rw [← hj1] at e1
  have e2 := shiftRight_depth h2 hj2d
  rw [← hj2] at e2
  have hm1 : m = d - j1 := depth_unique hrm e1
  have hm2 : m = d - j2 := depth_unique hrm e2
  have hjj : j1 = j2 := by omega
  refine ⟨j1, hj1d, by rw [hr, hj1], by rw [← hj1, hj2, hjj], ?_⟩
  intro i hi heq
  obtain ⟨l, hl⟩ := hmax (c1 >>> (3 * i)) ⟨i, rfl⟩ ⟨i, heq⟩
  have ei := shiftRight_depth h1 (by omega : i ≤ d)
  have hlm : l ≤ m := by
    by_contra hgt
    have h0 := shiftRight_zero_of_depth_lt hrm (by omega : m < l)
    rw [hl, h0] at ei
    simp at ei
  have el := shiftRight_depth hrm hlm
  rw [← hl] at el
  have := depth_unique ei el
  omega

theorem common_with_root (c : Nat) (h : octree.is_locational_code c) :
    common_locational_code c 1 = some 1 ∧ common_locational_code 1 c = some 1 := by
  have hroot : octree.is_locational_code 1 := ⟨0, by omega, by simp⟩
  have hone : ∀ r k, 1 ≤ r → r = 1 >>> (3 * k) → r = 1 := by
    intro r k hpos hk
    by_cases hk0 : k = 0
    · subst hk0
      simpa using hk
    · have : 1 >>> (3 * k) = 0 := by
        rw [Nat.shiftRight_eq_div_pow]
        apply Nat.div_eq_of_lt
        exact Nat.one_lt_two_pow (by omega)
      omega
  constructor
  · obtain ⟨r, hr, hrv, _, ⟨k, hk⟩, _⟩ := common_locational_code_spec c 1 h hroot
    rw [hr, hone r k (octree.is_locational_code_pos hrv) hk]
  · obtain ⟨r, hr, hrv, ⟨k, hk⟩, _, _⟩ := common_locational_code_spec 1 c hroot h
    rw [hr, hone r k (octree.is_locational_code_pos hrv) hk]

theorem or_bit_shiftRight (c a i : Nat) (ha : a < 3) (hi : 1 ≤ i) :
    (c ||| (1 <<< a)) >>> (3 * i) = c >>> (3 * i) := by
  apply Nat.eq_of_testBit_eq
  intro n
  rw [Nat.testBit_shiftRight, Nat.testBit_shiftRight, Nat.testBit_or, Nat.one_shiftLeft,
    Nat.testBit_two_pow]
  have : ¬ a = 3 * i + n := by omega
  simp [this]

theorem or_bit_inj (c1 c2 a : Nat) (h1 : c1.testBit a = false) (h2 : c2.testBit a = false) :
    (c1 ||| (1 <<< a) = c2 ||| (1 <<< a)) ↔ c1 = c2 := by
  constructor
  · intro h
    apply Nat.eq_of_testBit_eq
    intro n
    have := congrArg (fun x => x.testBit n) h
    simp only [Nat.testBit_or, Nat.one_shiftLeft, Nat.testBit_two_pow] at this
    by_cases hn : a = n
    · subst hn
      rw [h1, h2]
    · simpa [hn] using this
  · intro h
    rw [h]

/-- Setting bit `a < 3` (one axis bit of the deepest level) in two well-formed codes of the
same depth, where it was clear in both, changes their common code in the bottom group
only. -/
theorem common_shift_sibling (c1 c2 d a : Nat) (ha : a < 3) (hd1 : 1 ≤ d) (hd : d ≤ 10)
    (h1 : c1 >>> (3 * d) = 1) (h2 : c2 >>> (3 * d) = 1)
    (hb1 : c1.testBit a = false) (hb2 : c2.testBit a = false) :
    ∃ r r', common_locational_code c1 c2 = some r ∧
      common_locational_code (c1 ||| (1 <<< a)) (c2 ||| (1 <<< a)) = some r' ∧
      r >>> 3 = r' >>> 3 := by
  have h1' : (c1 ||| (1 <<< a)) >>> (3 * d) = 1 := by rw [or_bit_shiftRight c1 a d ha hd1]; exact h1
  have h2' : (c2 ||| (1 <<< a)) >>> (3 * d) = 1 := by rw [or_bit_shiftRight c2 a d ha hd1]; exact h2
  obtain ⟨j, _, hr, heq, hmin⟩ := common_same_depth c1 c2 d hd h1 h2
  obtain ⟨j', _, hr', heq', hmin'⟩ := common_same_depth _ _ d hd h1' h2'
  have agree : ∀ i, (c1 >>> (3 * i) = c2 >>> (3 * i)) ↔
      ((c1 ||| (1 <<< a)) >>> (3 * i) = (c2 ||| (1 <<< a)) >>> (3 * i)) := by
    intro i
    by_cases hi : i = 0
    · subst hi
      simp only [Nat.mul_zero, Nat.shiftRight_zero]
      exact (or_bit_inj c1 c2 a hb1 hb2).symm
    · rw [or_bit_shiftRight c1 a i ha (by omega), or_bit_shiftRight c2 a i ha (by omega)]
  have hjj : j = j' := by
    rcases Nat.lt_trichotomy j j' with hlt | heq2 | hgt
    · exact absurd ((agree j).mp heq) (hmin' j hlt)
    · exact heq2
    · exact absurd ((agree j').mpr heq') (hmin j' hgt)
  refine ⟨_, _, hr, hr', ?_⟩
  rw [← hjj]
  have e : ∀ c, (c >>> (3 * j)) >>> 3 = c >>> (3 * (j + 1)) := by
    intro c
    rw [← Nat.shiftRight_add]
    congr 1
  rw [e, e, or_bit_shiftRight c1 a (j + 1) ha (by omega)]

theorem succ_even_testBit (X j : Nat) (hX : X % 2 = 0) :
    (X + 1).testBit j = (X.testBit j || decide (j = 0)) := by
  cases j with
  | zero =>
    rw [Nat.testBit_zero, Nat.testBit_zero]
    have h1 : (X + 1) % 2 = 1 := by omega
    simp [h1]
  | succ j =>
    rw [Nat.testBit_succ, Nat.testBit_succ]
    have h1 : (X + 1) / 2 = X / 2 := by omega
    simp [h1]

theorem even_testBit_zero (X : Nat) (hX : X % 2 = 0) : X.testBit 0 = false := by
  rw [Nat.testBit_zero]
  simp [hX]

/-- Moving a cell one step along axis `a` from an even index sets bit `a` of its code. -/
theorem cell_code_set_bit (cx cy cz cx' cy' cz' L a : Nat) (hL1 : 1 ≤ L) (hL : L ≤ 10)
    (ha : a < 3)
    (hx : ∀ j, cx'.testBit j = (cx.testBit j || (decide (a = 0) && decide (j = 0))))
    (hy : ∀ j, cy'.testBit j = (cy.testBit j || (decide (a = 1) && decide (j = 0))))
    (hz : ∀ j, cz'.testBit j = (cz.testBit j || (decide (a = 2) && decide (j = 0)))) :
    (merge_codes cx' cy' cz' L ||| (1 <<< (L * 3))) =
      (merge_codes cx cy cz L ||| (1 <<< (L * 3))) ||| (1 <<< a) := by
  apply Nat.eq_of_testBit_eq
  intro n
  rw [cell_code_testBit cx' cy' cz' L n hL, Nat.testBit_or, cell_code_testBit cx cy cz L n hL,
    Nat.one_shiftLeft, Nat.testBit_two_pow, hx, hy, hz]
  have hm : n % 3 = 0 ∨ n % 3 = 1 ∨ n % 3 = 2 := by omega
  by_cases hn : a = n
  · subst hn
    have h1 : a / 3 = 0 := by omega
    have h2 : a % 3 = a := by omega
    have h3 : 0 < L := by omega
    have h4 : ¬ a = 3 * L := by omega
    rw [h1, h2]
    interval_cases a <;> simp [h3]
  · by_cases hlt : n / 3 < L
    · by_cases h0 : n / 3 = 0
      · have hn3 : n < 3 := by omega
        have e : n % 3 = n := by omega
        rw [e, h0]
        interval_cases n <;> interval_cases a <;> simp_all
      · simp [hn, h0]
    · simp [hn, hlt]

theorem cell_code_axis_bit_clear (cx cy cz L a : Nat) (hL1 : 1 ≤ L) (hL : L ≤ 10) (ha : a < 3)
    (h : (if a = 0 then cx.testBit 0 else if a = 1 then cy.testBit 0 else cz.testBit 0) = false) :
    (merge_codes cx cy cz L ||| (1 <<< (L * 3))).testBit a = false := by
  have := cell_code_axis_bits cx cy cz L hL a ha 0 (by omega)
  rw [Nat.mul_zero, Nat.zero_add] at this
  rw [this, h]

/-- One coordinate of a position and of its translate by one cell width along axis `a`:
the translate stays in the closed root, is strictly inside exactly when the position is,
and its cell index is the next one when `b` is the axis of translation. -/
theorem coordinate_translate (k L a b : Nat) (v : Int) (hk1 : 1 ≤ k) (hL1 : 1 ≤ L)
    (hLk : L ≤ k) (h1 : -(2 ^ (k - 1) : Int) ≤ v) (h2 : v ≤ 2 ^ (k - 1))
    (hin : a = b → v + 2 ^ (k - L) ≤ 2 ^ (k - 1))
    (heven : a = b → ((v + 2 ^ (k - 1)).toNat / 2 ^ (k - L)) % 2 = 0) :
    (-(2 ^ (k - 1) : Int) ≤ v + (if a = b then 2 ^ (k - L) else 0) ∧
      v + (if a = b then 2 ^ (k - L) else 0) ≤ 2 ^ (k - 1)) ∧
    (v + (if a = b then 2 ^ (k - L) else 0) < 2 ^ (k - 1) ↔ v < 2 ^ (k - 1)) ∧
    (∀ j, ((v + (if a = b then 2 ^ (k - L) else 0) + 2 ^ (k - 1)).toNat >>> (k - L)).testBit j =
      (((v + 2 ^ (k - 1)).toNat >>> (k - L)).testBit j || (decide (a = b) && decide (j = 0)))) ∧
    (a = b → ((v + 2 ^ (k - 1)).toNat >>> (k - L)).testBit 0 = false) := by
  by_cases hab : a = b
  · simp only [hab, if_true, decide_True, Bool.true_and, forall_true_left]
    have hin' := hin hab
    have heven' := heven hab
    have hWpos : 0 < (2 : Nat) ^ (k - L) := by positivity
    have hcastW : (((2 : Nat) ^ (k - L) : Nat) : Int) = (2 : Int) ^ (k - L) := by push_cast; rfl
    have hWIpos : (0 : Int) < (2 : Int) ^ (k - L) := by positivity
    have hpowk : (2 : Int) ^ k = 2 * 2 ^ (k - 1) := by
      have : k = (k - 1) + 1 := by omega
      conv_lhs => rw [this, pow_succ]
      ring
    have hsplit : (2 : Nat) ^ k = 2 ^ L * 2 ^ (k - L) := by
      rw [← Nat.pow_add]
      congr 1
      omega
    have hLeven : (2 : Nat) ^ L = 2 * 2 ^ (L - 1) := by
      have : L = (L - 1) + 1 := by omega
      conv_lhs => rw [this, Nat.pow_succ]
      ring
    have hcastk : (((2 : Nat) ^ k : Nat) : Int) = (2 : Int) ^ k := by push_cast; rfl
    have hw : ((v + 2 ^ (k - 1)).toNat : Int) = v + 2 ^ (k - 1) := Int.toNat_of_nonneg (by omega)
    have hw' : (v + 2 ^ (k - L) + 2 ^ (k - 1)).toNat = (v + 2 ^ (k - 1)).toNat + 2 ^ (k - L) := by
      have : ((v + 2 ^ (k - L) + 2 ^ (k - 1)).toNat : Int)
          = (((v + 2 ^ (k - 1)).toNat + 2 ^ (k - L) : Nat) : Int) := by
        rw [Int.toNat_of_nonneg (by omega)]
        push_cast
        rw [hw]
        ring
      exact_mod_cast this
    have hle : (v + 2 ^ (k - 1)).toNat + 2 ^ (k - L) ≤ 2 ^ k := by
      have : (((v + 2 ^ (k - 1)).toNat + 2 ^ (k - L) : Nat) : Int) ≤ ((2 ^ k : Nat) : Int) := by
        push_cast
        rw [hw, hpowk]
        omega
      exact_mod_cast this
    have hstrict : (v + 2 ^ (k - 1)).toNat + 2 ^ (k - L) < 2 ^ k := by
      rcases Nat.lt_or_ge ((v + 2 ^ (k - 1)).toNat + 2 ^ (k - L)) (2 ^ k) with h | h
      · exact h
      · exfalso
        have heq : (v + 2 ^ (k - 1)).toNat + 2 ^ (k - L) = 2 ^ L * 2 ^ (k - L) := by omega
        have hdiv : ((v + 2 ^ (k - 1)).toNat + 2 ^ (k - L)) / 2 ^ (k - L) = 2 ^ L := by
          rw [heq]
          exact Nat.mul_div_cancel _ hWpos
        rw [Nat.add_div_right _ hWpos] at hdiv
        omega
    have hstrictI : v + 2 ^ (k - L) < 2 ^ (k - 1) := by
      have : (((v + 2 ^ (k - 1)).toNat + 2 ^ (k - L) : Nat) : Int) < ((2 ^ k : Nat) : Int) := by
        exact_mod_cast hstrict
      push_cast at this
      rw [hw, hpowk] at this
      omega
    refine ⟨⟨by omega, hin'⟩, ⟨fun _ => by omega, fun _ => hstrictI⟩, ?_, ?_⟩
    · intro j
      rw [hw', Nat.shiftRight_eq_div_pow, Nat.shiftRight_eq_div_pow, Nat.add_div_right _ hWpos]
      exact succ_even_testBit _ j heven'
    · rw [Nat.shiftRight_eq_div_pow]
      exact even_testBit_zero _ heven'
  · simp [hab, h1, h2]

/-- Codes of an integer position in the closed root and of its translate by one cell width
along axis `a`, when the translate stays in the closed root and the cell index of the
position along `a` is even: both are the root code 1, or the first is a cell code with
bit `a` clear and the second is the same code with bit `a` set. -/
theorem point_translate_code (p : ivec3) (k L a : Nat) (ha : a < 3) (hk1 : 1 ≤ k)
    (hk : k ≤ 30) (hL1 : 1 ≤ L) (hL : L ≤ 10) (hLk : L ≤ k)
    (hx : -(2 ^ (k - 1) : Int) ≤ p.x ∧ p.x ≤ 2 ^ (k - 1))
    (hy : -(2 ^ (k - 1) : Int) ≤ p.y ∧ p.y ≤ 2 ^ (k - 1))
    (hz : -(2 ^ (k - 1) : Int) ≤ p.z ∧ p.z ≤ 2 ^ (k - 1))
    (hin : p.get a + 2 ^ (k - L) ≤ 2 ^ (k - 1))
    (heven : ((p.get a + 2 ^ (k - 1)).toNat / 2 ^ (k - L)) % 2 = 0) :
    (compute_locational_code p (2 ^ k) L = some 1 ∧
      compute_locational_code (p.shift a (2 ^ (k - L))) (2 ^ k) L = some 1) ∨
    (∃ c, c >>> (3 * L) = 1 ∧ c.testBit a = false ∧
      compute_locational_code p (2 ^ k) L = some c ∧
      compute_locational_code (p.shift a (2 ^ (k - L))) (2 ^ k) L = some (c ||| (1 <<< a))) := by
  obtain ⟨bx, sx, tx, ex⟩ := coordinate_translate k L a 0 p.x hk1 hL1 hLk hx.1 hx.2
    (fun h => by subst h; exact hin) (fun h => by subst h; exact heven)
  obtain ⟨by_, sy, ty, ey⟩ := coordinate_translate k L a 1 p.y hk1 hL1 hLk hy.1 hy.2
    (fun h => by subst h; exact hin) (fun h => by subst h; exact heven)
  obtain ⟨bz, sz, tz, ez⟩ := coordinate_translate k L a 2 p.z hk1 hL1 hLk hz.1 hz.2
    (fun h => by subst h; exact hin) (fun h => by subst h; exact heven)
  rw [compute_locational_code_eq p k L hk1 hk hL hLk hx hy hz,
    compute_locational_code_eq (p.shift a (2 ^ (k - L))) k L hk1 hk hL hLk bx by_ bz]
  by_cases hinside : p.x < 2 ^ (k - 1) ∧ p.y < 2 ^ (k - 1) ∧ p.z < 2 ^ (k - 1)
  · right
    have hinside' : (p.shift a (2 ^ (k - L))).x < 2 ^ (k - 1) ∧
        (p.shift a (2 ^ (k - L))).y < 2 ^ (k - 1) ∧ (p.shift a (2 ^ (k - L))).z < 2 ^ (k - 1) :=
      ⟨sx.mpr hinside.1, sy.mpr hinside.2.1, sz.mpr hinside.2.2⟩
    rw [if_pos hinside, if_pos hinside']
    refine ⟨_, cell_code_valid _ _ _ L hL, ?_, rfl, ?_⟩
    · apply cell_code_axis_bit_clear _ _ _ L a hL1 hL ha
      interval_cases a
      · simpa using ex rfl
      · simpa using ey rfl
      · simpa using ez rfl
    · congr 1
      exact cell_code_set_bit _ _ _ _ _ _ L a hL1 hL ha tx ty tz
  · left
    have hinside' : ¬ ((p.shift a (2 ^ (k - L))).x < 2 ^ (k - 1) ∧
        (p.shift a (2 ^ (k - L))).y < 2 ^ (k - 1) ∧ (p.shift a (2 ^ (k - L))).z < 2 ^ (k - 1)) :=
      fun h => hinside ⟨sx.mp h.1, sy.mp h.2.1, sz.mp h.2.2⟩
    rw [if_neg hinside, if_neg hinside']
    exact ⟨rfl, rfl⟩

/-- The common codes of two corner positions and of their translates by one cell width
along axis `a` agree above the bottom group, when both corners lie in cells of even index
along `a`. -/
theorem corners_translate_code (p1 p2 : ivec3) (k L a : Nat) (ha : a < 3) (hk1 : 1 ≤ k)
    (hk : k ≤ 30) (hL1 : 1 ≤ L) (hL : L ≤ 10) (hLk : L ≤ k)
    (hx1 : -(2 ^ (k - 1) : Int) ≤ p1.x ∧ p1.x ≤ 2 ^ (k - 1))
    (hy1 : -(2 ^ (k - 1) : Int) ≤ p1.y ∧ p1.y ≤ 2 ^ (k - 1))
    (hz1 : -(2 ^ (k - 1) : Int) ≤ p1.z ∧ p1.z ≤ 2 ^ (k - 1))
    (hx2 : -(2 ^ (k - 1) : Int) ≤ p2.x ∧ p2.x ≤ 2 ^ (k - 1))
    (hy2 : -(2 ^ (k - 1) : Int) ≤ p2.y ∧ p2.y ≤ 2 ^ (k - 1))
    (hz2 : -(2 ^ (k - 1) : Int) ≤ p2.z ∧ p2.z ≤ 2 ^ (k - 1))
    (hin1 : p1.get a + 2 ^ (k - L) ≤ 2 ^ (k - 1))
    (hin2 : p2.get a + 2 ^ (k - L) ≤ 2 ^ (k - 1))
    (heven1 : ((p1.get a + 2 ^ (k - 1)).toNat / 2 ^ (k - L)) % 2 = 0)
    (heven2 : ((p2.get a + 2 ^ (k - 1)).toNat / 2 ^ (k - L)) % 2 = 0) :
    ∃ c1 c2 c1' c2' r r', compute_locational_code p1 (2 ^ k) L = some c1 ∧
      compute_locational_code p2 (2 ^ k) L = some c2 ∧
      compute_locational_code (p1.shift a (2 ^ (k - L))) (2 ^ k) L = some c1' ∧
      compute_locational_code (p2.shift a (2 ^ (k - L))) (2 ^ k) L = some c2' ∧
      common_locational_code c1 c2 = some r ∧ common_locational_code c1' c2' = some r' ∧
      r >>> 3 = r' >>> 3 := by
  have hroot : octree.is_locational_code 1 := ⟨0, by omega, by simp⟩
  rcases point_translate_code p1 k L a ha hk1 hk hL1 hL hLk hx1 hy1 hz1 hin1 heven1 with
    ⟨e1, e1'⟩ | ⟨c1, v1, b1, e1, e1'⟩ <;>
  rcases point_translate_code p2 k L a ha hk1 hk hL1 hL hLk hx2 hy2 hz2 hin2 heven2 with
    ⟨e2, e2'⟩ | ⟨c2, v2, b2, e2, e2'⟩
  · exact ⟨1, 1, 1, 1, 1, 1, e1, e2, e1', e2', (common_with_root 1 hroot).1,
      (common_with_root 1 hroot).1, rfl⟩
  · have v2' : (c2 ||| (1 <<< a)) >>> (3 * L) = 1 := by
      rw [or_bit_shiftRight c2 a L ha hL1]; exact v2
    exact ⟨1, c2, 1, _, 1, 1, e1, e2, e1', e2', (common_with_root c2 ⟨L, hL, v2⟩).2,
      (common_with_root _ ⟨L, hL, v2'⟩).2, rfl⟩
  · have v1' : (c1 ||| (1 <<< a)) >>> (3 * L) = 1 := by
      rw [or_bit_shiftRight c1 a L ha hL1]; exact v1
    exact ⟨c1, 1, _, 1, 1, 1, e1, e2, e1', e2', (common_with_root c1 ⟨L, hL, v1⟩).1,
      (common_with_root _ ⟨L, hL, v1'⟩).1, rfl⟩
  · obtain ⟨r, r', hr, hr', hrr⟩ := common_shift_sibling c1 c2 L a ha hL1 hL v1 v2 b1 b2
    exact ⟨c1, c2, _, _, r, r', e1, e2, e1', e2', hr, hr', hrr⟩

/-! ## Locational codes: translation by one cell width -/

/-- C14 (counterexample): root size 128, 3 levels, translation by 16 along x. The cube
[17, 18]^3 lies in one deepest cell (index 5 along x): its code is 967 and the code of its
translate is 974, and the two differ above the bottom 3 bits (120 against 121). The box
[-1, 1] x [1, 2] x [1, 2] has the root code 1 and its translate has the code 120 of a
node of depth 2 (0 against 15 above the bottom 3 bits). -/
theorem translate_changes_ancestor_bits :
    compute_locational_code_aabb odd_cell_box (2 ^ 7) 3 = some 967 ∧
    compute_locational_code_aabb (odd_cell_box.translate 0 16) (2 ^ 7) 3 = some 974 ∧
    967 >>> 3 ≠ 974 >>> 3 ∧
    compute_locational_code_aabb straddling_box (2 ^ 7) 3 = some 1 ∧
    compute_locational_code_aabb (straddling_box.translate 0 16) (2 ^ 7) 3 = some 120 ∧
    1 >>> 3 ≠ 120 >>> 3 := by
  decide!

/-- C14 (amended): with root size 128 and 3 levels (cell width 16), for every box with
min <= max inside the root whose translate by 16 along one axis `a` is also inside the
root, if floor(min) and ceil(max) both lie in deepest cells of even index along `a`
(index = (coordinate + 64) / 16), then the box and its translate both get a code and the
two codes agree above the bottom 3 bits: `code >> 3` is the same for both. -/
theorem translate_keeps_ancestor_bits (bv : aabb) (a : Nat) (ha : a < 3)
    (hord : bv.mMinPos.x ≤ bv.mMaxPos.x ∧ bv.mMinPos.y ≤ bv.mMaxPos.y ∧
      bv.mMinPos.z ≤ bv.mMaxPos.z)
    (hlow : -64 ≤ bv.mMinPos.x ∧ -64 ≤ bv.mMinPos.y ∧ -64 ≤ bv.mMinPos.z)
    (hhigh : bv.mMaxPos.x ≤ 64 ∧ bv.mMaxPos.y ≤ 64 ∧ bv.mMaxPos.z ≤ 64)
    (htr : bv.mMaxPos.get a + 16 ≤ 64)
    (hmin_even : ((Int.floor (bv.mMinPos.get a) + 64).toNat / 16) % 2 = 0)
    (hmax_even : ((Int.ceil (bv.mMaxPos.get a) + 64).toNat / 16) % 2 = 0) :
    ∃ c c', compute_locational_code_aabb bv (2 ^ 7) 3 = some c ∧
      compute_locational_code_aabb (bv.translate a 16) (2 ^ 7) 3 = some c' ∧
      c >>> 3 = c' >>> 3 := by
  have fl : ∀ (lo hi : ℚ), lo ≤ hi → -64 ≤ lo → hi ≤ 64 →
      (-(2 ^ (7 - 1) : Int) ≤ Int.floor lo ∧ Int.floor lo ≤ 2 ^ (7 - 1)) ∧
      (-(2 ^ (7 - 1) : Int) ≤ Int.ceil hi ∧ Int.ceil hi ≤ 2 ^ (7 - 1)) := by
    intro lo hi hle h1 h2
    refine ⟨⟨Int.le_floor.mpr (by push_cast; linarith), ?_⟩,
      ⟨?_, Int.ceil_le.mpr (by push_cast; linarith)⟩⟩
    · have : ((Int.floor lo : Int) : ℚ) ≤ (((2 : Int) ^ (7 - 1) : Int) : ℚ) := by
        push_cast
        linarith [Int.floor_le lo]
      exact_mod_cast this
    · have : ((-((2 : Int) ^ (7 - 1)) : Int) : ℚ) ≤ ((Int.ceil hi : Int) : ℚ) := by
        push_cast
        linarith [Int.le_ceil hi]
      exact_mod_cast this
  obtain ⟨fx, cx⟩ := fl _ _ hord.1 hlow.1 hhigh.1
  obtain ⟨fy, cy⟩ := fl _ _ hord.2.1 hlow.2.1 hhigh.2.1
  obtain ⟨fz, cz⟩ := fl _ _ hord.2.2 hlow.2.2 hhigh.2.2
  have horda : bv.mMinPos.get a ≤ bv.mMaxPos.get a := by
    interval_cases a
    · exact hord.1
    · exact hord.2.1
    · exact hord.2.2
  have hceil : Int.ceil (bv.mMaxPos.get a) ≤ 48 := Int.ceil_le.mpr (by push_cast; linarith)
  have hfloor : Int.floor (bv.mMinPos.get a) ≤ 48 := by
    have : ((Int.floor (bv.mMinPos.get a) : Int) : ℚ) ≤ ((48 : Int) : ℚ) := by
      push_cast
      linarith [Int.floor_le (bv.mMinPos.get a)]
    exact_mod_cast this
  have hget1 : (⟨Int.floor bv.mMinPos.x, Int.floor bv.mMinPos.y, Int.floor bv.mMinPos.z⟩ :
      ivec3).get a = Int.floor (bv.mMinPos.get a) := by
    interval_cases a <;> rfl
  have hget2 : (⟨Int.ceil bv.mMaxPos.x, Int.ceil bv.mMaxPos.y, Int.ceil bv.mMaxPos.z⟩ :
      ivec3).get a = Int.ceil (bv.mMaxPos.get a) := by
    interval_cases a <;> rfl
  have hfl16 : ∀ (q : ℚ) (b : Nat), Int.floor (q + (if a = b then 16 else 0))
      = Int.floor q + (if a = b then 2 ^ (7 - 3) else 0) := by
    intro q b
    by_cases hab : a = b
    · rw [if_pos hab, if_pos hab]
      have : (16 : ℚ) = (((2 ^ (7 - 3) : Int) : Int) : ℚ) := by norm_num
      rw [this, Int.floor_add_int]
    · rw [if_neg hab, if_neg hab, add_zero, add_zero]
  have hce16 : ∀ (q : ℚ) (b : Nat), Int.ceil (q + (if a = b then 16 else 0))
      = Int.ceil q + (if a = b then 2 ^ (7 - 3) else 0) := by
    intro q b
    by_cases hab : a = b
    · rw [if_pos hab, if_pos hab]
      have : (16 : ℚ) = (((2 ^ (7 - 3) : Int) : Int) : ℚ) := by norm_num
      rw [this, Int.ceil_add_int]
    · rw [if_neg hab, if_neg hab, add_zero, add_zero]
  obtain ⟨c1, c2, c1', c2', r, r', e1, e2, e1', e2', hr, hr', hrr⟩ :=
    corners_translate_code
      ⟨Int.floor bv.mMinPos.x, Int.floor bv.mMinPos.y, Int.floor bv.mMinPos.z⟩
      ⟨Int.ceil bv.mMaxPos.x, Int.ceil bv.mMaxPos.y, Int.ceil bv.mMaxPos.z⟩ 7 3 a ha
      (by decide) (by decide) (by decide) (by decide) (by decide) fx fy fz cx cy cz
      (by rw [hget1]; norm_num; omega) (by rw [hget2]; norm_num; omega)
      (by rw [hget1]; norm_num; exact hmin_even) (by rw [hget2]; norm_num; exact hmax_even)
  refine ⟨r, r', ?_, ?_, hrr⟩
  · rw [compute_locational_code_aabb_root 7 (by decide) bv _ _ ⟨fx, cx⟩ ⟨fy, cy⟩ ⟨fz, cz⟩]
    simp only [e1, e2]
    exact hr
  · have hr1 : ∀ (v : Int) (b : Nat), (-(2 ^ (7 - 1) : Int) ≤ v ∧ v ≤ 2 ^ (7 - 1)) →
        -(2 ^ 31 : Int) ≤ v + (if a = b then 2 ^ (7 - 3) else 0) ∧
          v + (if a = b then 2 ^ (7 - 3) else 0) < 2 ^ 31 := by
      intro v b hv
      split_ifs <;> norm_num at hv ⊢ <;> omega
    unfold compute_locational_code_aabb aabb.translate vec3.shift
    simp only [hfl16, hce16]
    rw [corner_to_int_some _ _ _ (hr1 _ _ fx) (hr1 _ _ fy) (hr1 _ _ fz),
      corner_to_int_some _ _ _ (hr1 _ _ cx) (hr1 _ _ cy) (hr1 _ _ cz)]
    simp only []
    unfold ivec3.shift at e1' e2'
    simp only [] at e1' e2'
    simp only [e1', e2']
    exact hr'

/-- Witness for C14: the cube [1, 2]^3 (cell index 4 along x) moved by 16 along x. -/
theorem translate_keeps_ancestor_bits_witness :
    ((Int.floor ((⟨1, 1, 1⟩ : vec3).get 0) + 64).toNat / 16) % 2 = 0 ∧
    ((Int.ceil ((⟨2, 2, 2⟩ : vec3).get 0) + 64).toNat / 16) % 2 = 0 ∧
    ∃ c c', compute_locational_code_aabb ⟨⟨1, 1, 1⟩, ⟨2, 2, 2⟩⟩ (2 ^ 7) 3 = some c ∧
      compute_locational_code_aabb (aabb.translate ⟨⟨1, 1, 1⟩, ⟨2, 2, 2⟩⟩ 0 16) (2 ^ 7) 3
        = some c' ∧
      c >>> 3 = c' >>> 3 :=
  ⟨by decide!, by decide!,
    translate_keeps_ancestor_bits ⟨⟨1, 1, 1⟩, ⟨2, 2, 2⟩⟩ 0 (by decide) (by decide!)
      (by decide!) (by decide!) (by decide!) (by decide!) (by decide!)⟩

/-! ## Locational codes: the volume of an arbitrary node -/

theorem exists_axis_index (n a : Nat) : ∀ e, ∃ X, X < 2 ^ e ∧
    ∀ j, j < e → X.testBit j = n.testBit (3 * j + a) := by
  intro e
  induction e with
  | zero => exact ⟨0, by simp, fun j hj => absurd hj (by omega)⟩
  | succ e ih =>
    obtain ⟨X, hX, hb⟩ := ih
    refine ⟨X ||| ((n.testBit (3 * e + a)).toNat <<< e), ?_, ?_⟩
    · apply Nat.or_lt_two_pow
      · exact lt_of_lt_of_le hX (Nat.pow_le_pow_right (by norm_num) (by omega))
      · rw [Nat.shiftLeft_eq, Nat.pow_succ]
        have : (n.testBit (3 * e + a)).toNat ≤ 1 := Bool.toNat_le _
        have hpos : 0 < 2 ^ e := by positivity
        nlinarith
    · intro j hj
      rw [Nat.testBit_or, Nat.testBit_shiftLeft]
      by_cases hje : j = e
      · subst hje
        rw [Nat.testBit_lt_two_pow hX]
        cases n.testBit (3 * j + a) <;> simp
      · have hlt : j < e := by omega
        have : ¬ j ≥ e := by omega
        rw [hb j hlt]
        simp [this]

/-- The volume of a well-formed node of depth `e`: on each axis it starts at
`2^(k-e) * X - 2^(k-1)`, with `X < 2^e` the number formed by the bits of the code on that
axis, and has width `2^(k-e)`. -/
theorem node_box (n k e : Nat) (hk1 : 1 ≤ k) (hk : k ≤ 30) (he : e ≤ 10) (hek : e ≤ k)
    (hn : n >>> (3 * e) = 1) :
    ∃ X0 X1 X2, X0 < 2 ^ e ∧ X1 < 2 ^ e ∧ X2 < 2 ^ e ∧
      (∀ j, j < e → X0.testBit j = n.testBit (3 * j + 0)) ∧
      (∀ j, j < e → X1.testBit j = n.testBit (3 * j + 1)) ∧
      (∀ j, j < e → X2.testBit j = n.testBit (3 * j + 2)) ∧
      compute_bv n (2 ^ k) =
        { mMinPos := ⟨((2 ^ (k - e) * X0 : Nat) : ℚ) - 2 ^ (k - 1),
            ((2 ^ (k - e) * X1 : Nat) : ℚ) - 2 ^ (k - 1),
            ((2 ^ (k - e) * X2 : Nat) : ℚ) - 2 ^ (k - 1)⟩,
          mMaxPos := ⟨((2 ^ (k - e) * X0 : Nat) : ℚ) - 2 ^ (k - 1) + 2 ^ (k - e),
            ((2 ^ (k - e) * X1 : Nat) : ℚ) - 2 ^ (k - 1) + 2 ^ (k - e),
            ((2 ^ (k - e) * X2 : Nat) : ℚ) - 2 ^ (k - 1) + 2 ^ (k - e)⟩ } := by
  obtain ⟨X0, hX0, hb0⟩ := exists_axis_index n 0 e
  obtain ⟨X1, hX1, hb1⟩ := exists_axis_index n 1 e
  obtain ⟨X2, hX2, hb2⟩ := exists_axis_index n 2 e
  refine ⟨X0, X1, X2, hX0, hX1, hX2, hb0, hb1, hb2, ?_⟩
  have hWpos : 0 < (2 : Nat) ^ (k - e) := by positivity
  have hsplit : (2 : Nat) ^ k = 2 ^ (k - e) * 2 ^ e := by
    rw [← Nat.pow_add]
    congr 1
    omega
  have axis : ∀ (a X : Nat), X < 2 ^ e → (∀ j, j < e → X.testBit j = n.testBit (3 * j + a)) →
      lo_sum n (2 ^ k) e a = ((2 ^ (k - e) * X : Nat) : ℚ) ∧
      hi_sum n (2 ^ k) e a = (2 : ℚ) ^ k - (2 : ℚ) ^ (k - e) - ((2 ^ (k - e) * X : Nat) : ℚ) := by
    intro a X hX hb
    have hw : 2 ^ (k - e) * X < 2 ^ k := by
      rw [hsplit]
      exact Nat.mul_lt_mul_of_pos_left hX hWpos
    have hdiv : 2 ^ (k - e) * X / 2 ^ (k - e) = X := Nat.mul_div_cancel_left X hWpos
    have := cell_sums n (2 ^ (k - e) * X) k e a hek hw (fun j hj => by
      rw [Nat.shiftRight_eq_div_pow, hdiv, hb j hj])
    rw [hdiv] at this
    exact this
  obtain ⟨l0, h0⟩ := axis 0 X0 hX0 hb0
  obtain ⟨l1, h1⟩ := axis 1 X1 hX1 hb1
  obtain ⟨l2, h2⟩ := axis 2 X2 hX2 hb2
  have hpowq : (2 : ℚ) ^ k = 2 * 2 ^ (k - 1) := by
    have : k = (k - 1) + 1 := by omega
    conv_lhs => rw [this, pow_succ]
    ring
  rw [compute_bv_eq n (2 ^ k) e he hn, half_size_eq k hk1 hk, l0, l1, l2, h0, h1, h2, hpowq]
  congr 2 <;> ring

/-- An integer coordinate inside the half-open extent of a cell of index `X` at depth `e`
is strictly inside the root and has cell index `X`. -/
theorem cell_index_of_mem (k e X : Nat) (v : Int) (hk1 : 1 ≤ k) (hek : e ≤ k) (hX : X < 2 ^ e)
    (h1 : ((2 ^ (k - e) * X : Nat) : ℚ) - 2 ^ (k - 1) ≤ (v : ℚ))
    (h2 : (v : ℚ) < ((2 ^ (k - e) * X : Nat) : ℚ) - 2 ^ (k - 1) + 2 ^ (k - e)) :
    (-(2 ^ (k - 1) : Int) ≤ v ∧ v < 2 ^ (k - 1)) ∧
    (v + 2 ^ (k - 1)).toNat / 2 ^ (k - e) = X := by
  have hWpos : 0 < (2 : Nat) ^ (k - e) := by positivity
  have hsplit : (2 : Nat) ^ k = 2 ^ (k - e) * 2 ^ e := by
    rw [← Nat.pow_add]
    congr 1
    omega
  have hpowk : (2 : Nat) ^ k = 2 * 2 ^ (k - 1) := by
    have : k = (k - 1) + 1 := by omega
    conv_lhs => rw [this, Nat.pow_succ]
    ring
  have i1 : (((2 ^ (k - e) * X : Nat) : Int)) - ((2 ^ (k - 1) : Nat) : Int) ≤ v := by
    have : ((((2 ^ (k - e) * X : Nat) : Int) - ((2 ^ (k - 1) : Nat) : Int) : Int) : ℚ)
        ≤ (v : ℚ) := by
      push_cast
      push_cast at h1
      exact h1
    exact_mod_cast this
  have i2 : v < (((2 ^ (k - e) * X : Nat) : Int)) - ((2 ^ (k - 1) : Nat) : Int)
      + ((2 ^ (k - e) : Nat) : Int) := by
    have : (v : ℚ) < ((((2 ^ (k - e) * X : Nat) : Int) - ((2 ^ (k - 1) : Nat) : Int)
        + ((2 ^ (k - e) : Nat) : Int) : Int) : ℚ) := by
      push_cast
      push_cast at h2
      exact h2
    exact_mod_cast this
  have hcast : ((2 ^ (k - 1) : Nat) : Int) = (2 : Int) ^ (k - 1) := by push_cast; rfl
  have hmulle : 2 ^ (k - e) * X + 2 ^ (k - e) ≤ 2 ^ k := by
    rw [hsplit]
    have : X + 1 ≤ 2 ^ e := hX
    calc 2 ^ (k - e) * X + 2 ^ (k - e) = 2 ^ (k - e) * (X + 1) := by ring
      _ ≤ 2 ^ (k - e) * 2 ^ e := Nat.mul_le_mul_left _ this
  have hnn : 0 ≤ v + 2 ^ (k - 1) := by
    rw [← hcast]
    have : (0 : Int) ≤ ((2 ^ (k - e) * X : Nat) : Int) := Int.natCast_nonneg _
    omega
  have hw : ((v + 2 ^ (k - 1)).toNat : Int) = v + 2 ^ (k - 1) := Int.toNat_of_nonneg hnn
  have w1 : 2 ^ (k - e) * X ≤ (v + 2 ^ (k - 1)).toNat := by
    have : ((2 ^ (k - e) * X : Nat) : Int) ≤ ((v + 2 ^ (k - 1)).toNat : Int) := by
      rw [hw, ← hcast]
      omega
    exact_mod_cast this
  have w2 : (v + 2 ^ (k - 1)).toNat < 2 ^ (k - e) * X + 2 ^ (k - e) := by
    have : ((v + 2 ^ (k - 1)).toNat : Int) < ((2 ^ (k - e) * X + 2 ^ (k - e) : Nat) : Int) := by
      rw [hw, ← hcast]
      push_cast
      push_cast at i2
      omega
    exact_mod_cast this
  refine ⟨⟨by rw [← hcast]; have : (0 : Int) ≤ ((2 ^ (k - e) * X : Nat) : Int) :=
      Int.natCast_nonneg _; omega, ?_⟩, ?_⟩
  · have : ((v + 2 ^ (k - 1)).toNat : Int) < ((2 ^ k : Nat) : Int) := by
      exact_mod_cast lt_of_lt_of_le w2 hmulle
    rw [hw, hpowk] at this
    push_cast at this
    omega
  · apply Nat.div_eq_of_lt_le
    · rw [Nat.mul_comm]; exact w1
    · rw [Nat.succ_mul, Nat.mul_comm]; exact w2

/-- A well-formed node of depth `e <= L` whose axis bits are the top `e` bits of `wx`,
`wy`, `wz` is the ancestor at depth `e` of the cell code built from their top `L` bits. -/
theorem node_code_ancestor (n k L e wx wy wz : Nat) (hL : L ≤ 10) (hLk : L ≤ k) (heL : e ≤ L)
    (hn : n >>> (3 * e) = 1)
    (h0 : ∀ j, j < e → n.testBit (3 * j + 0) = (wx >>> (k - e)).testBit j)
    (h1 : ∀ j, j < e → n.testBit (3 * j + 1) = (wy >>> (k - e)).testBit j)
    (h2 : ∀ j, j < e → n.testBit (3 * j + 2) = (wz >>> (k - e)).testBit j) :
    n = (merge_codes (wx >>> (k - L)) (wy >>> (k - L)) (wz >>> (k - L)) L
      ||| (1 <<< (L * 3))) >>> (3 * (L - e)) := by
  apply Nat.eq_of_testBit_eq
  intro i
  rw [Nat.testBit_shiftRight, cell_code_testBit _ _ _ L _ hL]
  rcases Nat.lt_trichotomy i (3 * e) with hlt | heq | hgt
  · have hne : ¬ 3 * (L - e) + i = 3 * L := by omega
    have hdiv : (3 * (L - e) + i) / 3 = L - e + i / 3 := by omega
    have hmod : (3 * (L - e) + i) % 3 = i % 3 := by omega
    have hlt2 : L - e + i / 3 < L := by omega
    have hj : i / 3 < e := by omega
    have hi : i = 3 * (i / 3) + i % 3 := by omega
    have hidx : k - L + (L - e + i / 3) = k - e + i / 3 := by omega
    rw [hdiv, hmod]
    simp only [hne, hlt2, decide_False, decide_True, Bool.false_or, Bool.true_and,
      Nat.testBit_shiftRight, hidx]
    have hm : i % 3 = 0 ∨ i % 3 = 1 ∨ i % 3 = 2 := by omega
    rcases hm with hm | hm | hm
    · have := h0 (i / 3) hj
      rw [Nat.testBit_shiftRight, ← hm, ← hi] at this
      simp [hm, this]
    · have := h1 (i / 3) hj
      rw [Nat.testBit_shiftRight, ← hm, ← hi] at this
      simp [hm, this]
    · have := h2 (i / 3) hj
      rw [Nat.testBit_shiftRight, ← hm, ← hi] at this
      simp [hm, this]
  · subst heq
    have h3 : 3 * (L - e) + 3 * e = 3 * L := by omega
    rw [code_testBit_sentinel hn]
    simp [h3]
  · have hne : ¬ 3 * (L - e) + i = 3 * L := by omega
    have hlt2 : ¬ (3 * (L - e) + i) / 3 < L := by omega
    rw [code_testBit_above hn hgt]
    simp [hne, hlt2]

/-- A well-formed node of depth `e <= L` whose half-open volume holds an integer position
is the ancestor at depth `e` of the code of that position. -/
theorem node_above_point (p : ivec3) (n k L e : Nat) (hk1 : 1 ≤ k) (hk : k ≤ 30) (hL : L ≤ 10)
    (hLk : L ≤ k) (heL : e ≤ L) (hn : n >>> (3 * e) = 1)
    (hx : (compute_bv n (2 ^ k)).mMinPos.x ≤ (p.x : ℚ) ∧
      (p.x : ℚ) < (compute_bv n (2 ^ k)).mMaxPos.x)
    (hy : (compute_bv n (2 ^ k)).mMinPos.y ≤ (p.y : ℚ) ∧
      (p.y : ℚ) < (compute_bv n (2 ^ k)).mMaxPos.y)
    (hz : (compute_bv n (2 ^ k)).mMinPos.z ≤ (p.z : ℚ) ∧
      (p.z : ℚ) < (compute_bv n (2 ^ k)).mMaxPos.z) :
    ∃ c, compute_locational_code p (2 ^ k) L = some c ∧ n = c >>> (3 * (L - e)) := by
  obtain ⟨X0, X1, X2, hX0, hX1, hX2, hb0, hb1, hb2, hbox⟩ :=
    node_box n k e hk1 hk (by omega) (by omega) hn
  rw [hbox] at hx hy hz
  simp only [] at hx hy hz
  obtain ⟨sx, ix⟩ := cell_index_of_mem k e X0 p.x hk1 (by omega) hX0 hx.1 hx.2
  obtain ⟨sy, iy⟩ := cell_index_of_mem k e X1 p.y hk1 (by omega) hX1 hy.1 hy.2
  obtain ⟨sz, iz⟩ := cell_index_of_mem k e X2 p.z hk1 (by omega) hX2 hz.1 hz.2
  obtain ⟨c, hc, _, hcode, _⟩ := point_code_box p k L hk1 hk hL hLk sx sy sz
  refine ⟨c, hc, ?_⟩
  rw [hcode]
  apply node_code_ancestor n k L e _ _ _ hL hLk heL hn
  · intro j hj
    rw [Nat.shiftRight_eq_div_pow, ix, hb0 j hj]
  · intro j hj
    rw [Nat.shiftRight_eq_div_pow, iy, hb1 j hj]
  · intro j hj
    rw [Nat.shiftRight_eq_div_pow, iz, hb2 j hj]

/-! ## Locational codes: the smallest node of a box -/

/-- C11 (counterexample): root size 128, 3 levels, the box [0, 16]^3. Its code is 120, a
node of depth 2, although the volume of the node 960 of depth 3 is exactly [0, 16]^3 and
contains the box. With root size 2^11 and 11 levels the unit cube gets no code, and with
root size 2^31 and 1 level it gets the code 1 whose volume does not contain it. -/
theorem deeper_node_contains_box :
    compute_locational_code_aabb first_cell_box (2 ^ 7) 3 = some 120 ∧
    locational_code_depth 120 = 2 ∧ locational_code_depth 960 = 3 ∧
    compute_bv 960 (2 ^ 7) = first_cell_box ∧
    aabb.contains (compute_bv 960 (2 ^ 7)) first_cell_box ∧
    compute_locational_code_aabb unit_box (2 ^ 11) 11 = none ∧
    compute_locational_code_aabb unit_box (2 ^ 31) 1 = some 1 ∧
    ¬ aabb.contains (compute_bv 1 (2 ^ 31)) unit_box := by
  have h4 : compute_bv 960 (2 ^ 7) = first_cell_box := by decide!
  have h8 : compute_bv 1 (2 ^ 31) =
      { mMinPos := vec3.splat (2 ^ 30), mMaxPos := vec3.splat (-(2 ^ 30)) } := by
    decide!
  refine ⟨by decide!, by decide!, by decide!, h4, ?_, ?_, by decide!, ?_⟩
  · rw [h4]
    exact aabb.contains_refl _
  · apply compute_locational_code_aabb_none
    apply compute_locational_code_asserts _ 11 11 (by decide) (by decide) (by decide) (by decide)
    · show -(2 ^ (11 - 1) : Int) ≤ Int.floor (0 : ℚ) ∧ Int.floor (0 : ℚ) < 2 ^ (11 - 1)
      rw [Int.floor_zero]; decide
    · show -(2 ^ (11 - 1) : Int) ≤ Int.floor (0 : ℚ) ∧ Int.floor (0 : ℚ) < 2 ^ (11 - 1)
      rw [Int.floor_zero]; decide
    · show -(2 ^ (11 - 1) : Int) ≤ Int.floor (0 : ℚ) ∧ Int.floor (0 : ℚ) < 2 ^ (11 - 1)
      rw [Int.floor_zero]; decide
  · rw [h8]
    unfold aabb.contains unit_box vec3.splat
    simp only []
    intro h
    have := h.1
    norm_num at this

/-- C11 (amended): for a root of size `2^k` with `1 <= k <= 30`, `levels <= min(k, 10)`
and every box `bv` with `min <= max` inside the root volume `[-2^k/2, 2^k/2]^3`,
`compute_locational_code(bv, 2^k, levels)` returns a code whose volume (`compute_bv`)
contains `bv`, and no well-formed node of greater depth, up to depth `levels`, has a
volume that holds both corners floor(min) and ceil(max) of `bv` half-open (lower face
<= floor(min) and ceil(max) < upper face on every axis). -/
theorem compute_locational_code_aabb_smallest (k levels : Nat) (bv : aabb) (hk1 : 1 ≤ k)
    (hk : k ≤ 30) (hlk : levels ≤ k) (hl10 : levels ≤ 10)
    (hord : bv.mMinPos.x ≤ bv.mMaxPos.x ∧ bv.mMinPos.y ≤ bv.mMaxPos.y ∧
      bv.mMinPos.z ≤ bv.mMaxPos.z)
    (hlow : -((2 : ℚ) ^ k / 2) ≤ bv.mMinPos.x ∧ -((2 : ℚ) ^ k / 2) ≤ bv.mMinPos.y ∧
      -((2 : ℚ) ^ k / 2) ≤ bv.mMinPos.z)
    (hhigh : bv.mMaxPos.x ≤ (2 : ℚ) ^ k / 2 ∧ bv.mMaxPos.y ≤ (2 : ℚ) ^ k / 2 ∧
      bv.mMaxPos.z ≤ (2 : ℚ) ^ k / 2) :
    ∃ code, compute_locational_code_aabb bv (2 ^ k) levels = some code ∧
      aabb.contains (compute_bv code (2 ^ k)) bv ∧
      ∀ n e, n >>> (3 * e) = 1 → e ≤ levels → locational_code_depth code < e →
        ¬ aabb.holds_corners (compute_bv n (2 ^ k)) bv := by
  obtain ⟨c1, c2, r, h1, h2, hr, hrv, hmax, hcon⟩ :=
    aabb_code_structure k levels bv hk1 hk hlk hl10 hord hlow hhigh
  refine ⟨r, hr, hcon, ?_⟩
  intro n e hn he hlt hholds
  obtain ⟨⟨lx, ux⟩, ⟨ly, uy⟩, ⟨lz, uz⟩⟩ := hholds
  have span : ∀ (lo hi : ℚ), lo ≤ hi → ((Int.floor lo : Int) : ℚ) ≤ ((Int.ceil hi : Int) : ℚ) :=
    fun lo hi h => le_trans (Int.floor_le lo) (le_trans h (Int.le_ceil hi))
  obtain ⟨d1, hd1, hn1⟩ := node_above_point
    ⟨Int.floor bv.mMinPos.x, Int.floor bv.mMinPos.y, Int.floor bv.mMinPos.z⟩ n k levels e
    hk1 hk hl10 hlk he hn
    ⟨lx, lt_of_le_of_lt (span _ _ hord.1) ux⟩
    ⟨ly, lt_of_le_of_lt (span _ _ hord.2.1) uy⟩
    ⟨lz, lt_of_le_of_lt (span _ _ hord.2.2) uz⟩
  obtain ⟨d2, hd2, hn2⟩ := node_above_point
    ⟨Int.ceil bv.mMaxPos.x, Int.ceil bv.mMaxPos.y, Int.ceil bv.mMaxPos.z⟩ n k levels e
    hk1 hk hl10 hlk he hn
    ⟨le_trans lx (span _ _ hord.1), ux⟩
    ⟨le_trans ly (span _ _ hord.2.1), uy⟩
    ⟨le_trans lz (span _ _ hord.2.2), uz⟩
  rw [h1] at hd1
  rw [h2] at hd2
  rw [← Option.some.inj hd1] at hn1
  rw [← Option.some.inj hd2] at hn2
  obtain ⟨l, hl⟩ := hmax n ⟨_, hn1⟩ ⟨_, hn2⟩
  obtain ⟨m, hm10, hrm⟩ := hrv
  rw [locational_code_depth_eq hm10 hrm] at hlt
  have hnpos : n ≠ 0 := by
    have := (code_bounds hn).1
    have : 0 < 2 ^ (3 * e) := by positivity
    omega
  have hlm : l ≤ m := by
    by_contra hgt
    have h0 := shiftRight_zero_of_depth_lt hrm (by omega : m < l)
    omega
  have hdep := shiftRight_depth hrm hlm
  rw [← hl] at hdep
  have := depth_unique hn hdep
  omega

/-- Witness for C11: root size 128, 3 levels, the cube [1/2, 3/2]^3. -/
theorem compute_locational_code_aabb_smallest_witness :
    (1 ≤ 7 ∧ 7 ≤ 30 ∧ 3 ≤ 7 ∧ 3 ≤ 10) ∧
    ∃ code, compute_locational_code_aabb small_box (2 ^ 7) 3 = some code ∧
      aabb.contains (compute_bv code (2 ^ 7)) small_box ∧
      ∀ n e, n >>> (3 * e) = 1 → e ≤ 3 → locational_code_depth code < e →
        ¬ aabb.holds_corners (compute_bv n (2 ^ 7)) small_box :=
  ⟨by decide,
    compute_locational_code_aabb_smallest 7 3 small_box (by decide) (by decide) (by decide)
      (by decide) (by unfold small_box; norm_num) (by unfold small_box; norm_num)
      (by unfold small_box; norm_num)⟩

namespace bvh_tree

/-! ## BVH: bounding volumes -/

theorem splat_get (c : ℚ) (a : Nat) : (vec3.splat c).get a = c := by
  unfold vec3.splat vec3.get
  split <;> rfl

theorem vec3_min_get (u v : vec3) (a : Nat) : (vec3.min u v).get a = Min.min (u.get a) (v.get a) := by
  unfold vec3.min vec3.get
  split <;> rfl

theorem vec3_max_get (u v : vec3) (a : Nat) : (vec3.max u v).get a = Max.max (u.get a) (v.get a) := by
  unfold vec3.max vec3.get
  split <;> rfl

theorem get_set (v : vec3) (a b : Nat) (c : ℚ) (ha : a < 3) (hb : b < 3) :
    (v.set a c).get b = if a = b then c else v.get b := by
  interval_cases a <;> interval_cases b <;> simp [vec3.set, vec3.get]

/-- One vertex of `compute_bv`: on every axis the running minimum and maximum take the
vertex into account. -/
theorem compute_bv_axes_get (p : vec3) (acc : vec3 × vec3) (a : Nat) (ha : a < 3) :
    (compute_bv_axes p 3 acc).1.get a = Min.min (p.get a) (acc.1.get a) ∧
    (compute_bv_axes p 3 acc).2.get a = Max.max (p.get a) (acc.2.get a) := by
  have step : ∀ (n : Nat) (st : vec3 × vec3), n < 3 → ∀ b, b < 3 →
      (compute_bv_axes p (n + 1) st).1.get b =
        (if n = b then Min.min (p.get b) ((compute_bv_axes p n st).1.get b)
          else (compute_bv_axes p n st).1.get b) ∧
      (compute_bv_axes p (n + 1) st).2.get b =
        (if n = b then Max.max (p.get b) ((compute_bv_axes p n st).2.get b)
          else (compute_bv_axes p n st).2.get b) := by
    intro n st hn b hb
    rw [compute_bv_axes]
    simp only []
    constructor
    · by_cases hlt : p.get n < (compute_bv_axes p n st).1.get n
      · rw [if_pos hlt, get_set _ n b _ hn hb]
        by_cases hnb : n = b
        · subst hnb
          rw [if_pos rfl, if_pos rfl, min_eq_left (le_of_lt hlt)]
        · rw [if_neg hnb, if_neg hnb]
      · rw [if_neg hlt]
        by_cases hnb : n = b
        · subst hnb
          rw [if_pos rfl, min_eq_right (not_lt.mp hlt)]
        · rw [if_neg hnb]
    · by_cases hgt : p.get n > (compute_bv_axes p n st).2.get n
      · rw [if_pos hgt, get_set _ n b _ hn hb]
        by_cases hnb : n = b
        · subst hnb
          rw [if_pos rfl, if_pos rfl, max_eq_left (le_of_lt hgt)]
        · rw [if_neg hnb, if_neg hnb]
      · rw [if_neg hgt]
        by_cases hnb : n = b
        · subst hnb
          rw [if_pos rfl, max_eq_right (not_lt.mp hgt)]
        · rw [if_neg hnb]
  have s2 := step 2 acc (by decide) a ha
  have s1 := step 1 acc (by decide) a ha
  have s0 := step 0 acc (by decide) a ha
  have base : compute_bv_axes p 0 acc = acc := rfl
  rw [base] at s0
  interval_cases a <;> (rw [s2.1, s2.2, s1.1, s1.2, s0.1, s0.2]; simp)

/-- The vertex loop of `compute_bv` from the running pair `acc`, one axis. -/
theorem compute_bv_fold (positions : List vec3) (a : Nat) (ha : a < 3) :
    ∀ (idx : List Nat) (acc : vec3 × vec3),
      ((idx.foldl (fun acc currIndex => compute_bv_axes (pos_at positions currIndex) 3 acc)
          acc).1.get a ≤ acc.1.get a ∧
        (∀ i, i ∈ idx →
          (idx.foldl (fun acc currIndex => compute_bv_axes (pos_at positions currIndex) 3 acc)
            acc).1.get a ≤ (pos_at positions i).get a) ∧
        ((idx.foldl (fun acc currIndex => compute_bv_axes (pos_at positions currIndex) 3 acc)
            acc).1.get a = acc.1.get a ∨
          ∃ i, i ∈ idx ∧
            (idx.foldl (fun acc currIndex => compute_bv_axes (pos_at positions currIndex) 3 acc)
              acc).1.get a = (pos_at positions i).get a)) ∧
      (acc.2.get a ≤
          (idx.foldl (fun acc currIndex => compute_bv_axes (pos_at positions currIndex) 3 acc)
            acc).2.get a ∧
        (∀ i, i ∈ idx → (pos_at positions i).get a ≤
          (idx.foldl (fun acc currIndex => compute_bv_axes (pos_at positions currIndex) 3 acc)
            acc).2.get a) ∧
        ((idx.foldl (fun acc currIndex => compute_bv_axes (pos_at positions currIndex) 3 acc)
            acc).2.get a = acc.2.get a ∨
          ∃ i, i ∈ idx ∧
            (idx.foldl (fun acc currIndex => compute_bv_axes (pos_at positions currIndex) 3 acc)
              acc).2.get a = (pos_at positions i).get a)) := by
  intro idx
  induction idx with
  | nil =>
    intro acc
    simp
  | cons j rest ih =>
    intro acc
    simp only [List.foldl_cons]
    obtain ⟨⟨l1, l2, l3⟩, ⟨u1, u2, u3⟩⟩ := ih (compute_bv_axes (pos_at positions j) 3 acc)
    obtain ⟨e1, e2⟩ := compute_bv_axes_get (pos_at positions j) acc a ha
    rw [e1] at l1 l3
    rw [e2] at u1 u3
    refine ⟨⟨le_trans l1 (min_le_right _ _), ?_, ?_⟩, ⟨le_trans (le_max_right _ _) u1, ?_, ?_⟩⟩
    · intro i hi
      rcases List.mem_cons.mp hi with h | h
      · rw [h]
        exact le_trans l1 (min_le_left _ _)
      · exact l2 i h
    · rcases l3 with h | ⟨i, hi, h⟩
      · rcases min_choice ((pos_at positions j).get a) (acc.1.get a) with hm | hm
        · right
          exact ⟨j, List.mem_cons_self _ _, by rw [h, hm]⟩
        · left
          rw [h, hm]
      · right
        exact ⟨i, List.mem_cons_of_mem _ hi, h⟩
    · intro i hi
      rcases List.mem_cons.mp hi with h | h
      · rw [h]
        exact le_trans (le_max_left _ _) u1
      · exact u2 i h
    · rcases u3 with h | ⟨i, hi, h⟩
      · rcases max_choice ((pos_at positions j).get a) (acc.2.get a) with hm | hm
        · right
          exact ⟨j, List.mem_cons_self _ _, by rw [h, hm]⟩
        · left
          rw [h, hm]
      · right
        exact ⟨i, List.mem_cons_of_mem _ hi, h⟩

/-- For a nonempty index list over finite coordinates, `compute_bv` is the AABB of the
indexed vertices. -/
theorem compute_bv_is_bounding_box (positions : List vec3) (idx : List Nat) (hne : idx ≠ [])
    (hfin : finite_coords positions idx) :
    is_bounding_box positions idx (compute_bv positions idx) := by
  intro a ha
  obtain ⟨⟨_, l2, l3⟩, ⟨_, u2, u3⟩⟩ := compute_bv_fold positions a ha idx
    (vec3.splat FLT_MAX, vec3.splat FLT_LOWEST)
  obtain ⟨i0, hi0⟩ := List.exists_mem_of_ne_nil idx hne
  unfold compute_bv
  simp only []
  refine ⟨fun i hi => ⟨l2 i hi, u2 i hi⟩, ?_, ?_⟩
  · rcases l3 with h | h
    · refine ⟨i0, hi0, le_antisymm (l2 i0 hi0) ?_⟩
      rw [h]
      simp only [splat_get]
      exact (hfin i0 hi0 a ha).2
    · exact h
  · rcases u3 with h | h
    · refine ⟨i0, hi0, le_antisymm ?_ (u2 i0 hi0)⟩
      rw [h]
      simp only [splat_get]
      exact (hfin i0 hi0 a ha).1
    · exact h

end bvh_tree

namespace bvh_tree

theorem merged_is_bounding_box (positions : List vec3) (S1 S2 : List Nat) (b1 b2 : aabb)
    (h1 : is_bounding_box positions S1 b1) (h2 : is_bounding_box positions S2 b2) :
    is_bounding_box positions (S1 ++ S2)
      { mMinPos := vec3.min b1.mMinPos b2.mMinPos, mMaxPos := vec3.max b1.mMaxPos b2.mMaxPos } := by
  intro a ha
  obtain ⟨a1, ⟨i1, hi1, e1⟩, ⟨j1, hj1, f1⟩⟩ := h1 a ha
  obtain ⟨a2, ⟨i2, hi2, e2⟩, ⟨j2, hj2, f2⟩⟩ := h2 a ha
  simp only [vec3_min_get, vec3_max_get]
  refine ⟨?_, ?_, ?_⟩
  · intro i hi
    rcases List.mem_append.mp hi with h | h
    · exact ⟨le_trans (min_le_left _ _) (a1 i h).1, le_trans (a1 i h).2 (le_max_left _ _)⟩
    · exact ⟨le_trans (min_le_right _ _) (a2 i h).1, le_trans (a2 i h).2 (le_max_right _ _)⟩
  · rcases min_choice (b1.mMinPos.get a) (b2.mMinPos.get a) with hm | hm
    · exact ⟨i1, List.mem_append_left _ hi1, by rw [hm, e1]⟩
    · exact ⟨i2, List.mem_append_right _ hi2, by rw [hm, e2]⟩
  · rcases max_choice (b1.mMaxPos.get a) (b2.mMaxPos.get a) with hm | hm
    · exact ⟨j1, List.mem_append_left _ hj1, by rw [hm, f1]⟩
    · exact ⟨j2, List.mem_append_right _ hj2, by rw [hm, f2]⟩

theorem is_bounding_box_congr (positions : List vec3) (S T : List Nat) (b : aabb)
    (h : ∀ i, i ∈ S ↔ i ∈ T) (hb : is_bounding_box positions S b) :
    is_bounding_box positions T b := by
  intro a ha
  obtain ⟨a1, ⟨i1, hi1, e1⟩, ⟨j1, hj1, f1⟩⟩ := hb a ha
  exact ⟨fun i hi => a1 i ((h i).mpr hi), ⟨i1, (h i1).mp hi1, e1⟩, ⟨j1, (h j1).mp hj1, f1⟩⟩

/-- The AABB of a subset lies within the AABB of the whole set and is not inverted. -/
theorem is_bounding_box_within (positions : List vec3) (S T : List Nat) (b W : aabb)
    (hb : is_bounding_box positions S b) (hW : is_bounding_box positions T W)
    (hsub : ∀ i, i ∈ S → i ∈ T) (a : Nat) (ha : a < 3) :
    W.mMinPos.get a ≤ b.mMinPos.get a ∧ b.mMinPos.get a ≤ b.mMaxPos.get a ∧
      b.mMaxPos.get a ≤ W.mMaxPos.get a := by
  obtain ⟨a1, ⟨i1, hi1, e1⟩, ⟨j1, hj1, f1⟩⟩ := hb a ha
  obtain ⟨a2, _, _⟩ := hW a ha
  refine ⟨?_, ?_, ?_⟩
  · rw [e1]
    exact (a2 i1 (hsub i1 hi1)).1
  · exact le_trans (a1 i1 hi1).1 (a1 i1 hi1).2
  · rw [f1]
    exact (a2 j1 (hsub j1 hj1)).2

theorem surface_area_eq (mn mx : vec3) :
    surface_area mn mx =
      float.round (mx.x - mn.x) * float.round (mx.y - mn.y) * float.fin 2 +
      float.round (mx.x - mn.x) * float.round (mx.z - mn.z) * float.fin 2 +
      float.round (mx.y - mn.y) * float.round (mx.z - mn.z) * float.fin 2 := by
  have e : ∀ (u v : vec3), (u.to_fp - v.to_fp).x = float.round (u.x - v.x) ∧
      (u.to_fp - v.to_fp).y = float.round (u.y - v.y) ∧
      (u.to_fp - v.to_fp).z = float.round (u.z - v.z) :=
    fun u v => ⟨float.sub_fin _ _, float.sub_fin _ _, float.sub_fin _ _⟩
  unfold surface_area
  simp only [(e _ _).1, (e _ _).2.1, (e _ _).2.2]

/-- The score of a box within a box of score below `FLT_MAX` is below `FLT_MAX`: every
operation of the score is monotone on the finite non-negative values. -/
theorem surface_area_within (mn mx Wmn Wmx : vec3)
    (h : ∀ a, a < 3 → Wmn.get a ≤ mn.get a ∧ mn.get a ≤ mx.get a ∧ mx.get a ≤ Wmx.get a)
    (hW : float.lt (surface_area Wmn Wmx) fp.FLT_MAX = true) :
    float.lt (surface_area mn mx) fp.FLT_MAX = true := by
  have hx := h 0 (by decide)
  have hy := h 1 (by decide)
  have hz := h 2 (by decide)
  simp only [vec3.get] at hx hy hz
  have sx : 0 ≤ mx.x - mn.x := by linarith
  have sy : 0 ≤ mx.y - mn.y := by linarith
  have sz : 0 ≤ mx.z - mn.z := by linarith
  have lx : mx.x - mn.x ≤ Wmx.x - Wmn.x := by linarith
  have ly : mx.y - mn.y ≤ Wmx.y - Wmn.y := by linarith
  have lz : mx.z - mn.z ≤ Wmx.z - Wmn.z := by linarith
  rw [surface_area_eq] at hW ⊢
  have nX := float.nonneg_round (sx.trans lx)
  have nY := float.nonneg_round (sy.trans ly)
  have nZ := float.nonneg_round (sz.trans lz)
  have n2 : float.nonneg (float.fin 2) := by simp [float.nonneg]
  have nW := float.nonneg_add (float.nonneg_add
    (float.nonneg_mul (float.nonneg_mul nX nY) n2) (float.nonneg_mul (float.nonneg_mul nX nZ) n2))
    (float.nonneg_mul (float.nonneg_mul nY nZ) n2)
  obtain ⟨β, hβ, hlt⟩ := float.fin_of_lt_nonneg nW hW
  obtain ⟨t12, t3, h12, h3⟩ := float.fin_of_add hβ
  obtain ⟨t1, t2, h1, h2⟩ := float.fin_of_add h12
  obtain ⟨pxy, _, hxy, _⟩ := float.fin_of_mul h1
  obtain ⟨pxz, _, hxz, _⟩ := float.fin_of_mul h2
  obtain ⟨pyz, _, hyz, _⟩ := float.fin_of_mul h3
  obtain ⟨rX, rY, hX, hY⟩ := float.fin_of_mul hxy
  obtain ⟨_, rZ, _, hZ⟩ := float.fin_of_mul hxz
  obtain ⟨ax, hax, ax0, axl⟩ := round_fin_mono sx lx hX
  obtain ⟨ay, hay, ay0, ayl⟩ := round_fin_mono sy ly hY
  obtain ⟨az, haz, az0, azl⟩ := round_fin_mono sz lz hZ
  have dX : ∃ a b, float.round (mx.x - mn.x) = float.fin a ∧
      float.round (Wmx.x - Wmn.x) = float.fin b ∧ 0 ≤ a ∧ a ≤ b := ⟨ax, rX, hax, hX, ax0, axl⟩
  have dY : ∃ a b, float.round (mx.y - mn.y) = float.fin a ∧
      float.round (Wmx.y - Wmn.y) = float.fin b ∧ 0 ≤ a ∧ a ≤ b := ⟨ay, rY, hay, hY, ay0, ayl⟩
  have dZ : ∃ a b, float.round (mx.z - mn.z) = float.fin a ∧
      float.round (Wmx.z - Wmn.z) = float.fin b ∧ 0 ≤ a ∧ a ≤ b := ⟨az, rZ, haz, hZ, az0, azl⟩
  have d2 : ∃ a b, float.fin 2 = float.fin a ∧ float.fin 2 = float.fin b ∧ 0 ≤ a ∧ a ≤ b :=
    ⟨2, 2, rfl, rfl, by norm_num, le_refl _⟩
  have e1 := float.dom_mul (float.dom_mul dX dY hxy) d2 h1
  have e2 := float.dom_mul (float.dom_mul dX dZ hxz) d2 h2
  have e3 := float.dom_mul (float.dom_mul dY dZ hyz) d2 h3
  obtain ⟨α, β1, hα, hβ1, _, hle⟩ := float.dom_add (float.dom_add e1 e2 h12) e3 hβ
  rw [hα]
  rw [hβ] at hβ1
  simp only [float.fin.injEq] at hβ1
  simp only [fp.FLT_MAX, float.lt, decide_eq_true_eq]
  subst hβ1
  exact lt_of_le_of_lt hle hlt

/-! ## BVH: the merge candidates -/

theorem merge_step_found (nodes : List bvh_ptr) (n i j : Nat) (st : merge_state) (hij : i < j)
    (hj : j < n) (h : merge_found nodes n st) : merge_found nodes n (merge_step nodes i j st) := by
  unfold merge_step
  simp only []
  split
  · next hlt =>
    exact ⟨float.lt_lt hlt h.1, i, j, hij, hj, rfl, rfl, rfl⟩
  · exact h

theorem merge_inner_found (nodes : List bvh_ptr) (n i : Nat) : ∀ (k j : Nat) (st : merge_state),
    i < j → j + k ≤ n → merge_found nodes n st → merge_found nodes n (merge_inner nodes i k j st) := by
  intro k
  induction k with
  | zero =>
    intro j st _ _ h
    exact h
  | succ k ih =>
    intro j st hij hjk h
    rw [merge_inner]
    exact ih (j + 1) _ (by omega) (by omega) (merge_step_found nodes n i j st hij (by omega) h)

theorem merge_outer_found (nodes : List bvh_ptr) (n : Nat) : ∀ (k i : Nat) (st : merge_state),
    i + k + 1 ≤ n → merge_found nodes n st → merge_found nodes n (merge_outer nodes n k i st) := by
  intro k
  induction k with
  | zero =>
    intro i st _ h
    exact h
  | succ k ih =>
    intro i st hik h
    rw [merge_outer]
    exact ih (i + 1) _ (by omega)
      (merge_inner_found nodes n i (n - (i + 1)) (i + 1) st (by omega) (by omega) h)

/-- When the box of the first pair has a surface area below `FLT_MAX`,
`find_merge_candidates` returns a pair `i < j < n` and its box. -/
theorem find_merge_candidates_found (nodes : List bvh_ptr) (m : Nat) (dest src : Int)
    (harea : float.lt (surface_area (merged_box nodes 0 1).mMinPos (merged_box nodes 0 1).mMaxPos)
      fp.FLT_MAX = true) :
    ∃ i j, i < j ∧ j < m + 2 ∧
      find_merge_candidates nodes (m + 2) dest src = (merged_box nodes i j, (i : Int), (j : Int)) := by
  have h1 : merge_found nodes (m + 2) (merge_step nodes 0 1
      { minSurfArea := fp.FLT_MAX, resultingBV := {}, dest := dest, src := src }) := by
    have harea' := harea
    unfold merged_box at harea'
    simp only [] at harea'
    unfold merge_step
    simp only []
    rw [if_pos harea']
    exact ⟨harea', 0, 1, by omega, by omega, rfl, rfl, rfl⟩
  have h2 := merge_inner_found nodes (m + 2) 0 m 2 _ (by omega) (by omega) h1
  have h3 := merge_outer_found nodes (m + 2) m 1 _ (by omega) h2
  obtain ⟨_, i, j, hij, hj, hd, hs, hb⟩ := h3
  refine ⟨i, j, hij, hj, ?_⟩
  unfold find_merge_candidates
  have e1 : m + 2 - 1 = m + 1 := by omega
  simp only [e1]
  rw [merge_outer]
  have e2 : m + 2 - (0 + 1) = m + 1 := by omega
  simp only [e2]
  rw [merge_inner]
  simp only [Nat.zero_add] at *
  rw [← hd, ← hs, ← hb]

end bvh_tree

namespace bvh_tree

/-! ## BVH: the merge loop -/

theorem getD_set (l : List bvh_ptr) (i k : Nat) (v : bvh_ptr) (hi : i < l.length) :
    (l.set i v).getD k bvh_ptr.null = if k = i then v else l.getD k bvh_ptr.null := by
  rw [List.getD_eq_getElem?_getD, List.getD_eq_getElem?_getD, List.getElem?_set]
  by_cases hk : k = i
  · subst hk
    simp [hi]
  · have : ¬ i = k := fun h => hk h.symm
    simp [hk, this]

/-- The work list after one merge: slot `d` holds the new node and slot `s` the last live
node. -/
theorem merged_list_getD (leafs : List bvh_ptr) (m d s k : Nat) (x : bvh_ptr)
    (hlen : m + 2 ≤ leafs.length) (hds : d < s) (hs : s < m + 2) :
    ((leafs.set d x).set s ((leafs.set d x).getD (m + 1) bvh_ptr.null)).getD k bvh_ptr.null =
      if k = s then leafs.getD (m + 1) bvh_ptr.null
      else if k = d then x else leafs.getD k bvh_ptr.null := by
  rw [getD_set _ s k _ (by rw [List.length_set]; omega), getD_set _ d (m + 1) _ (by omega),
    getD_set _ d k _ (by omega)]
  have : ¬ m + 1 = d := by omega
  rw [if_neg this]

theorem merged_list_sum (g : bvh_ptr → Nat) (leafs : List bvh_ptr) (m d s : Nat) (x : bvh_ptr)
    (hlen : m + 2 ≤ leafs.length) (hds : d < s) (hs : s < m + 2) :
    forest_sum g ((leafs.set d x).set s ((leafs.set d x).getD (m + 1) bvh_ptr.null)) (m + 1)
        + g (leafs.getD d bvh_ptr.null) + g (leafs.getD s bvh_ptr.null)
      = forest_sum g leafs (m + 2) + g x := by
  unfold forest_sum
  have point : ∀ k, k ∈ Finset.range (m + 1) →
      g (((leafs.set d x).set s ((leafs.set d x).getD (m + 1) bvh_ptr.null)).getD k bvh_ptr.null)
        + ((if k = d then g (leafs.getD d bvh_ptr.null) else 0)
          + (if k = s then g (leafs.getD s bvh_ptr.null) else 0))
      = g (leafs.getD k bvh_ptr.null)
        + ((if k = d then g x else 0)
          + (if k = s then g (leafs.getD (m + 1) bvh_ptr.null) else 0)) := by
    intro k _
    rw [merged_list_getD leafs m d s k x hlen hds hs]
    by_cases hks : k = s
    · have hkd : ¬ k = d := by omega
      rw [if_pos hks, if_neg hkd, if_neg hkd, if_pos hks, if_pos hks, hks]
      omega
    · by_cases hkd : k = d
      · rw [if_neg hks, if_pos hkd, if_pos hkd, if_neg hks, if_pos hkd, if_neg hks, hkd]
        omega
      · rw [if_neg hks, if_neg hkd, if_neg hkd, if_neg hks, if_neg hkd, if_neg hks]
  have hsum := Finset.sum_congr (rfl : Finset.range (m + 1) = Finset.range (m + 1)) point
  simp only [Finset.sum_add_distrib, Finset.sum_ite_eq', Finset.mem_range] at hsum
  have hd : d < m + 1 := by omega
  rw [if_pos hd, if_pos hd] at hsum
  rw [Finset.sum_range_succ (fun k => g (leafs.getD k bvh_ptr.null)) (m + 1)]
  by_cases hsm : s < m + 1
  · rw [if_pos hsm, if_pos hsm] at hsum
    omega
  · rw [if_neg hsm, if_neg hsm] at hsum
    have : s = m + 1 := by omega
    subst this
    omega

theorem leaf_lists_internal (bv : aabb) (id : Int) (idx : List Nat) (l r : bvh_ptr) :
    leaf_lists (bvh_ptr.node bv id tree_node_type.internal idx l r)
      = leaf_lists l ++ leaf_lists r := rfl

theorem tree_indices_internal (bv : aabb) (id : Int) (idx : List Nat) (l r : bvh_ptr) :
    tree_indices (bvh_ptr.node bv id tree_node_type.internal idx l r)
      = tree_indices l ++ tree_indices r := by
  unfold tree_indices
  rw [leaf_lists_internal, List.flatten_append]

/-- The volume of a node of bottom-up shape is the AABB of the vertices below it. -/
theorem shape_box (positions : List vec3) (t : bvh_ptr) (h : bottom_up_shape positions t) :
    is_bounding_box positions (tree_indices t) (mBV t) := by
  cases t with
  | null => exact absurd h (by simp [bottom_up_shape])
  | node bv id ty idx l r =>
    cases ty with
    | leaf =>
      simp only [bottom_up_shape] at h
      have : tree_indices (bvh_ptr.node bv id tree_node_type.leaf idx l r) = idx := by
        simp [tree_indices, leaf_lists]
      rw [this]
      exact h.2.2.2
    | internal =>
      simp only [bottom_up_shape] at h
      rw [tree_indices_internal]
      exact h.2.2

/-- One round of the merge loop keeps the invariant. -/
theorem merge_round (positions : List vec3) (posIndices : List Nat) (leafs : List bvh_ptr)
    (m i j : Nat) (id : Int) (hij : i < j) (hj : j < m + 2)
    (h : forest_invariant positions posIndices leafs (m + 2)) :
    forest_invariant positions posIndices
      ((leafs.set i (bvh_ptr.node (merged_box leafs i j) id tree_node_type.internal []
          (leafs.getD i bvh_ptr.null) (leafs.getD j bvh_ptr.null))).set j
        ((leafs.set i (bvh_ptr.node (merged_box leafs i j) id tree_node_type.internal []
          (leafs.getD i bvh_ptr.null) (leafs.getD j bvh_ptr.null))).getD (m + 1) bvh_ptr.null))
      (m + 1) := by
  obtain ⟨hlen, hQ, hcount, hint⟩ := h
  obtain ⟨si, ii⟩ := hQ i (by omega)
  obtain ⟨sj, ij⟩ := hQ j hj
  refine ⟨by rw [List.length_set, List.length_set]; omega, ?_, ?_, ?_⟩
  · intro k hk
    rw [merged_list_getD leafs m i j k _ hlen hij hj]
    by_cases hkj : k = j
    · rw [if_pos hkj]
      exact hQ (m + 1) (by omega)
    · rw [if_neg hkj]
      by_cases hki : k = i
      · rw [if_pos hki]
        constructor
        · simp only [bottom_up_shape]
          exact ⟨si, sj, merged_is_bounding_box positions _ _ _ _ (shape_box positions _ si)
            (shape_box positions _ sj)⟩
        · intro v hv
          rw [tree_indices_internal] at hv
          rcases List.mem_append.mp hv with h1 | h1
          · exact ii v h1
          · exact ij v h1
      · rw [if_neg hki]
        exact hQ k (by omega)
  · intro tri
    have := merged_list_sum (fun t => (leaf_lists t).countP (fun l => decide (l = tri))) leafs m i j
      (bvh_ptr.node (merged_box leafs i j) id tree_node_type.internal []
        (leafs.getD i bvh_ptr.null) (leafs.getD j bvh_ptr.null)) hlen hij hj
    simp only [leaf_lists_internal, List.countP_append] at this
    have hc := hcount tri
    omega
  · have := merged_list_sum count_internal leafs m i j
      (bvh_ptr.node (merged_box leafs i j) id tree_node_type.internal []
        (leafs.getD i bvh_ptr.null) (leafs.getD j bvh_ptr.null)) hlen hij hj
    simp only [count_internal] at this
    omega

/-- Under the invariant, with the whole input below `FLT_MAX` in surface area, the first
pair of the work list has a box below `FLT_MAX` in surface area. -/
theorem first_pair_area (positions : List vec3) (posIndices : List Nat) (leafs : List bvh_ptr)
    (m : Nat) (W : aabb) (hW : is_bounding_box positions posIndices W)
    (harea : float.lt (surface_area W.mMinPos W.mMaxPos) fp.FLT_MAX = true)
    (h : forest_invariant positions posIndices leafs (m + 2)) :
    float.lt (surface_area (merged_box leafs 0 1).mMinPos (merged_box leafs 0 1).mMaxPos)
      fp.FLT_MAX = true := by
  obtain ⟨_, hQ, _, _⟩ := h
  obtain ⟨s0, i0⟩ := hQ 0 (by omega)
  obtain ⟨s1, i1⟩ := hQ 1 (by omega)
  have hb := merged_is_bounding_box positions _ _ _ _ (shape_box positions _ s0)
    (shape_box positions _ s1)
  have hsub : ∀ v, v ∈ tree_indices (leafs.getD 0 bvh_ptr.null) ++
      tree_indices (leafs.getD 1 bvh_ptr.null) → v ∈ posIndices := by
    intro v hv
    rcases List.mem_append.mp hv with h1 | h1
    · exact i0 v h1
    · exact i1 v h1
  exact surface_area_within _ _ _ _
    (fun a ha => is_bounding_box_within positions _ _ _ W hb hW hsub a ha) harea

/-- The merge loop ends with one node and keeps the invariant. -/
theorem merge_loop_invariant (positions : List vec3) (posIndices : List Nat) (W : aabb)
    (hW : is_bounding_box positions posIndices W)
    (harea : float.lt (surface_area W.mMinPos W.mMaxPos) fp.FLT_MAX = true) :
    ∀ (n : Nat) (leafs : List bvh_ptr) (nodeCounter dest src : Int), 1 ≤ n →
      forest_invariant positions posIndices leafs n →
      forest_invariant positions posIndices (merge_loop n leafs nodeCounter dest src).1 1 := by
  intro n
  induction n with
  | zero =>
    intro leafs nodeCounter dest src h1 _
    omega
  | succ n ih =>
    intro leafs nodeCounter dest src _ h
    cases n with
    | zero =>
      rw [merge_loop]
      exact h
    | succ m =>
      rw [merge_loop]
      obtain ⟨i, j, hij, hj, hfound⟩ := find_merge_candidates_found leafs m dest src
        (first_pair_area positions posIndices leafs m W hW harea h)
      simp only [hfound]
      have hnot : ¬ ((i : Int) > (j : Int)) := by omega
      simp only [if_neg hnot, Int.toNat_ofNat]
      exact ih _ _ _ _ (by omega) (merge_round positions posIndices leafs m i j nodeCounter hij hj h)

end bvh_tree

namespace bvh_tree

theorem forest_sum_eq (g : bvh_ptr → Nat) (leafs : List bvh_ptr) :
    forest_sum g leafs leafs.length = (leafs.map g).sum := by
  induction leafs with
  | nil => simp [forest_sum]
  | cons t ts ih =>
    unfold forest_sum at ih ⊢
    rw [List.length_cons, Finset.sum_range_succ', List.map_cons, List.sum_cons, ← ih]
    simp only [List.getD_cons_succ, List.getD_cons_zero]
    omega

theorem triple_induction {motive : List Nat → Prop} (h0 : ∀ l, l.length < 3 → motive l)
    (h3 : ∀ a b c rest, motive rest → motive (a :: b :: c :: rest)) : ∀ l, motive l
  | [] => h0 [] (by simp)
  | [_] => h0 _ (by simp)
  | [_, _] => h0 _ (by simp)
  | a :: b :: c :: rest => h3 a b c rest (triple_induction h0 h3 rest)

theorem make_leafs_short (positions : List vec3) (l : List Nat) (nodeCounter : Int)
    (h : l.length < 3) : make_leafs positions l nodeCounter = [] := by
  match l, h with
  | [], _ => rfl
  | [_], _ => rfl
  | [_, _], _ => rfl
  | _ :: _ :: _ :: _, h => simp at h; omega

theorem triangles_short (l : List Nat) (h : l.length < 3) : triangles l = [] := by
  match l, h with
  | [], _ => rfl
  | [_], _ => rfl
  | [_, _], _ => rfl
  | _ :: _ :: _ :: _, h => simp at h; omega

theorem make_leafs_length (positions : List vec3) : ∀ (l : List Nat) (nodeCounter : Int),
    (make_leafs positions l nodeCounter).length = l.length / 3 := by
  intro l
  induction l using triple_induction with
  | h0 l h =>
    intro nodeCounter
    rw [make_leafs_short positions l nodeCounter h]
    simp
    omega
  | h3 a b c rest ih =>
    intro nodeCounter
    rw [make_leafs]
    simp only [List.length_cons, ih]
    omega

theorem make_leafs_shape (positions : List vec3) : ∀ (l : List Nat) (nodeCounter : Int),
    finite_coords positions l → ∀ t, t ∈ make_leafs positions l nodeCounter →
      bottom_up_shape positions t ∧ ∀ i, i ∈ tree_indices t → i ∈ l := by
  intro l
  induction l using triple_induction with
  | h0 l h =>
    intro nodeCounter _ t ht
    rw [make_leafs_short positions l nodeCounter h] at ht
    exact absurd ht (List.not_mem_nil _)
  | h3 a b c rest ih =>
    intro nodeCounter hfin t ht
    rw [make_leafs] at ht
    rcases List.mem_cons.mp ht with h | h
    · rw [h]
      constructor
      · simp only [bottom_up_shape]
        refine ⟨trivial, trivial, rfl, compute_bv_is_bounding_box positions [a, b, c] (by simp) ?_⟩
        intro i hi
        apply hfin i
        simp only [List.mem_cons, List.mem_singleton, List.not_mem_nil, or_false] at hi
        rcases hi with h1 | h1 | h1 <;> simp [h1]
      · intro i hi
        simp only [tree_indices, leaf_lists, List.flatten_cons, List.flatten_nil,
          List.append_nil, List.mem_cons, List.not_mem_nil, or_false] at hi
        rcases hi with h1 | h1 | h1 <;> simp [h1]
    · have hfin' : finite_coords positions rest := by
        intro i hi
        exact hfin i (by simp [hi])
      obtain ⟨s1, s2⟩ := ih (nodeCounter + 1) hfin' t h
      exact ⟨s1, fun i hi => by simp [s2 i hi]⟩

theorem make_leafs_count (positions : List vec3) (tri : List Nat) :
    ∀ (l : List Nat) (nodeCounter : Int),
      ((make_leafs positions l nodeCounter).map
          (fun t => (leaf_lists t).countP (fun l => decide (l = tri)))).sum
        = (triangles l).countP (fun l => decide (l = tri)) := by
  intro l
  induction l using triple_induction with
  | h0 l h =>
    intro nodeCounter
    rw [make_leafs_short positions l nodeCounter h, triangles_short l h]
    rfl
  | h3 a b c rest ih =>
    intro nodeCounter
    rw [make_leafs, triangles, List.map_cons, List.sum_cons, ih, List.countP_cons]
    simp only [leaf_lists, List.countP_cons, List.countP_nil]
    omega

theorem make_leafs_internal (positions : List vec3) : ∀ (l : List Nat) (nodeCounter : Int),
    ((make_leafs positions l nodeCounter).map count_internal).sum = 0 := by
  intro l
  induction l using triple_induction with
  | h0 l h =>
    intro nodeCounter
    rw [make_leafs_short positions l nodeCounter h]
    rfl
  | h3 a b c rest ih =>
    intro nodeCounter
    rw [make_leafs, List.map_cons, List.sum_cons, ih]
    rfl

theorem triangles_flatten : ∀ (l : List Nat), l.length % 3 = 0 → (triangles l).flatten = l := by
  intro l
  induction l using triple_induction with
  | h0 l h =>
    intro hmod
    have : l.length = 0 := by omega
    rw [List.length_eq_zero.mp this]
    rfl
  | h3 a b c rest ih =>
    intro hmod
    rw [triangles, List.flatten_cons, ih (by simp only [List.length_cons] at hmod; omega)]
    rfl

/-- The leaves made by the first loop of `bottom_up_bvh` satisfy the loop invariant. -/
theorem make_leafs_invariant (positions : List vec3) (posIndices : List Nat) (nodeCounter : Int)
    (hfin : finite_coords positions posIndices) :
    forest_invariant positions posIndices (make_leafs positions posIndices nodeCounter)
      (posIndices.length / 3) := by
  have hlen := make_leafs_length positions posIndices nodeCounter
  refine ⟨by omega, ?_, ?_, ?_⟩
  · intro k hk
    have hk' : k < (make_leafs positions posIndices nodeCounter).length := by omega
    rw [List.getD_eq_getElem _ _ hk']
    exact make_leafs_shape positions posIndices nodeCounter hfin _ (List.getElem_mem hk')
  · intro tri
    rw [← hlen, forest_sum_eq]
    exact make_leafs_count positions tri posIndices nodeCounter
  · rw [← hlen, forest_sum_eq, make_leafs_internal]
    omega

/-- Result of `bottom_up_bvh` on at least one triangle whose vertices are finite and whose
overall AABB has a computed surface-area score below `FLT_MAX`: a root of bottom-up shape
whose leaves hold the input triangles, each as often as it occurs, with one internal node
less than the number of triangles. -/
theorem bottom_up_bvh_result (positions : List vec3) (posIndices : List Nat) (nodeCounter : Int)
    (hlen : 3 ≤ posIndices.length) (hfin : finite_coords positions posIndices)
    (harea : float.lt (surface_area (compute_bv positions posIndices).mMinPos
      (compute_bv positions posIndices).mMaxPos) fp.FLT_MAX = true) :
    ∃ root counter, bottom_up_bvh positions posIndices nodeCounter = some (root, counter) ∧
      bottom_up_shape positions root ∧ (leaf_lists root).Perm (triangles posIndices) ∧
      count_internal root + 1 = posIndices.length / 3 := by
  have hne : posIndices ≠ [] := by
    intro h
    rw [h] at hlen
    simp at hlen
  have hW := compute_bv_is_bounding_box positions posIndices hne hfin
  have hinv := merge_loop_invariant positions posIndices _ hW harea (posIndices.length / 3)
    (make_leafs positions posIndices nodeCounter)
    (nodeCounter + ((posIndices.length / 3 : Nat) : Int)) 0 0 (by omega)
    (make_leafs_invariant positions posIndices nodeCounter hfin)
  unfold bottom_up_bvh
  simp only []
  obtain ⟨h1, hQ, hcount, hint⟩ := hinv
  cases hL : (merge_loop (posIndices.length / 3) (make_leafs positions posIndices nodeCounter)
      (nodeCounter + ((posIndices.length / 3 : Nat) : Int)) 0 0).1 with
  | nil =>
    rw [hL] at h1
    simp at h1
  | cons root rest =>
    rw [hL] at hQ hcount hint
    have hq := hQ 0 (by omega)
    simp only [List.getD_cons_zero] at hq
    refine ⟨root, _, rfl, hq.1, ?_, ?_⟩
    · rw [List.perm_iff_count]
      intro tri
      have := hcount tri
      simp only [forest_sum, Finset.sum_range_one, List.getD_cons_zero] at this
      have e : ∀ (l : List (List Nat)), @List.count (List Nat) instBEqOfDecidableEq tri l
          = List.countP (fun x => decide (x = tri)) l := fun _ => rfl
      rw [e, e]
      exact this
    · simp only [forest_sum, Finset.sum_range_one, List.getD_cons_zero] at hint
      exact hint

end bvh_tree

namespace bvh_tree

/-! ## BVH: the top-down build returns -/

theorem longest_axis_lt (sizeVec : fp.vec3) : longest_axis sizeVec < 3 := by
  unfold longest_axis
  simp only []
  split <;> split <;> simp

/-- The unit vector of an axis passes the assertion of `classify_plane_point`: its squared
length is 1 in `float` arithmetic. -/
theorem axis_dir_asserted (m : Nat) (hm : m < 3) :
    fp.are_equal (fp.length2 (axis_dir m).to_fp) (float.fin 0) = false := by
  interval_cases m <;> decide!

theorem partition_loop_some (inPositions : List vec3) (partPlane : fp.plane)
    (hn : fp.are_equal (fp.length2 partPlane.mNormal) (float.fin 0) = false) :
    ∀ (l outLeft outRight : List Nat), ∃ L R,
      partition_loop inPositions partPlane l outLeft outRight = some (L, R) ∧
      L.length + R.length = outLeft.length + outRight.length + 3 * (l.length / 3) ∧
      L.length % 3 = outLeft.length % 3 ∧ R.length % 3 = outRight.length % 3 := by
  intro l
  induction l using triple_induction with
  | h0 l h =>
    intro outLeft outRight
    refine ⟨outLeft, outRight, ?_, by omega, rfl, rfl⟩
    match l, h with
    | [], _ => rfl
    | [_], _ => rfl
    | [_, _], _ => rfl
    | _ :: _ :: _ :: _, h => simp at h; omega
  | h3 a b c rest ih =>
    intro outLeft outRight
    obtain ⟨cls, hcls⟩ : ∃ cls, fp.classify_plane_point partPlane (centroid inPositions a b c)
        fp.cEpsilon = some cls := by
      rw [fp_classify_plane_point_eq, hn]
      simp only [Bool.false_eq_true, if_false]
      split
      · exact ⟨_, rfl⟩
      · exact ⟨_, rfl⟩
    rw [partition_loop, hcls]
    simp only []
    by_cases hc : cls = classification_t.inside
    · rw [if_pos hc]
      obtain ⟨L, R, h1, h2, h3, h4⟩ := ih (outLeft ++ [a, b, c]) outRight
      refine ⟨L, R, h1, ?_, ?_, h4⟩
      · simp only [List.length_append, List.length_cons, List.length_nil] at h2 ⊢
        omega
      · simp only [List.length_append, List.length_cons, List.length_nil] at h3
        omega
    · rw [if_neg hc]
      obtain ⟨L, R, h1, h2, h3, h4⟩ := ih outLeft (outRight ++ [a, b, c])
      refine ⟨L, R, h1, ?_, h3, ?_⟩
      · simp only [List.length_append, List.length_cons, List.length_nil] at h2 ⊢
        omega
      · simp only [List.length_append, List.length_cons, List.length_nil] at h4
        omega

/-- Function `top_down_partition` returns, and when it reports success both output lists
hold at least one triangle and fewer triangles than the input. -/
theorem top_down_partition_some (nodeBV : aabb) (inPositions : List vec3) (inIndices : List Nat) :
    ∃ ok L R, top_down_partition nodeBV inPositions inIndices = some (ok, L, R) ∧
      (ok = true → 1 ≤ L.length / 3 ∧ 1 ≤ R.length / 3 ∧
        L.length / 3 < inIndices.length / 3 ∧ R.length / 3 < inIndices.length / 3) := by
  unfold top_down_partition
  have hn : fp.are_equal (fp.length2 (partition_plane nodeBV inPositions inIndices).mNormal)
      (float.fin 0) = false :=
    axis_dir_asserted _ (longest_axis_lt (nodeBV.mMaxPos.to_fp - nodeBV.mMinPos.to_fp))
  obtain ⟨L, R, h1, h2, h3, h4⟩ := partition_loop_some inPositions
    (partition_plane nodeBV inPositions inIndices) hn inIndices [] []
  rw [h1]
  simp only []
  simp only [List.length_nil] at h2 h3 h4
  by_cases hz : L.length = 0 ∨ R.length = 0
  · rw [if_pos hz]
    exact ⟨false, L, R, rfl, fun h => absurd h (by decide)⟩
  · rw [if_neg hz]
    refine ⟨true, L, R, rfl, fun _ => ?_⟩
    omega

/-- With fuel above the number of triangles `top_down_bvh` returns, and for at least one
triangle the node it returns carries the volume `compute_bv` of the whole index list. -/
theorem top_down_bvh_some (positions : List vec3) :
    ∀ (fuel : Nat) (posIndices : List Nat) (nodeCounter : Int) (tree : bvh_ptr),
      posIndices.length / 3 < fuel →
      ∃ r, top_down_bvh positions fuel nodeCounter tree posIndices = some r ∧
        (1 ≤ posIndices.length / 3 →
          r.1 ≠ bvh_ptr.null ∧ mBV r.1 = compute_bv positions posIndices) := by
  intro fuel
  induction fuel with
  | zero =>
    intro posIndices nodeCounter tree h
    omega
  | succ fuel ih =>
    intro posIndices nodeCounter tree h
    rw [top_down_bvh]
    by_cases h0 : posIndices.length / 3 = 0
    · rw [if_pos h0]
      exact ⟨_, rfl, fun h1 => absurd h1 (by omega)⟩
    · rw [if_neg h0]
      simp only []
      by_cases h1 : posIndices.length / 3 = 1
      · rw [if_pos h1]
        exact ⟨_, rfl, fun _ => ⟨by simp, rfl⟩⟩
      · rw [if_neg h1]
        obtain ⟨ok, L, R, hp, hlen⟩ := top_down_partition_some (compute_bv positions posIndices)
          positions posIndices
        rw [hp]
        simp only []
        cases ok with
        | false =>
          simp only [if_true]
          exact ⟨_, rfl, fun _ => ⟨by simp, rfl⟩⟩
        | true =>
          simp only [Bool.true_eq_false, if_false]
          obtain ⟨_, _, hl, hr⟩ := hlen rfl
          obtain ⟨rl, el, _⟩ := ih L (nodeCounter + 1) bvh_ptr.null (by omega)
          rw [el]
          simp only []
          obtain ⟨rr, er, _⟩ := ih R rl.2 bvh_ptr.null (by omega)
          rw [er]
          exact ⟨_, rfl, fun _ => ⟨by simp, rfl⟩⟩

end bvh_tree

namespace bvh_tree

theorem construct_bvh_init_top_down (vert_data : mesh_data) :
    construct_bvh init vert_data bvh_construction_method.top_down =
      (top_down_bvh vert_data.positions (vert_data.mPosIndices.length / 3 + 1) 0 bvh_ptr.null
        vert_data.mPosIndices).map (fun r =>
          { mRoot := r.1, mBuildMethod := bvh_construction_method.top_down, nodeCounter := r.2,
            mRootFreed := false }) := by
  unfold construct_bvh clear init
  simp only []
  rw [if_neg (by decide), if_neg (by simp)]
  simp only []
  cases top_down_bvh vert_data.positions (vert_data.mPosIndices.length / 3 + 1) 0 bvh_ptr.null
      vert_data.mPosIndices with
  | none => rfl
  | some r => simp

theorem construct_bvh_init_bottom_up (vert_data : mesh_data) :
    construct_bvh init vert_data bvh_construction_method.bottom_up =
      (bottom_up_bvh vert_data.positions vert_data.mPosIndices 0).map (fun r =>
          { mRoot := r.1, mBuildMethod := bvh_construction_method.bottom_up, nodeCounter := r.2,
            mRootFreed := false }) := by
  unfold construct_bvh clear init
  simp only []
  rw [if_neg (by decide), if_neg (by simp)]
  simp only []
  cases bottom_up_bvh vert_data.positions vert_data.mPosIndices 0 with
  | none => rfl
  | some r => simp

theorem shape_ne_null (positions : List vec3) (t : bvh_ptr) (h : bottom_up_shape positions t) :
    t ≠ bvh_ptr.null := by
  intro h0
  rw [h0] at h
  simp [bottom_up_shape] at h

theorem triangles_length : ∀ (l : List Nat), (triangles l).length = l.length / 3 := by
  intro l
  induction l using triple_induction with
  | h0 l h =>
    rw [triangles_short l h]
    simp
    omega
  | h3 a b c rest ih =>
    rw [triangles]
    simp only [List.length_cons, ih]
    omega

/-! ## BVH: the root volume -/

/-- C1 (counterexample): two triangles around the origin with vertices at distance 2^70.
The surface-area score of the AABB of the pair overflows to infinity, which is not below
`FLT_MAX`, so `find_merge_candidates` finds no pair and leaves `dest = src = 0`; the
bottom-up root is then the leaf of the second triangle, with the box
[-2^70, 0] x [-2^70, 0] x [0, 0], which is not the AABB of the input: vertex 1 has
x = 2^70. -/
theorem bottom_up_root_misses_input :
    (construct_bvh init huge_mesh bvh_construction_method.bottom_up).map (fun t => mBV t.mRoot)
      = some { mMinPos := ⟨-(2 ^ 70), -(2 ^ 70), 0⟩, mMaxPos := ⟨0, 0, 0⟩ } ∧
    1 ∈ huge_mesh.mPosIndices ∧ (pos_at huge_mesh.positions 1).get 0 = 2 ^ 70 ∧
    ¬ is_bounding_box huge_mesh.positions huge_mesh.mPosIndices
      { mMinPos := ⟨-(2 ^ 70), -(2 ^ 70), 0⟩, mMaxPos := ⟨0, 0, 0⟩ } := by
  refine ⟨by decide!, by decide!, by decide!, ?_⟩
  intro h
  have h1 := ((h 0 (by decide)).1 1 (by decide!)).2
  have e1 : (pos_at huge_mesh.positions 1).get 0 = 2 ^ 70 := by decide!
  rw [e1] at h1
  simp only [vec3.get] at h1
  norm_num at h1

/-- C1 (amended): for every nonempty triangle list (index list whose length is a positive
multiple of 3, every index in range of the positions) over vertices with finite
coordinates, `construct_bvh` with `top_down` returns a tree with a root whose bounding box
is the AABB of the whole input (on every axis its min is the minimum and its max is the
maximum of that coordinate over all indexed vertices), and so does `construct_bvh` with
`bottom_up` when the surface-area score `2xy + 2xz + 2yz` of that AABB, computed in `float`
as `find_merge_candidates` computes it, is below `FLT_MAX`. -/
theorem root_box_is_input_box (positions : List vec3) (posIndices : List Nat)
    (hlen3 : posIndices.length % 3 = 0) (hpos : 0 < posIndices.length)
    (hvalid : valid_input positions posIndices) :
    (∃ t, construct_bvh init ⟨positions, posIndices⟩ bvh_construction_method.top_down = some t ∧
      t.mRoot ≠ bvh_ptr.null ∧ is_bounding_box positions posIndices (mBV t.mRoot)) ∧
    (float.lt (surface_area (compute_bv positions posIndices).mMinPos
        (compute_bv positions posIndices).mMaxPos) fp.FLT_MAX = true →
      ∃ t, construct_bvh init ⟨positions, posIndices⟩ bvh_construction_method.bottom_up = some t ∧
        t.mRoot ≠ bvh_ptr.null ∧ is_bounding_box positions posIndices (mBV t.mRoot)) := by
  have hne : posIndices ≠ [] := by
    intro h
    rw [h] at hpos
    simp at hpos
  have hW := compute_bv_is_bounding_box positions posIndices hne hvalid.2
  constructor
  · obtain ⟨r, hr, hroot⟩ := top_down_bvh_some positions (posIndices.length / 3 + 1) posIndices 0
      bvh_ptr.null (by omega)
    obtain ⟨hnn, hbv⟩ := hroot (by omega)
    rw [construct_bvh_init_top_down]
    simp only []
    rw [hr]
    refine ⟨_, rfl, hnn, ?_⟩
    simp only []
    rw [hbv]
    exact hW
  · intro harea
    obtain ⟨root, counter, hr, hshape, hperm, _⟩ :=
      bottom_up_bvh_result positions posIndices 0 (by omega) hvalid.2 harea
    rw [construct_bvh_init_bottom_up]
    simp only []
    rw [hr]
    refine ⟨_, rfl, shape_ne_null positions root hshape, ?_⟩
    simp only [Option.map_some']
    apply is_bounding_box_congr positions (tree_indices root) posIndices _ _
      (shape_box positions root hshape)
    intro i
    unfold tree_indices
    rw [(List.Perm.flatten hperm).mem_iff, triangles_flatten posIndices hlen3]

/-- Witness for C1: the two triangles of the unit square. -/
theorem root_box_is_input_box_witness :
    valid_input square_mesh.positions square_mesh.mPosIndices ∧
    (∃ t, construct_bvh init ⟨square_mesh.positions, square_mesh.mPosIndices⟩
        bvh_construction_method.top_down = some t ∧
      t.mRoot ≠ bvh_ptr.null ∧
      is_bounding_box square_mesh.positions square_mesh.mPosIndices (mBV t.mRoot)) ∧
    (∃ t, construct_bvh init ⟨square_mesh.positions, square_mesh.mPosIndices⟩
        bvh_construction_method.bottom_up = some t ∧
      t.mRoot ≠ bvh_ptr.null ∧
      is_bounding_box square_mesh.positions square_mesh.mPosIndices (mBV t.mRoot)) :=
  ⟨by unfold valid_input finite_coords; decide!,
    (root_box_is_input_box square_mesh.positions square_mesh.mPosIndices (by decide) (by decide)
      (by unfold valid_input finite_coords; decide!)).1,
    (root_box_is_input_box square_mesh.positions square_mesh.mPosIndices (by decide) (by decide)
      (by unfold valid_input finite_coords; decide!)).2 (by decide!)⟩

/-! ## BVH: the bottom-up tree -/

/-- C3 (counterexample): for the two far-apart triangles the bottom-up tree is a single
leaf holding the second triangle: one leaf instead of two, no internal node, and the
first triangle is in no leaf. -/
theorem bottom_up_drops_triangle :
    (construct_bvh init huge_mesh bvh_construction_method.bottom_up).map
      (fun t => (leaf_lists t.mRoot, count_internal t.mRoot)) = some ([[0, 3, 4]], 0) ∧
    triangles huge_mesh.mPosIndices = [[0, 1, 2], [0, 3, 4]] := by
  decide!

/-- C3 (amended): for every list of n >= 1 triangles (every index in range of the
positions) over vertices with finite coordinates, whose overall AABB has a surface-area
score, computed in `float` as `find_merge_candidates` computes it, below `FLT_MAX`, the
tree built bottom-up has exactly n leaves; the index lists of the
leaves are the input triangles, each held as often as it occurs in the input; every leaf
has three indices, no children and the AABB of its triangle; every internal node has two
children; and the tree has exactly n - 1 internal nodes. -/
theorem bottom_up_tree_shape (positions : List vec3) (posIndices : List Nat)
    (hlen : 3 ≤ posIndices.length) (hvalid : valid_input positions posIndices)
    (harea : float.lt (surface_area (compute_bv positions posIndices).mMinPos
      (compute_bv positions posIndices).mMaxPos) fp.FLT_MAX = true) :
    ∃ t, construct_bvh init ⟨positions, posIndices⟩ bvh_construction_method.bottom_up = some t ∧
      (leaf_lists t.mRoot).length = posIndices.length / 3 ∧
      (leaf_lists t.mRoot).Perm (triangles posIndices) ∧
      bottom_up_shape positions t.mRoot ∧
      count_internal t.mRoot = posIndices.length / 3 - 1 := by
  obtain ⟨root, counter, hr, hshape, hperm, hint⟩ :=
    bottom_up_bvh_result positions posIndices 0 hlen hvalid.2 harea
  rw [construct_bvh_init_bottom_up]
  simp only []
  rw [hr]
  refine ⟨_, rfl, ?_, hperm, hshape, ?_⟩
  · simp only [Option.map_some']
    rw [hperm.length_eq, triangles_length]
  · simp only [Option.map_some']
    omega

/-- Witness for C3: the two triangles of the unit square. -/
theorem bottom_up_tree_shape_witness :
    valid_input square_mesh.positions square_mesh.mPosIndices ∧
    ∃ t, construct_bvh init ⟨square_mesh.positions, square_mesh.mPosIndices⟩
        bvh_construction_method.bottom_up = some t ∧
      (leaf_lists t.mRoot).length = square_mesh.mPosIndices.length / 3 ∧
      (leaf_lists t.mRoot).Perm (triangles square_mesh.mPosIndices) ∧
      bottom_up_shape square_mesh.positions t.mRoot ∧
      count_internal t.mRoot = square_mesh.mPosIndices.length / 3 - 1 :=
  ⟨by unfold valid_input finite_coords; decide!,
    bottom_up_tree_shape square_mesh.positions square_mesh.mPosIndices (by decide)
      (by unfold valid_input finite_coords; decide!) (by decide!)⟩

end bvh_tree

/-! ## BVH: termination of the top-down build -/

namespace bvh_tree

/-- More recursion depth does not change a result of `top_down_bvh`. -/
theorem top_down_bvh_fuel_succ (positions : List vec3) :
    ∀ (fuel : Nat) (posIndices : List Nat) (nodeCounter : Int) (tree : bvh_ptr)
      (r : bvh_ptr × Int),
      top_down_bvh positions fuel nodeCounter tree posIndices = some r →
      top_down_bvh positions (fuel + 1) nodeCounter tree posIndices = some r := by
  intro fuel
  induction fuel with
  | zero =>
    intro posIndices nodeCounter tree r h
    rw [top_down_bvh] at h
    exact Option.noConfusion h
  | succ fuel ih =>
    intro posIndices nodeCounter tree r h
    rw [top_down_bvh] at h
    rw [top_down_bvh]
    by_cases h0 : posIndices.length / 3 = 0
    · rw [if_pos h0] at h ⊢
      exact h
    · rw [if_neg h0] at h ⊢
      simp only [] at h ⊢
      by_cases h1 : posIndices.length / 3 = 1
      · rw [if_pos h1] at h ⊢
        exact h
      · rw [if_neg h1] at h ⊢
        cases hp : top_down_partition (compute_bv positions posIndices) positions posIndices with
        | none =>
          rw [hp] at h
          exact Option.noConfusion h
        | some res =>
          obtain ⟨ok, L, R⟩ := res
          rw [hp] at h
          simp only [] at h ⊢
          cases ok with
          | false =>
            simp only [if_true] at h ⊢
            exact h
          | true =>
            simp only [Bool.true_eq_false, if_false] at h ⊢
            cases hl : top_down_bvh positions fuel (nodeCounter + 1) bvh_ptr.null L with
            | none =>
              rw [hl] at h
              exact Option.noConfusion h
            | some rl =>
              rw [hl] at h
              simp only [] at h
              rw [ih L (nodeCounter + 1) bvh_ptr.null rl hl]
              simp only []
              cases hr : top_down_bvh positions fuel rl.2 bvh_ptr.null R with
              | none =>
                rw [hr] at h
                exact Option.noConfusion h
              | some rr =>
                rw [hr] at h
                rw [ih R rl.2 bvh_ptr.null rr hr]
                exact h

/-- Every recursion depth above the triangle count gives the same result. -/
theorem top_down_bvh_fuel_le (positions : List vec3) (posIndices : List Nat) (nodeCounter : Int)
    (tree : bvh_ptr) (r : bvh_ptr × Int) (fuel : Nat)
    (h : top_down_bvh positions fuel nodeCounter tree posIndices = some r) :
    ∀ k, top_down_bvh positions (fuel + k) nodeCounter tree posIndices = some r := by
  intro k
  induction k with
  | zero => exact h
  | succ k ih => exact top_down_bvh_fuel_succ positions (fuel + k) posIndices nodeCounter tree r ih

/-- C26: the top-down build terminates on every index list (coincident, duplicate and
degenerate triangles included). With a recursion depth above the triangle count
`top_down_bvh` returns, and a larger depth gives the same result; the partition always
returns; when it reports success both sides hold at least one triangle and strictly fewer
triangles than the list that was split; and `top_down_bvh` calls itself only on the two
sides of a successful partition, a failed partition ending the call with a leaf. -/
theorem top_down_bvh_terminates (positions : List vec3) (posIndices : List Nat)
    (nodeCounter : Int) (tree : bvh_ptr) :
    (∃ r, ∀ fuel, posIndices.length / 3 < fuel →
      top_down_bvh positions fuel nodeCounter tree posIndices = some r) ∧
    (∃ ok L R, top_down_partition (compute_bv positions posIndices) positions posIndices =
        some (ok, L, R) ∧
      (ok = true → 1 ≤ L.length / 3 ∧ 1 ≤ R.length / 3 ∧
        L.length / 3 < posIndices.length / 3 ∧ R.length / 3 < posIndices.length / 3) ∧
      (2 ≤ posIndices.length / 3 → ∀ fuel,
        top_down_bvh positions (fuel + 1) nodeCounter tree posIndices =
          if ok = false then
            some (bvh_ptr.node (compute_bv positions posIndices) nodeCounter tree_node_type.leaf []
              bvh_ptr.null bvh_ptr.null, nodeCounter + 1)
          else
            match top_down_bvh positions fuel (nodeCounter + 1) bvh_ptr.null L with
            | none => none
            | some (l, c1) =>
              match top_down_bvh positions fuel c1 bvh_ptr.null R with
              | none => none
              | some (r, c2) =>
                some (bvh_ptr.node (compute_bv positions posIndices) nodeCounter
                  tree_node_type.internal [] l r, c2))) := by
  constructor
  · obtain ⟨r, hr, _⟩ := top_down_bvh_some positions (posIndices.length / 3 + 1) posIndices
      nodeCounter tree (by omega)
    refine ⟨r, ?_⟩
    intro fuel hfuel
    have := top_down_bvh_fuel_le positions posIndices nodeCounter tree r _ hr
      (fuel - (posIndices.length / 3 + 1))
    have e : posIndices.length / 3 + 1 + (fuel - (posIndices.length / 3 + 1)) = fuel := by omega
    rw [e] at this
    exact this
  · obtain ⟨ok, L, R, hp, hlen⟩ := top_down_partition_some (compute_bv positions posIndices)
      positions posIndices
    refine ⟨ok, L, R, hp, hlen, ?_⟩
    intro h2 fuel
    rw [top_down_bvh, if_neg (by omega)]
    simp only []
    rw [if_neg (by omega), hp]

end bvh_tree

/-! ## BVH: `find_merge_candidates` finds the first pair of minimal area -/

namespace bvh_tree

end bvh_tree

/-! ## Octree: `delete_node_rec` keeps the invariants -/

namespace octree

theorem occ_at_of_occupancy {o : octree} (hO : occupancy_invariant o) (hM : masks_in_range o) :
    ∀ p i, occ_at o p i := by
  intro p i n hn
  have e : p <<< 3 + i = 8 * p + i := by
    rw [Nat.shiftLeft_eq]; ring
  by_cases hi : i < 8
  · have := hO p n hn i hi
    rw [e] at this
    rw [this]
    simp [hi]
  · have hlt : n.children_active < 2 ^ i :=
      lt_of_lt_of_le (hM p n hn) (by
        have : (256 : Nat) = 2 ^ 8 := by norm_num
        rw [this]
        exact Nat.pow_le_pow_right (by norm_num) (by omega))
    rw [Nat.testBit_lt_two_pow hlt]
    simp [hi]

theorem masks_of_occ_at {o : octree} (h : ∀ p i, occ_at o p i) : masks_in_range o := by
  intro q n hn
  have h256 : (256 : Nat) = 2 ^ 8 := by norm_num
  rw [h256]
  apply Nat.lt_pow_two_of_testBit
  intro i hi
  cases hb : n.children_active.testBit i with
  | false => rfl
  | true =>
    have := ((h q i n hn).mp hb).1
    omega

/-- C29 (counterexample): the map with the keys 0 and 1 satisfies the occupancy invariant
and is ancestor-closed (the code 0 is its own parent and its own child number 0), node 1 is
in the map and has no active children, and `delete_node_rec(1)` removes node 1 without
entering its loop: node 0 keeps bit 1 although the node `(0 << 3) + 1 = 1` is gone. -/
theorem delete_node_rec_breaks_zero_key :
    occupancy_invariant zero_key_state ∧ ancestor_closed zero_key_state ∧
    (zero_key_state.m_nodes 1).map (fun n => n.children_active) = some 0 ∧
    (delete_node_rec zero_key_state 1).isSome = true ∧
    ¬ occupancy_invariant ((delete_node_rec zero_key_state 1).getD init) := by
  refine ⟨?_, ?_, by decide, by decide, ?_⟩
  · intro p n hn i hi
    by_cases h0 : p = 0
    · subst h0
      have hn0 : n = { locational_code := 0, children_active := 3, first := none } := by
        have : zero_key_state.m_nodes 0 =
            some { locational_code := 0, children_active := 3, first := none } := by decide
        rw [this] at hn
        exact (Option.some.inj hn).symm
      subst hn0
      interval_cases i <;> decide
    · by_cases h1 : p = 1
      · subst h1
        have hn1 : n = { locational_code := 1, children_active := 0, first := none } := by
          have : zero_key_state.m_nodes 1 =
              some { locational_code := 1, children_active := 0, first := none } := by decide
          rw [this] at hn
          exact (Option.some.inj hn).symm
        subst hn1
        interval_cases i <;> decide
      · have : zero_key_state.m_nodes p = none := by
          unfold zero_key_state
          simp [h0, h1]
        rw [this] at hn
        exact Option.noConfusion hn
  · intro q n hn hq1
    by_cases h0 : q = 0
    · subst h0
      decide
    · have : zero_key_state.m_nodes q = none := by
        unfold zero_key_state
        simp [h0, hq1]
      rw [this] at hn
      exact Option.noConfusion hn
  · intro h
    have h1 := h 0 { locational_code := 0, children_active := 3, first := none } (by decide) 1
      (by decide)
    have h2 : ((3 : Nat).testBit 1 = true) := by decide
    have h3 := h1.mp h2
    exact absurd h3 (by decide)

/-- C29 (amended): from every octree state whose keys are well-formed locational codes (so
the code 0 is not a key) and whose masks are 8-bit values, that satisfies the occupancy
invariant and is ancestor-closed, `delete_node_rec(c)` applied to a node `c` that is in the
map and has no active children returns a state of the same kind: it satisfies the occupancy
invariant and is ancestor-closed, and its keys are again well-formed codes. -/
theorem delete_node_rec_keeps_invariants (o : octree) (c : Nat) (n : octree_node)
    (hK : keys_valid o) (hM : masks_in_range o)
    (hO : occupancy_invariant o) (hA : ancestor_closed o)
    (hn : o.m_nodes c = some n) (hchild : n.children_active = 0) :
    ∃ o1, delete_node_rec o c = some o1 ∧ occupancy_invariant o1 ∧ ancestor_closed o1 ∧
      keys_valid o1 ∧ masks_in_range o1 := by
  have hdel : delete_node_rec o c = some (delete_node_rec_loop 11 (delete_node o c) c) := by
    unfold delete_node_rec find_node
    rw [hn]
    simp only [hchild, if_true]
  obtain ⟨k1, a1, o1⟩ := delete_node_rec_preserves o c n _ hn hchild hdel hK hA
    (occ_at_of_occupancy hO hM)
  exact ⟨_, hdel, occupancy_of_occ_at o1, a1, k1, masks_of_occ_at o1⟩

/-- Witness for C29: deleting the childless node 9 from the state with the nodes 1, 8, 9
and 64. -/
theorem delete_node_rec_keeps_invariants_witness :
    keys_valid two_children ∧ masks_in_range two_children ∧
    occupancy_invariant two_children ∧ ancestor_closed two_children ∧
    two_children.m_nodes 9 = some { locational_code := 9, children_active := 0, first := none } ∧
    ∃ o1, delete_node_rec two_children 9 = some o1 ∧ occupancy_invariant o1 ∧
      ancestor_closed o1 ∧ keys_valid o1 ∧ masks_in_range o1 :=
  have hr : reachable two_children :=
    reachable.create _ 9 (reachable.create init 64 (reachable.empty init (fun _ => rfl))
      ⟨2, by decide, by decide⟩) ⟨1, by decide, by decide⟩
  have hi := reachable_inv two_children hr
  ⟨hi.1, masks_of_occ_at hi.2.2, occupancy_of_occ_at hi.2.2, hi.2.1, by decide,
    delete_node_rec_keeps_invariants two_children 9
      { locational_code := 9, children_active := 0, first := none }
      hi.1 (masks_of_occ_at hi.2.2) (occupancy_of_occ_at hi.2.2) hi.2.1 (by decide) rfl⟩

end octree

/-! ## BVH: nested volumes -/

namespace bvh_tree

theorem vec3_ext_get {u v : vec3} (h : ∀ a, a < 3 → u.get a = v.get a) : u = v := by
  have h0 := h 0 (by decide)
  have h1 := h 1 (by decide)
  have h2 := h 2 (by decide)
  simp only [vec3.get] at h0 h1 h2
  cases u
  cases v
  simp only [vec3.mk.injEq]
  exact ⟨h0, h1, h2⟩

/-- The AABB of a set of vertices is unique. -/
theorem is_bounding_box_unique (positions : List vec3) (S : List Nat) (b1 b2 : aabb)
    (h1 : is_bounding_box positions S b1) (h2 : is_bounding_box positions S b2) : b1 = b2 := by
  have hmin : b1.mMinPos = b2.mMinPos := by
    apply vec3_ext_get
    intro a ha
    obtain ⟨a1, ⟨i1, hi1, e1⟩, _⟩ := h1 a ha
    obtain ⟨a2, ⟨i2, hi2, e2⟩, _⟩ := h2 a ha
    apply le_antisymm
    · rw [e2]; exact (a1 i2 hi2).1
    · rw [e1]; exact (a2 i1 hi1).1
  have hmax : b1.mMaxPos = b2.mMaxPos := by
    apply vec3_ext_get
    intro a ha
    obtain ⟨a1, _, ⟨j1, hj1, f1⟩⟩ := h1 a ha
    obtain ⟨a2, _, ⟨j2, hj2, f2⟩⟩ := h2 a ha
    apply le_antisymm
    · rw [f1]; exact (a2 j1 hj1).2
    · rw [f2]; exact (a1 j2 hj2).2
  cases b1
  cases b2
  simp only [aabb.mk.injEq]
  exact ⟨hmin, hmax⟩

theorem contains_of_get {outer inner : aabb}
    (h : ∀ a, a < 3 → outer.mMinPos.get a ≤ inner.mMinPos.get a ∧
      inner.mMaxPos.get a ≤ outer.mMaxPos.get a) : aabb.contains outer inner := by
  have h0 := h 0 (by decide)
  have h1 := h 1 (by decide)
  have h2 := h 2 (by decide)
  simp only [vec3.get] at h0 h1 h2
  exact ⟨h0.1, h1.1, h2.1, h0.2, h1.2, h2.2⟩

/-- The union box of two boxes contains both. -/
theorem union_contains (b1 b2 : aabb) :
    aabb.contains
        { mMinPos := vec3.min b1.mMinPos b2.mMinPos, mMaxPos := vec3.max b1.mMaxPos b2.mMaxPos }
        b1 ∧
      aabb.contains
        { mMinPos := vec3.min b1.mMinPos b2.mMinPos, mMaxPos := vec3.max b1.mMaxPos b2.mMaxPos }
        b2 := by
  unfold aabb.contains vec3.min vec3.max
  simp only []
  exact ⟨⟨min_le_left _ _, min_le_left _ _, min_le_left _ _, le_max_left _ _, le_max_left _ _,
      le_max_left _ _⟩,
    ⟨min_le_right _ _, min_le_right _ _, min_le_right _ _, le_max_right _ _, le_max_right _ _,
      le_max_right _ _⟩⟩

/-- A tree of bottom-up shape has union boxes at its internal nodes and nested volumes. -/
theorem shape_union_nested (positions : List vec3) :
    ∀ t, bottom_up_shape positions t → union_boxes t ∧ nested t := by
  intro t
  induction t with
  | null =>
    intro h
    exact absurd h (by simp [bottom_up_shape])
  | node bv id ty idx l r ihl ihr =>
    intro h
    cases ty with
    | leaf =>
      simp only [bottom_up_shape] at h
      obtain ⟨hl, hr, _, _⟩ := h
      subst hl
      subst hr
      simp [union_boxes, nested]
    | internal =>
      simp only [bottom_up_shape] at h
      obtain ⟨sl, sr, hbox⟩ := h
      obtain ⟨ul, nl⟩ := ihl sl
      obtain ⟨ur, nr⟩ := ihr sr
      have hu : bv =
          { mMinPos := vec3.min (mBV l).mMinPos (mBV r).mMinPos,
            mMaxPos := vec3.max (mBV l).mMaxPos (mBV r).mMaxPos } :=
        is_bounding_box_unique positions _ _ _ hbox
          (merged_is_bounding_box positions _ _ _ _ (shape_box positions l sl)
            (shape_box positions r sr))
      simp only [union_boxes, nested]
      refine ⟨⟨shape_ne_null positions l sl, shape_ne_null positions r sr, hu, ul, ur⟩, ?_, ?_,
        nl, nr⟩
      · intro _
        rw [hu]
        exact (union_contains _ _).1
      · intro _
        rw [hu]
        exact (union_contains _ _).2

theorem partition_loop_mem (inPositions : List vec3) (partPlane : fp.plane) :
    ∀ (l outLeft outRight L R : List Nat),
      partition_loop inPositions partPlane l outLeft outRight = some (L, R) →
      (∀ i, i ∈ L → i ∈ outLeft ∨ i ∈ l) ∧ (∀ i, i ∈ R → i ∈ outRight ∨ i ∈ l) := by
  intro l
  induction l using triple_induction with
  | h0 l h =>
    intro outLeft outRight L R hp
    have : partition_loop inPositions partPlane l outLeft outRight = some (outLeft, outRight) := by
      match l, h with
      | [], _ => rfl
      | [_], _ => rfl
      | [_, _], _ => rfl
      | _ :: _ :: _ :: _, h => simp at h; omega
    rw [this] at hp
    have e := Option.some.inj hp
    have e1 : outLeft = L := congrArg Prod.fst e
    have e2 : outRight = R := congrArg Prod.snd e
    subst e1
    subst e2
    exact ⟨fun i hi => Or.inl hi, fun i hi => Or.inl hi⟩
  | h3 a b c rest ih =>
    intro outLeft outRight L R hp
    rw [partition_loop] at hp
    cases hcls : fp.classify_plane_point partPlane (centroid inPositions a b c) fp.cEpsilon with
    | none =>
      rw [hcls] at hp
      exact Option.noConfusion hp
    | some cls =>
      rw [hcls] at hp
      simp only [] at hp
      by_cases hc : cls = classification_t.inside
      · rw [if_pos hc] at hp
        obtain ⟨h1, h2⟩ := ih _ _ L R hp
        refine ⟨?_, ?_⟩
        · intro i hi
          rcases h1 i hi with h | h
          · rcases List.mem_append.mp h with h | h
            · exact Or.inl h
            · right
              simp only [List.mem_cons, List.mem_singleton, List.not_mem_nil, or_false] at h ⊢
              rcases h with h | h | h
              · exact Or.inl h
              · exact Or.inr (Or.inl h)
              · exact Or.inr (Or.inr (Or.inl h))
          · right
            exact List.mem_cons_of_mem _ (List.mem_cons_of_mem _ (List.mem_cons_of_mem _ h))
        · intro i hi
          rcases h2 i hi with h | h
          · exact Or.inl h
          · right
            exact List.mem_cons_of_mem _ (List.mem_cons_of_mem _ (List.mem_cons_of_mem _ h))
      · rw [if_neg hc] at hp
        obtain ⟨h1, h2⟩ := ih _ _ L R hp
        refine ⟨?_, ?_⟩
        · intro i hi
          rcases h1 i hi with h | h
          · exact Or.inl h
          · right
            exact List.mem_cons_of_mem _ (List.mem_cons_of_mem _ (List.mem_cons_of_mem _ h))
        · intro i hi
          rcases h2 i hi with h | h
          · rcases List.mem_append.mp h with h | h
            · exact Or.inl h
            · right
              simp only [List.mem_cons, List.mem_singleton, List.not_mem_nil, or_false] at h ⊢
              rcases h with h | h | h
              · exact Or.inl h
              · exact Or.inr (Or.inl h)
              · exact Or.inr (Or.inr (Or.inl h))
          · right
            exact List.mem_cons_of_mem _ (List.mem_cons_of_mem _ (List.mem_cons_of_mem _ h))

/-- Both output lists of `top_down_partition` hold indices of the input list only. -/
theorem top_down_partition_mem (nodeBV : aabb) (inPositions : List vec3) (inIndices : List Nat)
    (ok : Bool) (L R : List Nat)
    (h : top_down_partition nodeBV inPositions inIndices = some (ok, L, R)) :
    (∀ i, i ∈ L → i ∈ inIndices) ∧ (∀ i, i ∈ R → i ∈ inIndices) := by
  unfold top_down_partition at h
  cases hp : partition_loop inPositions (partition_plane nodeBV inPositions inIndices)
      inIndices [] [] with
  | none =>
    rw [hp] at h
    exact Option.noConfusion h
  | some res =>
    obtain ⟨L1, R1⟩ := res
    rw [hp] at h
    simp only [] at h
    obtain ⟨m1, m2⟩ := partition_loop_mem _ _ _ _ _ _ _ hp
    have hLR : L1 = L ∧ R1 = R := by
      by_cases hz : L1.length = 0 ∨ R1.length = 0
      · rw [if_pos hz] at h
        have e := Option.some.inj h
        exact ⟨congrArg (fun x => x.2.1) e, congrArg (fun x => x.2.2) e⟩
      · rw [if_neg hz] at h
        have e := Option.some.inj h
        exact ⟨congrArg (fun x => x.2.1) e, congrArg (fun x => x.2.2) e⟩
    rw [← hLR.1, ← hLR.2]
    refine ⟨?_, ?_⟩
    · intro i hi
      rcases m1 i hi with h | h
      · exact absurd h (List.not_mem_nil _)
      · exact h
    · intro i hi
      rcases m2 i hi with h | h
      · exact absurd h (List.not_mem_nil _)
      · exact h

/-- The volume of a nonempty part of an index list lies within the volume of the list. -/
theorem compute_bv_contains_part (positions : List vec3) (idx part : List Nat)
    (hfin : finite_coords positions idx) (hne : part ≠ [])
    (hsub : ∀ i, i ∈ part → i ∈ idx) :
    aabb.contains (compute_bv positions idx) (compute_bv positions part) := by
  have hidx : idx ≠ [] := by
    intro h
    obtain ⟨i0, hi0⟩ := List.exists_mem_of_ne_nil part hne
    have := hsub i0 hi0
    rw [h] at this
    exact absurd this (List.not_mem_nil _)
  have hW := compute_bv_is_bounding_box positions idx hidx hfin
  have hb := compute_bv_is_bounding_box positions part hne (fun i hi => hfin i (hsub i hi))
  apply contains_of_get
  intro a ha
  have := is_bounding_box_within positions part idx _ _ hb hW hsub a ha
  exact ⟨this.1, this.2.2⟩

/-- With fuel above the number of triangles `top_down_bvh` returns, and for at least one
triangle over finite coordinates the tree it returns has nested volumes. -/
theorem top_down_bvh_nested (positions : List vec3) :
    ∀ (fuel : Nat) (posIndices : List Nat) (nodeCounter : Int) (tree : bvh_ptr),
      posIndices.length / 3 < fuel → finite_coords positions posIndices →
      ∃ r, top_down_bvh positions fuel nodeCounter tree posIndices = some r ∧
        (1 ≤ posIndices.length / 3 →
          r.1 ≠ bvh_ptr.null ∧ mBV r.1 = compute_bv positions posIndices ∧ nested r.1) := by
  intro fuel
  induction fuel with
  | zero =>
    intro posIndices nodeCounter tree h
    omega
  | succ fuel ih =>
    intro posIndices nodeCounter tree h hfin
    rw [top_down_bvh]
    by_cases h0 : posIndices.length / 3 = 0
    · rw [if_pos h0]
      exact ⟨_, rfl, fun h1 => absurd h1 (by omega)⟩
    · rw [if_neg h0]
      simp only []
      by_cases h1 : posIndices.length / 3 = 1
      · rw [if_pos h1]
        exact ⟨_, rfl, fun _ => ⟨by simp, rfl, by simp [nested]⟩⟩
      · rw [if_neg h1]
        obtain ⟨ok, L, R, hp, hlen⟩ := top_down_partition_some (compute_bv positions posIndices)
          positions posIndices
        obtain ⟨mL, mR⟩ := top_down_partition_mem _ _ _ _ _ _ hp
        rw [hp]
        simp only []
        cases ok with
        | false =>
          simp only [if_true]
          exact ⟨_, rfl, fun _ => ⟨by simp, rfl, by simp [nested]⟩⟩
        | true =>
          simp only [Bool.true_eq_false, if_false]
          obtain ⟨hL1, hR1, hl, hr⟩ := hlen rfl
          have hLne : L ≠ [] := by
            intro e
            rw [e] at hL1
            simp at hL1
          have hRne : R ≠ [] := by
            intro e
            rw [e] at hR1
            simp at hR1
          obtain ⟨rl, el, fl⟩ := ih L (nodeCounter + 1) bvh_ptr.null (by omega)
            (fun i hi => hfin i (mL i hi))
          rw [el]
          simp only []
          obtain ⟨rr, er, fr⟩ := ih R rl.2 bvh_ptr.null (by omega)
            (fun i hi => hfin i (mR i hi))
          rw [er]
          obtain ⟨_, bl, nl⟩ := fl hL1
          obtain ⟨_, br, nr⟩ := fr hR1
          refine ⟨_, rfl, fun _ => ⟨by simp, rfl, ?_⟩⟩
          simp only [nested]
          refine ⟨fun _ => ?_, fun _ => ?_, nl, nr⟩
          · rw [bl]
            exact compute_bv_contains_part positions posIndices L hfin hLne mL
          · rw [br]
            exact compute_bv_contains_part positions posIndices R hfin hRne mR

/-- C30 (counterexample): in the bottom-up build of `far_mesh` the first round merges the
two halves of the square; in the second round the only pair has a union box whose
surface-area score overflows to infinity, so `find_merge_candidates` returns the default
box [-1/2, 1/2]^3 with the indices of the first round. The root gets that box and the
children "square" and "far triangle": neither child lies within the root's box and the
root's box is not the union box of its children. -/
theorem bottom_up_root_not_nested :
    (construct_bvh init far_mesh bvh_construction_method.bottom_up).map (fun t => t.mRoot) =
      some (bvh_ptr.node {} 4 tree_node_type.internal []
        (bvh_ptr.node { mMinPos := ⟨0, 0, 0⟩, mMaxPos := ⟨1, 1, 0⟩ } 3 tree_node_type.internal []
          (bvh_ptr.node { mMinPos := ⟨0, 0, 0⟩, mMaxPos := ⟨1, 1, 0⟩ } 0 tree_node_type.leaf
            [0, 1, 2] bvh_ptr.null bvh_ptr.null)
          (bvh_ptr.node { mMinPos := ⟨0, 0, 0⟩, mMaxPos := ⟨1, 1, 0⟩ } 1 tree_node_type.leaf
            [1, 3, 2] bvh_ptr.null bvh_ptr.null))
        (bvh_ptr.node { mMinPos := ⟨0, 0, 0⟩, mMaxPos := ⟨2 ^ 70, 2 ^ 70, 2 ^ 70⟩ } 2
          tree_node_type.leaf [4, 5, 6] bvh_ptr.null bvh_ptr.null)) ∧
    ¬ nested (((construct_bvh init far_mesh bvh_construction_method.bottom_up).map
      (fun t => t.mRoot)).getD bvh_ptr.null) ∧
    ¬ union_boxes (((construct_bvh init far_mesh bvh_construction_method.bottom_up).map
      (fun t => t.mRoot)).getD bvh_ptr.null) := by
  have h : (construct_bvh init far_mesh bvh_construction_method.bottom_up).map (fun t => t.mRoot) =
      some (bvh_ptr.node {} 4 tree_node_type.internal []
        (bvh_ptr.node { mMinPos := ⟨0, 0, 0⟩, mMaxPos := ⟨1, 1, 0⟩ } 3 tree_node_type.internal []
          (bvh_ptr.node { mMinPos := ⟨0, 0, 0⟩, mMaxPos := ⟨1, 1, 0⟩ } 0 tree_node_type.leaf
            [0, 1, 2] bvh_ptr.null bvh_ptr.null)
          (bvh_ptr.node { mMinPos := ⟨0, 0, 0⟩, mMaxPos := ⟨1, 1, 0⟩ } 1 tree_node_type.leaf
            [1, 3, 2] bvh_ptr.null bvh_ptr.null))
        (bvh_ptr.node { mMinPos := ⟨0, 0, 0⟩, mMaxPos := ⟨2 ^ 70, 2 ^ 70, 2 ^ 70⟩ } 2
          tree_node_type.leaf [4, 5, 6] bvh_ptr.null bvh_ptr.null)) := by
    decide!
  refine ⟨h, ?_, ?_⟩
  · rw [h]
    simp only [Option.getD_some, nested]
    intro hn
    have := hn.2.1 (by simp)
    unfold aabb.contains mBV at this
    simp only [vec3.splat] at this
    norm_num at this
  · rw [h]
    simp only [Option.getD_some, union_boxes]
    intro hu
    have := congrArg (fun b => b.mMaxPos.x) hu.2.2.1
    simp only [mBV, vec3.max, vec3.splat] at this
    norm_num at this

/-- C30 (amended): for every triangle list with at least one triangle, indices in range and
finite vertex coordinates, the top-down tree has nested volumes (each child's box lies
within its parent's box), and when the surface-area score of the AABB of the whole input,
computed in `float` as `find_merge_candidates` computes it, is below `FLT_MAX` the bottom-up
tree has nested volumes too and each of its internal nodes has exactly the union box of its
two children. -/
theorem built_trees_nested (positions : List vec3) (posIndices : List Nat)
    (hlen : 3 ≤ posIndices.length) (hvalid : valid_input positions posIndices) :
    (∃ t, construct_bvh init ⟨positions, posIndices⟩ bvh_construction_method.top_down = some t ∧
      t.mRoot ≠ bvh_ptr.null ∧ nested t.mRoot) ∧
    (float.lt (surface_area (compute_bv positions posIndices).mMinPos
        (compute_bv positions posIndices).mMaxPos) fp.FLT_MAX = true →
      ∃ t, construct_bvh init ⟨positions, posIndices⟩ bvh_construction_method.bottom_up = some t ∧
        t.mRoot ≠ bvh_ptr.null ∧ nested t.mRoot ∧ union_boxes t.mRoot) := by
  constructor
  · obtain ⟨r, hr, hroot⟩ := top_down_bvh_nested positions (posIndices.length / 3 + 1) posIndices 0
      bvh_ptr.null (by omega) hvalid.2
    rw [construct_bvh_init_top_down]
    simp only []
    rw [hr]
    obtain ⟨h1, _, h3⟩ := hroot (by omega)
    exact ⟨_, rfl, h1, h3⟩
  · intro harea
    obtain ⟨root, counter, hr, hshape, _, _⟩ :=
      bottom_up_bvh_result positions posIndices 0 hlen hvalid.2 harea
    rw [construct_bvh_init_bottom_up]
    simp only []
    rw [hr]
    obtain ⟨hu, hn⟩ := shape_union_nested positions root hshape
    exact ⟨_, rfl, shape_ne_null positions root hshape, hn, hu⟩

/-- Witness for C30: the two triangles of the unit square. -/
theorem built_trees_nested_witness :
    valid_input square_mesh.positions square_mesh.mPosIndices ∧
    (∃ t, construct_bvh init ⟨square_mesh.positions, square_mesh.mPosIndices⟩
        bvh_construction_method.top_down = some t ∧
      t.mRoot ≠ bvh_ptr.null ∧ nested t.mRoot) ∧
    (∃ t, construct_bvh init ⟨square_mesh.positions, square_mesh.mPosIndices⟩
        bvh_construction_method.bottom_up = some t ∧
      t.mRoot ≠ bvh_ptr.null ∧ nested t.mRoot ∧ union_boxes t.mRoot) :=
  ⟨by unfold valid_input finite_coords; decide!,
    (built_trees_nested square_mesh.positions square_mesh.mPosIndices (by decide)
      (by unfold valid_input finite_coords; decide!)).1,
    (built_trees_nested square_mesh.positions square_mesh.mPosIndices (by decide)
      (by unfold valid_input finite_coords; decide!)).2 (by decide!)⟩

end bvh_tree

/-! ## Ray against box: the first hit -/

namespace ideal

theorem point_at_get (r : ray) (s : ℚ) (a : Nat) :
    (r.point_at s).get a = r.mOrigin.get a + s * r.mDir.get a := by
  have e : r.point_at s = ⟨r.mOrigin.x + s * r.mDir.x, r.mOrigin.y + s * r.mDir.y,
      r.mOrigin.z + s * r.mDir.z⟩ := rfl
  rw [e]
  unfold vec3.get
  split <;> rfl

theorem intersection_point_aabb_iff (p : vec3) (box : aabb) :
    intersection_point_aabb p box = true ↔
      ∀ a, a < 3 → box.mMinPos.get a ≤ p.get a ∧ p.get a ≤ box.mMaxPos.get a := by
  unfold intersection_point_aabb
  constructor
  · intro h
    by_cases hx : p.x < box.mMinPos.x ∨ p.x > box.mMaxPos.x
    · rw [if_pos hx] at h
      exact absurd h (by decide)
    · rw [if_neg hx] at h
      by_cases hy : p.y < box.mMinPos.y ∨ p.y > box.mMaxPos.y
      · rw [if_pos hy] at h
        exact absurd h (by decide)
      · rw [if_neg hy] at h
        by_cases hz : p.z < box.mMinPos.z ∨ p.z > box.mMaxPos.z
        · rw [if_pos hz] at h
          exact absurd h (by decide)
        · intro a ha
          rw [not_or, not_lt, not_lt] at hx hy hz
          interval_cases a
          · exact hx
          · exact hy
          · exact hz
  · intro h
    have hx := h 0 (by decide)
    have hy := h 1 (by decide)
    have hz := h 2 (by decide)
    simp only [vec3.get] at hx hy hz
    rw [if_neg (by rw [not_or, not_lt, not_lt]; exact hx),
      if_neg (by rw [not_or, not_lt, not_lt]; exact hy),
      if_neg (by rw [not_or, not_lt, not_lt]; exact hz)]

/-- For a direction component other than 0 and a slab `[lo, hi]`, the ray is in the slab
exactly between the two crossing parameters, taken in increasing order. -/
theorem slab_iff (lo hi o d s : ℚ) (hd : d ≠ 0) (hbox : lo ≤ hi) :
    (lo ≤ o + s * d ∧ o + s * d ≤ hi) ↔
      ((if (lo - o) / d > (hi - o) / d then (hi - o) / d else (lo - o) / d) ≤ s ∧
        s ≤ (if (lo - o) / d > (hi - o) / d then (lo - o) / d else (hi - o) / d)) := by
  rcases lt_or_gt_of_ne hd with hneg | hpos
  · have h1 : (hi - o) / d ≤ (lo - o) / d := by
      apply div_le_div_of_nonpos_of_le (le_of_lt hneg)
      linarith
    have e1 : ∀ x, (x - o) / d ≤ s ↔ s * d ≤ x - o := fun x => div_le_iff_of_neg hneg
    have e2 : ∀ x, s ≤ (x - o) / d ↔ x - o ≤ s * d := fun x => le_div_iff_of_neg hneg
    by_cases hgt : (lo - o) / d > (hi - o) / d
    · rw [if_pos hgt, if_pos hgt, e1, e2]
      constructor
      · rintro ⟨a, b⟩
        exact ⟨by linarith, by linarith⟩
      · rintro ⟨a, b⟩
        exact ⟨by linarith, by linarith⟩
    · rw [if_neg hgt, if_neg hgt]
      have heq : (lo - o) / d = (hi - o) / d := le_antisymm (not_lt.mp hgt) h1
      have hlh : lo = hi := by
        have := congrArg (fun x => x * d) heq
        simp only [div_mul_cancel₀ _ hd] at this
        linarith
      rw [e1, e2]
      constructor
      · rintro ⟨a, b⟩
        exact ⟨by linarith, by linarith⟩
      · rintro ⟨a, b⟩
        exact ⟨by linarith, by linarith⟩
  · have h1 : (lo - o) / d ≤ (hi - o) / d := by
      apply div_le_div_of_nonneg_right _ (le_of_lt hpos)
      linarith
    have e1 : ∀ x, (x - o) / d ≤ s ↔ x - o ≤ s * d := fun x => div_le_iff₀ hpos
    have e2 : ∀ x, s ≤ (x - o) / d ↔ s * d ≤ x - o := fun x => le_div_iff₀ hpos
    rw [if_neg (not_lt.mpr h1), if_neg (not_lt.mpr h1), e1, e2]
    constructor
    · rintro ⟨a, b⟩
      exact ⟨by linarith, by linarith⟩
    · rintro ⟨a, b⟩
      exact ⟨by linarith, by linarith⟩

/-- One round of the slab loop: the running interval shrinks, stays nonempty, lies in the
slab of the axis, and when its lower end moved, no smaller parameter is in the slab. -/
theorem ray_aabb_slab_spec (r : ray) (box : aabb) (a : Nat) (t t1 : ℚ × ℚ)
    (hbox : box.mMinPos.get a ≤ box.mMaxPos.get a)
    (hdir : r.mDir.get a = 0 ∨ cEpsilon < |r.mDir.get a|)
    (h : ray_aabb_slab r box a t = some t1) :
    t.1 ≤ t1.1 ∧ t1.2 ≤ t.2 ∧ (t.1 ≤ t.2 → t1.1 ≤ t1.2) ∧
      (∀ s, t1.1 ≤ s → s ≤ t1.2 → r.in_slab box a s) ∧
      (t1.1 = t.1 ∨ ∀ s, s < t1.1 → ¬ r.in_slab box a s) := by
  unfold ray_aabb_slab at h
  by_cases heq : are_equal (r.mDir.get a) 0 = true
  · rw [if_pos heq] at h
    have hd0 : r.mDir.get a = 0 := by
      rcases hdir with h0 | h0
      · exact h0
      · exfalso
        unfold are_equal at heq
        by_cases hc : r.mDir.get a ≤ 0 + cEpsilon ∧ r.mDir.get a ≥ 0 - cEpsilon
        · have : |r.mDir.get a| ≤ cEpsilon := abs_le.mpr ⟨by linarith [hc.2], by linarith [hc.1]⟩
          linarith
        · rw [if_neg hc] at heq
          exact absurd heq (by decide)
    by_cases hout : r.mOrigin.get a < box.mMinPos.get a ∨ r.mOrigin.get a > box.mMaxPos.get a
    · rw [if_pos hout] at h
      exact Option.noConfusion h
    · rw [if_neg hout] at h
      have e := Option.some.inj h
      subst e
      rw [not_or, not_lt, not_lt] at hout
      refine ⟨le_refl _, le_refl _, fun x => x, ?_, Or.inl rfl⟩
      intro s _ _
      unfold ray.in_slab
      rw [point_at_get, hd0, mul_zero, add_zero]
      exact hout
  · rw [if_neg heq] at h
    have hd : r.mDir.get a ≠ 0 := by
      intro h0
      apply heq
      unfold are_equal
      rw [h0, if_pos]
      constructor <;> linarith [cEpsilon_pos]
    have hslab := fun s => slab_iff (box.mMinPos.get a) (box.mMaxPos.get a) (r.mOrigin.get a)
      (r.mDir.get a) s hd hbox
    simp only [] at h
    generalize hE : (if (box.mMinPos.get a - r.mOrigin.get a) / r.mDir.get a >
        (box.mMaxPos.get a - r.mOrigin.get a) / r.mDir.get a
      then (box.mMaxPos.get a - r.mOrigin.get a) / r.mDir.get a
      else (box.mMinPos.get a - r.mOrigin.get a) / r.mDir.get a) = tEnter at h hslab
    generalize hX : (if (box.mMinPos.get a - r.mOrigin.get a) / r.mDir.get a >
        (box.mMaxPos.get a - r.mOrigin.get a) / r.mDir.get a
      then (box.mMinPos.get a - r.mOrigin.get a) / r.mDir.get a
      else (box.mMaxPos.get a - r.mOrigin.get a) / r.mDir.get a) = tExit at h hslab
    have hin : ∀ s, r.in_slab box a s ↔ (tEnter ≤ s ∧ s ≤ tExit) := by
      intro s
      unfold ray.in_slab
      rw [point_at_get]
      exact hslab s
    by_cases hrej : (if tEnter > t.1 then tEnter else t.1) > (if tExit < t.2 then tExit else t.2)
    · rw [if_pos hrej] at h
      exact Option.noConfusion h
    · rw [if_neg hrej] at h
      have e := Option.some.inj h
      subst e
      simp only []
      rw [not_lt] at hrej
      by_cases h1 : tEnter > t.1
      · rw [if_pos h1] at hrej ⊢
        by_cases h2 : tExit < t.2
        · rw [if_pos h2] at hrej ⊢
          refine ⟨le_of_lt h1, le_of_lt h2, fun _ => hrej, ?_, Or.inr ?_⟩
          · intro s hs1 hs2
            exact (hin s).mpr ⟨hs1, hs2⟩
          · intro s hs hslab1
            have := ((hin s).mp hslab1).1
            linarith
        · rw [if_neg h2] at hrej ⊢
          refine ⟨le_of_lt h1, le_refl _, fun _ => hrej, ?_, Or.inr ?_⟩
          · intro s hs1 hs2
            exact (hin s).mpr ⟨hs1, le_trans hs2 (not_lt.mp h2)⟩
          · intro s hs hslab1
            have := ((hin s).mp hslab1).1
            linarith
      · rw [if_neg h1] at hrej ⊢
        by_cases h2 : tExit < t.2
        · rw [if_pos h2] at hrej ⊢
          refine ⟨le_refl _, le_of_lt h2, fun _ => hrej, ?_, Or.inl rfl⟩
          intro s hs1 hs2
          exact (hin s).mpr ⟨le_trans (not_lt.mp h1) hs1, hs2⟩
        · rw [if_neg h2] at hrej ⊢
          refine ⟨le_refl _, le_refl _, fun _ => hrej, ?_, Or.inl rfl⟩
          intro s hs1 hs2
          exact (hin s).mpr ⟨le_trans (not_lt.mp h1) hs1, le_trans hs2 (not_lt.mp h2)⟩

/-- The upper end of the running interval only decreases along the slab loop. -/
theorem ray_aabb_loop_upper (r : ray) (box : aabb)
    (hbox : ∀ a, a < 3 → box.mMinPos.get a ≤ box.mMaxPos.get a)
    (hdir : ∀ a, a < 3 → r.mDir.get a = 0 ∨ cEpsilon < |r.mDir.get a|) :
    ∀ (k i : Nat) (t t1 : ℚ × ℚ), ray_aabb_loop r box k i t = some t1 →
      i + k ≤ 3 → t1.2 ≤ t.2 := by
  intro k
  induction k with
  | zero =>
    intro i t t1 h _
    rw [ray_aabb_loop] at h
    have e := Option.some.inj h
    subst e
    exact le_refl _
  | succ k ih =>
    intro i t t1 h hk
    rw [ray_aabb_loop] at h
    cases hs : ray_aabb_slab r box i t with
    | none =>
      rw [hs] at h
      exact Option.noConfusion h
    | some t2 =>
      rw [hs] at h
      simp only [] at h
      have b := (ray_aabb_slab_spec r box i t t2 (hbox i (by omega)) (hdir i (by omega)) hs).2.1
      exact le_trans (ih (i + 1) t2 t1 h (by omega)) b

/-- Invariant of the slab loop over the axes `i, ..., i + k - 1`. -/
theorem ray_aabb_loop_spec (r : ray) (box : aabb)
    (hbox : ∀ a, a < 3 → box.mMinPos.get a ≤ box.mMaxPos.get a)
    (hdir : ∀ a, a < 3 → r.mDir.get a = 0 ∨ cEpsilon < |r.mDir.get a|) :
    ∀ (k i : Nat) (t t1 : ℚ × ℚ), i + k ≤ 3 → t.1 ≤ t.2 →
      ray_aabb_loop r box k i t = some t1 →
      t.1 ≤ t1.1 ∧ t1.1 ≤ t1.2 ∧
        (∀ a, i ≤ a → a < i + k → ∀ s, t1.1 ≤ s → s ≤ t1.2 → r.in_slab box a s) ∧
        (t1.1 = t.1 ∨ ∃ a, i ≤ a ∧ a < i + k ∧ ∀ s, s < t1.1 → ¬ r.in_slab box a s) := by
  intro k
  induction k with
  | zero =>
    intro i t t1 _ ht h
    rw [ray_aabb_loop] at h
    have e := Option.some.inj h
    subst e
    refine ⟨le_refl _, ht, ?_, Or.inl rfl⟩
    intro a h1 h2
    omega
  | succ k ih =>
    intro i t t1 hik ht h
    rw [ray_aabb_loop] at h
    cases hs : ray_aabb_slab r box i t with
    | none =>
      rw [hs] at h
      exact Option.noConfusion h
    | some t2 =>
      rw [hs] at h
      simp only [] at h
      obtain ⟨s1, s2, s3, s4, s5⟩ := ray_aabb_slab_spec r box i t t2 (hbox i (by omega))
        (hdir i (by omega)) hs
      obtain ⟨l1, l2, l3, l4⟩ := ih (i + 1) t2 t1 (by omega) (s3 ht) h
      refine ⟨le_trans s1 l1, l2, ?_, ?_⟩
      · intro a ha1 ha2 s hs1 hs2
        by_cases hai : a = i
        · subst hai
          have hmono : t1.2 ≤ t2.2 :=
            ray_aabb_loop_upper r box hbox hdir k (a + 1) t2 t1 h (by omega)
          exact s4 s (le_trans l1 hs1) (le_trans hs2 hmono)
        · exact l3 a (by omega) (by omega) s hs1 hs2
      · rcases l4 with e | ⟨a, ha1, ha2, hfirst⟩
        · rcases s5 with e2 | hfirst
          · left
            rw [e, e2]
          · right
            refine ⟨i, le_refl _, by omega, ?_⟩
            intro s hs
            rw [e] at hs
            exact hfirst s hs
        · right
          exact ⟨a, by omega, by omega, hfirst⟩

/-- In exact arithmetic, for every box with min <= max on every axis and every ray whose
direction components are each exactly 0 or of magnitude above 1e-6, the statements of
`intersection_ray_aabb` give -1 or a value t >= 0 such that the point `origin + t * dir`
lies in the box and no parameter t' with 0 <= t' < t gives a point in the box. -/
theorem ray_first_hit (r : ray) (box : aabb)
    (hbox : ∀ a, a < 3 → box.mMinPos.get a ≤ box.mMaxPos.get a)
    (hdir : ∀ a, a < 3 → r.mDir.get a = 0 ∨ cEpsilon < |r.mDir.get a|) :
    intersection_ray_aabb r box = -1 ∨
      (0 ≤ intersection_ray_aabb r box ∧
        intersection_point_aabb (r.point_at (intersection_ray_aabb r box)) box = true ∧
        ∀ s, 0 ≤ s → s < intersection_ray_aabb r box →
          intersection_point_aabb (r.point_at s) box = false) := by
  unfold intersection_ray_aabb
  cases hl : ray_aabb_loop r box 3 0 (0, FLT_MAX) with
  | none =>
    left
    rfl
  | some t1 =>
    right
    simp only []
    have hF : (0 : ℚ) ≤ FLT_MAX := by
      unfold FLT_MAX
      norm_num
    obtain ⟨l1, l2, l3, l4⟩ := ray_aabb_loop_spec r box hbox hdir 3 0 (0, FLT_MAX) t1
      (by omega) hF hl
    simp only [] at l1 l4
    have hres : (if t1.1 > 0 then t1.1 else 0) = t1.1 := by
      by_cases hp : t1.1 > 0
      · rw [if_pos hp]
      · rw [if_neg hp]
        linarith
    rw [hres]
    refine ⟨l1, ?_, ?_⟩
    · rw [intersection_point_aabb_iff]
      intro a ha
      exact l3 a (by omega) (by omega) t1.1 (le_refl _) l2
    · intro s hs0 hs1
      rcases l4 with e | ⟨a, _, ha, hfirst⟩
      · rw [e] at hs1
        linarith
      · cases hb : intersection_point_aabb (r.point_at s) box with
        | false => rfl
        | true =>
          exfalso
          exact hfirst s hs1 ((intersection_point_aabb_iff _ _).mp hb a (by omega))

end ideal

/-- C21 (counterexample): the unit cube [-1/2, 1/2]^3. For the ray from (-15/2, 0, 0) with
direction (10, 0, 0) the function returns 11744051 / 2^24, the binary32 value below 7/10,
and the point of the ray at that parameter is outside the box. For the ray from
(-3/2, 0, 0) with direction (3, 0, 0) it returns 11184811 / 2^25, the binary32 value above
1/3, although the point at the smaller parameter 1/3 is in the box. -/
theorem intersection_ray_aabb_not_first_hit :
    (∀ a, a < 3 → unit_cube.mMinPos.get a ≤ unit_cube.mMaxPos.get a) ∧
    (∀ a, a < 3 → tenth_ray.mDir.get a = 0 ∨ cEpsilon < |tenth_ray.mDir.get a|) ∧
    fp.intersection_ray_aabb tenth_ray.to_fp unit_cube.to_fp =
      float.fin (11744051 / 16777216) ∧
    intersection_point_aabb (tenth_ray.point_at (11744051 / 16777216)) unit_cube = false ∧
    (∀ a, a < 3 → third_ray.mDir.get a = 0 ∨ cEpsilon < |third_ray.mDir.get a|) ∧
    fp.intersection_ray_aabb third_ray.to_fp unit_cube.to_fp =
      float.fin (11184811 / 33554432) ∧
    (1 : ℚ) / 3 < 11184811 / 33554432 ∧
    intersection_point_aabb (third_ray.point_at (1 / 3)) unit_cube = true := by
  refine ⟨?_, ?_, by decide!, by decide!, ?_, by decide!, by norm_num, by decide!⟩
  · intro a ha
    interval_cases a <;> decide!
  · intro a ha
    interval_cases a <;> decide!
  · intro a ha
    interval_cases a <;> decide!

/-- C21 (amended): `intersection_ray_aabb` returns -1 or a value that is not negative. For
every box with min <= max on every axis and every ray whose direction components are each
exactly 0 or of magnitude above the module epsilon, if on every axis with a nonzero
direction component the differences `face - origin` and the slab parameters
`(face - origin) / dir` of the two faces are binary32 values (no operation of the function
rounds), then the function returns -1 or a value t >= 0 such that the point
`origin + t * dir` lies in the box and no parameter t' with 0 <= t' < t gives a point in
the box. -/
theorem intersection_ray_aabb_first_hit (r : ray) (box : aabb) :
    (fp.intersection_ray_aabb r.to_fp box.to_fp = float.fin (-1) ∨
      float.le (float.fin 0) (fp.intersection_ray_aabb r.to_fp box.to_fp) = true) ∧
    ((∀ a, a < 3 → box.mMinPos.get a ≤ box.mMaxPos.get a) →
      (∀ a, a < 3 → r.mDir.get a = 0 ∨ cEpsilon < |r.mDir.get a|) →
      (∀ a, a < 3 → r.mDir.get a ≠ 0 →
        representable (box.mMinPos.get a - r.mOrigin.get a) ∧
        representable (box.mMaxPos.get a - r.mOrigin.get a) ∧
        representable ((box.mMinPos.get a - r.mOrigin.get a) / r.mDir.get a) ∧
        representable ((box.mMaxPos.get a - r.mOrigin.get a) / r.mDir.get a)) →
      fp.intersection_ray_aabb r.to_fp box.to_fp = float.fin (-1) ∨
        ∃ t, fp.intersection_ray_aabb r.to_fp box.to_fp = float.fin t ∧ 0 ≤ t ∧
          intersection_point_aabb (r.point_at t) box = true ∧
          ∀ s, 0 ≤ s → s < t → intersection_point_aabb (r.point_at s) box = false) := by
  refine ⟨fp_intersection_ray_aabb_range _ _, ?_⟩
  intro hbox hdir hex
  rw [fp_intersection_ray_aabb_exact r box hdir hex]
  rcases ideal.ray_first_hit r box hbox hdir with h | ⟨h1, h2, h3⟩
  · left
    rw [h]
  · right
    exact ⟨_, rfl, h1, h2, h3⟩

/-- Witness for C21: the unit cube [-1/2, 1/2]^3 and the ray from (-2, 0, 0) with direction
(1, 0, 0). -/
theorem intersection_ray_aabb_first_hit_witness :
    (∀ a, a < 3 → unit_cube.mMinPos.get a ≤ unit_cube.mMaxPos.get a) ∧
    (∀ a, a < 3 → axis_ray.mDir.get a = 0 ∨ cEpsilon < |axis_ray.mDir.get a|) ∧
    (∀ a, a < 3 → axis_ray.mDir.get a ≠ 0 →
      representable (unit_cube.mMinPos.get a - axis_ray.mOrigin.get a) ∧
      representable (unit_cube.mMaxPos.get a - axis_ray.mOrigin.get a) ∧
      representable ((unit_cube.mMinPos.get a - axis_ray.mOrigin.get a) / axis_ray.mDir.get a) ∧
      representable ((unit_cube.mMaxPos.get a - axis_ray.mOrigin.get a) / axis_ray.mDir.get a)) ∧
    (fp.intersection_ray_aabb axis_ray.to_fp unit_cube.to_fp = float.fin (-1) ∨
      ∃ t, fp.intersection_ray_aabb axis_ray.to_fp unit_cube.to_fp = float.fin t ∧ 0 ≤ t ∧
        intersection_point_aabb (axis_ray.point_at t) unit_cube = true ∧
        ∀ s, 0 ≤ s → s < t → intersection_point_aabb (axis_ray.point_at s) unit_cube = false) :=
  ⟨by intro a ha; interval_cases a <;> decide!,
    by intro a ha; interval_cases a <;> decide!,
    by intro a ha; interval_cases a <;> (unfold representable; decide!),
    (intersection_ray_aabb_first_hit axis_ray unit_cube).2
      (by intro a ha; interval_cases a <;> decide!)
      (by intro a ha; interval_cases a <;> decide!)
      (by intro a ha; interval_cases a <;> (unfold representable; decide!))⟩

/-! ## Point in triangle -/

theorem vec3_sub_def (u v : vec3) : u - v = ⟨u.x - v.x, u.y - v.y, u.z - v.z⟩ := rfl

theorem vec3_add_def (u v : vec3) : u + v = ⟨u.x + v.x, u.y + v.y, u.z + v.z⟩ := rfl

/-- For the point `p = a A + b B + c C` with `a + b + c = 1` the three cross products of
`intersection_point_triangle` are `c N`, `a N` and `b N`, `N` the normal of the triangle. -/
theorem cross_combination (tri : triangle) (a b c : ℚ) (hsum : a + b + c = 1) :
    cross (tri.mPos1 - tri.combination a b c) (tri.mPos2 - tri.combination a b c) =
      vec3.smul c tri.normal ∧
    cross (tri.mPos2 - tri.combination a b c) (tri.mPos3 - tri.combination a b c) =
      vec3.smul a tri.normal ∧
    cross (tri.mPos3 - tri.combination a b c) (tri.mPos1 - tri.combination a b c) =
      vec3.smul b tri.normal := by
  have ha : a = 1 - b - c := by linarith
  subst ha
  obtain ⟨⟨ax, ay, az⟩, ⟨bx, b_y, bz⟩, ⟨cx, cy, cz⟩⟩ := tri
  simp only [triangle.combination, triangle.normal, cross, vec3.smul, vec3_sub_def, vec3_add_def,
    vec3.mk.injEq]
  refine ⟨⟨?_, ?_, ?_⟩, ⟨?_, ?_, ?_⟩, ⟨?_, ?_, ?_⟩⟩ <;> ring

/-- C22 (code bug): for the triangle (0,0,0), (1,0,0), (0,1,0), which is not degenerate,
`intersection_point_triangle` returns true for the point (2, 0, 0), which lies in the
plane of the triangle on the line through the first two vertices, and for the point
(1/4, 1/4, 1/8) above the triangle; neither point is contained in the triangle. All the
coordinates and every intermediate value are binary32 values, no operation rounds. -/
theorem intersection_point_triangle_accepts_outside :
    corner_triangle.normal ≠ ⟨0, 0, 0⟩ ∧
    fp.intersection_point_triangle (vec3.to_fp ⟨2, 0, 0⟩) corner_triangle.to_fp = true ∧
    ¬ corner_triangle.contains ⟨2, 0, 0⟩ ∧
    fp.intersection_point_triangle (vec3.to_fp ⟨1 / 4, 1 / 4, 1 / 8⟩) corner_triangle.to_fp = true ∧
    ¬ corner_triangle.contains ⟨1 / 4, 1 / 4, 1 / 8⟩ := by
  refine ⟨by decide!, by decide!, ?_, by decide!, ?_⟩
  · rintro ⟨a, b, c, ha, _, _, hsum, h⟩
    have hx := congrArg vec3.x h
    have hy := congrArg vec3.y h
    simp only [triangle.combination, corner_triangle, vec3_add_def, vec3.smul] at hx hy
    norm_num at hx hy
    linarith
  · rintro ⟨a, b, c, _, _, _, _, h⟩
    have hz := congrArg vec3.z h
    simp only [triangle.combination, corner_triangle, vec3_add_def, vec3.smul] at hz
    norm_num at hz

/-! ## Point in triangle -/

namespace float

theorem sub_nonneg_of_le {x y : float} (h : le y x = true) : nonneg (x - y) := by
  rw [sub_def]
  rcases x with a | ⟨_ | _⟩ | _ <;> rcases y with b | ⟨_ | _⟩ | _ <;>
    simp_all [nonneg, add, neg, le]
  rw [← sub_eq_add_neg]
  exact nonneg_round (by linarith)

theorem nonpos_round {q : ℚ} (h : q ≤ 0) : nonpos (round q) := by
  rw [round_def]
  split
  · next hov =>
    have hq : q < 0 := by
      rcases lt_or_eq_of_le h with h1 | h1
      · exact h1
      · exfalso
        rw [h1] at hov
        have e0 : rounded 0 = 0 := rounded_exact 0 0 0 (by simp) (by norm_num) (by norm_num)
        rw [e0] at hov
        norm_num at hov
    simp [nonpos, hq]
  · have := rounded_nonneg (q := -q) (by linarith)
    rw [rounded_neg] at this
    simp only [nonpos]
    linarith

theorem sub_nonpos_of_le {x y : float} (h : le x y = true) : nonpos (x - y) := by
  rw [sub_def]
  rcases x with a | ⟨_ | _⟩ | _ <;> rcases y with b | ⟨_ | _⟩ | _ <;>
    simp_all [nonpos, add, neg, le]
  rw [← sub_eq_add_neg]
  exact nonpos_round (by linarith)

theorem mul_nonneg_of_nonpos {x y : float} (hx : nonpos x) (hy : nonpos y) : nonneg (x * y) := by
  rw [mul_def]
  rcases x with a | ⟨_ | _⟩ | _ <;> rcases y with b | ⟨_ | _⟩ | _ <;> simp_all [nonneg, nonpos, mul]
  · exact nonneg_round (mul_nonneg_of_nonpos_of_nonpos hx hy)
  · by_cases h0 : a = 0
    · simp [h0, nonneg]
    · have : a < 0 := lt_of_le_of_ne hx h0
      simp [h0, nonneg, this]
  · by_cases h0 : b = 0
    · simp [h0, nonneg]
    · have : b < 0 := lt_of_le_of_ne hy h0
      simp [h0, nonneg, this]

theorem not_lt_zero {x : float} (h : nonneg x) : lt x (fin 0) = false := by
  rcases x with a | ⟨_ | _⟩ | _ <;> simp_all [nonneg, lt]

end float

/-- A computed component `x1 * y1 - x2 * y2` of a cross product has the sign of its exact
value, or is zero or a NaN: rounding is monotone. -/
theorem cross_component_sign (x1 y1 x2 y2 : ℚ) :
    (0 ≤ x1 * y1 - x2 * y2 →
      float.nonneg (float.fin x1 * float.fin y1 - float.fin x2 * float.fin y2)) ∧
    (x1 * y1 - x2 * y2 ≤ 0 →
      float.nonpos (float.fin x1 * float.fin y1 - float.fin x2 * float.fin y2)) := by
  rw [float.mul_fin, float.mul_fin]
  constructor
  · intro h
    exact float.sub_nonneg_of_le (round_le_round (by linarith))
  · intro h
    exact float.sub_nonpos_of_le (round_le_round (by linarith))

/-- Two `float`s that have the signs of `s * n` and `t * n`, with `s, t >= 0`, have a
product that is not negative. -/
theorem mul_sign {u v : float} {s t n : ℚ} (hs : 0 ≤ s) (ht : 0 ≤ t)
    (hu : (0 ≤ s * n → float.nonneg u) ∧ (s * n ≤ 0 → float.nonpos u))
    (hv : (0 ≤ t * n → float.nonneg v) ∧ (t * n ≤ 0 → float.nonpos v)) :
    float.nonneg (u * v) := by
  rcases le_total 0 n with hn | hn
  · exact float.nonneg_mul (hu.1 (mul_nonneg hs hn)) (hv.1 (mul_nonneg ht hn))
  · exact float.mul_nonneg_of_nonpos (hu.2 (mul_nonpos_of_nonneg_of_nonpos hs hn))
      (hv.2 (mul_nonpos_of_nonneg_of_nonpos ht hn))

/-- The computed dot product of the computed cross products of two pairs of vectors whose
exact cross products are `s * N` and `t * N`, with `s, t >= 0`, is not negative. -/
theorem dot_cross_sign (a b c d N : vec3) (s t : ℚ) (hs : 0 ≤ s) (ht : 0 ≤ t)
    (h1 : cross a b = vec3.smul s N) (h2 : cross c d = vec3.smul t N) :
    float.nonneg (fp.dot (fp.cross a.to_fp b.to_fp) (fp.cross c.to_fp d.to_fp)) := by
  have e1x := congrArg vec3.x h1
  have e1y := congrArg vec3.y h1
  have e1z := congrArg vec3.z h1
  have e2x := congrArg vec3.x h2
  have e2y := congrArg vec3.y h2
  have e2z := congrArg vec3.z h2
  simp only [cross, vec3.smul] at e1x e1y e1z e2x e2y e2z
  have ux := cross_component_sign a.y b.z b.y a.z
  have uy := cross_component_sign a.z b.x b.z a.x
  have uz := cross_component_sign a.x b.y b.x a.y
  have vx := cross_component_sign c.y d.z d.y c.z
  have vy := cross_component_sign c.z d.x d.z c.x
  have vz := cross_component_sign c.x d.y d.x c.y
  rw [e1x] at ux
  rw [e1y] at uy
  rw [e1z] at uz
  rw [e2x] at vx
  rw [e2y] at vy
  rw [e2z] at vz
  exact float.nonneg_add (float.nonneg_add (mul_sign hs ht ux vx) (mul_sign hs ht uy vy))
    (mul_sign hs ht uz vz)

/-- C23 (counterexample): the triangle (2^-28, -3, 0), (1/32, 0, 0), (7/32768, 1/256, 0)
and the point p = 3/4 A + 1/4 B of its first edge. All coordinates are binary32 values, the
difference B - p is not one and is rounded, and the function returns false. -/
theorem intersection_point_triangle_rejects_inside :
    thin_triangle.combination (3 / 4) (1 / 4) 0 = ⟨8388611 / 1073741824, -9 / 4, 0⟩ ∧
    representable (8388611 / 1073741824) ∧ representable (1 / 268435456) ∧
    representable (7 / 32768) ∧
    ¬ representable (1 / 32 - 8388611 / 1073741824) ∧
    fp.intersection_point_triangle (thin_triangle.combination (3 / 4) (1 / 4) 0).to_fp
      thin_triangle.to_fp = false := by
  refine ⟨by decide!, ?_, ?_, ?_, ?_, by decide!⟩ <;> (unfold representable; decide!)

/-- C23 (amended): for every triangle A, B, C (degenerate or not) and every point
p = a A + b B + c C with a, b, c >= 0 and a + b + c = 1, points of an edge and vertices
included, such that the nine differences of the coordinates of a vertex and of p are
binary32 values (the subtractions `vertex - p` do not round),
`intersection_point_triangle(p, tri)` returns true. -/
theorem intersection_point_triangle_accepts (tri : triangle) (a b c : ℚ)
    (ha : 0 ≤ a) (hb : 0 ≤ b) (hc : 0 ≤ c) (hsum : a + b + c = 1)
    (h1 : ∀ i, i < 3 → representable ((tri.mPos1 - tri.combination a b c).get i))
    (h2 : ∀ i, i < 3 → representable ((tri.mPos2 - tri.combination a b c).get i))
    (h3 : ∀ i, i < 3 → representable ((tri.mPos3 - tri.combination a b c).get i)) :
    fp.intersection_point_triangle (tri.combination a b c).to_fp tri.to_fp = true := by
  have sub_exact_vec : ∀ (v w : vec3), (∀ i, i < 3 → representable ((v - w).get i)) →
      v.to_fp - w.to_fp = (v - w).to_fp := by
    intro v w h
    have hx := h 0 (by decide)
    have hy := h 1 (by decide)
    have hz := h 2 (by decide)
    simp only [vec3.get, vec3_sub_def] at hx hy hz
    have e : v.to_fp - w.to_fp = ⟨float.fin v.x - float.fin w.x, float.fin v.y - float.fin w.y,
        float.fin v.z - float.fin w.z⟩ := rfl
    rw [e, float.sub_fin, float.sub_fin, float.sub_fin, hx, hy, hz]
    rfl
  obtain ⟨c1, c2, c3⟩ := cross_combination tri a b c hsum
  unfold fp.intersection_point_triangle
  simp only [triangle.to_fp, sub_exact_vec _ _ h1, sub_exact_vec _ _ h2, sub_exact_vec _ _ h3]
  rw [float.not_lt_zero (dot_cross_sign _ _ _ _ tri.normal c a hc ha c1 c2),
    float.not_lt_zero (dot_cross_sign _ _ _ _ tri.normal c b hc hb c1 c3)]
  rfl

/-- Witness for C23: the triangle (0,0,0), (1,0,0), (0,1,0) and the midpoint (1/2, 0, 0) of
its first edge, where the first cross product is zero. -/
theorem intersection_point_triangle_accepts_witness :
    corner_triangle.combination (1 / 2) (1 / 2) 0 = ⟨1 / 2, 0, 0⟩ ∧
    fp.intersection_point_triangle (corner_triangle.combination (1 / 2) (1 / 2) 0).to_fp
      corner_triangle.to_fp = true :=
  ⟨by decide!, intersection_point_triangle_accepts corner_triangle (1 / 2) (1 / 2) 0
    (by norm_num) (by norm_num) (by norm_num) (by norm_num)
    (by intro i hi; interval_cases i <;> (unfold representable; decide!))
    (by intro i hi; interval_cases i <;> (unfold representable; decide!))
    (by intro i hi; interval_cases i <;> (unfold representable; decide!))⟩

/-! ## Plane against box -/

namespace ideal

end ideal

/-! ## Plane against box -/

namespace octree_node

theorem physics_object_eta (x : physics_object) :
    physics_object.mk x.octree_node x.octree_next_object x.octree_prev_object = x := by
  cases x
  rfl

/-- The memory after `remove`: the removed object has null links, its successor takes over
its `prev` link, its predecessor takes over its `next` link, nothing else is written. -/
theorem remove_heap (n : octree_node) (heap : Nat → physics_object) (o : Nat) :
    (n.remove heap o).2 o = physics_object.mk none none none ∧
    ∀ z, z ≠ o → (n.remove heap o).2 z =
      physics_object.mk (heap z).octree_node
        (if (heap o).octree_prev_object = some z then (heap o).octree_next_object
          else (heap z).octree_next_object)
        (if (heap o).octree_next_object = some z then (heap o).octree_prev_object
          else (heap z).octree_prev_object) := by
  constructor
  · unfold remove
    simp
  · intro z hz
    unfold remove
    simp only [Function.update_idem, Function.update_noteq hz]
    generalize hh1 : (match (heap o).octree_next_object with
      | some nx => Function.update heap nx
          { heap nx with octree_prev_object := (heap o).octree_prev_object }
      | none => heap) = heap1
    have key1 : ∀ y, heap1 y = physics_object.mk (heap y).octree_node (heap y).octree_next_object
        (if (heap o).octree_next_object = some y then (heap o).octree_prev_object
          else (heap y).octree_prev_object) := by
      intro y
      rw [← hh1]
      cases (heap o).octree_next_object with
      | none => simp [physics_object_eta]
      | some a =>
        simp only []
        by_cases hya : y = a
        · subst hya
          simp
        · have : ¬ a = y := fun h => hya h.symm
          simp [Function.update_noteq hya, this, physics_object_eta]
    have hp : (heap1 o).octree_prev_object = (heap o).octree_prev_object := by
      rw [key1]
      simp
    have hn : (heap1 o).octree_next_object = (heap o).octree_next_object := by
      rw [key1]
    rw [hp, hn]
    generalize (heap o).octree_prev_object = pv at key1 ⊢
    cases pv with
    | none =>
      simp only []
      rw [key1]
      simp
    | some b =>
      simp only []
      by_cases hzb : z = b
      · subst hzb
        simp [key1]
      · have : ¬ b = z := fun h => hzb h.symm
        rw [Function.update_noteq hzb, key1]
        simp [this]

theorem linked_frame (heap heap2 : Nat → physics_object) :
    ∀ (L : List Nat) (p c : Option Nat), linked heap p c L → (∀ z, z ∈ L → heap2 z = heap z) →
      linked heap2 p c L := by
  intro L
  induction L with
  | nil =>
    intro p c h _
    exact h
  | cons x xs ih =>
    intro p c h hz
    obtain ⟨h1, h2, h3⟩ := h
    have hx := hz x (List.mem_cons_self _ _)
    refine ⟨h1, by rw [hx]; exact h2, ?_⟩
    rw [hx]
    exact ih _ _ h3 (fun z hzm => hz z (List.mem_cons_of_mem _ hzm))

/-- In a chain of distinct objects the `next` link of a member points to another member. -/
theorem linked_next_mem (heap : Nat → physics_object) (o : Nat) :
    ∀ (L : List Nat) (p c : Option Nat), linked heap p c L → L.Nodup → o ∈ L →
      ∀ y, (heap o).octree_next_object = some y → y ∈ L ∧ y ≠ o := by
  intro L
  induction L with
  | nil =>
    intro p c _ _ ho
    exact absurd ho (List.not_mem_nil _)
  | cons x xs ih =>
    intro p c h hnd ho y hy
    obtain ⟨h1, h2, h3⟩ := h
    have hx : x ∉ xs := (List.nodup_cons.mp hnd).1
    by_cases hox : o = x
    · subst hox
      rw [hy] at h3
      cases xs with
      | nil => exact absurd h3 (by simp [linked])
      | cons w ws =>
        have hw : y = w := Option.some.inj h3.1
        subst hw
        refine ⟨List.mem_cons_of_mem _ (List.mem_cons_self _ _), ?_⟩
        intro e
        apply hx
        rw [← e]
        exact List.mem_cons_self _ _
    · have hoxs : o ∈ xs := by
        rcases List.mem_cons.mp ho with h | h
        · exact absurd h hox
        · exact h
      obtain ⟨m1, m2⟩ := ih _ _ h3 (List.nodup_cons.mp hnd).2 hoxs y hy
      exact ⟨List.mem_cons_of_mem _ m1, m2⟩

/-- In a chain of distinct objects a member is the head, with the `prev` link of the chain,
or its `prev` link points to another member. -/
theorem linked_prev_cases (heap : Nat → physics_object) (o : Nat) :
    ∀ (L : List Nat) (p c : Option Nat), linked heap p c L → L.Nodup → o ∈ L →
      (c = some o ∧ (heap o).octree_prev_object = p) ∨
      ∃ y, y ∈ L ∧ y ≠ o ∧ (heap o).octree_prev_object = some y := by
  intro L
  induction L with
  | nil =>
    intro p c _ _ ho
    exact absurd ho (List.not_mem_nil _)
  | cons x xs ih =>
    intro p c h hnd ho
    obtain ⟨h1, h2, h3⟩ := h
    have hx : x ∉ xs := (List.nodup_cons.mp hnd).1
    by_cases hox : o = x
    · subst hox
      exact Or.inl ⟨h1, h2⟩
    · have hoxs : o ∈ xs := by
        rcases List.mem_cons.mp ho with h | h
        · exact absurd h hox
        · exact h
      right
      rcases ih _ _ h3 (List.nodup_cons.mp hnd).2 hoxs with ⟨_, e⟩ | ⟨y, hy1, hy2, hy3⟩
      · exact ⟨x, List.mem_cons_self _ _, fun e2 => hox e2.symm, e⟩
      · exact ⟨y, List.mem_cons_of_mem _ hy1, hy2, hy3⟩

/-- After `remove(o)` the chain of `L` is the chain of `L` without `o`. -/
theorem remove_linked (n : octree_node) (heap : Nat → physics_object) (o : Nat) :
    ∀ (L : List Nat) (p c : Option Nat), linked heap p c L → L.Nodup → o ∈ L →
      (∀ q, p = some q → q ∉ L) →
      linked (n.remove heap o).2 p
        (if c = some o then (heap o).octree_next_object else c) (L.erase o) := by
  obtain ⟨_, hform⟩ := remove_heap n heap o
  intro L
  induction L with
  | nil =>
    intro p c _ _ ho
    exact absurd ho (List.not_mem_nil _)
  | cons x xs ih =>
    intro p c h hnd ho hp
    have hx : x ∉ xs := (List.nodup_cons.mp hnd).1
    have hndxs := (List.nodup_cons.mp hnd).2
    have hall := h
    obtain ⟨h1, h2, h3⟩ := h
    by_cases hox : x = o
    · subst hox
      rw [List.erase_cons_head, if_pos h1]
      cases xs with
      | nil =>
        exact h3
      | cons y ys =>
        obtain ⟨k1, k2, k3⟩ := h3
        have hyx : y ≠ x := by
          intro e
          apply hx
          rw [← e]
          exact List.mem_cons_self _ _
        have hpy : p ≠ some y := by
          intro e
          exact hp y e (List.mem_cons_of_mem _ (List.mem_cons_self _ _))
        refine ⟨k1, ?_, ?_⟩
        · rw [hform y hyx]
          simp only []
          rw [if_pos k1, h2]
        · rw [hform y hyx]
          simp only []
          rw [h2, if_neg hpy]
          apply linked_frame heap _ ys _ _ k3
          intro z hz
          have hzx : z ≠ x := by
            intro e
            apply hx
            rw [← e]
            exact List.mem_cons_of_mem _ hz
          have hzy : y ≠ z := by
            intro e
            have := (List.nodup_cons.mp hndxs).1
            apply this
            rw [e]
            exact hz
          rw [hform z hzx, h2, k1]
          have hpz : p ≠ some z := by
            intro e
            exact hp z e (List.mem_cons_of_mem _ (List.mem_cons_of_mem _ hz))
          rw [if_neg hpz, if_neg (fun e => hzy (Option.some.inj e))]
    · have hoxs : o ∈ xs := by
        rcases List.mem_cons.mp ho with h | h
        · exact absurd h.symm hox
        · exact h
      have hco : c ≠ some o := by
        rw [h1]
        intro e
        exact hox (Option.some.inj e)
      rw [List.erase_cons_tail (by simp [hox]), if_neg hco]
      have hnx : (heap o).octree_next_object ≠ some x := by
        intro e
        exact hx (linked_next_mem heap o xs _ _ h3 hndxs hoxs x e).1
      refine ⟨h1, ?_, ?_⟩
      · rw [hform x hox]
        simp only []
        rw [if_neg hnx]
        exact h2
      · have hiff : (heap o).octree_prev_object = some x ↔
            (heap x).octree_next_object = some o := by
          constructor
          · intro e
            rcases linked_prev_cases heap o xs _ _ h3 hndxs hoxs with ⟨c1, _⟩ | ⟨y, hy1, _, hy3⟩
            · exact c1
            · rw [e] at hy3
              have := Option.some.inj hy3
              rw [← this] at hy1
              exact absurd hy1 hx
          · intro e
            rw [e] at h3
            cases xs with
            | nil => exact absurd hoxs (List.not_mem_nil _)
            | cons w ws =>
              have hw : o = w := Option.some.inj h3.1
              rw [hw]
              exact h3.2.1
        have := ih (some x) (heap x).octree_next_object h3 hndxs hoxs (by
          intro q hq
          rw [← Option.some.inj hq]
          exact hx)
        rw [hform x hox]
        simp only []
        by_cases hc : (heap o).octree_prev_object = some x
        · rw [if_pos hc]
          rw [if_pos (hiff.mp hc)] at this
          exact this
        · rw [if_neg hc]
          rw [if_neg (fun e => hc (hiff.mpr e))] at this
          exact this

/-- After `push_front(x)` for an object outside the list, the chain is `x` followed by `L`. -/
theorem push_front_linked (n : octree_node) (heap : Nat → physics_object) (x : Nat)
    (L : List Nat) (h : linked heap none n.first L) (hnd : L.Nodup) (hx : x ∉ L) :
    linked (n.push_front heap x).2 none (n.push_front heap x).1.first (x :: L) := by
  unfold push_front
  simp only [Function.update_idem]
  cases L with
  | nil =>
    have hf : n.first = none := h
    rw [hf]
    simp [linked]
  | cons f fs =>
    obtain ⟨h1, h2, h3⟩ := h
    rw [h1]
    simp only []
    have hfx : f ≠ x := by
      intro e
      apply hx
      rw [← e]
      exact List.mem_cons_self _ _
    have hxf : x ≠ f := fun e => hfx e.symm
    simp only [linked, Function.update_same, Function.update_noteq hxf, Function.update_noteq hfx,
      true_and]
    apply linked_frame heap _ fs _ _ h3
    intro z hz
    have hzf : z ≠ f := by
      intro e
      apply (List.nodup_cons.mp hnd).1
      rw [← e]
      exact hz
    have hzx : z ≠ x := by
      intro e
      apply hx
      rw [← e]
      exact List.mem_cons_of_mem _ hz
    rw [Function.update_noteq hzf, Function.update_noteq hzx]

end octree_node

namespace octree_node

/-- C28: for every node whose occupant list is a well-formed doubly linked list of distinct
objects `L`, and every object `o` of `L`, `remove(o)` leaves the list `L` without `o`, the
others in their order and the list well-formed again, sets the `next`, `prev` and node
links of `o` to null, and writes no object that is neither `o` nor the one before or after
it; and `push_front(x)` for an object `x` outside `L` makes the list `x` followed by `L`. -/
theorem occupant_list_operations (n : octree_node) (heap : Nat → physics_object) (L : List Nat)
    (h : n.occupants heap L) :
    (∀ o, o ∈ L →
      (n.remove heap o).1.occupants (n.remove heap o).2 (L.erase o) ∧
      (n.remove heap o).2 o = physics_object.mk none none none ∧
      ∀ z, z ≠ o → (heap o).octree_next_object ≠ some z →
        (heap o).octree_prev_object ≠ some z → (n.remove heap o).2 z = heap z) ∧
    (∀ x, x ∉ L → (n.push_front heap x).1.occupants (n.push_front heap x).2 (x :: L)) := by
  obtain ⟨hnd, hl⟩ := h
  constructor
  · intro o ho
    obtain ⟨hclear, hform⟩ := remove_heap n heap o
    refine ⟨⟨hnd.erase o, ?_⟩, hclear, ?_⟩
    · have := remove_linked n heap o L none n.first hl hnd ho
        (fun q hq => Option.noConfusion hq)
      have hfirst : (n.remove heap o).1.first =
          if n.first = some o then (heap o).octree_next_object else n.first := by
        unfold remove
        simp only []
        by_cases hf : some o = n.first
        · rw [if_pos hf, if_pos hf.symm]
        · rw [if_neg hf, if_neg (fun e => hf e.symm)]
      rw [hfirst]
      exact this
    · intro z hz h1 h2
      rw [hform z hz, if_neg h2, if_neg h1]
  · intro x hx
    exact ⟨List.nodup_cons.mpr ⟨hx, hnd⟩, push_front_linked n heap x L hl hnd hx⟩

/-- Witness for C28: the node with the list 10, 20, 30. -/
theorem occupant_list_operations_witness :
    occupants list_head three_objects [10, 20, 30] ∧
    (∀ o, o ∈ [10, 20, 30] →
      (remove list_head three_objects o).1.occupants (remove list_head three_objects o).2
        (List.erase [10, 20, 30] o) ∧
      (remove list_head three_objects o).2 o = physics_object.mk none none none ∧
      ∀ z, z ≠ o → (three_objects o).octree_next_object ≠ some z →
        (three_objects o).octree_prev_object ≠ some z →
        (remove list_head three_objects o).2 z = three_objects z) ∧
    (∀ x, x ∉ [10, 20, 30] →
      (push_front list_head three_objects x).1.occupants (push_front list_head three_objects x).2
        (x :: [10, 20, 30])) :=
  have h : occupants list_head three_objects [10, 20, 30] :=
    ⟨by decide, by simp [linked, three_objects, list_head]⟩
  ⟨h, occupant_list_operations list_head three_objects [10, 20, 30] h⟩

end octree_node

/-! ## Closest points of two segments -/

theorem vec3_eq_self (v : vec3) : fp.vec3.eq v.to_fp v.to_fp = true := by
  simp [fp.vec3.eq, vec3.to_fp, float.eq]

/-- C24 (code bug): for twice the same segment the first early return of
`closest_segment_segment` gives the segment from its second endpoint back to its first
endpoint. For the segment from the origin to (1, 0, 0) that result joins (1, 0, 0) to the
origin and has squared length 1, although the two segments share all their points, the
origin among them: the smallest segment joining them has length 0. The general branch
fails as well: for the segments from the origin to (10000, 0, 0) and from (0, 1, 0) to
(10000, 0, 0), which end in the same point, the denominator cancels in `float`, the
function starts from the origin and returns a segment of squared length at least 1. -/
theorem closest_segment_segment_same_segment (seg : segment) :
    fp.closest_segment_segment seg.to_fp seg.to_fp =
      { mPos1 := seg.mPos2.to_fp, mPos2 := seg.mPos1.to_fp } ∧
    fp.closest_segment_segment unit_segment.to_fp unit_segment.to_fp =
      { mPos1 := vec3.to_fp ⟨1, 0, 0⟩, mPos2 := vec3.to_fp ⟨0, 0, 0⟩ } ∧
    fp.length2 ((fp.closest_segment_segment unit_segment.to_fp unit_segment.to_fp).mPos1 -
      (fp.closest_segment_segment unit_segment.to_fp unit_segment.to_fp).mPos2) = float.fin 1 ∧
    length2 (unit_segment.point 0 - unit_segment.point 0) = 0 ∧
    (fp.closest_segment_segment long_segment.to_fp slanted_segment.to_fp).mPos1 =
      vec3.to_fp ⟨0, 0, 0⟩ ∧
    float.le (float.fin 1) (fp.length2
      ((fp.closest_segment_segment long_segment.to_fp slanted_segment.to_fp).mPos1 -
        (fp.closest_segment_segment long_segment.to_fp slanted_segment.to_fp).mPos2)) = true ∧
    long_segment.point 1 = slanted_segment.point 1 := by
  have h : fp.closest_segment_segment seg.to_fp seg.to_fp =
      { mPos1 := seg.mPos2.to_fp, mPos2 := seg.mPos1.to_fp } := by
    unfold fp.closest_segment_segment
    simp only [segment.to_fp, vec3_eq_self, Bool.and_self, Bool.true_or, if_true]
  refine ⟨h, by decide!, by decide!, by decide!, by decide!, by decide!, by decide!⟩

end cs350
